import Mathlib

/-! xine-lib `src/xine-engine/buffer.c`: buffer pool and fifo.

A shallow embedding of the free-run allocator and of the ordered fifo of
`buffer.c`.  All `buf_element_t` / `be_ei_t` records live in one heap that is
addressed by an integer: the unit is `sizeof (be_ei_t)` and address `0` is the
first record of the pool array, so the pool records of a fifo with
`buffer_pool_capacity = c` are the addresses `0 .. c-1`, and C pointer
arithmetic (`buf + n`, `newtail[-1]`, `nexthead >= newtail`) is integer
arithmetic.  A nullable pointer is an `Option Int`.  Each record field is
one function from addresses.

Calls that can block, abort or run a loop have an `Outcome`.  A blocking call
(`pthread_cond_wait`) is modelled by the outcome `wait`: the call completes only
from a state in which its wait predicate is already false.  Loops that walk a
linked list take a fuel argument.  The signalling of condition variables and
the waiter counters (`buffer_pool_num_waiters`, `buffer_pool_large_wait`,
`fifo_num_waiters`) are only touched on the waiting path and are left out.

Assumptions of the model.  A record outside the pool array (a custom element a client brings
along) lies at an address below `0` or above `buffer_pool_capacity`, its `nbufs` field reads `0`
and its `free_buffer` is not `buffer_pool_free`.  Callbacks are external code: their calls are
recorded in `log` and do not change the fifo.  The fields of type `int` hold integers (a pool
of `buffer_pool_capacity` slabs of `buffer_pool_buf_size` bytes is taken to fit an `int`).
Where the code computes on a value a caller chooses, the arithmetic of the machine type is
modelled: the cast `(int)size`, the sum `(int)size + buf_size - 1` (reduced to 32 bits, as the
compiled code does), the division by the slab size (a division by zero is the outcome
`fault`), the sum `pts + overlap` (reduced to 64 bits) and the `uint32_t` counters. -/

namespace Xine

/-! ## Data model -/

/-- Constants of `xine/buffer.h`, a header that is not part of the sources at hand;
the functions below take them as a parameter. -/
structure BufferH where
  BUF_MAJOR_MASK : Nat
  BUF_CONTROL_BASE : Nat
  BUF_VIDEO_BASE : Nat
  BUF_AUDIO_BASE : Nat
  BUF_SPU_BASE : Nat
  BUF_FLAG_MERGE : Nat
  BUF_MAX_CALLBACKS : Nat

/-- An instance of these constants, after `xine/buffer.h` of xine-lib 1.2, for the concrete
scenarios. -/
def xineH : BufferH where
  BUF_MAJOR_MASK := 0xFF000000
  BUF_CONTROL_BASE := 0x01000000
  BUF_VIDEO_BASE := 0x02000000
  BUF_AUDIO_BASE := 0x03000000
  BUF_SPU_BASE := 0x04000000
  BUF_FLAG_MERGE := 0x20000
  BUF_MAX_CALLBACKS := 5

/-- The constant `#define LARGE_NUM 0x7fffffff`. -/
def LARGE_NUM : Int := 0x7fffffff

/-- A `buf_element_t **`: the address of `fifo->b.first`, of
`fifo->b.buffer_pool_top`, or of the `next` field of the record at `b`. -/
inductive Link where
  | first
  | pool_top
  | next (b : Int)
  deriving DecidableEq, Repr

/-- One invocation of a registered callback. -/
inductive HookCall where
  | alloc (cb : Nat) (data : Int)
  | put (cb : Nat) (buf : Int) (data : Int)
  | get (cb : Nat) (buf : Int) (data : Int)
  deriving DecidableEq, Repr

/-- The function `fbc_dummy`, as a callback identity. -/
def fbc_dummy : Nat := 0

/-- The state of one `_fifo_buffer_t` together with the records it can reach.
The first group of fields are the fields of `be_ei_t` (`elem.*` and `nbufs`),
by record address; `pool_owned b` stands for
`b->free_buffer == buffer_pool_free`. -/
structure Fifo where
  next : Int → Option Int
  nbufs : Int → Int
  type : Int → Nat
  pts : Int → Int
  size : Int → Int
  max_size : Int → Int
  decoder_flags : Int → Nat
  content : Int → Int
  decoder_info : Int → Nat → Int
  decoder_info_ptr : Int → Nat → Int
  extra_info_reset : Int → Bool
  pool_owned : Int → Bool
  first : Option Int
  last : Option Int
  fifo_size : Int
  fifo_data_size : Int
  last_add0 : Link
  last_add1 : Link
  native : Bool
  buffer_pool_top : Option Int
  buffer_pool_num_free : Int
  buffer_pool_capacity : Int
  buffer_pool_buf_size : Int
  alloc_cb : Nat → Option Nat
  alloc_cb_data : Nat → Int
  put_cb : Nat → Option Nat
  put_cb_data : Nat → Int
  get_cb : Nat → Option Nat
  get_cb_data : Nat → Int
  log : List HookCall

/-- How a call ends. -/
inductive Outcome (α : Type) where
  | done (a : α)
  | wait
  | abort
  | fault
  | timeout
  deriving DecidableEq

/-- Array or field update. -/
def upd {β : Type} (g : Int → β) (a : Int) (v : β) : Int → β :=
  fun x => if x = a then v else g x

/-- The pointer stored in a link: `*link`. -/
def Fifo.load (f : Fifo) : Link → Option Int
  | .first => f.first
  | .pool_top => f.buffer_pool_top
  | .next b => f.next b

/-- The assignment `*link = v`. -/
def Fifo.store (f : Fifo) (l : Link) (v : Option Int) : Fifo :=
  match l with
  | .first => { f with first := v }
  | .pool_top => { f with buffer_pool_top := v }
  | .next b => { f with next := upd f.next b v }

/-- The cursor `fifo->last_add[t]`. -/
def Fifo.last_add (f : Fifo) (t : Nat) : Link :=
  if t = 0 then f.last_add0 else f.last_add1

/-- The assignment `fifo->last_add[t] = l`. -/
def Fifo.set_last_add (f : Fifo) (t : Nat) (l : Link) : Fifo :=
  if t = 0 then { f with last_add0 := l } else { f with last_add1 := l }

/-- The table `_fifo_buf_type_index`, indexed by the major type byte. -/
def _fifo_buf_type_index (K : BufferH) (b : Nat) : Nat :=
  if b = K.BUF_SPU_BASE >>> 24 then 2
  else if b = K.BUF_VIDEO_BASE >>> 24 then 1
  else if b = K.BUF_AUDIO_BASE >>> 24 then 1
  else 0

/-- The test `_fifo_is_native`. -/
def _fifo_is_native (f : Fifo) : Bool := f.native

/-- The link `fifo->b.last ? &fifo->b.last->next : &fifo->b.first`. -/
def last_link (f : Fifo) : Link :=
  match f.last with
  | some b => Link.next b
  | none => Link.first

/-- The function `_fifo_mux_last`. -/
def _fifo_mux_last (f : Fifo) : Fifo :=
  { f with
    last_add0 := if _fifo_is_native f then last_link f else f.last_add0
    last_add1 := if _fifo_is_native f then last_link f else f.last_add1 }

/-! ## Flow control -/

/-- The function `_fbc_avail`. -/
def _fbc_avail (f : Fifo) : Int :=
  if f.alloc_cb 0 ≠ some fbc_dummy then f.buffer_pool_num_free
  else f.buffer_pool_num_free - f.alloc_cb_data 0

/-- The value `n = (capacity * 3) >> 2; if (n < 75) n = 0;` of `xine_fbc_set` and `_fbc_reset`. -/
def fbc_initial (f : Fifo) : Int :=
  let n := (f.buffer_pool_capacity * 3) >>> 2
  if n < 75 then 0 else n

/-- The function `_fbc_reset`. -/
def _fbc_reset (f : Fifo) : Fifo :=
  { f with alloc_cb_data := fun i =>
      if f.alloc_cb 0 = some fbc_dummy ∧ i = 0 then fbc_initial f else f.alloc_cb_data i }

/-- The function `_fbc_sub`. -/
def _fbc_sub (f : Fifo) (n : Int) : Fifo :=
  { f with alloc_cb_data := fun i =>
      if f.alloc_cb 0 = some fbc_dummy ∧ i = 0 then
        (if f.alloc_cb_data 0 - n < 0 then 0 else f.alloc_cb_data 0 - n)
      else f.alloc_cb_data i }

/-- The function `xine_fbc_set`, for a non-null fifo; returns the state and the result. -/
def xine_fbc_set (f : Fifo) (on_ : Bool) : Fifo × Int :=
  if on_ then
    match f.alloc_cb 0 with
    | some cb => (f, if cb = fbc_dummy then 1 else 0)
    | none =>
      ({ f with alloc_cb := fun i => if i = 0 then some fbc_dummy else f.alloc_cb i,
                alloc_cb_data := fun i => if i = 0 then fbc_initial f else f.alloc_cb_data i }, 1)
  else if f.alloc_cb 0 = some fbc_dummy then
    ({ f with alloc_cb := fun i => if i = 0 then none else f.alloc_cb i,
              alloc_cb_data := fun i => if i = 0 then 0 else f.alloc_cb_data i }, 0)
  else (f, 0)

/-- The calls made by `for (i = 0; fifo->b.alloc_cb[i]; i++) alloc_cb[i] (fifo, data[i])`,
from index `i` on; the array has `BUF_MAX_CALLBACKS` entries. -/
def alloc_hook_calls (f : Fifo) : Nat → Nat → List HookCall
  | 0, _ => []
  | fuel + 1, i =>
    match f.alloc_cb i with
    | none => []
    | some cb => HookCall.alloc cb (f.alloc_cb_data i) :: alloc_hook_calls f fuel (i + 1)

/-- Run the alloc callbacks: they are external accounting functions (or `fbc_dummy`,
which does nothing), so only the calls are recorded. -/
def run_alloc_cb (K : BufferH) (f : Fifo) : Fifo :=
  { f with log := f.log ++ alloc_hook_calls f K.BUF_MAX_CALLBACKS 0 }

/-! ## Buffer pool -/

/-- The loop `while (--n > 0) { newtail[-1].elem.next = &newtail[0].elem; newtail++; }`
of `buffer_pool_free`, run for `k` iterations; returns the `next` fields and `newtail`. -/
def free_relink (next : Int → Option Int) : Nat → Int → (Int → Option Int) × Int
  | 0, newtail => (next, newtail)
  | k + 1, newtail => free_relink (upd next (newtail - 1) (some newtail)) k (newtail + 1)

/-- The loop `while (1) { prevhead = nexthead; prevtail = prevhead + prevhead->nbufs;
nexthead = prevtail[-1].elem.next; if (!nexthead || (nexthead >= newtail)) break; }`
of `buffer_pool_free`; returns `(prevhead, prevtail, nexthead)`. -/
def free_find (next : Int → Option Int) (nbufs : Int → Int) (newtail : Int) :
    Nat → Int → Option (Int × Int × Option Int)
  | 0, _ => none
  | fuel + 1, nexthead =>
    let prevhead := nexthead
    let prevtail := prevhead + nbufs prevhead
    match next (prevtail - 1) with
    | none => some (prevhead, prevtail, none)
    | some nh =>
      if nh ≥ newtail then some (prevhead, prevtail, some nh)
      else free_find next nbufs newtail fuel nh

/-- The statement `if (newtail == nexthead) newhead->nbufs += nexthead->nbufs;`. -/
def free_merge_next (nbufs : Int → Int) (newhead newtail : Int) (nexthead : Option Int) : Int → Int :=
  match nexthead with
  | some nh => if newtail = nh then upd nbufs newhead (nbufs newhead + nbufs nh) else nbufs
  | none => nbufs

/-- The branch "add head" of `buffer_pool_free`. -/
def free_add_head (f : Fifo) (next1 : Int → Option Int) (newhead newtail : Int)
    (nexthead : Option Int) : Fifo :=
  { f with
    buffer_pool_top := some newhead
    next := upd next1 (newtail - 1) nexthead
    nbufs := free_merge_next f.nbufs newhead newtail nexthead }

/-- The statement `if (prevtail == newhead) prevhead->nbufs += newhead->nbufs;`. -/
def free_merge_prev (nbufs : Int → Int) (newhead prevhead prevtail : Int) : Int → Int :=
  if prevtail = newhead then upd nbufs prevhead (nbufs prevhead + nbufs newhead) else nbufs

/-- The statements of `buffer_pool_free` that follow its search loop. -/
def free_insert (f : Fifo) (next1 : Int → Option Int) (newhead newtail prevhead prevtail : Int)
    (nexthead : Option Int) : Fifo :=
  { f with
    next := upd (upd next1 (prevtail - 1) (some newhead)) (newtail - 1) nexthead
    nbufs := free_merge_prev (free_merge_next f.nbufs newhead newtail nexthead)
      newhead prevhead prevtail }

/-- The first statements of `buffer_pool_free`: `_fbc_sub (fifo, n)` and
`fifo->b.buffer_pool_num_free += n`. -/
def free_count (f : Fifo) (n : Int) : Fifo :=
  { _fbc_sub f n with buffer_pool_num_free := f.buffer_pool_num_free + n }

/-- The function `buffer_pool_free`: put a previously allocated element back into the pool. -/
def buffer_pool_free (fuel : Nat) (f : Fifo) (element : Int) : Outcome Fifo :=
  let newhead := element
  let n := f.nbufs newhead
  let f := free_count f n
  if f.buffer_pool_num_free > f.buffer_pool_capacity then .abort
  else
    let r := free_relink f.next (n - 1).toNat (newhead + 1)
    match f.buffer_pool_top with
    | none => .done (free_add_head f r.1 newhead r.2 none)
    | some nexthead =>
      if nexthead ≥ r.2 then .done (free_add_head f r.1 newhead r.2 (some nexthead))
      else
        match free_find r.1 f.nbufs r.2 fuel nexthead with
        | none => .timeout
        | some (prevhead, prevtail, nexthead) =>
          .done (free_insert f r.1 newhead r.2 prevhead prevtail nexthead)

/-- The block "set sane values to the newly allocated buffer" shared by the allocators,
with `buf->nbufs = nbufs` where the allocator has it. -/
def reset_element (f : Fifo) (buf : Int) (max_size : Int) : Fifo :=
  { f with
    content := upd f.content buf (buf * f.buffer_pool_buf_size)
    pts := upd f.pts buf 0
    size := upd f.size buf 0
    max_size := upd f.max_size buf max_size
    decoder_flags := upd f.decoder_flags buf 0
    decoder_info := upd f.decoder_info buf (fun _ => 0)
    decoder_info_ptr := upd f.decoder_info_ptr buf (fun _ => 0)
    extra_info_reset := upd f.extra_info_reset buf true }

/-- The statements `fifo->b.buffer_pool_top = buf->elem.next; i = buf->nbufs - 1;
if (i > 0) buf[1].nbufs = i; fifo->b.buffer_pool_num_free--;` that take the first slab. -/
def take_head (f : Fifo) (buf : Int) : Fifo :=
  { f with
    buffer_pool_top := f.next buf
    nbufs := if f.nbufs buf - 1 > 0 then upd f.nbufs (buf + 1) (f.nbufs buf - 1) else f.nbufs
    buffer_pool_num_free := f.buffer_pool_num_free - 1 }

/-- The statement `buf->nbufs = n`. -/
def set_nbufs (f : Fifo) (buf n : Int) : Fifo :=
  { f with nbufs := upd f.nbufs buf n }

/-- The search loop of `_buffer_pool_size_alloc` for `n != 1`; the pool is not modified
before the loop is left, so the state is a parameter.  Returns the state, `buf` and `n`. -/
def size_alloc_search (f : Fifo) (n : Int) :
    Nat → Int → Link → Link → Int → Outcome (Fifo × Int × Int)
  | 0, _, _, _, _ => .timeout
  | fuel + 1, buf, link, bestlink, bestsize =>
    let l := f.nbufs buf
    if l > n then
      .done ((set_nbufs f (buf + n) (l - n)).store link (some (buf + n)), buf, n)
    else if l = n then
      .done (f.store link (f.next (buf + (l - 1))), buf, n)
    else
      let bestlink := if l > bestsize then link else bestlink
      let bestsize := if l > bestsize then l else bestsize
      let buf := buf + (l - 1)
      let link := Link.next buf
      match f.load link with
      | some b => size_alloc_search f n fuel b link bestlink bestsize
      | none =>
        match f.load bestlink with
        | none => .fault
        | some b => .done (f.store bestlink (f.next (b + (bestsize - 1))), b, bestsize)

/-- The statement `fifo->b.buffer_pool_num_free -= n`. -/
def sub_free (f : Fifo) (n : Int) : Fifo :=
  { f with buffer_pool_num_free := f.buffer_pool_num_free - n }

/-- The function `_buffer_pool_size_alloc`, entered with the pool mutex held. -/
def _buffer_pool_size_alloc (K : BufferH) (fuel : Nat) (f : Fifo) (n : Int) : Outcome (Fifo × Int) :=
  let f := run_alloc_cb K f
  let n := if n < 1 then 1 else n
  let n := n + 2
  if _fbc_avail f < n then .wait
  else
    let n := n - 2
    match f.buffer_pool_top with
    | none => .fault
    | some buf =>
      if n = 1 then
        let f := take_head f buf
        .done (set_nbufs (reset_element f buf (n * f.buffer_pool_buf_size)) buf n, buf)
      else
        match size_alloc_search f n fuel buf Link.pool_top Link.pool_top 0 with
        | .done (f, buf, n) =>
          let f := sub_free f n
          .done (set_nbufs (reset_element f buf (n * f.buffer_pool_buf_size)) buf n, buf)
        | .wait => .wait
        | .abort => .abort
        | .fault => .fault
        | .timeout => .timeout

/-- The cast `(int)size` of a `size_t`. -/
def int_of_size_t (size : Nat) : Int :=
  let r : Int := ((size % 4294967296 : Nat) : Int)
  if r < 2147483648 then r else r - 4294967296

/-- The result of `+` or `-` on operands of type `int`, reduced to 32 bits in two's
complement as the compiled code does. -/
def int_wrap (x : Int) : Int :=
  let r : Int := x % 4294967296
  if r < 2147483648 then r else r - 4294967296

/-- Whether the division `num / den` of two `int` traps: a division by zero, or the one
quotient that does not fit an `int`. -/
def int_div_traps (num den : Int) : Bool :=
  decide (den = 0 ∨ (num = -2147483648 ∧ den = -1))

/-- The dividend `(int)size + fifo->b.buffer_pool_buf_size - 1` of `buffer_pool_size_alloc`
and `buffer_pool_realloc`. -/
def size_dividend (f : Fifo) (size : Nat) : Int :=
  int_wrap (int_of_size_t size + f.buffer_pool_buf_size - 1)

/-- The quotient `((int)size + fifo->b.buffer_pool_buf_size - 1) /
fifo->b.buffer_pool_buf_size` of `buffer_pool_size_alloc` and `buffer_pool_realloc`, where the
division does not trap; the division of C truncates. -/
def size_slabs (f : Fifo) (size : Nat) : Int :=
  Int.tdiv (size_dividend f size) f.buffer_pool_buf_size

/-- The statements `if (_fifo_is_native (fifo)) { i = buf->nbufs - 1; if (i > 0)
buf[1].nbufs = i; buf->nbufs = 1; }` together with taking `buf` off the top and
`buffer_pool_num_free--`, as in `buffer_pool_alloc` and `buffer_pool_try_alloc`. -/
def take_head_native (f : Fifo) (buf : Int) : Fifo :=
  { f with
    buffer_pool_top := f.next buf
    nbufs :=
      if _fifo_is_native f then
        upd (if f.nbufs buf - 1 > 0 then upd f.nbufs (buf + 1) (f.nbufs buf - 1) else f.nbufs) buf 1
      else f.nbufs
    buffer_pool_num_free := f.buffer_pool_num_free - 1 }

/-- The function `buffer_pool_alloc`. -/
def buffer_pool_alloc (K : BufferH) (f : Fifo) : Outcome (Fifo × Int) :=
  let f := run_alloc_cb K f
  if _fbc_avail f < 2 then .wait
  else
    match f.buffer_pool_top with
    | none => .fault
    | some buf => .done (reset_element (take_head_native f buf) buf f.buffer_pool_buf_size, buf)

/-- The function `buffer_pool_size_alloc`, the entry point taking a byte size. -/
def buffer_pool_size_alloc (K : BufferH) (fuel : Nat) (f : Fifo) (size : Nat) : Outcome (Fifo × Int) :=
  if !_fifo_is_native f then buffer_pool_alloc K f
  else if size ≠ 0 ∧ int_div_traps (size_dividend f size) f.buffer_pool_buf_size = true then
    .fault
  else
    let n := if size ≠ 0 then size_slabs f size else 1
    let n := if n > f.buffer_pool_capacity >>> 2 then f.buffer_pool_capacity >>> 2 else n
    _buffer_pool_size_alloc K fuel f n

/-- The function `buffer_pool_try_alloc`. -/
def buffer_pool_try_alloc (f : Fifo) : Fifo × Option Int :=
  match f.buffer_pool_top with
  | none => (f, none)
  | some buf => (reset_element (take_head_native f buf) buf f.buffer_pool_buf_size, some buf)

/-- The search loop of `buffer_pool_realloc`; returns `last_buf` and `new_buf`. -/
def realloc_find (f : Fifo) (want_buf : Int) : Nat → Link → Option (Link × Option Int)
  | 0, _ => none
  | fuel + 1, last_buf =>
    match f.load last_buf with
    | none => some (last_buf, none)
    | some new_buf =>
      if new_buf = want_buf then some (last_buf, some new_buf)
      else if new_buf > want_buf then some (last_buf, none)
      else realloc_find f want_buf fuel (Link.next (new_buf + f.nbufs new_buf - 1))

/-- The statements of `buffer_pool_realloc` that take `n` slabs (or all, if it has no
more than `n`) from the run at `new_buf` and add them to `old_buf`. -/
def realloc_grow (f : Fifo) (old_buf : Int) (last_buf : Link) (new_buf n : Int) : Fifo :=
  let s := f.nbufs new_buf - n
  let n1 := if s > 0 then n else f.nbufs new_buf
  let f0 := { f with nbufs := if s > 0 then upd f.nbufs (new_buf + n) s else f.nbufs }
  let f1 := f0.store last_buf
    (if s > 0 then some (new_buf + n) else f.next (new_buf + f.nbufs new_buf - 1))
  { f1 with
    buffer_pool_num_free := f1.buffer_pool_num_free - n1
    nbufs := upd f1.nbufs old_buf (f1.nbufs old_buf + n1)
    max_size := upd f1.max_size old_buf ((f1.nbufs old_buf + n1) * f1.buffer_pool_buf_size) }

/-- A call that returns an element, as a call that returns a nullable pointer. -/
def Outcome.some_elem : Outcome (Fifo × Int) → Outcome (Fifo × Option Int)
  | .done (f, b) => .done (f, some b)
  | .wait => .wait
  | .abort => .abort
  | .fault => .fault
  | .timeout => .timeout

/-- The number of slabs `buffer_pool_realloc` still needs:
`n = ((int)new_size + buf_size - 1) / buf_size; if (n > (capacity >> 3)) n = capacity >> 3;
n -= old_buf->nbufs;`, where the division does not trap. -/
def realloc_need (f : Fifo) (old_buf : Int) (new_size : Nat) : Int :=
  let n := size_slabs f new_size
  let n := if n > f.buffer_pool_capacity >>> 3 then f.buffer_pool_capacity >>> 3 else n
  n - f.nbufs old_buf

/-- The statement "save emergecy buf" of `buffer_pool_realloc`:
`if (n > fifo->b.buffer_pool_num_free - 1) n = fifo->b.buffer_pool_num_free - 1;`. -/
def realloc_limit (f : Fifo) (n : Int) : Int :=
  if n > f.buffer_pool_num_free - 1 then f.buffer_pool_num_free - 1 else n

/-- The function `buffer_pool_realloc`, for a non-null `buf` whose `source` is this fifo.
The result is the pointer the function returns. -/
def buffer_pool_realloc (K : BufferH) (fuel : Nat) (f : Fifo) (buf : Int) (new_size : Nat) :
    Outcome (Fifo × Option Int) :=
  let old_buf := buf
  if int_of_size_t new_size ≤ f.max_size old_buf then .done (f, none)
  else if !f.pool_owned old_buf then .done (f, none)
  else if !_fifo_is_native f then (buffer_pool_alloc K f).some_elem
  else if int_div_traps (size_dividend f new_size) f.buffer_pool_buf_size then .fault
  else
    let n := realloc_need f old_buf new_size
    let want_buf := old_buf + f.nbufs old_buf
    match realloc_find f want_buf fuel Link.pool_top with
    | none => .timeout
    | some (_, none) => (_buffer_pool_size_alloc K fuel f n).some_elem
    | some (last_buf, some new_buf) =>
      let n := realloc_limit f n
      if n < 1 then (_buffer_pool_size_alloc K fuel f n).some_elem
      else .done (realloc_grow f old_buf last_buf new_buf n, none)

/-- The function `_x_fifo_buffer_new`: a fresh fifo with its pool; memory is zeroed. -/
def _x_fifo_buffer_new (num_buffers : Int) (buf_size : Nat) : Fifo :=
  let num_buffers := if num_buffers ≤ 0 then 1 else num_buffers
  let buf_size : Nat := ((buf_size + 31) % 4294967296) &&& 4294967264
  { next := fun b => if 0 ≤ b ∧ b < num_buffers - 1 then some (b + 1) else none
    nbufs := fun b => if b = 0 then num_buffers else 0
    type := fun _ => 0
    pts := fun _ => 0
    size := fun _ => 0
    max_size := fun b => if 0 ≤ b ∧ b < num_buffers then buf_size else 0
    decoder_flags := fun _ => 0
    content := fun _ => 0
    decoder_info := fun _ _ => 0
    decoder_info_ptr := fun _ _ => 0
    extra_info_reset := fun _ => false
    pool_owned := fun b => decide (0 ≤ b ∧ b < num_buffers)
    first := none
    last := none
    fifo_size := 0
    fifo_data_size := 0
    last_add0 := Link.first
    last_add1 := Link.first
    native := true
    buffer_pool_top := some 0
    buffer_pool_num_free := num_buffers
    buffer_pool_capacity := num_buffers
    buffer_pool_buf_size := buf_size
    alloc_cb := fun _ => none
    alloc_cb_data := fun _ => 0
    put_cb := fun _ => none
    put_cb_data := fun _ => 0
    get_cb := fun _ => none
    get_cb_data := fun _ => 0
    log := [] }

/-- The free-run list read off the heap: `(start, length)` of every run, walking
`buffer_pool_top` and the `next` field of each run's last record. -/
def free_runs_from (f : Fifo) : Nat → Option Int → List (Int × Int)
  | 0, _ => []
  | _, none => []
  | fuel + 1, some b => (b, f.nbufs b) :: free_runs_from f fuel (f.next (b + f.nbufs b - 1))

/-- The free-run list of the pool. -/
def free_runs (f : Fifo) : List (Int × Int) :=
  free_runs_from f f.buffer_pool_capacity.toNat f.buffer_pool_top

/-! ## Fifo -/

/-- The calls made by the loop over `put_cb` in `fifo_buffer_put`, from index `i` on. -/
def put_hook_calls (f : Fifo) (element : Int) : Nat → Nat → List HookCall
  | 0, _ => []
  | fuel + 1, i =>
    match f.put_cb i with
    | none => []
    | some cb => HookCall.put cb element (f.put_cb_data i) :: put_hook_calls f element fuel (i + 1)

/-- The calls made by the loop over `get_cb` in `fifo_buffer_get`, from index `i` on. -/
def get_hook_calls (f : Fifo) (buf : Int) : Nat → Nat → List HookCall
  | 0, _ => []
  | fuel + 1, i =>
    match f.get_cb i with
    | none => []
    | some cb => HookCall.get cb buf (f.get_cb_data i) :: get_hook_calls f buf fuel (i + 1)

/-- The test `element->decoder_flags & BUF_FLAG_MERGE`. -/
def has_merge_flag (K : BufferH) (f : Fifo) (element : Int) : Bool :=
  decide (f.decoder_flags element &&& K.BUF_FLAG_MERGE ≠ 0)

/-- The statement `new->elem.decoder_flags &= ~BUF_FLAG_MERGE`, made when the flag is set. -/
def clear_merge_flag (K : BufferH) (f : Fifo) (element : Int) : Fifo :=
  { f with decoder_flags :=
      if has_merge_flag K f element then
        upd f.decoder_flags element (f.decoder_flags element &&& (4294967295 ^^^ K.BUF_FLAG_MERGE))
      else f.decoder_flags }

/-- The tail element `prev` when `fifo_buffer_put` takes its merge branch:
`prev && (prev + prev->nbufs == new) && (prev->elem.type == new->elem.type)
&& (prev->nbufs < (fifo->b.buffer_pool_capacity >> 3))`. -/
def put_merge_prev (f : Fifo) (element : Int) : Option Int :=
  match f.last with
  | none => none
  | some prev =>
    if prev + f.nbufs prev = element ∧ f.type prev = f.type element
        ∧ f.nbufs prev < f.buffer_pool_capacity >>> 3 then some prev
    else none

/-- The merge branch of `fifo_buffer_put`: fold `element` into the tail `prev`. -/
def put_merge (f : Fifo) (prev element : Int) : Fifo :=
  { f with
    fifo_size := f.fifo_size + f.nbufs element
    fifo_data_size := (f.fifo_data_size + f.size element) % 4294967296
    nbufs := upd f.nbufs prev (f.nbufs prev + f.nbufs element)
    max_size := upd f.max_size prev (f.max_size prev + f.max_size element)
    size := upd f.size prev (f.size prev + f.size element)
    decoder_flags := upd f.decoder_flags prev (f.decoder_flags prev ||| f.decoder_flags element) }

/-- The loop `while ((b2 = *next)) { if (b2->pts > epts) break; next = &b2->next; }`
of `fifo_buffer_put`; returns the link `next`. -/
def put_scan (f : Fifo) (epts : Int) : Nat → Link → Option Link
  | 0, _ => none
  | fuel + 1, next =>
    match f.load next with
    | none => some next
    | some b2 => if f.pts b2 > epts then some next else put_scan f epts fuel (Link.next b2)

/-- The counter updates that end `fifo_buffer_put` and `fifo_buffer_insert`;
`fifo_data_size` is a `uint32_t`. -/
def fifo_count_add (f : Fifo) (element : Int) : Fifo :=
  { f with
    fifo_size := if f.pool_owned element then f.fifo_size + f.nbufs element else f.fifo_size + 1
    fifo_data_size := (f.fifo_data_size + f.size element) % 4294967296 }

/-- The array `overlap` of `fifo_buffer_put`. -/
def overlap (t : Nat) : Int := if t = 0 then 90000 else -90000

/-- The result of `+` on operands of type `int64_t`, reduced to 64 bits in two's complement
as the compiled code does. -/
def int64_wrap (x : Int) : Int :=
  let r : Int := x % 18446744073709551616
  if r < 9223372036854775808 then r else r - 18446744073709551616

/-- The statement `int64_t epts = element->pts + overlap[type];` of `fifo_buffer_put`. -/
def put_epts (f : Fifo) (element : Int) (type : Nat) : Int :=
  int64_wrap (f.pts element + overlap type)

/-- The calls of the put callbacks, recorded. -/
def run_put_cb (K : BufferH) (f : Fifo) (element : Int) : Fifo :=
  { f with log := f.log ++ put_hook_calls f element K.BUF_MAX_CALLBACKS 0 }

/-- The branch of `fifo_buffer_put` for a fifo that is not native ("very old behaviour"). -/
def put_foreign (f : Fifo) (element : Int) : Fifo :=
  { f with
    next := match f.first with
      | some first => upd (upd f.next element none) first (some element)
      | none => upd f.next element none
    first := match f.first with
      | some first => some first
      | none => some element
    last := some element }

/-- The branch of `fifo_buffer_put` for the fence group: append at the end. -/
def put_fence (f : Fifo) (element : Int) : Fifo :=
  let f1 := { f with next := upd f.next element none }
  let next := last_link f
  { f1.store next (some element) with
    last := some element
    last_add0 := Link.next element
    last_add1 := Link.next element }

/-- The statements of `fifo_buffer_put` that link `element` in at the link `next`:
`if (!(element->next = *next)) fifo->b.last = element; *next = element;
fifo->last_add[type] = &element->next;`. -/
def put_link (f : Fifo) (element : Int) (type : Nat) (next : Link) : Fifo :=
  let f1 := { f with
    next := upd f.next element (f.load next)
    last := if f.load next = none then some element else f.last }
  { f1.store next (some element) with
    last_add0 := if type = 0 then Link.next element else f.last_add0
    last_add1 := if type = 0 then f.last_add1 else Link.next element }

/-- The function `fifo_buffer_put`: append an element to the fifo. -/
def fifo_buffer_put (K : BufferH) (fuel : Nat) (f : Fifo) (element : Int) : Outcome Fifo :=
  let merge_flag := has_merge_flag K f element
  let f := clear_merge_flag K f element
  match (if merge_flag then put_merge_prev f element else none) with
  | some prev => .done (put_merge f prev element)
  | none =>
    let f := run_put_cb K f element
    let type := _fifo_buf_type_index K ((f.type element % 4294967296) >>> 24)
    if !_fifo_is_native f then .done (fifo_count_add (put_foreign f element) element)
    else if type = 0 then .done (fifo_count_add (put_fence f element) element)
    else
      let type := type - 1
      let next := f.last_add type
      let found : Option Link :=
        if f.pts element ≠ 0 then put_scan f (put_epts f element type) fuel next
        else some next
      match found with
      | none => .timeout
      | some next => .done (fifo_count_add (put_link f element type next) element)

/-- The function `fifo_buffer_insert`: prepend an element. -/
def fifo_buffer_insert (f : Fifo) (element : Int) : Fifo :=
  fifo_count_add
    { f with
      next := upd f.next element f.first
      first := some element
      last := if f.last = none then some element else f.last
      last_add0 :=
        if _fifo_is_native f ∧ f.last_add0 = Link.first then Link.next element else f.last_add0
      last_add1 :=
        if _fifo_is_native f ∧ f.last_add1 = Link.first then Link.next element else f.last_add1 }
    element

/-- The statements of `fifo_buffer_get` and `fifo_buffer_tget` that unlink the head `buf`
and update the counters. -/
def get_unlink (f : Fifo) (buf : Int) : Fifo :=
  { f with
    first := f.next buf
    last := if f.next buf = none then none else f.last
    next := upd f.next buf none
    last_add0 :=
      if _fifo_is_native f ∧ f.last_add0 = Link.next buf then Link.first else f.last_add0
    last_add1 :=
      if _fifo_is_native f ∧ f.last_add1 = Link.next buf then Link.first else f.last_add1
    fifo_size := if f.pool_owned buf then f.fifo_size - f.nbufs buf else f.fifo_size - 1
    fifo_data_size := (f.fifo_data_size - f.size buf) % 4294967296 }

/-- The calls of the get callbacks, recorded. -/
def run_get_cb (K : BufferH) (f : Fifo) (buf : Int) : Fifo :=
  { f with log := f.log ++ get_hook_calls f buf K.BUF_MAX_CALLBACKS 0 }

/-- The function `fifo_buffer_get`: remove and return the head element. -/
def fifo_buffer_get (K : BufferH) (f : Fifo) : Outcome (Fifo × Int) :=
  match f.first with
  | none => .wait
  | some buf => .done (run_get_cb K (get_unlink f buf) buf, buf)

/-- The test `(b->elem.type & BUF_MAJOR_MASK) == BUF_CONTROL_BASE`. -/
def is_control (K : BufferH) (f : Fifo) (b : Int) : Bool :=
  decide (f.type b &&& K.BUF_MAJOR_MASK = K.BUF_CONTROL_BASE)

/-- The inner loop "get contiguous chunk" of `fifo_buffer_clear`; returns `n` and `next`. -/
def clear_chunk (K : BufferH) (f : Fifo) : Nat → Int → Int → Option (Int × Option Int)
  | 0, _, _ => none
  | fuel + 1, buf, n =>
    let i := f.nbufs buf
    let next := f.next buf
    let n := n + i
    match next with
    | none => some (n, none)
    | some nx =>
      if buf + i ≠ nx then some (n, next)
      else if is_control K f nx then some (n, next)
      else clear_chunk K f fuel nx n

/-- The `next` fields after `if (!fifo->b.first) fifo->b.first = &start->elem; else
fifo->b.last->next = &start->elem;` in the branch "keep control bufs" of `fifo_buffer_clear`. -/
def clear_keep_link (f : Fifo) (start : Int) : Int → Option Int :=
  match f.first, f.last with
  | some _, some last => upd f.next last (some start)
  | _, _ => f.next

/-- The branch "keep control bufs" of `fifo_buffer_clear`, for a queue that has a tail
whenever it has a head. -/
def clear_keep (f : Fifo) (start : Int) : Fifo :=
  { f with
    first := if f.first = none then some start else f.first
    next := upd (clear_keep_link f start) start none
    last := some start
    fifo_size := f.fifo_size + 1
    fifo_data_size := (f.fifo_data_size + f.size start) % 4294967296 }

/-- The statement `start->elem.next = NULL`. -/
def clear_next (f : Fifo) (start : Int) : Fifo :=
  { f with next := upd f.next start none }

/-- The loop `while (start) { ... }` of `fifo_buffer_clear`.  `fuel0` bounds the inner
loops, `fuel` the number of iterations.  The release operation of a custom element is
external code. -/
def clear_loop (K : BufferH) (fuel0 : Nat) : Nat → Fifo → Option Int → Outcome Fifo
  | _, f, none => .done f
  | 0, _, some _ => .timeout
  | fuel + 1, f, some start =>
    if is_control K f start then
      if f.first ≠ none ∧ f.last = none then .fault
      else clear_loop K fuel0 fuel (clear_keep f start) (clear_keep_link f start start)
    else if !f.pool_owned start then
      clear_loop K fuel0 fuel (clear_next f start) (f.next start)
    else
      match clear_chunk K f fuel0 start 0 with
      | none => .timeout
      | some (n, next) =>
        match buffer_pool_free fuel0 (set_nbufs f start n) start with
        | .done f => clear_loop K fuel0 fuel f next
        | .wait => .wait
        | .abort => .abort
        | .fault => .fault
        | .timeout => .timeout

/-- The statements "take out all at once" of `fifo_buffer_clear`. -/
def clear_take (f : Fifo) : Fifo :=
  { f with first := none, last := none, fifo_size := 0, fifo_data_size := 0 }

/-- The function `fifo_buffer_clear`. -/
def fifo_buffer_clear (K : BufferH) (fuel : Nat) (f : Fifo) : Outcome Fifo :=
  match clear_loop K fuel fuel (clear_take f) f.first with
  | .done f => .done (_fifo_mux_last (_fbc_reset f))
  | .wait => .wait
  | .abort => .abort
  | .fault => .fault
  | .timeout => .timeout

/-- The fifo read off the heap, head first: the records reached from `first` through `next`. -/
def fifo_list_from (f : Fifo) : Nat → Option Int → List Int
  | 0, _ => []
  | _, none => []
  | fuel + 1, some b => b :: fifo_list_from f fuel (f.next b)

/-! ## Client view: ownership and reachable states -/

/-- The writes a client makes to an element it holds before it queues it. -/
def fill (f : Fifo) (b : Int) (type : Nat) (pts size : Int) (decoder_flags : Nat) : Fifo :=
  { f with
    type := upd f.type b type
    pts := upd f.pts b pts
    size := upd f.size b size
    decoder_flags := upd f.decoder_flags b decoder_flags }

/-- The chain of `next` pointers from `a` visits exactly the records `q` and ends in `b`. -/
def QSeg (next : Int → Option Int) : Option Int → List Int → Option Int → Prop
  | a, [], b => a = b
  | a, x :: xs, b => a = some x ∧ QSeg next (next x) xs b

/-- The fifo holds exactly the elements `q`, head first. -/
def Queue (f : Fifo) (q : List Int) : Prop := QSeg f.next f.first q none

/-- A fifo with its clients.  `held` lists the elements in the hands of clients (obtained from
an allocator or from `get`, not yet released or queued).  `stamp` and `clock` are ghost
state: `stamp b = some i` when `b` was queued by the `i`-th `put`, `none` when it was
queued by `insert`. -/
structure Sys where
  f : Fifo
  held : List Int
  stamp : Int → Option Nat
  clock : Nat

/-- A freshly created fifo, nothing handed out. -/
def Sys.init (num_buffers : Int) (buf_size : Nat) : Sys :=
  { f := _x_fifo_buffer_new num_buffers buf_size, held := [], stamp := fun _ => none, clock := 0 }

/-- One completed call of an operation of the fifo, by a client that respects ownership:
it releases, fills, queues and grows only elements it holds.  A custom element is a record
outside the pool array (and not directly behind it) that a client brings along. -/
inductive Step (K : BufferH) : Sys → Sys → Prop
  | alloc (s : Sys) (f' : Fifo) (b : Int) :
      buffer_pool_alloc K s.f = .done (f', b) →
      Step K s { s with f := f', held := b :: s.held }
  | size_alloc (s : Sys) (fuel : Nat) (n : Int) (f' : Fifo) (b : Int) :
      _buffer_pool_size_alloc K fuel s.f n = .done (f', b) →
      Step K s { s with f := f', held := b :: s.held }
  | try_alloc (s : Sys) :
      Step K s { s with f := (buffer_pool_try_alloc s.f).1,
                        held := (buffer_pool_try_alloc s.f).2.toList ++ s.held }
  | realloc (s : Sys) (fuel : Nat) (b : Int) (new_size : Nat) (f' : Fifo) (r : Option Int) :
      b ∈ s.held → buffer_pool_realloc K fuel s.f b new_size = .done (f', r) →
      Step K s { s with f := f', held := r.toList ++ s.held }
  | free (s : Sys) (fuel : Nat) (b : Int) (f' : Fifo) :
      b ∈ s.held → s.f.pool_owned b = true → buffer_pool_free fuel s.f b = .done f' →
      Step K s { s with f := f', held := s.held.erase b }
  | free_custom (s : Sys) (b : Int) :
      b ∈ s.held → s.f.pool_owned b = false →
      Step K s { s with held := s.held.erase b }
  | custom (s : Sys) (b : Int) :
      (b < 0 ∨ s.f.buffer_pool_capacity < b) → b ∉ s.held → (∀ q, Queue s.f q → b ∉ q) →
      Step K s { s with held := b :: s.held }
  | fill (s : Sys) (b : Int) (type : Nat) (pts size : Int) (decoder_flags : Nat) :
      b ∈ s.held →
      Step K s { s with f := fill s.f b type pts size decoder_flags }
  | put (s : Sys) (fuel : Nat) (b : Int) (f' : Fifo) :
      b ∈ s.held → fifo_buffer_put K fuel s.f b = .done f' →
      Step K s { f := f', held := s.held.erase b, stamp := upd s.stamp b (some s.clock),
                 clock := s.clock + 1 }
  | insert (s : Sys) (b : Int) :
      b ∈ s.held →
      Step K s { s with f := fifo_buffer_insert s.f b, held := s.held.erase b,
                        stamp := upd s.stamp b none }
  | get (s : Sys) (f' : Fifo) (b : Int) :
      fifo_buffer_get K s.f = .done (f', b) →
      Step K s { s with f := f', held := b :: s.held }
  | clear (s : Sys) (fuel : Nat) (f' : Fifo) :
      fifo_buffer_clear K fuel s.f = .done f' →
      Step K s { s with f := f' }
  | fbc_set (s : Sys) (on_ : Bool) :
      Step K s { s with f := (xine_fbc_set s.f on_).1 }

/-- The states reachable from a freshly created fifo. -/
inductive Reachable (K : BufferH) : Sys → Prop
  | init (num_buffers : Int) (buf_size : Nat) : Reachable K (Sys.init num_buffers buf_size)
  | step (s s' : Sys) : Reachable K s → Step K s s' → Reachable K s'

/-! ## Abstraction: free runs, blocks, invariants -/

/-- Indicator of slab `j` lying in the block of `l` records that starts at `s`. -/
def ind (s l j : Int) : Nat := if s ≤ j ∧ j < s + l then 1 else 0

/-- The number of blocks `(start, length)` of the list that contain slab `j`. -/
def cnt : List (Int × Int) → Int → Nat
  | [], _ => 0
  | r :: rs, j => ind r.1 r.2 j + cnt rs j

/-- The blocks `(b, b->nbufs)` of a list of elements. -/
def blk (f : Fifo) (out : List Int) : List (Int × Int) := out.map (fun b => (b, f.nbufs b))

/-- The total length of a list of blocks. -/
def lsum : List (Int × Int) → Int
  | [] => 0
  | r :: rs => r.2 + lsum rs

/-- The sum of `nbufs` over a list of elements. -/
def bsum (f : Fifo) : List Int → Int
  | [] => 0
  | b :: out => f.nbufs b + bsum f out

/-- The heap holds the free runs `rs` as a linked segment from pointer `a` to pointer `b`:
every run starts a record that carries the run length in `nbufs`, the records of a run are
chained consecutively and the last record of a run points to the next run. -/
def FreeSeg (next : Int → Option Int) (nbufs : Int → Int) :
    Option Int → List (Int × Int) → Option Int → Prop
  | a, [], b => a = b
  | a, r :: rs, b => a = some r.1 ∧ nbufs r.1 = r.2 ∧ 0 < r.2 ∧
      (∀ j, r.1 ≤ j → j < r.1 + r.2 - 1 → next j = some (j + 1)) ∧
      FreeSeg next nbufs (next (r.1 + r.2 - 1)) rs b

/-- The free-run list of the pool is `rs`. -/
def FreeList (f : Fifo) (rs : List (Int × Int)) : Prop :=
  FreeSeg f.next f.nbufs f.buffer_pool_top rs none

/-- Runs ascend by address and no run ends where the next starts. -/
def Gapped (rs : List (Int × Int)) : Prop :=
  List.Chain' (fun a b : Int × Int => a.1 + a.2 < b.1) rs

/-- The link that leads to the run behind the runs `pre`. -/
def plink (pre : List (Int × Int)) : Link :=
  match pre.getLast? with
  | none => Link.pool_top
  | some p => Link.next (p.1 + p.2 - 1)

/-- The link that leads to the element behind the elements `q1`. -/
def qlink (q1 : List Int) : Link :=
  match q1.getLast? with
  | none => Link.first
  | some a => Link.next a

/-- The group index of an element: `_fifo_buf_type_index[(uint32_t)b->type >> 24]`;
`0` is the fence group, `1` audio and video, `2` subtitles. -/
def tix (K : BufferH) (f : Fifo) (b : Int) : Nat :=
  _fifo_buf_type_index K ((f.type b % 4294967296) >>> 24)

/-- The pool invariant: free runs `rs`, outstanding elements `out`. -/
structure PInv (f : Fifo) (rs : List (Int × Int)) (out : List Int) : Prop where
  native : f.native = true
  owned : ∀ b, f.pool_owned b = true ↔ (0 ≤ b ∧ b < f.buffer_pool_capacity)
  foreign : ∀ b, ¬ (0 ≤ b ∧ b < f.buffer_pool_capacity) → f.nbufs b = 0
  res : 0 ≤ f.alloc_cb_data 0
  seg : FreeList f rs
  gap : Gapped rs
  nfree : f.buffer_pool_num_free = lsum rs
  tile : ∀ j, cnt rs j + cnt (blk f out) j = if 0 ≤ j ∧ j < f.buffer_pool_capacity then 1 else 0
  total : f.buffer_pool_num_free + bsum f out = f.buffer_pool_capacity
  nodup : out.Nodup
  pos : ∀ b ∈ out, 0 ≤ b → b < f.buffer_pool_capacity → 1 ≤ f.nbufs b
  notcap : ∀ b ∈ out, b ≠ f.buffer_pool_capacity

/-- A cursor of the fifo `q`: it is the link behind a prefix of `q`, and all elements
behind it are of group `g`. -/
def Cur (K : BufferH) (f : Fifo) (q : List Int) (link : Link) (g : Nat) : Prop :=
  ∃ q1 q2, q = q1 ++ q2 ∧ link = qlink q1 ∧ ∀ x ∈ q2, tix K f x = g

/-- The fifo invariant: the queue is `q`. -/
structure QInv (K : BufferH) (s : Sys) (q : List Int) : Prop where
  seg : Queue s.f q
  last : s.f.last = q.getLast?
  cur0 : Cur K s.f q s.f.last_add0 2
  cur1 : Cur K s.f q s.f.last_add1 1
  clk : ∀ x ∈ q, ∀ i, s.stamp x = some i → i < s.clock
  ord : ∀ x ∈ q, ∀ y ∈ q, ∀ i j, s.stamp x = some i → s.stamp y = some j → i < j →
    (tix K s.f x = 0 ∨ tix K s.f x = tix K s.f y) → [x, y].Sublist q

/-- The heap `f'` agrees with `f` on everything the fifo invariant reads of the elements `q`. -/
structure Frame (f f' : Fifo) (q : List Int) : Prop where
  first : f'.first = f.first
  last : f'.last = f.last
  la0 : f'.last_add0 = f.last_add0
  la1 : f'.last_add1 = f.last_add1
  cap : f'.buffer_pool_capacity = f.buffer_pool_capacity
  next : ∀ b ∈ q, f'.next b = f.next b
  type : ∀ b ∈ q, f'.type b = f.type b
  nbufs : ∀ b ∈ q, f'.nbufs b = f.nbufs b

/-- The invariant of reachable states. -/
def Inv (K : BufferH) (s : Sys) : Prop :=
  ∃ rs q, PInv s.f rs (s.held ++ q) ∧ QInv K s q

/-- The block `(e, n)` does not overlap any run of the list. -/
def Disj (e n : Int) (rs : List (Int × Int)) : Prop :=
  ∀ r ∈ rs, r.1 + r.2 ≤ e ∨ e + n ≤ r.1

/-- What the search of `_buffer_pool_size_alloc` for `n` slabs does to the free runs `rs`:
it returns `m` slabs at `b` and leaves the runs `rs'`.  Either `b` starts the first run `r`
with at least `n` slabs, `m = n` and the rest of `r` stays; or no run has `n` slabs, `b`
starts the first of the longest runs and the whole run is taken. -/
def SizeAllocSpec (n : Int) (rs : List (Int × Int)) (b m : Int) (rs' : List (Int × Int)) : Prop :=
  ∃ pre r post, rs = pre ++ r :: post ∧ b = r.1 ∧
    ((n ≤ r.2 ∧ (∀ p ∈ pre, p.2 < n) ∧ m = n ∧
        rs' = pre ++ (if n < r.2 then [(r.1 + n, r.2 - n)] else []) ++ post) ∨
     ((∀ p ∈ rs, p.2 < n) ∧ (∀ p ∈ pre, p.2 < r.2) ∧ (∀ p ∈ post, p.2 ≤ r.2) ∧ m = r.2 ∧
        rs' = pre ++ post))

/-- The loop invariant of the search of `_buffer_pool_size_alloc` for the runs `pre` already
visited: `bestlink` leads to the first of the longest of them, `bestsize` is its length. -/
def BestInv (pre : List (Int × Int)) (bestlink : Link) (bestsize : Int) : Prop :=
  (pre = [] ∧ bestsize = 0 ∧ bestlink = Link.pool_top) ∨
  (∃ pre1 r1 post1, pre = pre1 ++ r1 :: post1 ∧ bestlink = plink pre1 ∧ bestsize = r1.2 ∧
    (∀ p ∈ pre1, p.2 < r1.2) ∧ (∀ p ∈ post1, p.2 ≤ r1.2))

/-- The heap after the search of `_buffer_pool_size_alloc` split `n` slabs off run `r`,
which the runs `pre` precede. -/
def take_split (f : Fifo) (pre : List (Int × Int)) (r : Int × Int) (n : Int) : Fifo :=
  (set_nbufs f (r.1 + n) (r.2 - n)).store (plink pre) (some (r.1 + n))

/-- The heap after the search of `_buffer_pool_size_alloc` unlinked the whole run `r`,
which the runs `pre` precede. -/
def take_whole (f : Fifo) (pre : List (Int × Int)) (r : Int × Int) : Fifo :=
  f.store (plink pre) (f.next (r.1 + (r.2 - 1)))

/-- What `alloc` and `try_alloc` do to the free runs. -/
def alloc_runs : List (Int × Int) → List (Int × Int)
  | [] => []
  | r :: rest => if r.2 - 1 > 0 then (r.1 + 1, r.2 - 1) :: rest else rest

/-- The released block `(e, n)` in front of the runs, merged with the first if adjacent. -/
def merge_next (e n : Int) : List (Int × Int) → List (Int × Int)
  | [] => [(e, n)]
  | r :: rest => if e + n = r.1 then (e, n + r.2) :: rest else (e, n) :: r :: rest

/-- The run `p` in front of a list, merged with its first block if adjacent. -/
def merge_prev (p : Int × Int) : List (Int × Int) → List (Int × Int)
  | [] => [p]
  | r :: rest => if p.1 + p.2 = r.1 then (p.1, p.2 + r.2) :: rest else p :: r :: rest

/-- The runs after releasing `(e, n)` behind run `p`, where `rest` are the runs behind `p`. -/
def free_after (e n : Int) : Int × Int → List (Int × Int) → List (Int × Int)
  | p, [] => merge_prev p (merge_next e n [])
  | p, r :: rest =>
    if e + n ≤ r.1 then merge_prev p (merge_next e n (r :: rest)) else p :: free_after e n r rest

/-- What `release` does to the free runs. -/
def free_spec (e n : Int) : List (Int × Int) → List (Int × Int)
  | [] => [(e, n)]
  | r :: rest => if e + n ≤ r.1 then merge_next e n (r :: rest) else free_after e n r rest

/-- The elements of the list lie one behind the other in the arena, the first at `p`. -/
def Adj (f : Fifo) : Int → List Int → Prop
  | _, [] => True
  | p, c :: C => p = c ∧ Adj f (c + f.nbufs c) C

/-! ## Call sequences -/

/-- Sequencing of two calls: the second is made with what the first returned. -/
def Outcome.bind {α β : Type} : Outcome α → (α → Outcome β) → Outcome β
  | .done a, g => g a
  | .wait, _ => .wait
  | .abort, _ => .abort
  | .fault, _ => .fault
  | .timeout, _ => .timeout

/-- An observation made on what a call returned. -/
def Outcome.map {α β : Type} (g : α → β) : Outcome α → Outcome β
  | .done a => .done (g a)
  | .wait => .wait
  | .abort => .abort
  | .fault => .fault
  | .timeout => .timeout

/-- A client calls `buffer_pool_alloc`; a call that blocks leaves the state alone. -/
def Sys.alloc (K : BufferH) (s : Sys) : Sys :=
  match buffer_pool_alloc K s.f with
  | .done (f', b) => { s with f := f', held := b :: s.held }
  | _ => s

/-- A client releases the pool element `b` it holds. -/
def Sys.free (fuel : Nat) (s : Sys) (b : Int) : Sys :=
  if b ∈ s.held ∧ s.f.pool_owned b = true then
    match buffer_pool_free fuel s.f b with
    | .done f' => { s with f := f', held := s.held.erase b }
    | _ => s
  else s

/-- A client fills the element `b` it holds and queues it with `fifo_buffer_put`. -/
def Sys.put (K : BufferH) (fuel : Nat) (s : Sys) (b : Int) (type : Nat) (pts : Int)
    (decoder_flags : Nat) : Sys :=
  if b ∈ s.held then
    match fifo_buffer_put K fuel (fill s.f b type pts 0 decoder_flags) b with
    | .done f' => { f := f', held := s.held.erase b, stamp := upd s.stamp b (some s.clock),
                    clock := s.clock + 1 }
    | _ => { s with f := fill s.f b type pts 0 decoder_flags }
  else s

/-- The pool of the scenarios: 10 slabs of 1024 bytes, slabs 0, 1 and 2 handed out. -/
def pool3 : Sys := ((Sys.init 10 1024).alloc xineH).alloc xineH |>.alloc xineH

/-- Scenario B: slabs 0, 1, 2 of a fresh 10-slab pool are allocated and then released in
this order; returns the elements allocated and the free-run list. -/
def scenario_B : Outcome (List Int × List (Int × Int)) :=
  (buffer_pool_alloc xineH (_x_fifo_buffer_new 10 1024)).bind fun p0 =>
  (buffer_pool_alloc xineH p0.1).bind fun p1 =>
  (buffer_pool_alloc xineH p1.1).bind fun p2 =>
  (buffer_pool_free 10 p2.1 p0.2).bind fun f3 =>
  (buffer_pool_free 10 f3 p1.2).bind fun f4 =>
  (buffer_pool_free 10 f4 p2.2).bind fun f5 =>
  .done ([p0.2, p1.2, p2.2], free_runs f5)

/-- Scenario A: slabs 0, 1, 2 of a fresh 10-slab pool are allocated, slab 1 is released and
2 contiguous slabs are requested; returns the element, its `nbufs` and `max_size`, and the
free-run list. -/
def scenario_A : Outcome (Int × Int × Int × List (Int × Int)) :=
  (buffer_pool_alloc xineH (_x_fifo_buffer_new 10 1024)).bind fun p0 =>
  (buffer_pool_alloc xineH p0.1).bind fun p1 =>
  (buffer_pool_alloc xineH p1.1).bind fun p2 =>
  (buffer_pool_free 10 p2.1 p1.2).bind fun f3 =>
  (_buffer_pool_size_alloc xineH 10 f3 2).bind fun p4 =>
  .done (p4.2, p4.1.nbufs p4.2, p4.1.max_size p4.2, free_runs p4.1)

/-- Scenario E: slabs 0, 1, 2 of a fresh 10-slab pool are allocated and slab 1 is released
twice; returns the free-run list before the second release, and how the second release
ends together with `buffer_pool_num_free` after it. -/
def scenario_E : List (Int × Int) × Outcome Int :=
  match (buffer_pool_alloc xineH (_x_fifo_buffer_new 10 1024)).bind fun p0 =>
      (buffer_pool_alloc xineH p0.1).bind fun p1 =>
      (buffer_pool_alloc xineH p1.1).bind fun p2 =>
      buffer_pool_free 10 p2.1 p1.2 with
  | .done f3 => (free_runs f3, (buffer_pool_free 10 f3 1).map fun f4 => f4.buffer_pool_num_free)
  | _ => ([], .fault)

/-- The elements `fifo_buffer_get` hands out until the fifo is empty. -/
def drain (K : BufferH) : Nat → Fifo → List Int
  | 0, _ => []
  | fuel + 1, f =>
    match fifo_buffer_get K f with
    | .done (f', b) => b :: drain K fuel f'
    | _ => []

/-- Allocate `n` elements one after the other; returns the elements, first allocated first. -/
def alloc_many (K : BufferH) : Nat → Fifo → Outcome (Fifo × List Int)
  | 0, f => .done (f, [])
  | n + 1, f =>
    (buffer_pool_alloc K f).bind fun p =>
    (alloc_many K n p.1).bind fun r => .done (r.1, p.2 :: r.2)

/-- Fill and put the listed elements `(element, type, pts, decoder_flags)` in order. -/
def put_many (K : BufferH) (fuel : Nat) : List (Int × Nat × Int × Nat) → Fifo → Outcome Fifo
  | [], f => .done f
  | (b, type, pts, flags) :: rest, f =>
    (fifo_buffer_put K fuel (fill f b type pts 0 flags) b).bind fun f' =>
    put_many K fuel rest f'

/-- The call orders that put `a :: as` and `bs`, each list in its order, given the call
orders `ih` that put `as` and a list. -/
def interleave_at {α : Type} (a : α) (as : List α) (ih : List α → List (List α)) :
    List α → List (List α)
  | [] => [a :: as]
  | b :: bs =>
    (ih (b :: bs)).map (fun l => a :: l) ++ (interleave_at a as ih bs).map (fun l => b :: l)

/-- The call orders of Scenario C: the elements of the two lists, each list in its order,
interleaved in every possible way. -/
def interleavings {α : Type} : List α → List α → List (List α)
  | [] => fun bs => [bs]
  | a :: as => interleave_at a as (interleavings as)

/-- Scenario C for one call order: six elements of a fresh 10-slab pool are put in the given
order and the fifo is drained; returns the timestamps of the audio elements and of the
subtitle elements in the order they come out. -/
def scenario_C (order : List (Int × Nat × Int × Nat)) : Outcome (List Int × List Int) :=
  (alloc_many xineH 6 (_x_fifo_buffer_new 10 1024)).bind fun p =>
  (put_many xineH 10 order p.1).bind fun f =>
  .done (((drain xineH 10 f).filter (fun b => f.type b = 0x03000000)).map f.pts,
         ((drain xineH 10 f).filter (fun b => f.type b = 0x04000000)).map f.pts)

/-- Calling `buffer_pool_free` on each pool element of a list, one after the other.  An
element that the pool does not own has a release operation of its own, which is external
code. -/
def release_each (fuel : Nat) : List Int → Fifo → Outcome Fifo
  | [], f => .done f
  | b :: bs, f =>
    if f.pool_owned b then (buffer_pool_free fuel f b).bind (release_each fuel bs)
    else release_each fuel bs f

/-- A pool of 64 slabs of 1024 bytes, slabs 0, 1 and 2 handed out. -/
def pool64 : Sys := ((Sys.init 64 1024).alloc xineH).alloc xineH |>.alloc xineH

/-- A pool of 2 slabs of which slab 0 is handed out: what `buffer_pool_alloc` does there (the
element it returns, if it returns) and what `buffer_pool_try_alloc` returns. -/
def scenario_last_slab : Outcome (Outcome Int × Option Int) :=
  (buffer_pool_alloc xineH (_x_fifo_buffer_new 2 1024)).bind fun p =>
  .done ((buffer_pool_alloc xineH p.1).map (fun r => r.2), (buffer_pool_try_alloc p.1).2)

/-- Two control elements of a 16-slab pool are put, the second carrying `BUF_FLAG_MERGE`;
returns the queue, the slab count of the tail and `buffer_pool_capacity >> 3`. -/
def scenario_merge_count : Outcome (List Int × Int × Int) :=
  (alloc_many xineH 2 (_x_fifo_buffer_new 16 1024)).bind fun p =>
  (put_many xineH 16 [(0, 0x01000000, 0, 0), (1, 0x01000000, 0, 0x20000)] p.1).bind fun f =>
  .done (fifo_list_from f 16 f.first, f.nbufs 0, f.buffer_pool_capacity >>> 3)

/-- Three elements of a 10-slab pool with the types `0x05010000`, `BUF_CONTROL_BASE` and
`0x0f010000` are put and the fifo is cleared; returns the group index of each of the three
elements, the queue before and after `fifo_buffer_clear`, and the free-run list after it. -/
def scenario_clear : Outcome (List Nat × List Int × List Int × List (Int × Int)) :=
  (alloc_many xineH 3 (_x_fifo_buffer_new 10 1024)).bind fun p =>
  (put_many xineH 10
    [(0, 0x05010000, 0, 0), (1, 0x01000000, 0, 0), (2, 0x0f010000, 0, 0)] p.1).bind fun f =>
  (fifo_buffer_clear xineH 20 f).bind fun g =>
  .done ([0, 1, 2].map (tix xineH f), fifo_list_from f 10 f.first,
    fifo_list_from g 10 g.first, free_runs g)

/-- Scenario C for one call order: six elements of a fresh 10-slab pool are put in the given
order and the fifo is drained; returns the timestamps in the order they come out. -/
def scenario_C_drain (order : List (Int × Nat × Int × Nat)) : Outcome (List Int) :=
  (alloc_many xineH 6 (_x_fifo_buffer_new 10 1024)).bind fun p =>
  (put_many xineH 10 order p.1).bind fun f =>
  .done ((drain xineH 10 f).map f.pts)

/-- A client fills the element `b` it holds, without queueing it. -/
def Sys.fill (s : Sys) (b : Int) (type : Nat) (pts : Int) (decoder_flags : Nat) : Sys :=
  if b ∈ s.held then { s with f := Xine.fill s.f b type pts 0 decoder_flags } else s

/-- A 16-slab pool whose fifo holds the control element 0, while a client holds element 1,
filled as a control element that carries `BUF_FLAG_MERGE`. -/
def pool16_tail : Sys :=
  ((((Sys.init 16 1024).alloc xineH).alloc xineH).put xineH 16 0 0x01000000 0 0).fill
    1 0x01000000 0 0x20000

/-- A 10-slab pool with slabs 0 to 4 handed out, of which the elements 0, 1 (video), 2
(control) and 3 (video) are queued in this order and element 4 is held by a client. -/
def queued4 : Sys :=
  (((((pool3.alloc xineH).alloc xineH).put xineH 10 0 0x02000000 0 0).put
    xineH 10 1 0x02000000 0 0).put xineH 10 2 0x01000000 0 0).put xineH 10 3 0x02000000 0 0

/-! ## Counters, the discard variant of put, and hook registration -/

/-- The function `fifo_buffer_size`. -/
def fifo_buffer_size (f : Fifo) : Int := f.fifo_size

/-- The function `fifo_buffer_data_size`. -/
def fifo_buffer_data_size (f : Fifo) : Int := f.fifo_data_size

/-- What `fifo_buffer_put`, `fifo_buffer_insert` and `fifo_buffer_get` count for an element in
`fifo_size`: `beei->nbufs` if `free_buffer == buffer_pool_free`, else 1. -/
def fifo_weight (f : Fifo) (b : Int) : Int :=
  if f.pool_owned b then f.nbufs b else 1

/-- The sum of the `size` fields of a list of elements. -/
def dsum (f : Fifo) : List Int → Int
  | [] => 0
  | b :: q => f.size b + dsum f q

/-- The function `dummy_fifo_buffer_put`: the put callbacks are called and the element is
released with its `free_buffer`, which is external code for an element the pool does not
own. -/
def dummy_fifo_buffer_put (K : BufferH) (fuel : Nat) (f : Fifo) (element : Int) : Outcome Fifo :=
  let f := run_put_cb K f element
  if f.pool_owned element then buffer_pool_free fuel f element else .done f

/-- The loop `for (i = 0; cb[i]; i++) ;` of the register functions over a callback array
of `BUF_MAX_CALLBACKS` entries, from index `i` on; `none` when no entry is null. -/
def hook_end (cb : Nat → Option Nat) : Nat → Nat → Option Nat
  | 0, _ => none
  | fuel + 1, i =>
    match cb i with
    | none => some i
    | some _ => hook_end cb fuel (i + 1)

/-- The statements `for (i = 0; cb[i]; i++) ; if (i != BUF_MAX_CALLBACKS - 1) { cb[i] = c;
data[i] = d; cb[i+1] = NULL; }` of the three register functions, on one callback array and its
data array, for a non-null `c`; `fifo_register_alloc_cb` also writes `data[i+1] = 0`. -/
def hook_add (K : BufferH) (cb : Nat → Option Nat) (data : Nat → Int) (c : Nat) (d : Int)
    (zero_next : Bool) : Option ((Nat → Option Nat) × (Nat → Int)) :=
  match hook_end cb K.BUF_MAX_CALLBACKS 0 with
  | none => none
  | some i =>
    if (i : Int) ≠ (K.BUF_MAX_CALLBACKS : Int) - 1 then
      some (fun j => if j = i then some c else if j = i + 1 then none else cb j,
            fun j => if j = i then d else if j = i + 1 ∧ zero_next = true then 0 else data j)
    else some (cb, data)

/-- The function `fifo_register_put_cb`. -/
def fifo_register_put_cb (K : BufferH) (f : Fifo) (cb : Nat) (data_cb : Int) : Outcome Fifo :=
  match hook_add K f.put_cb f.put_cb_data cb data_cb false with
  | none => .fault
  | some r => .done { f with put_cb := r.1, put_cb_data := r.2 }

/-- The function `fifo_register_get_cb`. -/
def fifo_register_get_cb (K : BufferH) (f : Fifo) (cb : Nat) (data_cb : Int) : Outcome Fifo :=
  match hook_add K f.get_cb f.get_cb_data cb data_cb false with
  | none => .fault
  | some r => .done { f with get_cb := r.1, get_cb_data := r.2 }

/-- The statement `if (fifo->b.alloc_cb[0] == fbc_dummy) { alloc_cb[0] = NULL;
alloc_cb_data[0] = NULL; }` of `fifo_register_alloc_cb`. -/
def drop_fbc_dummy (f : Fifo) : Fifo :=
  if f.alloc_cb 0 = some fbc_dummy then
    { f with alloc_cb := fun j => if j = 0 then none else f.alloc_cb j,
             alloc_cb_data := fun j => if j = 0 then 0 else f.alloc_cb_data j }
  else f

/-- The function `fifo_register_alloc_cb`. -/
def fifo_register_alloc_cb (K : BufferH) (f : Fifo) (cb : Nat) (data_cb : Int) : Outcome Fifo :=
  let f := drop_fbc_dummy f
  match hook_add K f.alloc_cb f.alloc_cb_data cb data_cb true with
  | none => .fault
  | some r => .done { f with alloc_cb := r.1, alloc_cb_data := r.2 }

/-- The callbacks of a callback array with their data, in array order from index `i` up to
the first null entry: what the loops `for (i = 0; cb[i]; i++) cb[i] (..., data[i])` call. -/
def hook_list (cb : Nat → Option Nat) (data : Nat → Int) : Nat → Nat → List (Nat × Int)
  | 0, _ => []
  | fuel + 1, i =>
    match cb i with
    | none => []
    | some c => (c, data i) :: hook_list cb data fuel (i + 1)

/-- The put callbacks registered in a fifo. -/
def put_hooks (K : BufferH) (f : Fifo) : List (Nat × Int) :=
  hook_list f.put_cb f.put_cb_data K.BUF_MAX_CALLBACKS 0

/-- The get callbacks registered in a fifo. -/
def get_hooks (K : BufferH) (f : Fifo) : List (Nat × Int) :=
  hook_list f.get_cb f.get_cb_data K.BUF_MAX_CALLBACKS 0

/-- The alloc callbacks registered in a fifo. -/
def alloc_hooks (K : BufferH) (f : Fifo) : List (Nat × Int) :=
  hook_list f.alloc_cb f.alloc_cb_data K.BUF_MAX_CALLBACKS 0

/-- A sequence of registrations `(cb, data_cb)` made one after the other with the register
function `reg`. -/
def register_many (reg : Fifo → Nat → Int → Outcome Fifo) : List (Nat × Int) → Fifo → Outcome Fifo
  | [], f => .done f
  | (cb, d) :: rest, f => (reg f cb d).bind (register_many reg rest)

/-- An element of 2 slabs is taken from a fresh 10-slab pool and put as a video element;
returns the queue, the slab count of the element and `fifo_buffer_size`. -/
def scenario_size : Outcome (List Int × Int × Int) :=
  (_buffer_pool_size_alloc xineH 10 (_x_fifo_buffer_new 10 1024) 2).bind fun p =>
  (put_many xineH 10 [(p.2, 0x02000000, 0, 0)] p.1).bind fun f =>
  .done (fifo_list_from f 10 f.first, f.nbufs p.2, fifo_buffer_size f)

/-- Scenario D: soft-start is enabled on a fresh pool of 100 slabs, one element is allocated
and then released; returns the reservation and the availability after each of the three
calls. -/
def scenario_D : Outcome (List (Int × Int)) :=
  let f0 := (xine_fbc_set (_x_fifo_buffer_new 100 1024) true).1
  (buffer_pool_alloc xineH f0).bind fun p =>
  (buffer_pool_free 100 p.1 p.2).bind fun f2 =>
  .done [(f0.alloc_cb_data 0, _fbc_avail f0), (p.1.alloc_cb_data 0, _fbc_avail p.1),
    (f2.alloc_cb_data 0, _fbc_avail f2)]

/-- A put callback 7 with data 5 is registered in a fresh fifo of 16 slabs; the control
element 0 is put, then the control element 1 that carries `BUF_FLAG_MERGE`; returns the queue
and the callback calls recorded. -/
def scenario_merge_hooks : Outcome (List Int × List HookCall) :=
  (fifo_register_put_cb xineH (_x_fifo_buffer_new 16 1024) 7 5).bind fun f0 =>
  (alloc_many xineH 2 f0).bind fun p =>
  (put_many xineH 16 [(0, 0x01000000, 0, 0), (1, 0x01000000, 0, 0x20000)] p.1).bind fun f =>
  .done (fifo_list_from f 16 f.first, f.log)

/-- Soft-start is enabled on a fresh pool of 100 slabs and an alloc callback 7 with data 5 is
registered; returns the alloc callbacks before and after the registration. -/
def scenario_register_alloc : Outcome (List (Nat × Int) × List (Nat × Int)) :=
  (fifo_register_alloc_cb xineH (xine_fbc_set (_x_fifo_buffer_new 100 1024) true).1 7 5).bind
    fun f => .done (alloc_hooks xineH (xine_fbc_set (_x_fifo_buffer_new 100 1024) true).1,
      alloc_hooks xineH f)

/-- A call of `xine_fbc_set` on the fifo. -/
def Sys.fbc_set (s : Sys) (on_ : Bool) : Sys :=
  { s with f := (xine_fbc_set s.f on_).1 }

/-- A client hands the element `b` it holds back to the head of the fifo with
`fifo_buffer_insert`. -/
def Sys.insert (s : Sys) (b : Int) : Sys :=
  if b ∈ s.held then
    { s with f := fifo_buffer_insert s.f b, held := s.held.erase b, stamp := upd s.stamp b none }
  else s

/-- A pool of 100 slabs with soft-start enabled: slabs 0, 1 and 2 were allocated, slab 2 was
released again, and the elements 0 (video) and 1 (control) are queued. -/
def soft_queue : Sys :=
  ((((((Sys.init 100 1024).fbc_set true).alloc xineH).alloc xineH).alloc xineH).free 100 2).put
    xineH 100 0 0x02000000 0 0 |>.put xineH 100 1 0x01000000 0 0

/-- A client fills the element `b` it holds, with a size, and queues it with
`fifo_buffer_put`. -/
def Sys.put_sized (K : BufferH) (fuel : Nat) (s : Sys) (b : Int) (type : Nat) (pts size : Int)
    (decoder_flags : Nat) : Sys :=
  if b ∈ s.held then
    match fifo_buffer_put K fuel (Xine.fill s.f b type pts size decoder_flags) b with
    | .done f' => { f := f', held := s.held.erase b, stamp := upd s.stamp b (some s.clock),
                    clock := s.clock + 1 }
    | _ => { s with f := Xine.fill s.f b type pts size decoder_flags }
  else s

/-- The 10-slab pool with slabs 0, 1 and 2 handed out, after the video elements 0 (100
bytes) and 1 (250 bytes) were queued. -/
def sized2 : Sys :=
  (pool3.put_sized xineH 10 0 0x02000000 0 100 0).put_sized xineH 10 1 0x02000000 0 250 0

/-- A fresh fifo of 16 slabs in which the put callback 7 is registered with data 5. -/
def hooked16 : Fifo :=
  match fifo_register_put_cb xineH (_x_fifo_buffer_new 16 1024) 7 5 with
  | .done f => f
  | _ => _x_fifo_buffer_new 16 1024

/-! ## The discard variant -/

/-- The function `dummy_fifo_buffer_insert`: the element is released with its `free_buffer`,
which is external code for an element the pool does not own. -/
def dummy_fifo_buffer_insert (fuel : Nat) (f : Fifo) (element : Int) : Outcome Fifo :=
  if f.pool_owned element then buffer_pool_free fuel f element else .done f

/-- One completed call on a fifo made by `_x_dummy_fifo_buffer_new`, which is the fifo of
`_x_fifo_buffer_new` with `put` and `insert` replaced by `dummy_fifo_buffer_put` and
`dummy_fifo_buffer_insert`, by a client that respects ownership. -/
inductive DStep (K : BufferH) : Sys → Sys → Prop
  | alloc (s : Sys) (f' : Fifo) (b : Int) :
      buffer_pool_alloc K s.f = .done (f', b) →
      DStep K s { s with f := f', held := b :: s.held }
  | size_alloc (s : Sys) (fuel : Nat) (n : Int) (f' : Fifo) (b : Int) :
      _buffer_pool_size_alloc K fuel s.f n = .done (f', b) →
      DStep K s { s with f := f', held := b :: s.held }
  | try_alloc (s : Sys) :
      DStep K s { s with f := (buffer_pool_try_alloc s.f).1,
                         held := (buffer_pool_try_alloc s.f).2.toList ++ s.held }
  | realloc (s : Sys) (fuel : Nat) (b : Int) (new_size : Nat) (f' : Fifo) (r : Option Int) :
      b ∈ s.held → buffer_pool_realloc K fuel s.f b new_size = .done (f', r) →
      DStep K s { s with f := f', held := r.toList ++ s.held }
  | free (s : Sys) (fuel : Nat) (b : Int) (f' : Fifo) :
      b ∈ s.held → s.f.pool_owned b = true → buffer_pool_free fuel s.f b = .done f' →
      DStep K s { s with f := f', held := s.held.erase b }
  | free_custom (s : Sys) (b : Int) :
      b ∈ s.held → s.f.pool_owned b = false →
      DStep K s { s with held := s.held.erase b }
  | custom (s : Sys) (b : Int) :
      (b < 0 ∨ s.f.buffer_pool_capacity < b) → b ∉ s.held → (∀ q, Queue s.f q → b ∉ q) →
      DStep K s { s with held := b :: s.held }
  | fill (s : Sys) (b : Int) (type : Nat) (pts size : Int) (decoder_flags : Nat) :
      b ∈ s.held →
      DStep K s { s with f := fill s.f b type pts size decoder_flags }
  | put (s : Sys) (fuel : Nat) (b : Int) (f' : Fifo) :
      b ∈ s.held → dummy_fifo_buffer_put K fuel s.f b = .done f' →
      DStep K s { s with f := f', held := s.held.erase b }
  | insert (s : Sys) (fuel : Nat) (b : Int) (f' : Fifo) :
      b ∈ s.held → dummy_fifo_buffer_insert fuel s.f b = .done f' →
      DStep K s { s with f := f', held := s.held.erase b }
  | get (s : Sys) (f' : Fifo) (b : Int) :
      fifo_buffer_get K s.f = .done (f', b) →
      DStep K s { s with f := f', held := b :: s.held }
  | clear (s : Sys) (fuel : Nat) (f' : Fifo) :
      fifo_buffer_clear K fuel s.f = .done f' →
      DStep K s { s with f := f' }
  | fbc_set (s : Sys) (on_ : Bool) :
      DStep K s { s with f := (xine_fbc_set s.f on_).1 }

/-- The states reachable from a freshly created discard-variant fifo. -/
inductive DReachable (K : BufferH) : Sys → Prop
  | init (num_buffers : Int) (buf_size : Nat) : DReachable K (Sys.init num_buffers buf_size)
  | step (s s' : Sys) : DReachable K s → DStep K s s' → DReachable K s'

/-! ## Tickets -/

/-- A call `ticket->release (ticket, 0)` or `ticket->acquire (ticket, 0)`. -/
inductive TicketCall where
  | release
  | acquire
  deriving DecidableEq, Repr

/-- The function `fifo_buffer_tget`.  `ticket` tells whether the ticket pointer is non-null,
`busy` whether `pthread_mutex_trylock` failed, `wake` is the state found when the wait for
`not_empty` ends, and `revoked` is `ticket->ticket_revoked` as read after the head was
taken.  Returns the state, the element and the ticket calls made, in order. -/
def fifo_buffer_tget (K : BufferH) (f wake : Fifo) (ticket busy revoked : Bool) :
    Outcome (Fifo × Int × List TicketCall) :=
  let mode : Nat := if ticket then 2 else 0
  let r1 : Nat × List TicketCall :=
    if busy = true ∧ mode &&& 2 ≠ 0 then (1, [TicketCall.release]) else (mode, [])
  let r2 : Nat × List TicketCall :=
    if f.first = none ∧ r1.1 &&& 2 ≠ 0 then (1, r1.2 ++ [TicketCall.release]) else r1
  let f := if f.first = none then wake else f
  match f.first with
  | none => .wait
  | some buf =>
    let f := get_unlink f buf
    let r3 : Nat × List TicketCall :=
      if r2.1 &&& 2 ≠ 0 ∧ revoked = true then (1, r2.2 ++ [TicketCall.release]) else r2
    let f := run_get_cb K f buf
    let calls := if r3.1 &&& 1 ≠ 0 then r3.2 ++ [TicketCall.acquire] else r3.2
    .done (f, buf, calls)

/-! ## Locks -/

/-- The two mutexes of a fifo: `fifo->b.mutex` and `fifo->b.buffer_pool_mutex`. -/
inductive Mutex where
  | queue
  | pool
  deriving DecidableEq, Repr

/-- A call that a function makes on a mutex: `pthread_mutex_lock` (or a
`pthread_mutex_trylock` that succeeds), `pthread_mutex_unlock`, and `pthread_cond_wait` on a
condition variable used with that mutex. -/
inductive LockEv where
  | lock (m : Mutex)
  | unlock (m : Mutex)
  | wait (m : Mutex)
  deriving DecidableEq, Repr

/-- Sequencing of two calls that record their mutex calls: the second is made with what the
first returned, and is not made when the first did not return. -/
def seq_tr {α β : Type} (r : List LockEv × Outcome α) (g : α → List LockEv × Outcome β) :
    List LockEv × Outcome β :=
  match r.2 with
  | .done a => (r.1 ++ (g a).1, (g a).2)
  | .wait => (r.1, .wait)
  | .abort => (r.1, .abort)
  | .fault => (r.1, .fault)
  | .timeout => (r.1, .timeout)

/-- The function `buffer_pool_free` with its mutex calls: the list holds the calls in the
order they are made, the outcome is that of `buffer_pool_free`.  The mutex is taken by the
first statement and given back by the last; `_x_abort` is called with the mutex held. -/
def buffer_pool_free_tr (fuel : Nat) (f : Fifo) (element : Int) : List LockEv × Outcome Fifo :=
  let t := [LockEv.lock Mutex.pool]
  let newhead := element
  let n := f.nbufs newhead
  let f := free_count f n
  if f.buffer_pool_num_free > f.buffer_pool_capacity then (t, .abort)
  else
    let r := free_relink f.next (n - 1).toNat (newhead + 1)
    match f.buffer_pool_top with
    | none => (t ++ [LockEv.unlock Mutex.pool], .done (free_add_head f r.1 newhead r.2 none))
    | some nexthead =>
      if nexthead ≥ r.2 then
        (t ++ [LockEv.unlock Mutex.pool],
          .done (free_add_head f r.1 newhead r.2 (some nexthead)))
      else
        match free_find r.1 f.nbufs r.2 fuel nexthead with
        | none => (t, .timeout)
        | some (prevhead, prevtail, nexthead) =>
          (t ++ [LockEv.unlock Mutex.pool],
            .done (free_insert f r.1 newhead r.2 prevhead prevtail nexthead))

/-- The function `_buffer_pool_size_alloc` with its mutex calls.  It is entered with the pool
mutex held, waits on `buffer_pool_cond_not_empty` and gives the mutex back before it sets up
the element. -/
def _buffer_pool_size_alloc_tr (K : BufferH) (fuel : Nat) (f : Fifo) (n : Int) :
    List LockEv × Outcome (Fifo × Int) :=
  let f := run_alloc_cb K f
  let n := if n < 1 then 1 else n
  let n := n + 2
  if _fbc_avail f < n then ([LockEv.wait Mutex.pool], .wait)
  else
    let n := n - 2
    match f.buffer_pool_top with
    | none => ([], .fault)
    | some buf =>
      if n = 1 then
        let f := take_head f buf
        ([LockEv.unlock Mutex.pool],
          .done (set_nbufs (reset_element f buf (n * f.buffer_pool_buf_size)) buf n, buf))
      else
        match size_alloc_search f n fuel buf Link.pool_top Link.pool_top 0 with
        | .done (f, buf, n) =>
          let f := sub_free f n
          ([LockEv.unlock Mutex.pool],
            .done (set_nbufs (reset_element f buf (n * f.buffer_pool_buf_size)) buf n, buf))
        | .wait => ([], .wait)
        | .abort => ([], .abort)
        | .fault => ([], .fault)
        | .timeout => ([], .timeout)

/-- The function `buffer_pool_alloc` with its mutex calls. -/
def buffer_pool_alloc_tr (K : BufferH) (f : Fifo) : List LockEv × Outcome (Fifo × Int) :=
  let t := [LockEv.lock Mutex.pool]
  let f := run_alloc_cb K f
  if _fbc_avail f < 2 then (t ++ [LockEv.wait Mutex.pool], .wait)
  else
    match f.buffer_pool_top with
    | none => (t, .fault)
    | some buf =>
      (t ++ [LockEv.unlock Mutex.pool],
        .done (reset_element (take_head_native f buf) buf f.buffer_pool_buf_size, buf))

/-- The function `buffer_pool_size_alloc` with its mutex calls: the slab count is computed
before the mutex is taken, and `_buffer_pool_size_alloc` gives the mutex back. -/
def buffer_pool_size_alloc_tr (K : BufferH) (fuel : Nat) (f : Fifo) (size : Nat) :
    List LockEv × Outcome (Fifo × Int) :=
  if !_fifo_is_native f then buffer_pool_alloc_tr K f
  else if size ≠ 0 ∧ int_div_traps (size_dividend f size) f.buffer_pool_buf_size = true then
    ([], .fault)
  else
    let n := if size ≠ 0 then size_slabs f size else 1
    let n := if n > f.buffer_pool_capacity >>> 2 then f.buffer_pool_capacity >>> 2 else n
    seq_tr ([LockEv.lock Mutex.pool], .done ()) fun _ => _buffer_pool_size_alloc_tr K fuel f n

/-- The function `buffer_pool_try_alloc` with its mutex calls. -/
def buffer_pool_try_alloc_tr (f : Fifo) : List LockEv × (Fifo × Option Int) :=
  let t := [LockEv.lock Mutex.pool]
  match f.buffer_pool_top with
  | none => (t ++ [LockEv.unlock Mutex.pool], (f, none))
  | some buf =>
    (t ++ [LockEv.unlock Mutex.pool],
      (reset_element (take_head_native f buf) buf f.buffer_pool_buf_size, some buf))

/-- A traced call that returns an element, as a call that returns a nullable pointer. -/
def some_elem_tr (r : List LockEv × Outcome (Fifo × Int)) :
    List LockEv × Outcome (Fifo × Option Int) :=
  (r.1, r.2.some_elem)

/-- The function `buffer_pool_realloc` with its mutex calls, for a non-null `buf` whose
`source` is this fifo.  The early returns and the computation of `n` come before the mutex
is taken; the mutex is given back in the branch that grows the element, or by
`_buffer_pool_size_alloc`. -/
def buffer_pool_realloc_tr (K : BufferH) (fuel : Nat) (f : Fifo) (buf : Int) (new_size : Nat) :
    List LockEv × Outcome (Fifo × Option Int) :=
  let old_buf := buf
  if int_of_size_t new_size ≤ f.max_size old_buf then ([], .done (f, none))
  else if !f.pool_owned old_buf then ([], .done (f, none))
  else if !_fifo_is_native f then some_elem_tr (buffer_pool_alloc_tr K f)
  else if int_div_traps (size_dividend f new_size) f.buffer_pool_buf_size then ([], .fault)
  else
    let n := realloc_need f old_buf new_size
    let want_buf := old_buf + f.nbufs old_buf
    let t := [LockEv.lock Mutex.pool]
    match realloc_find f want_buf fuel Link.pool_top with
    | none => (t, .timeout)
    | some (_, none) =>
      seq_tr (t, .done ()) fun _ => some_elem_tr (_buffer_pool_size_alloc_tr K fuel f n)
    | some (last_buf, some new_buf) =>
      let n := realloc_limit f n
      if n < 1 then
        seq_tr (t, .done ()) fun _ => some_elem_tr (_buffer_pool_size_alloc_tr K fuel f n)
      else
        (t ++ [LockEv.unlock Mutex.pool],
          .done (realloc_grow f old_buf last_buf new_buf n, none))

/-- The function `fifo_buffer_put` with its mutex calls: the fifo mutex is taken by the first
statement and given back before the early return of the merge branch and by the last
statement. -/
def fifo_buffer_put_tr (K : BufferH) (fuel : Nat) (f : Fifo) (element : Int) :
    List LockEv × Outcome Fifo :=
  let t := [LockEv.lock Mutex.queue]
  let merge_flag := has_merge_flag K f element
  let f := clear_merge_flag K f element
  match (if merge_flag then put_merge_prev f element else none) with
  | some prev => (t ++ [LockEv.unlock Mutex.queue], .done (put_merge f prev element))
  | none =>
    let f := run_put_cb K f element
    let type := _fifo_buf_type_index K ((f.type element % 4294967296) >>> 24)
    if !_fifo_is_native f then
      (t ++ [LockEv.unlock Mutex.queue], .done (fifo_count_add (put_foreign f element) element))
    else if type = 0 then
      (t ++ [LockEv.unlock Mutex.queue], .done (fifo_count_add (put_fence f element) element))
    else
      let type := type - 1
      let next := f.last_add type
      let found : Option Link :=
        if f.pts element ≠ 0 then put_scan f (put_epts f element type) fuel next
        else some next
      match found with
      | none => (t, .timeout)
      | some next =>
        (t ++ [LockEv.unlock Mutex.queue],
          .done (fifo_count_add (put_link f element type next) element))

/-- The function `fifo_buffer_insert` with its mutex calls. -/
def fifo_buffer_insert_tr (f : Fifo) (element : Int) : List LockEv × Fifo :=
  let t := [LockEv.lock Mutex.queue]
  (t ++ [LockEv.unlock Mutex.queue], fifo_buffer_insert f element)

/-- The function `fifo_buffer_get` with its mutex calls. -/
def fifo_buffer_get_tr (K : BufferH) (f : Fifo) : List LockEv × Outcome (Fifo × Int) :=
  let t := [LockEv.lock Mutex.queue]
  match f.first with
  | none => (t ++ [LockEv.wait Mutex.queue], .wait)
  | some buf =>
    (t ++ [LockEv.unlock Mutex.queue], .done (run_get_cb K (get_unlink f buf) buf, buf))

/-- The function `fifo_buffer_tget` with its mutex calls, the parameters being those of
`fifo_buffer_tget`: the mutex is taken by `pthread_mutex_trylock` or, when that fails, by
`pthread_mutex_lock`; the call waits on `not_empty` when the fifo is empty and goes on with
the state `wake`. -/
def fifo_buffer_tget_tr (K : BufferH) (f wake : Fifo) (ticket busy revoked : Bool) :
    List LockEv × Outcome (Fifo × Int × List TicketCall) :=
  let mode : Nat := if ticket then 2 else 0
  let r1 : Nat × List TicketCall :=
    if busy = true ∧ mode &&& 2 ≠ 0 then (1, [TicketCall.release]) else (mode, [])
  let t := [LockEv.lock Mutex.queue]
  let r2 : Nat × List TicketCall :=
    if f.first = none ∧ r1.1 &&& 2 ≠ 0 then (1, r1.2 ++ [TicketCall.release]) else r1
  let t := if f.first = none then t ++ [LockEv.wait Mutex.queue] else t
  let f := if f.first = none then wake else f
  match f.first with
  | none => (t, .wait)
  | some buf =>
    let f := get_unlink f buf
    let r3 : Nat × List TicketCall :=
      if r2.1 &&& 2 ≠ 0 ∧ revoked = true then (1, r2.2 ++ [TicketCall.release]) else r2
    let f := run_get_cb K f buf
    let calls := if r3.1 &&& 1 ≠ 0 then r3.2 ++ [TicketCall.acquire] else r3.2
    (t ++ [LockEv.unlock Mutex.queue], .done (f, buf, calls))

/-- The function `dummy_fifo_buffer_put` with its mutex calls: the fifo mutex is given back
before the element is released with its `free_buffer`, which is `buffer_pool_free` for an
element of the pool and external code otherwise. -/
def dummy_fifo_buffer_put_tr (K : BufferH) (fuel : Nat) (f : Fifo) (element : Int) :
    List LockEv × Outcome Fifo :=
  let t := [LockEv.lock Mutex.queue]
  let f := run_put_cb K f element
  let t := t ++ [LockEv.unlock Mutex.queue]
  seq_tr (t, .done ()) fun _ =>
    if f.pool_owned element then buffer_pool_free_tr fuel f element else ([], .done f)

/-- The function `dummy_fifo_buffer_insert` with its mutex calls. -/
def dummy_fifo_buffer_insert_tr (fuel : Nat) (f : Fifo) (element : Int) :
    List LockEv × Outcome Fifo :=
  if f.pool_owned element then buffer_pool_free_tr fuel f element else ([], .done f)

/-- The loop `while (start) { ... }` of `fifo_buffer_clear` with the mutex calls made inside
it, which are those of the calls of `buffer_pool_free`. -/
def clear_loop_tr (K : BufferH) (fuel0 : Nat) :
    Nat → Fifo → Option Int → List LockEv × Outcome Fifo
  | _, f, none => ([], .done f)
  | 0, _, some _ => ([], .timeout)
  | fuel + 1, f, some start =>
    if is_control K f start then
      if f.first ≠ none ∧ f.last = none then ([], .fault)
      else clear_loop_tr K fuel0 fuel (clear_keep f start) (clear_keep_link f start start)
    else if !f.pool_owned start then
      clear_loop_tr K fuel0 fuel (clear_next f start) (f.next start)
    else
      match clear_chunk K f fuel0 start 0 with
      | none => ([], .timeout)
      | some (n, next) =>
        seq_tr (buffer_pool_free_tr fuel0 (set_nbufs f start n) start) fun f =>
          clear_loop_tr K fuel0 fuel f next

/-- The function `fifo_buffer_clear` with its mutex calls: the fifo mutex is taken by the
first statement and given back by the last, behind `_fbc_reset` and `_fifo_mux_last`. -/
def fifo_buffer_clear_tr (K : BufferH) (fuel : Nat) (f : Fifo) : List LockEv × Outcome Fifo :=
  seq_tr ([LockEv.lock Mutex.queue], .done ()) fun _ =>
  seq_tr (clear_loop_tr K fuel fuel (clear_take f) f.first) fun f =>
  ([LockEv.unlock Mutex.queue], .done (_fifo_mux_last (_fbc_reset f)))

/-- The function `xine_fbc_set` with its mutex calls, for a non-null fifo: each of its three
returns gives the fifo mutex back. -/
def xine_fbc_set_tr (f : Fifo) (on_ : Bool) : List LockEv × (Fifo × Int) :=
  let t := [LockEv.lock Mutex.queue]
  if on_ then
    match f.alloc_cb 0 with
    | some cb => (t ++ [LockEv.unlock Mutex.queue], (f, if cb = fbc_dummy then 1 else 0))
    | none =>
      (t ++ [LockEv.unlock Mutex.queue],
        ({ f with alloc_cb := fun i => if i = 0 then some fbc_dummy else f.alloc_cb i,
                  alloc_cb_data := fun i => if i = 0 then fbc_initial f else f.alloc_cb_data i },
          1))
  else if f.alloc_cb 0 = some fbc_dummy then
    (t ++ [LockEv.unlock Mutex.queue],
      ({ f with alloc_cb := fun i => if i = 0 then none else f.alloc_cb i,
                alloc_cb_data := fun i => if i = 0 then 0 else f.alloc_cb_data i }, 0))
  else (t ++ [LockEv.unlock Mutex.queue], (f, 0))

/-- Whether the mutex `m` is taken at a point of the calls where the mutex `o` is held;
`held` tells whether `o` is held at the start.  A wait gives its mutex back and has it again
when it returns. -/
def locks_inside (o m : Mutex) : Bool → List LockEv → Bool
  | _, [] => false
  | held, LockEv.lock x :: t =>
    (held && decide (x = m)) || locks_inside o m (held || decide (x = o)) t
  | held, LockEv.unlock x :: t => locks_inside o m (held && !decide (x = o)) t
  | held, LockEv.wait _ :: t => locks_inside o m held t

/-- Whether the calls take the mutex `m`. -/
def takes (m : Mutex) (t : List LockEv) : Bool := decide (LockEv.lock m ∈ t)

/-- The mutex calls of one completed `buffer_pool_free`. -/
def free_calls : List LockEv := [LockEv.lock Mutex.pool, LockEv.unlock Mutex.pool]

/-- The callback tables of `f'` are those of `f`, but for the soft-start reservation
`alloc_cb_data[0]`. -/
def HooksSame (f f' : Fifo) : Prop :=
  f'.put_cb = f.put_cb ∧ f'.put_cb_data = f.put_cb_data ∧ f'.get_cb = f.get_cb ∧
  f'.get_cb_data = f.get_cb_data ∧ f'.alloc_cb = f.alloc_cb ∧
  ∀ i, i ≠ 0 → f'.alloc_cb_data i = f.alloc_cb_data i

/-- The heap `f'` agrees with `f` on what the functions of the fifo read and write with the
fifo mutex held: the list pointers, the two counters, the insertion cursors, the `next`
fields of the queued elements `q`, and the callback tables but for the soft-start
reservation. -/
structure QueueSame (f f' : Fifo) (q : List Int) : Prop where
  first : f'.first = f.first
  last : f'.last = f.last
  size : f'.fifo_size = f.fifo_size
  data : f'.fifo_data_size = f.fifo_data_size
  la0 : f'.last_add0 = f.last_add0
  la1 : f'.last_add1 = f.last_add1
  next : ∀ b ∈ q, f'.next b = f.next b
  hooks : HooksSame f f'

/-! ## The size counter -/

/-- Every control element of the queue counts 1 in `fifo_size`: it spans one slab, or it is a
custom element. -/
def clear_keeps_single (K : BufferH) (f : Fifo) : Prop :=
  ∀ q, Queue f q → ∀ b ∈ q, is_control K f b = true → fifo_weight f b = 1

/-- The states reachable from a freshly created fifo by completed calls among which
`fifo_buffer_clear` is made only on a queue whose control elements each count 1 (a step whose
result is that of a `fifo_buffer_clear` is taken only from such a queue). -/
inductive SizeReachable (K : BufferH) : Sys → Prop
  | init (num_buffers : Int) (buf_size : Nat) : SizeReachable K (Sys.init num_buffers buf_size)
  | step (s s' : Sys) : SizeReachable K s → Step K s s' →
      ((∃ fuel, fifo_buffer_clear K fuel s.f = .done s'.f) → clear_keeps_single K s.f) →
      SizeReachable K s'

/-! ## Unregistering callbacks -/

/-- The inner loop `for (j = i; cb[j]; j++) { cb[j] = cb[j+1]; data[j] = data[j+1]; }` of the
unregister functions, from index `j` on. -/
def hook_shift : Nat → Nat → (Nat → Option Nat) → (Nat → Int) →
    Option ((Nat → Option Nat) × (Nat → Int))
  | 0, _, _, _ => none
  | fuel + 1, j, cb, data =>
    match cb j with
    | none => some (cb, data)
    | some _ =>
      hook_shift fuel (j + 1) (fun k => if k = j then cb (j + 1) else cb k)
        (fun k => if k = j then data (j + 1) else data k)

/-- The loop `for (i = 0; cb[i]; i++) { if (cb[i] == c) { ... } }` of the three unregister
functions, from index `i` on, over arrays of `BUF_MAX_CALLBACKS` entries. -/
def hook_remove (K : BufferH) (c : Nat) : Nat → Nat → (Nat → Option Nat) → (Nat → Int) →
    Option ((Nat → Option Nat) × (Nat → Int))
  | 0, _, _, _ => none
  | fuel + 1, i, cb, data =>
    match cb i with
    | none => some (cb, data)
    | some x =>
      if x = c then
        match hook_shift K.BUF_MAX_CALLBACKS i cb data with
        | none => none
        | some r => hook_remove K c fuel (i + 1) r.1 r.2
      else hook_remove K c fuel (i + 1) cb data

/-- The function `fifo_unregister_put_cb`. -/
def fifo_unregister_put_cb (K : BufferH) (f : Fifo) (cb : Nat) : Outcome Fifo :=
  match hook_remove K cb K.BUF_MAX_CALLBACKS 0 f.put_cb f.put_cb_data with
  | none => .fault
  | some r => .done { f with put_cb := r.1, put_cb_data := r.2 }

/-- The function `fifo_unregister_get_cb`. -/
def fifo_unregister_get_cb (K : BufferH) (f : Fifo) (cb : Nat) : Outcome Fifo :=
  match hook_remove K cb K.BUF_MAX_CALLBACKS 0 f.get_cb f.get_cb_data with
  | none => .fault
  | some r => .done { f with get_cb := r.1, get_cb_data := r.2 }

/-- The function `fifo_unregister_alloc_cb`. -/
def fifo_unregister_alloc_cb (K : BufferH) (f : Fifo) (cb : Nat) : Outcome Fifo :=
  match hook_remove K cb K.BUF_MAX_CALLBACKS 0 f.alloc_cb f.alloc_cb_data with
  | none => .fault
  | some r => .done { f with alloc_cb := r.1, alloc_cb_data := r.2 }

/-- What the unregister loop leaves of a list of callbacks: an entry that equals `c` is
dropped, and the entry behind a dropped one is kept without being looked at. -/
def unregister_list (c : Nat) : List (Nat × Int) → List (Nat × Int)
  | [] => []
  | [h] => if h.1 = c then [] else [h]
  | h :: h2 :: t =>
    if h.1 = c then h2 :: unregister_list c t else h :: unregister_list c (h2 :: t)

/-- The callback array `cb` with its data array holds exactly the callbacks `L`, in order
from index 0, and is null behind them, as in a zeroed array to which callbacks were added
with the register functions. -/
def HookTable (cb : Nat → Option Nat) (data : Nat → Int) (L : List (Nat × Int)) : Prop :=
  (∀ k, cb k = (L[k]?).map Prod.fst) ∧ ∀ k h, L[k]? = some h → data k = h.2

/-- The sum of the weights of a list of elements. -/
def wsum (f : Fifo) : List Int → Int
  | [] => 0
  | b :: q => fifo_weight f b + wsum f q

/-! ## More call sequences -/

/-- The put callbacks 7 (data 1), 7 (data 2) and 8 (data 3) are registered in this order in
a fresh fifo, then callback 7 is unregistered; returns the put callbacks before and after. -/
def scenario_unregister : Outcome (List (Nat × Int) × List (Nat × Int)) :=
  (register_many (fifo_register_put_cb xineH) [(7, 1), (7, 2), (8, 3)]
    (_x_fifo_buffer_new 16 1024)).bind fun f =>
  (fifo_unregister_put_cb xineH f 7).bind fun g =>
  .done (put_hooks xineH f, put_hooks xineH g)

/-- A consumer that holds the ticket calls `fifo_buffer_tget` on the empty fifo of a 10-slab
pool and finds, when it wakes up with the video elements 0 and 1 queued, the ticket revoked;
returns the element and the ticket calls. -/
def scenario_tget_revoked : Outcome (Int × List TicketCall) :=
  (fifo_buffer_tget xineH pool3.f sized2.f true false true).map fun r => (r.2.1, r.2.2)

/-- Two audio elements of a 16-slab pool are put, the second carrying `BUF_FLAG_MERGE`;
returns the queue, the slab count of element 0 and the insertion cursor of the audio/video
group. -/
def scenario_merge_cursor : Outcome (List Int × Int × Link) :=
  (alloc_many xineH 2 (_x_fifo_buffer_new 16 1024)).bind fun p =>
  (put_many xineH 16 [(0, 0x03000000, 0, 0), (1, 0x03000000, 0, 0x20000)] p.1).bind fun f =>
  .done (fifo_list_from f 16 f.first, f.nbufs 0, f.last_add0)

/-- An element of 2 slabs is taken from a fresh 16-slab pool and put as a control element,
the fifo is cleared and the element is taken with `fifo_buffer_get`; returns the queue and
`fifo_buffer_size` after the put, after the clear and after the get. -/
def scenario_clear_size : Outcome (List (List Int × Int)) :=
  (_buffer_pool_size_alloc xineH 16 (_x_fifo_buffer_new 16 1024) 2).bind fun p =>
  (put_many xineH 16 [(p.2, 0x01000000, 0, 0)] p.1).bind fun f1 =>
  (fifo_buffer_clear xineH 16 f1).bind fun f2 =>
  (fifo_buffer_get xineH f2).bind fun r =>
  .done [(fifo_list_from f1 16 f1.first, fifo_buffer_size f1),
    (fifo_list_from f2 16 f2.first, fifo_buffer_size f2),
    (fifo_list_from r.1 16 r.1.first, fifo_buffer_size r.1)]

/-- A 10-slab pool with slabs 0 to 3 handed out, after the video element 0 (time stamp 100)
and the subtitle elements 1 (time stamp 200000) and 2 (time stamp 300000) were queued in this
order; element 3 is held by a client. -/
def mux3 : Sys :=
  (((pool3.alloc xineH).put xineH 10 0 0x02000000 100 0).put xineH 10 1 0x04000000 200000 0).put
    xineH 10 2 0x04000000 300000 0

/-- The state `mux3` after the client filled element 3 as an audio element with time stamp
150000. -/
def mux3a : Sys := mux3.fill 3 0x03000000 150000 0

/-- A subtitle element with time stamp 5 and then an audio element with the largest time
stamp of an `int64_t` are put into the empty fifo of a 10-slab pool; returns the queue and
the value of `epts` in the second put. -/
def scenario_pts_wrap : Outcome (List Int × Int) :=
  (alloc_many xineH 2 (_x_fifo_buffer_new 10 1024)).bind fun p =>
  (put_many xineH 10 [(0, 0x04000000, 5, 0), (1, 0x03000000, 9223372036854775807, 0)]
    p.1).bind fun f =>
  .done (fifo_list_from f 10 f.first, put_epts f 1 0)

/-- The mutex calls of `fifo_buffer_clear` on the queue of `queued4`, and whether the call
returns. -/
def scenario_clear_locks : List LockEv × Outcome Unit :=
  ((fifo_buffer_clear_tr xineH 10 queued4.f).1,
   (fifo_buffer_clear_tr xineH 10 queued4.f).2.map fun _ => ())

/-- Soft-start is enabled on a fresh pool of 100 slabs, one element is allocated and then
released: the mutex calls of `xine_fbc_set` and of `buffer_pool_free`, and the reservation
`alloc_cb_data[0]` before and after the release. -/
def scenario_release_res : Outcome (List LockEv × List LockEv × Int × Int) :=
  let f0 := (xine_fbc_set (_x_fifo_buffer_new 100 1024) true).1
  (buffer_pool_alloc xineH f0).bind fun p =>
  (buffer_pool_free 100 p.1 p.2).bind fun f2 =>
  .done ((xine_fbc_set_tr (_x_fifo_buffer_new 100 1024) true).1,
    (buffer_pool_free_tr 100 p.1 p.2).1, p.1.alloc_cb_data 0, f2.alloc_cb_data 0)

/-- A client calls `fifo_buffer_clear`; a call that does not return leaves the state alone. -/
def Sys.clear (K : BufferH) (fuel : Nat) (s : Sys) : Sys :=
  match fifo_buffer_clear K fuel s.f with
  | .done f' => { s with f := f' }
  | _ => s

/-- A client calls `_buffer_pool_size_alloc` for `n` slabs; a call that does not return leaves
the state alone. -/
def Sys.size_alloc (K : BufferH) (fuel : Nat) (s : Sys) (n : Int) : Sys :=
  match _buffer_pool_size_alloc K fuel s.f n with
  | .done (f', b) => { s with f := f', held := b :: s.held }
  | _ => s

/-- The 10-slab pool with slabs 0, 1 and 2 handed out, after element 0 was put as a control
element and element 1 as a video element, the fifo was cleared, which kept element 0, and an
element of 2 slabs (at slab 3) was allocated and put as a video element. -/
def cleared2 : Sys :=
  ((((pool3.put xineH 10 0 0x01000000 0 0).put xineH 10 1 0x02000000 0 0).clear xineH 10).size_alloc
    xineH 10 2).put xineH 10 3 0x02000000 0 0

/-- Soft-start is enabled on a fresh pool of 100 slabs and 24 elements are allocated: whether
`buffer_pool_alloc` returns in that state, and whether it returns once `xine_fbc_set` has
switched soft-start off, a call that writes the alloc callback table and nothing else. -/
def scenario_alloc_reads : Outcome (Outcome Unit × Outcome Unit) :=
  (alloc_many xineH 24 (xine_fbc_set (_x_fifo_buffer_new 100 1024) true).1).bind fun p =>
  .done ((buffer_pool_alloc xineH p.1).map fun _ => (),
    (buffer_pool_alloc xineH (xine_fbc_set p.1 false).1).map fun _ => ())

/-! ## Basic lemmas -/

@[simp]
theorem upd_same {β : Type} (g : Int → β) (a : Int) (v : β) : upd g a v a = v := by
  simp [upd]

theorem upd_ne {β : Type} (g : Int → β) {a x : Int} (v : β) (h : x ≠ a) : upd g a v x = g x := by
  simp [upd, h]

theorem upd_apply {β : Type} (g : Int → β) (a x : Int) (v : β) :
    upd g a v x = if x = a then v else g x := rfl

theorem ind_le_one (s l j : Int) : ind s l j ≤ 1 := by
  unfold ind; split <;> omega

theorem ind_pos {s l j : Int} (h1 : s ≤ j) (h2 : j < s + l) : ind s l j = 1 := by
  simp [ind, h1, h2]

theorem ind_zero {s l j : Int} (h : ¬ (s ≤ j ∧ j < s + l)) : ind s l j = 0 := by
  simp only [ind, h, if_false]

theorem ind_split (s l n j : Int) (h0 : 0 ≤ n) (h1 : n ≤ l) :
    ind s l j = ind s n j + ind (s + n) (l - n) j := by
  unfold ind; split_ifs <;> omega

@[simp]
theorem cnt_nil (j : Int) : cnt [] j = 0 := rfl

@[simp]
theorem cnt_cons (r : Int × Int) (rs : List (Int × Int)) (j : Int) :
    cnt (r :: rs) j = ind r.1 r.2 j + cnt rs j := rfl

theorem cnt_append (l1 l2 : List (Int × Int)) (j : Int) :
    cnt (l1 ++ l2) j = cnt l1 j + cnt l2 j := by
  induction l1 with
  | nil => simp
  | cons r l1 ih => simp [ih]; omega

theorem cnt_pos_of_mem {rs : List (Int × Int)} {r : Int × Int} {j : Int}
    (hr : r ∈ rs) (h1 : r.1 ≤ j) (h2 : j < r.1 + r.2) : 1 ≤ cnt rs j := by
  induction rs with
  | nil => cases hr
  | cons a rs ih =>
    rcases List.mem_cons.1 hr with h | h
    · subst h; simp [ind_pos h1 h2]
    · have := ih h; simp; omega

theorem cnt_zero_of_forall {rs : List (Int × Int)} {j : Int}
    (h : ∀ r ∈ rs, ¬ (r.1 ≤ j ∧ j < r.1 + r.2)) : cnt rs j = 0 := by
  induction rs with
  | nil => rfl
  | cons a rs ih =>
    simp only [cnt_cons]
    rw [ind_zero (h a (List.mem_cons_self _ _)), ih (fun r hr => h r (List.mem_cons_of_mem _ hr))]

theorem exists_mem_of_cnt_pos {rs : List (Int × Int)} {j : Int} (h : 1 ≤ cnt rs j) :
    ∃ r ∈ rs, r.1 ≤ j ∧ j < r.1 + r.2 := by
  by_contra hc
  push_neg at hc
  have := @cnt_zero_of_forall rs j (fun r hr hh => by
    have := hc r hr hh.1; omega)
  omega

theorem cnt_perm {l1 l2 : List (Int × Int)} (h : l1.Perm l2) (j : Int) : cnt l1 j = cnt l2 j := by
  induction h with
  | nil => rfl
  | cons x _ ih => simp [ih]
  | swap x y l => simp; omega
  | trans _ _ ih1 ih2 => exact ih1.trans ih2

@[simp]
theorem lsum_nil : lsum [] = 0 := rfl

@[simp]
theorem lsum_cons (r : Int × Int) (rs : List (Int × Int)) : lsum (r :: rs) = r.2 + lsum rs := rfl

theorem lsum_append (l1 l2 : List (Int × Int)) : lsum (l1 ++ l2) = lsum l1 + lsum l2 := by
  induction l1 with
  | nil => simp
  | cons r l1 ih => simp [ih]; omega

@[simp]
theorem bsum_nil (f : Fifo) : bsum f [] = 0 := rfl

@[simp]
theorem bsum_cons (f : Fifo) (b : Int) (out : List Int) :
    bsum f (b :: out) = f.nbufs b + bsum f out := rfl

theorem bsum_append (f : Fifo) (l1 l2 : List Int) : bsum f (l1 ++ l2) = bsum f l1 + bsum f l2 := by
  induction l1 with
  | nil => simp
  | cons r l1 ih => simp [ih]; omega

theorem bsum_perm (f : Fifo) {l1 l2 : List Int} (h : l1.Perm l2) : bsum f l1 = bsum f l2 := by
  induction h with
  | nil => rfl
  | cons x _ ih => simp [ih]
  | swap x y l => simp; omega
  | trans _ _ ih1 ih2 => exact ih1.trans ih2

theorem bsum_congr {f f' : Fifo} {out : List Int} (h : ∀ b ∈ out, f'.nbufs b = f.nbufs b) :
    bsum f' out = bsum f out := by
  induction out with
  | nil => rfl
  | cons b out ih =>
    simp only [bsum_cons]
    rw [h b (List.mem_cons_self _ _), ih (fun x hx => h x (List.mem_cons_of_mem _ hx))]

@[simp]
theorem blk_nil (f : Fifo) : blk f [] = [] := rfl

@[simp]
theorem blk_cons (f : Fifo) (b : Int) (out : List Int) :
    blk f (b :: out) = (b, f.nbufs b) :: blk f out := rfl

theorem blk_append (f : Fifo) (l1 l2 : List Int) : blk f (l1 ++ l2) = blk f l1 ++ blk f l2 := by
  simp [blk]

theorem blk_congr {f f' : Fifo} {out : List Int} (h : ∀ b ∈ out, f'.nbufs b = f.nbufs b) :
    blk f' out = blk f out := by
  unfold blk
  apply List.map_congr_left
  intro b hb
  rw [h b hb]

theorem blk_perm (f : Fifo) {l1 l2 : List Int} (h : l1.Perm l2) : (blk f l1).Perm (blk f l2) :=
  h.map _

theorem mem_blk {f : Fifo} {out : List Int} {b : Int} (h : b ∈ out) : (b, f.nbufs b) ∈ blk f out :=
  List.mem_map.2 ⟨b, h, rfl⟩

/-! ## Free segments -/

theorem FreeSeg_congr {next next' : Int → Option Int} {nbufs nbufs' : Int → Int}
    {rs : List (Int × Int)} {a b : Option Int}
    (hn : ∀ r ∈ rs, ∀ j, r.1 ≤ j → j < r.1 + r.2 → next' j = next j)
    (hb : ∀ r ∈ rs, nbufs' r.1 = nbufs r.1)
    (h : FreeSeg next nbufs a rs b) : FreeSeg next' nbufs' a rs b := by
  induction rs generalizing a with
  | nil => exact h
  | cons r rs ih =>
    obtain ⟨h1, h2, h3, h4, h5⟩ := h
    have hr := List.mem_cons_self r rs
    refine ⟨h1, by rw [hb r hr]; exact h2, h3, ?_, ?_⟩
    · intro j hj1 hj2
      rw [hn r hr j hj1 (by omega)]
      exact h4 j hj1 hj2
    · rw [hn r hr _ (by omega) (by omega)]
      exact ih (fun p hp => hn p (List.mem_cons_of_mem _ hp))
        (fun p hp => hb p (List.mem_cons_of_mem _ hp)) h5

theorem FreeSeg_append {next : Int → Option Int} {nbufs : Int → Int}
    {l1 l2 : List (Int × Int)} {a b : Option Int} :
    FreeSeg next nbufs a (l1 ++ l2) b ↔ ∃ m, FreeSeg next nbufs a l1 m ∧ FreeSeg next nbufs m l2 b := by
  induction l1 generalizing a with
  | nil =>
    constructor
    · intro h; exact ⟨a, rfl, h⟩
    · rintro ⟨m, h1, h2⟩
      have : a = m := h1
      subst this; exact h2
  | cons r l1 ih =>
    constructor
    · rintro ⟨h1, h2, h3, h4, h5⟩
      obtain ⟨m, hm1, hm2⟩ := ih.1 h5
      exact ⟨m, ⟨h1, h2, h3, h4, hm1⟩, hm2⟩
    · rintro ⟨m, ⟨h1, h2, h3, h4, h5⟩, hm2⟩
      exact ⟨h1, h2, h3, h4, ih.2 ⟨m, h5, hm2⟩⟩

theorem FreeSeg_pos {next : Int → Option Int} {nbufs : Int → Int}
    {rs : List (Int × Int)} {a b : Option Int} (h : FreeSeg next nbufs a rs b) :
    ∀ r ∈ rs, 0 < r.2 := by
  induction rs generalizing a with
  | nil => intro r hr; cases hr
  | cons p rs ih =>
    obtain ⟨_, _, h3, _, h5⟩ := h
    intro r hr
    rcases List.mem_cons.1 hr with h | h
    · subst h; exact h3
    · exact ih h5 r h

theorem lsum_nonneg {rs : List (Int × Int)} (h : ∀ r ∈ rs, 0 < r.2) : 0 ≤ lsum rs := by
  induction rs with
  | nil => simp
  | cons p rs ih =>
    have := h p (List.mem_cons_self _ _)
    have := ih (fun r hr => h r (List.mem_cons_of_mem _ hr))
    simp; omega

theorem length_le_lsum {rs : List (Int × Int)} (h : ∀ r ∈ rs, 0 < r.2) :
    (rs.length : Int) ≤ lsum rs := by
  induction rs with
  | nil => simp
  | cons p rs ih =>
    have := h p (List.mem_cons_self _ _)
    have := ih (fun r hr => h r (List.mem_cons_of_mem _ hr))
    simp; omega

/-- In a gapped list of positive runs every later run starts behind the end of the first. -/
theorem gapped_above {r : Int × Int} {rs : List (Int × Int)}
    (hg : Gapped (r :: rs)) (hp : ∀ p ∈ rs, 0 < p.2) : ∀ p ∈ rs, r.1 + r.2 < p.1 := by
  induction rs generalizing r with
  | nil => intro p hp; cases hp
  | cons a rs ih =>
    have h1 : r.1 + r.2 < a.1 := (List.chain'_cons.1 hg).1
    have h2 : Gapped (a :: rs) := (List.chain'_cons.1 hg).2
    have ha := hp a (List.mem_cons_self _ _)
    intro p hpm
    rcases List.mem_cons.1 hpm with h | h
    · subst h; exact h1
    · have := ih h2 (fun p hp' => hp p (List.mem_cons_of_mem _ hp')) p h
      omega

theorem Gapped.tail {r : Int × Int} {rs : List (Int × Int)} (hg : Gapped (r :: rs)) : Gapped rs :=
  List.Chain'.tail hg

/-! ## Consequences of the pool invariant -/

theorem cnt_two_of_mem {l : List (Int × Int)} {a b : Int × Int} {j : Int}
    (h : [a, b].Sublist l) (ha1 : a.1 ≤ j) (ha2 : j < a.1 + a.2) (hb1 : b.1 ≤ j) (hb2 : j < b.1 + b.2) :
    2 ≤ cnt l j := by
  induction l with
  | nil => cases h
  | cons x l ih =>
    cases h with
    | cons _ h' => have := ih h'; simp; omega
    | cons₂ _ h' =>
      have hb : b ∈ l := by
        have := h'.subset (List.mem_singleton_self b)
        exact this
      have := cnt_pos_of_mem hb hb1 hb2
      simp [ind_pos ha1 ha2]; omega

theorem PInv.arena_of_free {f : Fifo} {rs : List (Int × Int)} {out : List Int} (h : PInv f rs out)
    {r : Int × Int} {j : Int} (hr : r ∈ rs) (h1 : r.1 ≤ j) (h2 : j < r.1 + r.2) :
    0 ≤ j ∧ j < f.buffer_pool_capacity := by
  have h3 := cnt_pos_of_mem hr h1 h2
  have h4 := h.tile j
  by_contra hc
  rw [if_neg hc] at h4
  omega

theorem PInv.cnt_out_zero {f : Fifo} {rs : List (Int × Int)} {out : List Int} (h : PInv f rs out)
    {r : Int × Int} {j : Int} (hr : r ∈ rs) (h1 : r.1 ≤ j) (h2 : j < r.1 + r.2) :
    cnt (blk f out) j = 0 := by
  have h3 := cnt_pos_of_mem hr h1 h2
  have h4 := h.tile j
  split at h4 <;> omega

theorem PInv.free_not_out {f : Fifo} {rs : List (Int × Int)} {out : List Int} (h : PInv f rs out)
    {r : Int × Int} {j : Int} (hr : r ∈ rs) (h1 : r.1 ≤ j) (h2 : j < r.1 + r.2) : j ∉ out := by
  intro hj
  have ha := h.arena_of_free hr h1 h2
  have hp := h.pos j hj ha.1 ha.2
  have h0 := h.cnt_out_zero hr h1 h2
  have := cnt_pos_of_mem (mem_blk (f := f) hj) (j := j) (le_refl _) (by simp; omega)
  omega

theorem PInv.run_in_arena {f : Fifo} {rs : List (Int × Int)} {out : List Int} (h : PInv f rs out)
    {r : Int × Int} (hr : r ∈ rs) : 0 ≤ r.1 ∧ r.1 + r.2 ≤ f.buffer_pool_capacity := by
  have hp := FreeSeg_pos h.seg r hr
  have h1 := h.arena_of_free hr (j := r.1) (le_refl _) (by omega)
  have h2 := h.arena_of_free hr (j := r.1 + r.2 - 1) (by omega) (by omega)
  omega

theorem PInv.out_in_arena {f : Fifo} {rs : List (Int × Int)} {out : List Int} (h : PInv f rs out)
    {b : Int} (hb : b ∈ out) (h0 : 0 ≤ b) (h1 : b < f.buffer_pool_capacity) :
    b + f.nbufs b ≤ f.buffer_pool_capacity := by
  have hp := h.pos b hb h0 h1
  have h2 := cnt_pos_of_mem (mem_blk (f := f) hb) (j := b + f.nbufs b - 1) (by simp; omega) (by simp)
  have h4 := h.tile (b + f.nbufs b - 1)
  by_contra hc
  rw [if_neg (by omega)] at h4
  omega

/-- An outstanding element and a free run do not overlap. -/
theorem PInv.out_disjoint_run {f : Fifo} {rs : List (Int × Int)} {out : List Int} (h : PInv f rs out)
    {b : Int} (hb : b ∈ out) {r : Int × Int} (hr : r ∈ rs) :
    b + f.nbufs b ≤ r.1 ∨ r.1 + r.2 ≤ b := by
  have hra := h.run_in_arena hr
  have hrp := FreeSeg_pos h.seg r hr
  by_cases ha : 0 ≤ b ∧ b < f.buffer_pool_capacity
  · have hp := h.pos b hb ha.1 ha.2
    by_contra hc
    push_neg at hc
    have h0 := h.cnt_out_zero hr (j := max b r.1) (le_max_right _ _) (by
      rcases max_cases b r.1 with ⟨h1, _⟩ | ⟨h1, _⟩ <;> omega)
    have := cnt_pos_of_mem (mem_blk (f := f) hb) (j := max b r.1) (le_max_left _ _) (by
      simp only; rcases max_cases b r.1 with ⟨h1, _⟩ | ⟨h1, _⟩ <;> omega)
    omega
  · have := h.foreign b ha
    have := h.notcap b hb
    omega

theorem PInv.nbufs_nonneg {f : Fifo} {rs : List (Int × Int)} {out : List Int} (h : PInv f rs out)
    {b : Int} (hb : b ∈ out) : 0 ≤ f.nbufs b := by
  by_cases ha : 0 ≤ b ∧ b < f.buffer_pool_capacity
  · have := h.pos b hb ha.1 ha.2; omega
  · rw [h.foreign b ha]

/-- Two outstanding elements do not overlap. -/
theorem PInv.out_disjoint {f : Fifo} {rs : List (Int × Int)} {out : List Int} (h : PInv f rs out)
    {a b : Int} (hab : [a, b].Sublist out) :
    a + f.nbufs a ≤ b ∨ b + f.nbufs b ≤ a ∨ f.nbufs a = 0 ∨ f.nbufs b = 0 := by
  have hsub : [(a, f.nbufs a), (b, f.nbufs b)].Sublist (blk f out) := by
    have := hab.map (fun b => (b, f.nbufs b))
    simpa [blk] using this
  have hma : a ∈ out := hab.subset (List.mem_cons_self _ _)
  have hmb : b ∈ out := hab.subset (List.mem_cons_of_mem _ (List.mem_singleton_self b))
  have hna := h.nbufs_nonneg hma
  have hnb := h.nbufs_nonneg hmb
  by_contra hc
  push_neg at hc
  have h2 := cnt_two_of_mem hsub (j := max a b) (le_max_left _ _) (by
      simp only; rcases max_cases a b with ⟨h1, _⟩ | ⟨h1, _⟩ <;> omega) (le_max_right _ _) (by
      simp only; rcases max_cases a b with ⟨h1, _⟩ | ⟨h1, _⟩ <;> omega)
  have h4 := h.tile (max a b)
  split at h4 <;> omega

theorem PInv.nfree_nonneg {f : Fifo} {rs : List (Int × Int)} {out : List Int} (h : PInv f rs out) :
    0 ≤ f.buffer_pool_num_free := by
  rw [h.nfree]; exact lsum_nonneg (FreeSeg_pos h.seg)

theorem bsum_nonneg {f : Fifo} {out : List Int} (h : ∀ b ∈ out, 0 ≤ f.nbufs b) : 0 ≤ bsum f out := by
  induction out with
  | nil => simp
  | cons p rs ih =>
    have := h p (List.mem_cons_self _ _)
    have := ih (fun r hr => h r (List.mem_cons_of_mem _ hr))
    simp; omega

theorem PInv.nfree_le {f : Fifo} {rs : List (Int × Int)} {out : List Int} (h : PInv f rs out) :
    f.buffer_pool_num_free ≤ f.buffer_pool_capacity := by
  have := h.total
  have := @bsum_nonneg f out (fun b hb => h.nbufs_nonneg hb)
  omega

theorem PInv.perm {f : Fifo} {rs : List (Int × Int)} {out out' : List Int} (h : PInv f rs out)
    (hp : out.Perm out') : PInv f rs out' where
  native := h.native
  owned := h.owned
  foreign := h.foreign
  res := h.res
  seg := h.seg
  gap := h.gap
  nfree := h.nfree
  tile := fun j => by rw [← cnt_perm (blk_perm f hp) j]; exact h.tile j
  total := by rw [← bsum_perm f hp]; exact h.total
  nodup := hp.nodup_iff.1 h.nodup
  pos := fun b hb => h.pos b (hp.mem_iff.2 hb)
  notcap := fun b hb => h.notcap b (hp.mem_iff.2 hb)

/-! ## Taking the head slab: `buffer_pool_alloc`, `buffer_pool_try_alloc` -/

theorem Gapped.replace_head {r r' : Int × Int} {rest : List (Int × Int)}
    (hg : Gapped (r :: rest)) (h : r'.1 + r'.2 = r.1 + r.2) : Gapped (r' :: rest) := by
  cases rest with
  | nil => exact List.chain'_singleton _
  | cons a rest =>
    have h1 := List.chain'_cons.1 hg
    exact List.chain'_cons.2 ⟨by have := h1.1; omega, h1.2⟩

theorem alloc_runs_cons (r : Int × Int) (rest : List (Int × Int)) :
    alloc_runs (r :: rest) = if r.2 - 1 > 0 then (r.1 + 1, r.2 - 1) :: rest else rest := rfl

theorem PInv.top_eq {f : Fifo} {r : Int × Int} {rest : List (Int × Int)} {out : List Int}
    (h : PInv f (r :: rest) out) : f.buffer_pool_top = some r.1 := h.seg.1

/-- The heap change common to the single-slab allocators keeps the pool invariant. -/
theorem PInv.alloc_core {f f' : Fifo} {r : Int × Int} {rest : List (Int × Int)} {out : List Int}
    (h : PInv f (r :: rest) out)
    (hnat : f'.native = f.native) (hown : f'.pool_owned = f.pool_owned)
    (hcap : f'.buffer_pool_capacity = f.buffer_pool_capacity)
    (hres : f'.alloc_cb_data = f.alloc_cb_data) (hnext : f'.next = f.next)
    (htop : f'.buffer_pool_top = f.next r.1)
    (hnb : f'.nbufs =
      upd (if f.nbufs r.1 - 1 > 0 then upd f.nbufs (r.1 + 1) (f.nbufs r.1 - 1) else f.nbufs) r.1 1)
    (hfree : f'.buffer_pool_num_free = f.buffer_pool_num_free - 1) :
    PInv f' (alloc_runs (r :: rest)) (r.1 :: out) ∧ ∀ b ∈ out, f'.nbufs b = f.nbufs b := by
  obtain ⟨h1, h2, h3, h4, h5⟩ := h.seg
  rw [h2] at hnb
  have hmem : r ∈ r :: rest := List.mem_cons_self _ _
  have hpos := FreeSeg_pos h.seg
  have habove := gapped_above h.gap (fun p hp => hpos p (List.mem_cons_of_mem _ hp))
  have hra := h.run_in_arena hmem
  have hnotout : r.1 ∉ out := h.free_not_out hmem (le_refl _) (by omega)
  have hnbout : ∀ b ∈ out, f'.nbufs b = f.nbufs b := by
    intro b hb
    have hb0 : b ≠ r.1 := fun e => hnotout (e ▸ hb)
    rw [hnb, upd_ne _ _ hb0]
    split
    · have : b ≠ r.1 + 1 := fun e =>
        h.free_not_out hmem (j := r.1 + 1) (by omega) (by omega) (e ▸ hb)
      rw [upd_ne _ _ this]
    · rfl
  have hnbrest : ∀ p ∈ rest, f'.nbufs p.1 = f.nbufs p.1 := by
    intro p hp
    have := habove p hp
    rw [hnb, upd_ne _ _ (by omega)]
    split
    · rw [upd_ne _ _ (by omega)]
    · rfl
  have hrest : FreeSeg f'.next f'.nbufs (f.next (r.1 + r.2 - 1)) rest none := by
    rw [hnext]
    exact FreeSeg_congr (fun _ _ _ _ _ => rfl) hnbrest h5
  have hself : f'.nbufs r.1 = 1 := by rw [hnb, upd_same]
  refine ⟨?_, hnbout⟩
  refine
    { native := by rw [hnat]; exact h.native
      owned := by rw [hown, hcap]; exact h.owned
      foreign := ?_
      res := by rw [hres]; exact h.res
      seg := ?_
      gap := ?_
      nfree := ?_
      tile := ?_
      total := ?_
      nodup := List.nodup_cons.2 ⟨hnotout, h.nodup⟩
      pos := ?_
      notcap := ?_ }
  · intro b hb
    rw [hcap] at hb
    rw [hnb, upd_ne _ _ (by omega)]
    split
    · rw [upd_ne _ _ (by omega)]; exact h.foreign b hb
    · exact h.foreign b hb
  · unfold FreeList
    rw [htop, alloc_runs_cons]
    by_cases hl : r.2 - 1 > 0
    · rw [if_pos hl]
      refine ⟨h4 r.1 (le_refl _) (by omega), ?_, hl, ?_, ?_⟩
      · rw [hnb, upd_ne _ _ (by simp), if_pos hl, upd_same]
      · intro j hj1 hj2
        rw [hnext]
        exact h4 j (by simp at hj1; omega) (by simp at hj2; omega)
      · have : r.1 + 1 + (r.2 - 1) - 1 = r.1 + r.2 - 1 := by omega
        simp only [this]
        rw [hnext]; rw [hnext] at hrest; exact hrest
    · rw [if_neg hl]
      have : r.1 + r.2 - 1 = r.1 := by omega
      rw [this] at hrest
      exact hrest
  · rw [alloc_runs_cons]
    by_cases hl : r.2 - 1 > 0
    · rw [if_pos hl]; exact h.gap.replace_head (by simp)
    · rw [if_neg hl]; exact h.gap.tail
  · rw [hfree, h.nfree, alloc_runs_cons]
    by_cases hl : r.2 - 1 > 0
    · rw [if_pos hl]; simp only [lsum_cons]; omega
    · rw [if_neg hl]; simp only [lsum_cons]; omega
  · intro j
    have ht := h.tile j
    rw [hcap]
    simp only [blk_cons, cnt_cons, blk_congr hnbout, hself] at ht ⊢
    rw [alloc_runs_cons]
    by_cases hl : r.2 - 1 > 0
    · rw [if_pos hl]
      simp only [cnt_cons]
      have := ind_split r.1 r.2 1 j (by omega) (by omega)
      omega
    · rw [if_neg hl]
      have h21 : r.2 = 1 := by omega
      rw [h21] at ht
      omega
  · rw [hfree, hcap]
    simp only [bsum_cons, bsum_congr hnbout, hself]
    have := h.total
    omega
  · intro b hb
    rcases List.mem_cons.1 hb with e | hb
    · subst e; intro _ _; rw [hself]
    · rw [hnbout b hb, hcap]; exact h.pos b hb
  · intro b hb
    rw [hcap]
    rcases List.mem_cons.1 hb with e | hb
    · subst e; omega
    · exact h.notcap b hb

/-- A pool with at least one free slab has a first run. -/
theorem PInv.exists_head {f : Fifo} {rs : List (Int × Int)} {out : List Int} (h : PInv f rs out)
    (hfree : 1 ≤ f.buffer_pool_num_free) : ∃ r rest, rs = r :: rest := by
  cases rs with
  | nil => have := h.nfree; simp at this; omega
  | cons r rest => exact ⟨r, rest, rfl⟩

theorem fbc_avail_le {f : Fifo} {rs : List (Int × Int)} {out : List Int} (h : PInv f rs out) :
    _fbc_avail f ≤ f.buffer_pool_num_free := by
  unfold _fbc_avail
  have := h.res
  split <;> omega

/-! ## Frames -/

theorem QSeg_congr {next next' : Int → Option Int} {q : List Int} {a b : Option Int}
    (hn : ∀ x ∈ q, next' x = next x) (h : QSeg next a q b) : QSeg next' a q b := by
  induction q generalizing a with
  | nil => exact h
  | cons x q ih =>
    obtain ⟨h1, h2⟩ := h
    refine ⟨h1, ?_⟩
    rw [hn x (List.mem_cons_self _ _)]
    exact ih (fun y hy => hn y (List.mem_cons_of_mem _ hy)) h2

theorem tix_congr {K : BufferH} {f f' : Fifo} {b : Int} (h : f'.type b = f.type b) :
    tix K f' b = tix K f b := by
  unfold tix; rw [h]

theorem Cur.frame_types {K : BufferH} {f f' : Fifo} {q : List Int} {l : Link} {g : Nat}
    (h : Cur K f q l g) (ht : ∀ b ∈ q, f'.type b = f.type b) : Cur K f' q l g := by
  obtain ⟨q1, q2, e, hl, hg⟩ := h
  refine ⟨q1, q2, e, hl, fun x hx => ?_⟩
  rw [tix_congr (ht x (by rw [e]; exact List.mem_append_right _ hx))]
  exact hg x hx

/-- A change of the heap that leaves the queued elements alone keeps the fifo invariant. -/
theorem QInv.frame {K : BufferH} {s s' : Sys} {q : List Int} (h : QInv K s q)
    (hf : Frame s.f s'.f q) (hs : s'.stamp = s.stamp) (hc : s'.clock = s.clock) : QInv K s' q where
  seg := by
    unfold Queue
    rw [hf.first]
    exact QSeg_congr hf.next h.seg
  last := by rw [hf.last]; exact h.last
  cur0 := by rw [hf.la0]; exact h.cur0.frame_types hf.type
  cur1 := by rw [hf.la1]; exact h.cur1.frame_types hf.type
  clk := by rw [hs, hc]; exact h.clk
  ord := by
    intro x hx y hy i j h1 h2 h3 h4
    rw [hs] at h1 h2
    rw [tix_congr (hf.type x hx), tix_congr (hf.type y hy)] at h4
    exact h.ord x hx y hy i j h1 h2 h3 h4

theorem Frame.mono {f f' : Fifo} {q q' : List Int} (h : Frame f f' q) (hq : ∀ b ∈ q', b ∈ q) :
    Frame f f' q' :=
  { first := h.first, last := h.last, la0 := h.la0, la1 := h.la1, cap := h.cap
    next := fun b hb => h.next b (hq b hb), type := fun b hb => h.type b (hq b hb)
    nbufs := fun b hb => h.nbufs b (hq b hb) }

/-! ## `buffer_pool_alloc` and `buffer_pool_try_alloc` -/

theorem fbc_avail_run_alloc_cb (K : BufferH) (f : Fifo) : _fbc_avail (run_alloc_cb K f) = _fbc_avail f := rfl

/-- What a completed `buffer_pool_alloc` does. -/
theorem alloc_done {K : BufferH} {f f' : Fifo} {b : Int} {rs : List (Int × Int)} {out : List Int}
    (h : PInv f rs out) (ha : buffer_pool_alloc K f = .done (f', b)) :
    2 ≤ _fbc_avail f ∧ (∃ r rest, rs = r :: rest ∧ b = r.1) ∧
    f' = reset_element (take_head_native (run_alloc_cb K f) b) b f.buffer_pool_buf_size ∧
    PInv f' (alloc_runs rs) (b :: out) ∧ Frame f f' out := by
  unfold buffer_pool_alloc at ha
  simp only [fbc_avail_run_alloc_cb] at ha
  split at ha
  · cases ha
  · rename_i hav
    have hfree : 1 ≤ f.buffer_pool_num_free := by have := fbc_avail_le h; omega
    obtain ⟨r, rest, rfl⟩ := h.exists_head hfree
    have htop : (run_alloc_cb K f).buffer_pool_top = some r.1 := h.top_eq
    rw [htop] at ha
    simp only [Outcome.done.injEq, Prod.mk.injEq] at ha
    obtain ⟨hf, hb⟩ := ha
    subst hb
    subst hf
    have hcore := @PInv.alloc_core _ (reset_element (take_head_native (run_alloc_cb K f) r.1) r.1
        (run_alloc_cb K f).buffer_pool_buf_size) _ _ _ h rfl rfl rfl rfl rfl rfl (by
      show (if _fifo_is_native (run_alloc_cb K f) = true then _ else _) = _
      have : _fifo_is_native (run_alloc_cb K f) = true := h.native
      rw [if_pos this]
      rfl) rfl
    exact ⟨by omega, ⟨r, rest, rfl, rfl⟩, rfl, hcore.1,
      { first := rfl, last := rfl, la0 := rfl, la1 := rfl, cap := rfl
        next := fun _ _ => rfl, type := fun _ _ => rfl, nbufs := hcore.2 }⟩

/-- What `buffer_pool_try_alloc` does. -/
theorem try_alloc_done {f : Fifo} {rs : List (Int × Int)} {out : List Int} (h : PInv f rs out) :
    (rs = [] ∧ buffer_pool_try_alloc f = (f, none)) ∨
    (∃ r rest, rs = r :: rest ∧
      buffer_pool_try_alloc f
        = (reset_element (take_head_native f r.1) r.1 f.buffer_pool_buf_size, some r.1) ∧
      PInv (buffer_pool_try_alloc f).1 (alloc_runs rs) (r.1 :: out) ∧
      Frame f (buffer_pool_try_alloc f).1 out) := by
  cases rs with
  | nil =>
    left
    have htop : f.buffer_pool_top = none := h.seg
    exact ⟨rfl, by unfold buffer_pool_try_alloc; rw [htop]⟩
  | cons r rest =>
    right
    have htop : f.buffer_pool_top = some r.1 := h.top_eq
    have he : buffer_pool_try_alloc f
        = (reset_element (take_head_native f r.1) r.1 f.buffer_pool_buf_size, some r.1) := by
      unfold buffer_pool_try_alloc; rw [htop]
    have hcore := @PInv.alloc_core _
      (reset_element (take_head_native f r.1) r.1 f.buffer_pool_buf_size) _ _ _ h
      rfl rfl rfl rfl rfl rfl (by
      show (if _fifo_is_native f = true then _ else _) = _
      have : _fifo_is_native f = true := h.native
      rw [if_pos this]) rfl
    refine ⟨r, rest, rfl, he, ?_, ?_⟩
    · rw [he]; exact hcore.1
    · rw [he]
      exact { first := rfl, last := rfl, la0 := rfl, la1 := rfl, cap := rfl
              next := fun _ _ => rfl, type := fun _ _ => rfl, nbufs := hcore.2 }

/-! ## The free-run list after a release: list lemmas -/

theorem merge_next_nil (e n : Int) : merge_next e n [] = [(e, n)] := rfl

theorem merge_next_cons (e n : Int) (r : Int × Int) (rest : List (Int × Int)) :
    merge_next e n (r :: rest) = if e + n = r.1 then (e, n + r.2) :: rest else (e, n) :: r :: rest :=
  rfl

theorem merge_prev_cons (p r : Int × Int) (rest : List (Int × Int)) :
    merge_prev p (r :: rest) = if p.1 + p.2 = r.1 then (p.1, p.2 + r.2) :: rest else p :: r :: rest :=
  rfl

theorem free_after_nil (e n : Int) (p : Int × Int) :
    free_after e n p [] = merge_prev p (merge_next e n []) := rfl

theorem free_after_cons (e n : Int) (p r : Int × Int) (rest : List (Int × Int)) :
    free_after e n p (r :: rest) =
      if e + n ≤ r.1 then merge_prev p (merge_next e n (r :: rest)) else p :: free_after e n r rest :=
  rfl

theorem free_spec_cons (e n : Int) (r : Int × Int) (rest : List (Int × Int)) :
    free_spec e n (r :: rest) =
      if e + n ≤ r.1 then merge_next e n (r :: rest) else free_after e n r rest := rfl

/-- The shape of `merge_next`: the released block, possibly grown, then a suffix. -/
theorem merge_next_shape (e n : Int) (l : List (Int × Int)) :
    ∃ m R, merge_next e n l = (e, m) :: R := by
  cases l with
  | nil => exact ⟨n, [], rfl⟩
  | cons r rest =>
    rw [merge_next_cons]
    split
    · exact ⟨_, _, rfl⟩
    · exact ⟨_, _, rfl⟩

theorem cnt_merge_next (e n : Int) (hn : 0 ≤ n) (l : List (Int × Int)) (hl : ∀ r ∈ l, 0 < r.2)
    (j : Int) : cnt (merge_next e n l) j = ind e n j + cnt l j := by
  cases l with
  | nil => rfl
  | cons r rest =>
    rw [merge_next_cons]
    have := hl r (List.mem_cons_self _ _)
    split
    · rename_i h
      simp only [cnt_cons]
      have := ind_split e (n + r.2) n j hn (by omega)
      rw [h, show n + r.2 - n = r.2 by omega] at this
      omega
    · simp only [cnt_cons]

theorem cnt_merge_prev (p : Int × Int) (hp : 0 < p.2) (l : List (Int × Int))
    (hl : ∀ r ∈ l, 0 < r.2) (j : Int) : cnt (merge_prev p l) j = ind p.1 p.2 j + cnt l j := by
  cases l with
  | nil => rfl
  | cons r rest =>
    rw [merge_prev_cons]
    have := hl r (List.mem_cons_self _ _)
    split
    · rename_i h
      simp only [cnt_cons]
      have := ind_split p.1 (p.2 + r.2) p.2 j (by omega) (by omega)
      rw [h, show p.2 + r.2 - p.2 = r.2 by omega] at this
      omega
    · simp only [cnt_cons]

theorem merge_next_pos (e n : Int) (hn : 0 < n) (l : List (Int × Int)) (hl : ∀ r ∈ l, 0 < r.2) :
    ∀ r ∈ merge_next e n l, 0 < r.2 := by
  cases l with
  | nil => intro r hr; simp [merge_next_nil] at hr; subst hr; exact hn
  | cons a rest =>
    have ha := hl a (List.mem_cons_self _ _)
    rw [merge_next_cons]
    split
    · intro r hr
      rcases List.mem_cons.1 hr with h | h
      · subst h; show 0 < n + a.2; omega
      · exact hl r (List.mem_cons_of_mem _ h)
    · intro r hr
      rcases List.mem_cons.1 hr with h | h
      · subst h; exact hn
      · exact hl r h

theorem cnt_free_after (e n : Int) (hn : 0 < n) (j : Int) :
    ∀ (rest : List (Int × Int)) (p : Int × Int), 0 < p.2 → (∀ r ∈ rest, 0 < r.2) →
      cnt (free_after e n p rest) j = ind e n j + cnt (p :: rest) j := by
  intro rest
  induction rest with
  | nil =>
    intro p hp _
    rw [free_after_nil, cnt_merge_prev p hp _ (merge_next_pos e n hn [] (by simp)),
      cnt_merge_next e n (by omega) [] (by simp)]
    simp only [cnt_cons, cnt_nil]; omega
  | cons r rest ih =>
    intro p hp hl
    rw [free_after_cons]
    split
    · rw [cnt_merge_prev p hp _ (merge_next_pos e n hn _ hl), cnt_merge_next e n (by omega) _ hl]
      simp only [cnt_cons]; omega
    · simp only [cnt_cons]
      rw [ih r (hl r (List.mem_cons_self _ _)) (fun x hx => hl x (List.mem_cons_of_mem _ hx))]
      simp only [cnt_cons]; omega

/-- Releasing block `(e, n)` adds exactly its slabs to the free runs. -/
theorem cnt_free_spec (e n : Int) (hn : 0 < n) (rs : List (Int × Int)) (hl : ∀ r ∈ rs, 0 < r.2)
    (j : Int) : cnt (free_spec e n rs) j = ind e n j + cnt rs j := by
  cases rs with
  | nil => rfl
  | cons r rest =>
    rw [free_spec_cons]
    split
    · exact cnt_merge_next e n (by omega) _ hl j
    · exact cnt_free_after e n hn j rest r (hl r (List.mem_cons_self _ _))
        (fun x hx => hl x (List.mem_cons_of_mem _ hx))

theorem lsum_merge_next (e n : Int) (l : List (Int × Int)) :
    lsum (merge_next e n l) = n + lsum l := by
  cases l with
  | nil => rfl
  | cons r rest =>
    rw [merge_next_cons]
    split <;> simp only [lsum_cons] <;> omega

theorem lsum_merge_prev (p : Int × Int) (l : List (Int × Int)) :
    lsum (merge_prev p l) = p.2 + lsum l := by
  cases l with
  | nil => rfl
  | cons r rest =>
    rw [merge_prev_cons]
    split <;> simp only [lsum_cons] <;> omega

theorem lsum_free_after (e n : Int) :
    ∀ (rest : List (Int × Int)) (p : Int × Int),
      lsum (free_after e n p rest) = n + lsum (p :: rest) := by
  intro rest
  induction rest with
  | nil =>
    intro p
    rw [free_after_nil, lsum_merge_prev, lsum_merge_next]
    simp only [lsum_cons, lsum_nil]; omega
  | cons r rest ih =>
    intro p
    rw [free_after_cons]
    split
    · rw [lsum_merge_prev, lsum_merge_next]; simp only [lsum_cons]; omega
    · simp only [lsum_cons]; rw [ih r]; simp only [lsum_cons]; omega

theorem lsum_free_spec (e n : Int) (rs : List (Int × Int)) :
    lsum (free_spec e n rs) = n + lsum rs := by
  cases rs with
  | nil => simp [free_spec]
  | cons r rest =>
    rw [free_spec_cons]
    split
    · exact lsum_merge_next e n _
    · exact lsum_free_after e n rest r

theorem Disj.tail_runs {e n : Int} {r : Int × Int} {rs : List (Int × Int)} (h : Disj e n (r :: rs)) :
    Disj e n rs := fun x hx => h x (List.mem_cons_of_mem _ hx)

theorem gapped_cons {a b : Int × Int} {l : List (Int × Int)} :
    Gapped (a :: b :: l) ↔ a.1 + a.2 < b.1 ∧ Gapped (b :: l) := List.chain'_cons

theorem gapped_singleton (a : Int × Int) : Gapped [a] := List.chain'_singleton a

theorem gapped_merge_next {e n : Int} {l : List (Int × Int)} (hg : Gapped l)
    (hh : ∀ r ∈ l.head?, e + n ≤ r.1) : Gapped (merge_next e n l) := by
  cases l with
  | nil => exact gapped_singleton _
  | cons r rest =>
    have h1 := hh r (by simp)
    rw [merge_next_cons]
    split
    · rename_i h
      exact hg.replace_head (by simp only; omega)
    · exact gapped_cons.2 ⟨by simp only; omega, hg⟩

theorem merge_prev_shape (p : Int × Int) (l : List (Int × Int)) :
    ∃ m R, merge_prev p l = (p.1, m) :: R := by
  cases l with
  | nil => exact ⟨p.2, [], rfl⟩
  | cons r rest =>
    rw [merge_prev_cons]
    split
    · exact ⟨_, _, rfl⟩
    · exact ⟨_, _, rfl⟩

theorem gapped_merge_prev {p : Int × Int} {l : List (Int × Int)} (hg : Gapped l)
    (hh : ∀ r ∈ l.head?, p.1 + p.2 ≤ r.1) : Gapped (merge_prev p l) := by
  cases l with
  | nil => exact gapped_singleton _
  | cons r rest =>
    have h1 := hh r (by simp)
    rw [merge_prev_cons]
    split
    · rename_i h
      exact hg.replace_head (by simp only; omega)
    · exact gapped_cons.2 ⟨by omega, hg⟩

theorem free_after_shape (e n : Int) (p : Int × Int) (rest : List (Int × Int)) :
    ∃ m R, free_after e n p rest = (p.1, m) :: R := by
  cases rest with
  | nil => rw [free_after_nil]; exact merge_prev_shape _ _
  | cons r rest =>
    rw [free_after_cons]
    split
    · exact merge_prev_shape _ _
    · exact ⟨_, _, rfl⟩

theorem gapped_free_after (e n : Int) (hn : 0 < n) :
    ∀ (rest : List (Int × Int)) (p : Int × Int), Gapped (p :: rest) → (∀ r ∈ p :: rest, 0 < r.2) →
      Disj e n (p :: rest) → p.1 < e + n → Gapped (free_after e n p rest) := by
  intro rest
  induction rest with
  | nil =>
    intro p _ hpos hd hp
    have hp2 := hpos p (List.mem_cons_self _ _)
    have := hd p (List.mem_cons_self _ _)
    rw [free_after_nil]
    exact gapped_merge_prev (gapped_merge_next (List.chain'_nil) (by simp))
      (by intro r hr; simp [merge_next_nil] at hr; subst hr; simp only; omega)
  | cons r rest ih =>
    intro p hg hpos hd hp
    have hp2 := hpos p (List.mem_cons_self _ _)
    have hdp := hd p (List.mem_cons_self _ _)
    have hg' := gapped_cons.1 hg
    rw [free_after_cons]
    split
    · rename_i h
      refine gapped_merge_prev (gapped_merge_next hg'.2 (by simp; exact h)) ?_
      obtain ⟨m, R, hm⟩ := merge_next_shape e n (r :: rest)
      rw [hm]
      intro x hx
      simp at hx
      subst hx
      simp only; omega
    · rename_i h
      have hi := ih r hg'.2 (fun x hx => hpos x (List.mem_cons_of_mem _ hx)) hd.tail_runs (by omega)
      obtain ⟨m, R, hm⟩ := free_after_shape e n r rest
      rw [hm] at hi ⊢
      exact gapped_cons.2 ⟨hg'.1, hi⟩

/-- Releasing a block that overlaps no free run keeps the list ascending with gaps. -/
theorem gapped_free_spec (e n : Int) (hn : 0 < n) (rs : List (Int × Int)) (hg : Gapped rs)
    (hpos : ∀ r ∈ rs, 0 < r.2) (hd : Disj e n rs) : Gapped (free_spec e n rs) := by
  cases rs with
  | nil => exact gapped_singleton _
  | cons r rest =>
    rw [free_spec_cons]
    split
    · rename_i h
      exact gapped_merge_next hg (by simp; exact h)
    · rename_i h
      exact gapped_free_after e n hn rest r hg hpos hd (by omega)

/-! ## `buffer_pool_free` on the heap -/

theorem free_relink_spec (k : Nat) : ∀ (next : Int → Option Int) (t : Int),
    (free_relink next k t).2 = t + k ∧
    (∀ j, t - 1 ≤ j → j < t - 1 + k → (free_relink next k t).1 j = some (j + 1)) ∧
    (∀ j, ¬ (t - 1 ≤ j ∧ j < t - 1 + k) → (free_relink next k t).1 j = next j) := by
  induction k with
  | zero =>
    intro next t
    refine ⟨by simp [free_relink], ?_, fun _ _ => rfl⟩
    intro j h1 h2
    simp at h2; omega
  | succ k ih =>
    intro next t
    obtain ⟨i1, i2, i3⟩ := ih (upd next (t - 1) (some t)) (t + 1)
    show (free_relink (upd next (t - 1) (some t)) k (t + 1)).2 = _ ∧ _
    refine ⟨by rw [i1]; push_cast; omega, ?_, ?_⟩
    · intro j h1 h2
      show (free_relink (upd next (t - 1) (some t)) k (t + 1)).1 j = _
      by_cases hj : j = t - 1
      · rw [i3 j (by omega), hj, upd_same]
        congr 1; omega
      · exact i2 j (by omega) (by push_cast at h2; omega)
    · intro j hj
      show (free_relink (upd next (t - 1) (some t)) k (t + 1)).1 j = _
      push_cast at hj
      rw [i3 j (by omega), upd_ne _ _ (by omega)]

theorem free_merge_next_ne (nbufs : Int → Int) (e t : Int) (a : Option Int) {x : Int} (hx : x ≠ e) :
    free_merge_next nbufs e t a x = nbufs x := by
  unfold free_merge_next
  cases a with
  | none => rfl
  | some nh =>
    simp only
    split
    · exact upd_ne _ _ hx
    · rfl

theorem free_merge_prev_ne (nbufs : Int → Int) (e ph pt : Int) {x : Int} (hx : x ≠ ph) :
    free_merge_prev nbufs e ph pt x = nbufs x := by
  unfold free_merge_prev
  split
  · exact upd_ne _ _ hx
  · rfl

theorem merge_next_tail_sub {e n m : Int} {l R : List (Int × Int)}
    (h : merge_next e n l = (e, m) :: R) : ∀ r ∈ R, r ∈ l := by
  cases l with
  | nil =>
    rw [merge_next_nil] at h
    simp only [List.cons.injEq] at h
    intro r hr
    rw [← h.2] at hr; cases hr
  | cons a rest =>
    rw [merge_next_cons] at h
    split at h
    · simp only [List.cons.injEq] at h
      intro r hr
      rw [← h.2] at hr
      exact List.mem_cons_of_mem _ hr
    · simp only [List.cons.injEq] at h
      intro r hr
      rw [← h.2] at hr
      exact hr

/-- Linking the released block in front of the runs `post`. -/
theorem FreeSeg_merge_next {next next' : Int → Option Int} {nbufs : Int → Int} {e n : Int}
    {a : Option Int} {post : List (Int × Int)} (hn : 0 < n)
    (hseg : FreeSeg next nbufs a post none) (hpost : ∀ r ∈ post, e + n ≤ r.1)
    (hnb : nbufs e = n)
    (hchain : ∀ j, e ≤ j → j < e + n - 1 → next' j = some (j + 1))
    (hlast : next' (e + n - 1) = a)
    (hsame : ∀ j, e + n ≤ j → next' j = next j) :
    FreeSeg next' (free_merge_next nbufs e (e + n) a) (some e) (merge_next e n post) none := by
  cases post with
  | nil =>
    have ha : a = none := hseg
    subst ha
    exact ⟨rfl, hnb, hn, hchain, by rw [hlast]; rfl⟩
  | cons r rest =>
    obtain ⟨h1, h2, h3, h4, h5⟩ := hseg
    subst h1
    have hr := hpost r (List.mem_cons_self _ _)
    have hpos := FreeSeg_pos h5
    have hrest : ∀ (nb : Int → Int), (∀ p ∈ rest, nb p.1 = nbufs p.1) →
        FreeSeg next' nb (next (r.1 + r.2 - 1)) rest none := by
      intro nb hnb'
      refine FreeSeg_congr ?_ hnb' h5
      intro p hp j hj1 _
      have := hpost p (List.mem_cons_of_mem _ hp)
      exact hsame j (by omega)
    rw [merge_next_cons]
    unfold free_merge_next
    simp only
    by_cases he : e + n = r.1
    · rw [if_pos he, if_pos he]
      refine ⟨rfl, ?_, by simp only; omega, ?_, ?_⟩
      · rw [upd_same, hnb, h2]
      · intro j hj1 hj2
        simp only at hj1 hj2
        by_cases hj : j < e + n - 1
        · exact hchain j hj1 hj
        · by_cases hj' : j = e + n - 1
          · rw [hj', hlast]; congr 1; omega
          · rw [hsame j (by omega)]
            exact h4 j (by omega) (by omega)
      · simp only
        have : e + (n + r.2) - 1 = r.1 + r.2 - 1 := by omega
        rw [this, hsame _ (by omega)]
        apply hrest
        intro p hp
        have := hpost p (List.mem_cons_of_mem _ hp)
        exact upd_ne _ _ (by omega)
    · rw [if_neg he, if_neg he]
      refine ⟨rfl, hnb, hn, hchain, ?_⟩
      rw [hlast]
      refine ⟨rfl, h2, h3, ?_, ?_⟩
      · intro j hj1 hj2
        rw [hsame j (by omega)]
        exact h4 j hj1 hj2
      · rw [hsame _ (by omega)]
        exact hrest nbufs (fun _ _ => rfl)

/-- Linking the run `p` in front of the released block. -/
theorem FreeSeg_merge_prev {next3 : Int → Option Int} {nbufs1 : Int → Int} {p : Int × Int}
    {e m : Int} {R : List (Int × Int)} (hp : 0 < p.2) (hpe : p.1 + p.2 ≤ e)
    (hM : FreeSeg next3 nbufs1 (some e) ((e, m) :: R) none) (hR : ∀ r ∈ R, e < r.1)
    (hnb : nbufs1 p.1 = p.2)
    (hchain : ∀ j, p.1 ≤ j → j < p.1 + p.2 - 1 → next3 j = some (j + 1))
    (hlast : next3 (p.1 + p.2 - 1) = some e) :
    FreeSeg next3 (free_merge_prev nbufs1 e p.1 (p.1 + p.2)) (some p.1)
      (merge_prev p ((e, m) :: R)) none := by
  obtain ⟨_, h2, h3, h4, h5⟩ := hM
  simp only at h2 h3 h4 h5
  rw [merge_prev_cons]
  unfold free_merge_prev
  by_cases he : p.1 + p.2 = e
  · rw [if_pos he, if_pos he]
    refine ⟨rfl, ?_, by simp only; omega, ?_, ?_⟩
    · rw [upd_same, hnb, h2]
    · intro j hj1 hj2
      simp only at hj1 hj2
      by_cases hj : j < p.1 + p.2 - 1
      · exact hchain j hj1 hj
      · by_cases hj' : j = p.1 + p.2 - 1
        · rw [hj', hlast]; congr 1; omega
        · exact h4 j (by omega) (by omega)
    · simp only
      have : p.1 + (p.2 + m) - 1 = e + m - 1 := by omega
      rw [this]
      refine FreeSeg_congr (fun _ _ _ _ _ => rfl) ?_ h5
      intro r hr
      have := hR r hr
      exact upd_ne _ _ (by omega)
  · rw [if_neg he, if_neg he]
    exact ⟨rfl, hnb, hp, hchain, by rw [hlast]; exact ⟨rfl, h2, h3, h4, h5⟩⟩

/-- Inserting the released block directly behind run `p`. -/
theorem free_here {next : Int → Option Int} {nbufs : Int → Int} {e n : Int} {p : Int × Int}
    {post : List (Int × Int)} (hn : 0 < n)
    (hseg : FreeSeg next nbufs (some p.1) (p :: post) none) (hpe : p.1 + p.2 ≤ e)
    (hpost : ∀ r ∈ post, e + n ≤ r.1) (hnb : nbufs e = n)
    (hblock : ∀ j, e ≤ j → j < e + n - 1 → next j = some (j + 1)) :
    FreeSeg (upd (upd next (p.1 + p.2 - 1) (some e)) (e + n - 1) (next (p.1 + p.2 - 1)))
      (free_merge_prev (free_merge_next nbufs e (e + n) (next (p.1 + p.2 - 1))) e p.1 (p.1 + p.2))
      (some p.1) (merge_prev p (merge_next e n post)) none := by
  obtain ⟨_, h2, h3, h4, h5⟩ := hseg
  have hM := @FreeSeg_merge_next _
    (upd (upd next (p.1 + p.2 - 1) (some e)) (e + n - 1) (next (p.1 + p.2 - 1))) _ _ _ _ _
    hn h5 hpost hnb
    (by intro j hj1 hj2
        rw [upd_ne _ _ (by omega), upd_ne _ _ (by omega)]
        exact hblock j hj1 hj2)
    (upd_same _ _ _)
    (by intro j hj
        rw [upd_ne _ _ (by omega), upd_ne _ _ (by omega)])
  obtain ⟨m, R, hm⟩ := merge_next_shape e n post
  rw [hm] at hM ⊢
  refine FreeSeg_merge_prev h3 hpe hM ?_ ?_ ?_ ?_
  · intro r hr
    have := hpost r (merge_next_tail_sub hm r hr)
    omega
  · rw [free_merge_next_ne _ _ _ _ (by omega)]; exact h2
  · intro j hj1 hj2
    rw [upd_ne _ _ (by omega), upd_ne _ _ (by omega)]
    exact h4 j hj1 hj2
  · rw [upd_ne _ _ (by omega), upd_same]

theorem free_find_succ (next : Int → Option Int) (nbufs : Int → Int) (t : Int) (fuel : Nat)
    (h : Int) :
    free_find next nbufs t (fuel + 1) h =
      match next (h + nbufs h - 1) with
      | none => some (h, h + nbufs h, none)
      | some nh =>
        if nh ≥ t then some (h, h + nbufs h, some nh) else free_find next nbufs t fuel nh := rfl

/-- The search loop of `buffer_pool_free` finds the run behind which the block belongs, and the
statements that follow it produce the free-run list `free_after`. -/
theorem free_find_spec {next : Int → Option Int} {nbufs : Int → Int} {e n : Int} (hn : 0 < n)
    (hnb : nbufs e = n) (hblock : ∀ j, e ≤ j → j < e + n - 1 → next j = some (j + 1)) :
    ∀ (rest : List (Int × Int)) (p : Int × Int) (fuel : Nat), rest.length < fuel →
      FreeSeg next nbufs (some p.1) (p :: rest) none → Gapped (p :: rest) →
      Disj e n (p :: rest) → p.1 < e + n →
      ∃ ph pt nh, free_find next nbufs (e + n) fuel p.1 = some (ph, pt, nh) ∧
        FreeSeg (upd (upd next (pt - 1) (some e)) (e + n - 1) nh)
          (free_merge_prev (free_merge_next nbufs e (e + n) nh) e ph pt)
          (some p.1) (free_after e n p rest) none ∧
        p.1 ≤ ph ∧ pt ≤ e ∧ ∃ r ∈ p :: rest, r.1 = ph ∧ r.1 + r.2 = pt := by
  intro rest
  induction rest with
  | nil =>
    intro p fuel hfuel hseg _ hd hp
    obtain ⟨fuel, rfl⟩ : ∃ k, fuel = k + 1 := ⟨fuel - 1, by simp at hfuel; omega⟩
    have hseg' := hseg
    obtain ⟨_, h2, h3, h4, h5⟩ := hseg
    have h5' : next (p.1 + p.2 - 1) = none := h5
    have hpe : p.1 + p.2 ≤ e := by have := hd p (List.mem_cons_self _ _); omega
    refine ⟨p.1, p.1 + p.2, none, ?_, ?_, le_refl _, hpe, p, List.mem_cons_self _ _, rfl, rfl⟩
    · rw [free_find_succ, h2, h5']
    · have := free_here hn hseg' hpe (by intro r hr; cases hr) hnb hblock
      rw [h5'] at this
      rw [free_after_nil]
      exact this
  | cons r rest ih =>
    intro p fuel hfuel hseg hg hd hp
    obtain ⟨fuel, rfl⟩ : ∃ k, fuel = k + 1 := ⟨fuel - 1, by simp at hfuel; omega⟩
    have hseg' := hseg
    obtain ⟨_, h2, h3, h4, h5⟩ := hseg
    have h5' := h5
    obtain ⟨h51, h52, h53, h54, h55⟩ := h5
    have hpe : p.1 + p.2 ≤ e := by have := hd p (List.mem_cons_self _ _); omega
    have hg' := gapped_cons.1 hg
    have hpos := FreeSeg_pos h5'
    have habove := gapped_above hg'.2 (fun x hx => hpos x (List.mem_cons_of_mem _ hx))
    rw [free_after_cons]
    by_cases hr : e + n ≤ r.1
    · rw [if_pos hr]
      refine ⟨p.1, p.1 + p.2, some r.1, ?_, ?_, le_refl _, hpe, p, List.mem_cons_self _ _, rfl, rfl⟩
      · rw [free_find_succ, h2, h51]
        simp only
        rw [if_pos (by omega)]
      · have := free_here hn hseg' hpe (by
          intro x hx
          rcases List.mem_cons.1 hx with h | h
          · subst h; exact hr
          · have := habove x h; omega) hnb hblock
        rw [h51] at this
        exact this
    · rw [if_neg hr]
      have hfuel' : rest.length < fuel := by simp at hfuel; omega
      obtain ⟨ph, pt, nh, i1, i2, i3, i4, x, hx, hx1, hx2⟩ :=
        ih r fuel hfuel' (h51 ▸ h5') hg'.2 hd.tail_runs (by omega)
      refine ⟨ph, pt, nh, ?_, ?_, by omega, i4, x, List.mem_cons_of_mem _ hx, hx1, hx2⟩
      · rw [free_find_succ, h2, h51]
        simp only
        rw [if_neg (by omega)]
        exact i1
      · have hxp := hpos x hx
        refine ⟨rfl, ?_, h3, ?_, ?_⟩
        · rw [free_merge_prev_ne _ _ _ _ (by omega), free_merge_next_ne _ _ _ _ (by omega)]
          exact h2
        · intro j hj1 hj2
          rw [upd_ne _ _ (by omega), upd_ne _ _ (by omega)]
          exact h4 j hj1 hj2
        · rw [upd_ne _ _ (by omega), upd_ne _ _ (by omega), h51]
          exact i2

theorem pair_sublist {l : List Int} {a b : Int} (ha : a ∈ l) (hb : b ∈ l) (hab : a ≠ b) :
    [a, b].Sublist l ∨ [b, a].Sublist l := by
  induction l with
  | nil => cases ha
  | cons x l ih =>
    rcases List.mem_cons.1 ha with h1 | h1
    · rcases List.mem_cons.1 hb with h2 | h2
      · exact absurd (h1.trans h2.symm) hab
      · left; subst h1
        exact List.Sublist.cons₂ _ (List.singleton_sublist.2 h2)
    · rcases List.mem_cons.1 hb with h2 | h2
      · right; subst h2
        exact List.Sublist.cons₂ _ (List.singleton_sublist.2 h1)
      · rcases ih h1 h2 with h | h
        · left; exact List.Sublist.cons _ h
        · right; exact List.Sublist.cons _ h

/-- No outstanding element lies inside the block of another one. -/
theorem PInv.out_not_in_block {f : Fifo} {rs : List (Int × Int)} {out : List Int}
    (h : PInv f rs out) {a b : Int} (ha : a ∈ out) (hb : b ∈ out) (hab : a ≠ b)
    (h1 : b ≤ a) (h2 : a < b + f.nbufs b) : False := by
  have hb0 : ¬ ¬ (0 ≤ b ∧ b < f.buffer_pool_capacity) := fun hc => by
    have := h.foreign b hc; omega
  have hb0 := not_not.1 hb0
  have hbe := h.out_in_arena hb hb0.1 hb0.2
  have hap := h.pos a ha (by omega) (by omega)
  rcases pair_sublist ha hb hab with hs | hs
  · have := h.out_disjoint hs; omega
  · have := h.out_disjoint hs; omega

theorem bsum_erase (f : Fifo) {out : List Int} {b : Int} (hb : b ∈ out) :
    bsum f out = f.nbufs b + bsum f (out.erase b) := by
  rw [bsum_perm f (List.perm_cons_erase hb)]; rfl

theorem cnt_blk_erase (f : Fifo) {out : List Int} {b : Int} (hb : b ∈ out) (j : Int) :
    cnt (blk f out) j = ind b (f.nbufs b) j + cnt (blk f (out.erase b)) j := by
  rw [cnt_perm (blk_perm f (List.perm_cons_erase hb)) j]; rfl

/-- A heap that holds the free runs `free_spec` after the release of `b` satisfies the pool
invariant with `b` no longer outstanding. -/
theorem PInv.free_core {f f' : Fifo} {rs : List (Int × Int)} {out : List Int} {b : Int}
    (h : PInv f rs out) (hb : b ∈ out) (hown : f.pool_owned b = true)
    (hnat : f'.native = f.native) (hown' : f'.pool_owned = f.pool_owned)
    (hcap : f'.buffer_pool_capacity = f.buffer_pool_capacity)
    (hres : 0 ≤ f'.alloc_cb_data 0)
    (hseg : FreeList f' (free_spec b (f.nbufs b) rs))
    (hfree : f'.buffer_pool_num_free = f.buffer_pool_num_free + f.nbufs b)
    (hnb : ∀ x ∈ out.erase b, f'.nbufs x = f.nbufs x)
    (hfor : ∀ x, ¬ (0 ≤ x ∧ x < f.buffer_pool_capacity) → f'.nbufs x = 0) :
    PInv f' (free_spec b (f.nbufs b) rs) (out.erase b) := by
  have ha := (h.owned b).1 hown
  have hn := h.pos b hb ha.1 ha.2
  have hpos := FreeSeg_pos h.seg
  have hd : Disj b (f.nbufs b) rs := fun r hr => by
    have := h.out_disjoint_run hb hr; omega
  exact
    { native := by rw [hnat]; exact h.native
      owned := by rw [hown', hcap]; exact h.owned
      foreign := by rw [hcap]; exact hfor
      res := hres
      seg := hseg
      gap := gapped_free_spec b _ (by omega) rs h.gap hpos hd
      nfree := by rw [hfree, lsum_free_spec, h.nfree]; omega
      tile := by
        intro j
        rw [hcap, blk_congr hnb, cnt_free_spec b _ (by omega) rs hpos j]
        have := h.tile j
        rw [cnt_blk_erase f hb j] at this
        omega
      total := by
        rw [hfree, hcap, bsum_congr hnb]
        have := h.total
        rw [bsum_erase f hb] at this
        omega
      nodup := h.nodup.erase b
      pos := by
        intro x hx
        rw [hnb x hx, hcap]
        exact h.pos x (List.mem_of_mem_erase hx)
      notcap := by
        intro x hx
        rw [hcap]
        exact h.notcap x (List.mem_of_mem_erase hx) }

theorem free_find_mono {next : Int → Option Int} {nbufs : Int → Int} {t : Int} :
    ∀ (fuel : Nat) (h : Int) (x : Int × Int × Option Int),
      free_find next nbufs t fuel h = some x →
      ∀ fuel', fuel ≤ fuel' → free_find next nbufs t fuel' h = some x := by
  intro fuel
  induction fuel with
  | zero => intro h x hx; cases hx
  | succ fuel ih =>
    intro h x hx fuel' hf
    obtain ⟨k, rfl⟩ : ∃ k, fuel' = k + 1 := ⟨fuel' - 1, by omega⟩
    rw [free_find_succ] at hx ⊢
    cases hnx : next (h + nbufs h - 1) with
    | none => rw [hnx] at hx; exact hx
    | some nh =>
      rw [hnx] at hx
      simp only at hx ⊢
      by_cases hc : nh ≥ t
      · rw [if_pos hc] at hx ⊢; exact hx
      · rw [if_neg hc] at hx ⊢
        exact ih nh x hx k (by omega)

/-- More fuel does not change the result of a completed `buffer_pool_free`. -/
theorem buffer_pool_free_mono {fuel fuel' : Nat} {f f' : Fifo} {b : Int}
    (h : buffer_pool_free fuel f b = .done f') (hf : fuel ≤ fuel') :
    buffer_pool_free fuel' f b = .done f' := by
  unfold buffer_pool_free at h ⊢
  simp only at h ⊢
  split
  · rename_i hc; rw [if_pos hc] at h; exact h
  · rename_i hc
    rw [if_neg hc] at h
    cases htop : (free_count f (f.nbufs b)).buffer_pool_top with
    | none => rw [htop] at h; exact h
    | some nexthead =>
      rw [htop] at h
      simp only at h ⊢
      split
      · rename_i hc2; rw [if_pos hc2] at h; exact h
      · rename_i hc2
        rw [if_neg hc2] at h
        cases hfind : free_find
            (free_relink (free_count f (f.nbufs b)).next (f.nbufs b - 1).toNat (b + 1)).1
            (free_count f (f.nbufs b)).nbufs
            (free_relink (free_count f (f.nbufs b)).next (f.nbufs b - 1).toNat (b + 1)).2
            fuel nexthead with
        | none => rw [hfind] at h; cases h
        | some x =>
          rw [hfind] at h
          rw [free_find_mono fuel nexthead x hfind fuel' hf]
          exact h

theorem free_add_head_nbufs (f : Fifo) (next1 : Int → Option Int) (nh nt : Int) (a : Option Int) :
    (free_add_head f next1 nh nt a).nbufs = free_merge_next f.nbufs nh nt a := rfl

theorem free_add_head_next (f : Fifo) (next1 : Int → Option Int) (nh nt : Int) (a : Option Int) :
    (free_add_head f next1 nh nt a).next = upd next1 (nt - 1) a := rfl

theorem free_insert_nbufs (f : Fifo) (next1 : Int → Option Int) (nh nt ph pt : Int)
    (a : Option Int) :
    (free_insert f next1 nh nt ph pt a).nbufs =
      free_merge_prev (free_merge_next f.nbufs nh nt a) nh ph pt := rfl

theorem free_insert_next (f : Fifo) (next1 : Int → Option Int) (nh nt ph pt : Int)
    (a : Option Int) :
    (free_insert f next1 nh nt ph pt a).next = upd (upd next1 (pt - 1) (some nh)) (nt - 1) a := rfl

theorem fbc_sub_nonneg (f : Fifo) (n : Int) (h : 0 ≤ f.alloc_cb_data 0) :
    0 ≤ (_fbc_sub f n).alloc_cb_data 0 := by
  show 0 ≤ (if f.alloc_cb 0 = some fbc_dummy ∧ (0 : Nat) = 0 then
    (if f.alloc_cb_data 0 - n < 0 then 0 else f.alloc_cb_data 0 - n) else f.alloc_cb_data 0)
  split
  · split <;> omega
  · exact h

theorem PInv.free_le {f : Fifo} {rs : List (Int × Int)} {out : List Int} (h : PInv f rs out)
    {b : Int} (hb : b ∈ out) : f.buffer_pool_num_free + f.nbufs b ≤ f.buffer_pool_capacity := by
  have h1 := h.total
  rw [bsum_erase f hb] at h1
  have := @bsum_nonneg f (out.erase b)
    (fun x hx => h.nbufs_nonneg (List.mem_of_mem_erase hx))
  omega

/-- A release of an outstanding pool element completes, given fuel for the walk along the
free runs, and yields the free-run list `free_spec`. -/
theorem free_done {f : Fifo} {rs : List (Int × Int)} {out : List Int} {b : Int} {fuel : Nat}
    (h : PInv f rs out) (hb : b ∈ out) (hown : f.pool_owned b = true) (hfuel : rs.length ≤ fuel) :
    ∃ f', buffer_pool_free fuel f b = .done f' ∧
      PInv f' (free_spec b (f.nbufs b) rs) (out.erase b) ∧ Frame f f' (out.erase b) ∧
      f'.alloc_cb_data = (_fbc_sub f (f.nbufs b)).alloc_cb_data ∧ f'.alloc_cb = f.alloc_cb := by
  have ha := (h.owned b).1 hown
  have hn := h.pos b hb ha.1 ha.2
  have hd : Disj b (f.nbufs b) rs := fun r hr => by
    have := h.out_disjoint_run hb hr; omega
  have hle := h.free_le hb
  have hpos := FreeSeg_pos h.seg
  obtain ⟨r2, rchain, rsame⟩ := free_relink_spec (f.nbufs b - 1).toNat f.next (b + 1)
  have hr2 : (free_relink f.next (f.nbufs b - 1).toNat (b + 1)).2 = b + f.nbufs b := by
    rw [r2, Int.toNat_of_nonneg (by omega)]; omega
  have hblock : ∀ j, b ≤ j → j < b + f.nbufs b - 1 →
      (free_relink f.next (f.nbufs b - 1).toNat (b + 1)).1 j = some (j + 1) := by
    intro j h1 h2
    exact rchain j (by omega) (by rw [Int.toNat_of_nonneg (by omega)]; omega)
  have hsame : ∀ j, ¬ (b ≤ j ∧ j < b + f.nbufs b - 1) →
      (free_relink f.next (f.nbufs b - 1).toNat (b + 1)).1 j = f.next j := by
    intro j hj
    exact rsame j (by rw [Int.toNat_of_nonneg (by omega)]; omega)
  have hseg1 : FreeSeg (free_relink f.next (f.nbufs b - 1).toNat (b + 1)).1 f.nbufs
      f.buffer_pool_top rs none := by
    refine FreeSeg_congr ?_ (fun _ _ => rfl) h.seg
    intro r hr j hj1 hj2
    have := hd r hr
    exact hsame j (by omega)
  have hxb : ∀ x ∈ out.erase b, x ≠ b := fun x hx => ((h.nodup.mem_erase_iff).1 hx).1
  have hxblk : ∀ x ∈ out.erase b, ¬ (b ≤ x ∧ x < b + f.nbufs b) := fun x hx hc =>
    h.out_not_in_block (List.mem_of_mem_erase hx) hb (hxb x hx) hc.1 hc.2
  have hres := fbc_sub_nonneg f (f.nbufs b) h.res
  unfold buffer_pool_free
  simp only
  rw [if_neg (show ¬ (free_count f (f.nbufs b)).buffer_pool_num_free
    > (free_count f (f.nbufs b)).buffer_pool_capacity from not_lt.2 hle)]
  simp only [show (free_count f (f.nbufs b)).next = f.next from rfl,
    show (free_count f (f.nbufs b)).nbufs = f.nbufs from rfl,
    show (free_count f (f.nbufs b)).buffer_pool_top = f.buffer_pool_top from rfl, hr2]
  cases rs with
  | nil =>
    have htop : f.buffer_pool_top = none := h.seg
    rw [htop] at hseg1
    simp only [htop]
    have hnbf : ∀ x ∈ out.erase b, (free_add_head (free_count f (f.nbufs b))
        (free_relink f.next (f.nbufs b - 1).toNat (b + 1)).1 b (b + f.nbufs b) none).nbufs x
        = f.nbufs x := fun x hx => rfl
    refine ⟨_, rfl, ?_, ?_, rfl, rfl⟩
    · refine h.free_core hb hown rfl rfl rfl hres ?_ rfl hnbf ?_
      · exact FreeSeg_merge_next (by omega) hseg1 (by intro r hr; cases hr) rfl
          (fun j h1 h2 => by rw [free_add_head_next, upd_ne _ _ (by omega)]; exact hblock j h1 h2)
          (upd_same _ _ _)
          (fun j hj => by rw [free_add_head_next, upd_ne _ _ (by omega)])
      · intro x hx; exact h.foreign x hx
    · exact
        { first := rfl, last := rfl, la0 := rfl, la1 := rfl, cap := rfl, type := fun _ _ => rfl
          nbufs := hnbf
          next := fun x hx => by
            have := hxblk x hx
            rw [free_add_head_next, upd_ne _ _ (by omega), hsame x (by omega)] }
  | cons p rest =>
    have htop : f.buffer_pool_top = some p.1 := h.top_eq
    rw [htop] at hseg1
    simp only [htop]
    have habove := gapped_above h.gap (fun x hx => hpos x (List.mem_cons_of_mem _ hx))
    by_cases hp : p.1 ≥ b + f.nbufs b
    · rw [if_pos hp]
      have hnbf : ∀ x ∈ out.erase b, (free_add_head (free_count f (f.nbufs b))
          (free_relink f.next (f.nbufs b - 1).toNat (b + 1)).1 b (b + f.nbufs b)
          (some p.1)).nbufs x = f.nbufs x := by
        intro x hx
        rw [free_add_head_nbufs]
        exact free_merge_next_ne _ _ _ _ (hxb x hx)
      refine ⟨_, rfl, ?_, ?_, rfl, rfl⟩
      · refine h.free_core hb hown rfl rfl rfl hres ?_ rfl hnbf ?_
        · rw [free_spec_cons, if_pos (by omega)]
          refine FreeSeg_merge_next (by omega) hseg1 ?_ rfl
            (fun j h1 h2 => by rw [free_add_head_next, upd_ne _ _ (by omega)]; exact hblock j h1 h2)
            (upd_same _ _ _)
            (fun j hj => by rw [free_add_head_next, upd_ne _ _ (by omega)])
          intro r hr
          rcases List.mem_cons.1 hr with e | e
          · subst e; omega
          · have := habove r e
            have := hpos p (List.mem_cons_self _ _)
            omega
        · intro x hx
          have hxb' : x ≠ b := by omega
          rw [free_add_head_nbufs, free_merge_next_ne _ _ _ _ hxb']
          exact h.foreign x hx
      · exact
          { first := rfl, last := rfl, la0 := rfl, la1 := rfl, cap := rfl, type := fun _ _ => rfl
            nbufs := hnbf
            next := fun x hx => by
              have := hxblk x hx
              rw [free_add_head_next, upd_ne _ _ (by omega), hsame x (by omega)] }
    · rw [if_neg hp]
      obtain ⟨ph, pt, nh, i1, i2, i3, i4, x, hx, hx1, hx2⟩ :=
        free_find_spec (by omega) rfl hblock rest p fuel (by simpa using hfuel) hseg1 h.gap hd
          (by omega)
      rw [i1]
      have hxp := hpos x hx
      have hxa := h.run_in_arena hx
      have hnbf : ∀ y ∈ out.erase b, (free_insert (free_count f (f.nbufs b))
          (free_relink f.next (f.nbufs b - 1).toNat (b + 1)).1 b (b + f.nbufs b) ph pt nh).nbufs y
          = f.nbufs y := by
        intro y hy
        have hy1 : y ≠ ph := fun e =>
          h.free_not_out hx (j := ph) (by omega) (by omega) (e ▸ List.mem_of_mem_erase hy)
        rw [free_insert_nbufs, free_merge_prev_ne _ _ _ _ hy1]
        exact free_merge_next_ne _ _ _ _ (hxb y hy)
      refine ⟨_, rfl, ?_, ?_, rfl, rfl⟩
      · refine h.free_core hb hown rfl rfl rfl hres ?_ rfl hnbf ?_
        · rw [free_spec_cons, if_neg (by omega)]
          show FreeSeg _ _ f.buffer_pool_top _ _
          rw [htop]
          exact i2
        · intro y hy
          have hy1 : y ≠ ph := by omega
          have hy2 : y ≠ b := by omega
          rw [free_insert_nbufs, free_merge_prev_ne _ _ _ _ hy1, free_merge_next_ne _ _ _ _ hy2]
          exact h.foreign y hy
      · exact
          { first := rfl, last := rfl, la0 := rfl, la1 := rfl, cap := rfl, type := fun _ _ => rfl
            nbufs := hnbf
            next := fun y hy => by
              have := hxblk y hy
              have hy1 : y ≠ pt - 1 := fun e =>
                h.free_not_out hx (j := pt - 1) (by omega) (by omega)
                  (e ▸ List.mem_of_mem_erase hy)
              rw [free_insert_next, upd_ne _ _ (by omega), upd_ne _ _ hy1, hsame y (by omega)] }

/-! ## Taking slabs from a run in the middle of the free list -/

theorem plink_nil : plink [] = Link.pool_top := rfl

theorem plink_concat (pre : List (Int × Int)) (p : Int × Int) :
    plink (pre ++ [p]) = Link.next (p.1 + p.2 - 1) := by
  simp [plink]

theorem gapped_append_left {l1 l2 : List (Int × Int)} (h : Gapped (l1 ++ l2)) : Gapped l1 :=
  List.Chain'.left_of_append h

theorem gapped_append_right {l1 l2 : List (Int × Int)} (h : Gapped (l1 ++ l2)) : Gapped l2 :=
  List.Chain'.right_of_append h

/-- In a gapped list of positive runs, every run of a later part starts behind the end of
every run of an earlier part. -/
theorem gapped_append_above {l1 l2 : List (Int × Int)} (hg : Gapped (l1 ++ l2))
    (hp : ∀ p ∈ l1 ++ l2, 0 < p.2) : ∀ a ∈ l1, ∀ b ∈ l2, a.1 + a.2 < b.1 := by
  induction l1 with
  | nil => intro a ha; cases ha
  | cons x l1 ih =>
    intro a ha b hb
    rcases List.mem_cons.1 ha with e | e
    · subst e
      exact @gapped_above a (l1 ++ l2) hg
        (fun p hp' => hp p (List.mem_cons_of_mem _ hp')) b (List.mem_append_right _ hb)
    · exact ih (Gapped.tail hg) (fun p hp' => hp p (List.mem_cons_of_mem _ hp')) a e b hb

theorem FreeSeg_store_end {next : Int → Option Int} {nbufs nbufs' : Int → Int} {p : Int × Int}
    {m : Option Int} (v : Option Int) :
    ∀ (pre : List (Int × Int)) (a : Option Int), FreeSeg next nbufs a (pre ++ [p]) m →
      Gapped (pre ++ [p]) → (∀ x ∈ pre ++ [p], nbufs' x.1 = nbufs x.1) →
      FreeSeg (upd next (p.1 + p.2 - 1) v) nbufs' a (pre ++ [p]) v := by
  intro pre
  induction pre with
  | nil =>
    intro a h _ hnb
    obtain ⟨h1, h2, h3, h4, _⟩ := h
    refine ⟨h1, by rw [hnb p (by simp)]; exact h2, h3, ?_, ?_⟩
    · intro j hj1 hj2
      rw [upd_ne _ _ (by omega)]
      exact h4 j hj1 hj2
    · rw [upd_same]; rfl
  | cons q pre ih =>
    intro a h hg hnb
    have hpos := FreeSeg_pos h
    obtain ⟨h1, h2, h3, h4, h5⟩ := h
    have hab := @gapped_above q (pre ++ [p]) hg
      (fun x hx => hpos x (List.mem_cons_of_mem _ hx)) p (by simp)
    have hp2 := hpos p (by simp)
    refine ⟨h1, by rw [hnb q (by simp)]; exact h2, h3, ?_, ?_⟩
    · intro j hj1 hj2
      rw [upd_ne _ _ (by omega)]
      exact h4 j hj1 hj2
    · rw [upd_ne _ _ (by omega)]
      exact ih _ h5 (Gapped.tail hg) (fun x hx => hnb x (List.mem_cons_of_mem _ hx))

theorem store_next_pool_top (f : Fifo) (v : Option Int) : (f.store Link.pool_top v).next = f.next := rfl

theorem store_top_pool_top (f : Fifo) (v : Option Int) :
    (f.store Link.pool_top v).buffer_pool_top = v := rfl

theorem store_next_next (f : Fifo) (b : Int) (v : Option Int) :
    (f.store (Link.next b) v).next = upd f.next b v := rfl

theorem store_top_next (f : Fifo) (b : Int) (v : Option Int) :
    (f.store (Link.next b) v).buffer_pool_top = f.buffer_pool_top := rfl

/-- Storing `v` in the link that leads to run `r` replaces `r` and what follows by the runs
that `v` leads to. -/
theorem FreeList_store {f f' : Fifo} {pre post L : List (Int × Int)} {r : Int × Int}
    {v : Option Int} (h : FreeList f (pre ++ r :: post)) (hg : Gapped (pre ++ r :: post))
    (hnext : f'.next = (f.store (plink pre) v).next)
    (htop : f'.buffer_pool_top = (f.store (plink pre) v).buffer_pool_top)
    (hL : ∀ next', (∀ j, r.1 ≤ j → next' j = f.next j) → FreeSeg next' f'.nbufs v L none)
    (hnb : ∀ p ∈ pre, f'.nbufs p.1 = f.nbufs p.1) : FreeList f' (pre ++ L) := by
  unfold FreeList at h ⊢
  rcases List.eq_nil_or_concat pre with e | ⟨pre', p, e⟩
  · subst e
    rw [plink_nil, store_next_pool_top] at hnext
    rw [plink_nil, store_top_pool_top] at htop
    rw [htop, hnext]
    exact hL f.next (fun _ _ => rfl)
  · rw [List.concat_eq_append] at e
    subst e
    rw [plink_concat, store_next_next] at hnext
    rw [plink_concat, store_top_next] at htop
    rw [htop, hnext]
    have hpos := FreeSeg_pos h
    obtain ⟨m, hm1, hm2⟩ := FreeSeg_append.1 h
    have hab := gapped_append_above hg hpos p (by simp) r (by simp)
    have hp2 := hpos p (by simp)
    refine FreeSeg_append.2 ⟨v, FreeSeg_store_end v pre' _ hm1 (gapped_append_left hg) hnb, ?_⟩
    rw [← hnext]
    apply hL
    intro j hj
    rw [hnext, upd_ne _ _ (by omega)]

/-- The facts about the run `r` that the heap holds. -/
theorem FreeList_at {f : Fifo} {pre post : List (Int × Int)} {r : Int × Int}
    (h : FreeList f (pre ++ r :: post)) (hg : Gapped (pre ++ r :: post)) :
    f.load (plink pre) = some r.1 ∧ f.nbufs r.1 = r.2 ∧ 0 < r.2 ∧
    (∀ j, r.1 ≤ j → j < r.1 + r.2 - 1 → f.next j = some (j + 1)) ∧
    FreeSeg f.next f.nbufs (f.next (r.1 + r.2 - 1)) post none := by
  unfold FreeList at h
  obtain ⟨m, hm1, hm2⟩ := FreeSeg_append.1 h
  obtain ⟨h1, h2, h3, h4, h5⟩ := hm2
  refine ⟨?_, h2, h3, h4, h5⟩
  rcases List.eq_nil_or_concat pre with e | ⟨pre', p, e⟩
  · subst e
    have : f.buffer_pool_top = m := hm1
    rw [plink_nil]; show f.buffer_pool_top = _; rw [this, h1]
  · rw [List.concat_eq_append] at e
    subst e
    rw [plink_concat]
    show f.next _ = _
    obtain ⟨m', hm3, hm4⟩ := FreeSeg_append.1 hm1
    obtain ⟨_, _, _, _, h9⟩ := hm4
    have : f.next (p.1 + p.2 - 1) = m := h9
    rw [this, h1]

/-- Unlinking the whole run `r`. -/
theorem FreeList_remove {f f' : Fifo} {pre post : List (Int × Int)} {r : Int × Int}
    (h : FreeList f (pre ++ r :: post)) (hg : Gapped (pre ++ r :: post))
    (hnext : f'.next = (f.store (plink pre) (f.next (r.1 + r.2 - 1))).next)
    (htop : f'.buffer_pool_top = (f.store (plink pre) (f.next (r.1 + r.2 - 1))).buffer_pool_top)
    (hnb : ∀ p ∈ pre ++ post, f'.nbufs p.1 = f.nbufs p.1) : FreeList f' (pre ++ post) := by
  obtain ⟨_, h2, h3, h4, h5⟩ := FreeList_at h hg
  have hpos := FreeSeg_pos h
  have hab := gapped_above (gapped_append_right hg)
    (fun x hx => hpos x (List.mem_append_right _ (List.mem_cons_of_mem _ hx)))
  refine FreeList_store h hg hnext htop ?_ (fun p hp => hnb p (List.mem_append_left _ hp))
  intro next' hn
  refine FreeSeg_congr ?_ (fun p hp => hnb p (List.mem_append_right _ hp)) h5
  intro p hp j hj1 _
  have := hab p hp
  exact hn j (by omega)

/-- Splitting the first `n` slabs off the run `r`. -/
theorem FreeList_split {f f' : Fifo} {pre post : List (Int × Int)} {r : Int × Int} {n : Int}
    (h : FreeList f (pre ++ r :: post)) (hg : Gapped (pre ++ r :: post))
    (hn0 : 0 < n) (hn1 : n < r.2)
    (hnext : f'.next = (f.store (plink pre) (some (r.1 + n))).next)
    (htop : f'.buffer_pool_top = (f.store (plink pre) (some (r.1 + n))).buffer_pool_top)
    (hnew : f'.nbufs (r.1 + n) = r.2 - n)
    (hnb : ∀ p ∈ pre ++ post, f'.nbufs p.1 = f.nbufs p.1) :
    FreeList f' (pre ++ (r.1 + n, r.2 - n) :: post) := by
  obtain ⟨_, h2, h3, h4, h5⟩ := FreeList_at h hg
  have hpos := FreeSeg_pos h
  have hab := gapped_above (gapped_append_right hg)
    (fun x hx => hpos x (List.mem_append_right _ (List.mem_cons_of_mem _ hx)))
  refine FreeList_store h hg hnext htop ?_ (fun p hp => hnb p (List.mem_append_left _ hp))
  intro next' hn
  refine ⟨rfl, hnew, by simp only; omega, ?_, ?_⟩
  · intro j hj1 hj2
    simp only at hj1 hj2
    rw [hn j (by omega)]
    exact h4 j (by omega) (by omega)
  · simp only
    have : r.1 + n + (r.2 - n) - 1 = r.1 + r.2 - 1 := by omega
    rw [this, hn _ (by omega)]
    refine FreeSeg_congr ?_ (fun p hp => hnb p (List.mem_append_right _ hp)) h5
    intro p hp j hj1 _
    have := hab p hp
    exact hn j (by omega)

theorem gapped_remove {pre post : List (Int × Int)} {r : Int × Int}
    (hg : Gapped (pre ++ r :: post)) (hr : 0 < r.2) : Gapped (pre ++ post) := by
  have h1 := List.chain'_append.1 hg
  refine List.chain'_append.2 ⟨h1.1, (Gapped.tail h1.2.1), ?_⟩
  intro x hx y hy
  have hxr := h1.2.2 x hx r (by simp)
  cases post with
  | nil => simp at hy
  | cons a post =>
    simp at hy; subst hy
    have := (gapped_cons.1 h1.2.1).1
    omega

theorem gapped_split {pre post : List (Int × Int)} {r : Int × Int} {n : Int}
    (hg : Gapped (pre ++ r :: post)) (hn0 : 0 < n) :
    Gapped (pre ++ (r.1 + n, r.2 - n) :: post) := by
  have h1 := List.chain'_append.1 hg
  have h2 : Gapped (r :: post) := h1.2.1
  refine List.chain'_append.2 ⟨h1.1, h2.replace_head (by simp only; omega), ?_⟩
  intro x hx y hy
  have hxr := h1.2.2 x hx r (by simp)
  simp at hy; subst hy
  simp only; omega

/-- Handing out the first `m` slabs of run `r`, where the rest `L` of the run stays free. -/
theorem PInv.take_core {f f' : Fifo} {pre post L : List (Int × Int)} {r : Int × Int} {m : Int}
    {out : List Int} (h : PInv f (pre ++ r :: post) out)
    (hL : (m = r.2 ∧ L = []) ∨ (0 < m ∧ m < r.2 ∧ L = [(r.1 + m, r.2 - m)]))
    (hnat : f'.native = f.native) (hown : f'.pool_owned = f.pool_owned)
    (hcap : f'.buffer_pool_capacity = f.buffer_pool_capacity)
    (hres : f'.alloc_cb_data = f.alloc_cb_data)
    (hseg : FreeList f' (pre ++ L ++ post))
    (hfree : f'.buffer_pool_num_free = f.buffer_pool_num_free - m)
    (hself : f'.nbufs r.1 = m)
    (hnb : ∀ x ∈ out, f'.nbufs x = f.nbufs x)
    (hfor : ∀ x, ¬ (0 ≤ x ∧ x < f.buffer_pool_capacity) → f'.nbufs x = 0) :
    PInv f' (pre ++ L ++ post) (r.1 :: out) := by
  have hmem : r ∈ pre ++ r :: post := by simp
  have hpos := FreeSeg_pos h.seg
  have hr2 := hpos r hmem
  have hra := h.run_in_arena hmem
  have hnotout : r.1 ∉ out := h.free_not_out hmem (le_refl _) (by omega)
  have hm : 0 < m ∧ m ≤ r.2 := by rcases hL with ⟨e, _⟩ | ⟨e1, e2, _⟩ <;> omega
  exact
    { native := by rw [hnat]; exact h.native
      owned := by rw [hown, hcap]; exact h.owned
      foreign := by rw [hcap]; exact hfor
      res := by rw [hres]; exact h.res
      seg := hseg
      gap := by
        rcases hL with ⟨_, e⟩ | ⟨e1, _, e⟩
        · subst e; simpa using gapped_remove h.gap hr2
        · subst e; simpa using gapped_split h.gap e1
      nfree := by
        rw [hfree, h.nfree]
        rcases hL with ⟨e1, e⟩ | ⟨_, _, e⟩
        · subst e; simp only [lsum_append, lsum_cons, lsum_nil]; omega
        · subst e; simp only [lsum_append, lsum_cons, lsum_nil]; omega
      tile := by
        intro j
        have ht := h.tile j
        rw [hcap]
        simp only [blk_cons, cnt_cons, blk_congr hnb, hself, cnt_append] at ht ⊢
        rcases hL with ⟨e1, e⟩ | ⟨e1, e2, e⟩
        · subst e; subst e1; simp only [cnt_nil]; omega
        · subst e
          have := ind_split r.1 r.2 m j (by omega) (by omega)
          simp only [cnt_cons, cnt_nil]; omega
      total := by
        rw [hfree, hcap]
        simp only [bsum_cons, bsum_congr hnb, hself]
        have := h.total
        omega
      nodup := List.nodup_cons.2 ⟨hnotout, h.nodup⟩
      pos := by
        intro b hb
        rcases List.mem_cons.1 hb with e | hb
        · subst e; intro _ _; rw [hself]; omega
        · rw [hnb b hb, hcap]; exact h.pos b hb
      notcap := by
        intro b hb
        rw [hcap]
        rcases List.mem_cons.1 hb with e | hb
        · subst e; omega
        · exact h.notcap b hb }

/-! ## The search of `_buffer_pool_size_alloc` -/

theorem size_alloc_search_succ (f : Fifo) (n : Int) (fuel : Nat) (buf : Int) (link bestlink : Link)
    (bestsize : Int) :
    size_alloc_search f n (fuel + 1) buf link bestlink bestsize =
      if f.nbufs buf > n then
        .done ((set_nbufs f (buf + n) (f.nbufs buf - n)).store link (some (buf + n)), buf, n)
      else if f.nbufs buf = n then
        .done (f.store link (f.next (buf + (f.nbufs buf - 1))), buf, n)
      else
        match f.load (Link.next (buf + (f.nbufs buf - 1))) with
        | some b =>
          size_alloc_search f n fuel b (Link.next (buf + (f.nbufs buf - 1)))
            (if f.nbufs buf > bestsize then link else bestlink)
            (if f.nbufs buf > bestsize then f.nbufs buf else bestsize)
        | none =>
          match f.load (if f.nbufs buf > bestsize then link else bestlink) with
          | none => .fault
          | some b =>
            .done (f.store (if f.nbufs buf > bestsize then link else bestlink)
              (f.next (b + ((if f.nbufs buf > bestsize then f.nbufs buf else bestsize) - 1))), b,
              (if f.nbufs buf > bestsize then f.nbufs buf else bestsize)) := rfl

theorem BestInv.step {pre : List (Int × Int)} {bl : Link} {bs : Int} (h : BestInv pre bl bs)
    (r : Int × Int) (hr : 0 < r.2) :
    ∃ pre1 r1 post1, pre ++ [r] = pre1 ++ r1 :: post1 ∧
      (if r.2 > bs then plink pre else bl) = plink pre1 ∧
      (if r.2 > bs then r.2 else bs) = r1.2 ∧
      (∀ p ∈ pre1, p.2 < r1.2) ∧ (∀ p ∈ post1, p.2 ≤ r1.2) := by
  rcases h with ⟨e1, e2, e3⟩ | ⟨pre1, r1, post1, e1, e2, e3, e4, e5⟩
  · subst e1 e2 e3
    refine ⟨[], r, [], rfl, ?_, ?_, by simp, by simp⟩
    · rw [if_pos hr]
    · rw [if_pos hr]
  · by_cases hc : r.2 > bs
    · refine ⟨pre, r, [], rfl, by rw [if_pos hc], by rw [if_pos hc], ?_, by simp⟩
      intro p hp
      rw [e1] at hp
      rcases List.mem_append.1 hp with hp | hp
      · have := e4 p hp; omega
      · rcases List.mem_cons.1 hp with hp | hp
        · subst hp; omega
        · have := e5 p hp; omega
    · refine ⟨pre1, r1, post1 ++ [r], by rw [e1]; simp, by rw [if_neg hc]; exact e2,
        by rw [if_neg hc]; exact e3, e4, ?_⟩
      intro p hp
      rcases List.mem_append.1 hp with hp | hp
      · exact e5 p hp
      · simp at hp; subst hp; omega

/-- The search loop returns the first run that has `n` slabs or, if there is none, the
first of the longest runs. -/
theorem size_alloc_search_spec {f : Fifo} {rs : List (Int × Int)} {n : Int}
    (hseg : FreeList f rs) (hg : Gapped rs) :
    ∀ (rest pre : List (Int × Int)) (r : Int × Int) (fuel : Nat) (bestlink : Link)
      (bestsize : Int),
      rs = pre ++ r :: rest → rest.length < fuel → (∀ p ∈ pre, p.2 < n) →
      BestInv pre bestlink bestsize →
      ∃ f' m pre' r' post', rs = pre' ++ r' :: post' ∧
        size_alloc_search f n fuel r.1 (plink pre) bestlink bestsize = .done (f', r'.1, m) ∧
        ((n < r'.2 ∧ (∀ p ∈ pre', p.2 < n) ∧ m = n ∧ f' = take_split f pre' r' n) ∨
         (n = r'.2 ∧ (∀ p ∈ pre', p.2 < n) ∧ m = n ∧ f' = take_whole f pre' r') ∨
         ((∀ p ∈ rs, p.2 < n) ∧ (∀ p ∈ pre', p.2 < r'.2) ∧ (∀ p ∈ post', p.2 ≤ r'.2) ∧
            m = r'.2 ∧ f' = take_whole f pre' r')) := by
  intro rest
  induction rest with
  | nil =>
    intro pre r fuel bl bs hrs hfuel hpre hbest
    obtain ⟨fuel, rfl⟩ : ∃ k, fuel = k + 1 := ⟨fuel - 1, by simp at hfuel; omega⟩
    subst hrs
    obtain ⟨a1, a2, a3, a4, a5⟩ := FreeList_at hseg hg
    have a5' : f.next (r.1 + r.2 - 1) = none := a5
    rw [size_alloc_search_succ, a2]
    by_cases h1 : r.2 > n
    · rw [if_pos h1]
      exact ⟨_, n, pre, r, [], rfl, rfl, Or.inl ⟨h1, hpre, rfl, rfl⟩⟩
    · rw [if_neg h1]
      by_cases h2 : r.2 = n
      · rw [if_pos h2]
        exact ⟨_, n, pre, r, [], rfl, rfl, Or.inr (Or.inl ⟨h2.symm, hpre, rfl, rfl⟩)⟩
      · rw [if_neg h2]
        have e : r.1 + (r.2 - 1) = r.1 + r.2 - 1 := by omega
        have hl : f.load (Link.next (r.1 + (r.2 - 1))) = none := by
          show f.next _ = none; rw [e]; exact a5'
        rw [hl]
        obtain ⟨pre1, r1, post1, e1, e2, e3, e4, e5⟩ := hbest.step r a3
        simp only
        rw [e2, e3]
        rw [e1] at hseg hg
        obtain ⟨b1, _⟩ := FreeList_at hseg hg
        rw [b1]
        refine ⟨_, r1.2, pre1, r1, post1, e1, rfl, Or.inr (Or.inr ⟨?_, e4, e5, rfl, rfl⟩)⟩
        intro p hp
        rcases List.mem_append.1 hp with hp | hp
        · exact hpre p hp
        · simp at hp; subst hp; omega
  | cons r' rest ih =>
    intro pre r fuel bl bs hrs hfuel hpre hbest
    obtain ⟨fuel, rfl⟩ : ∃ k, fuel = k + 1 := ⟨fuel - 1, by simp at hfuel; omega⟩
    have hseg' := hseg
    have hg' := hg
    rw [hrs] at hseg' hg'
    obtain ⟨a1, a2, a3, a4, a5⟩ := FreeList_at hseg' hg'
    have a5' : f.next (r.1 + r.2 - 1) = some r'.1 := a5.1
    rw [size_alloc_search_succ, a2]
    by_cases h1 : r.2 > n
    · rw [if_pos h1]
      exact ⟨_, n, pre, r, r' :: rest, hrs, rfl, Or.inl ⟨h1, hpre, rfl, rfl⟩⟩
    · rw [if_neg h1]
      by_cases h2 : r.2 = n
      · rw [if_pos h2]
        exact ⟨_, n, pre, r, r' :: rest, hrs, rfl, Or.inr (Or.inl ⟨h2.symm, hpre, rfl, rfl⟩)⟩
      · rw [if_neg h2]
        have e : r.1 + (r.2 - 1) = r.1 + r.2 - 1 := by omega
        have hl : f.load (Link.next (r.1 + (r.2 - 1))) = some r'.1 := by
          show f.next _ = _; rw [e]; exact a5'
        rw [hl]
        simp only
        have hlink : Link.next (r.1 + (r.2 - 1)) = plink (pre ++ [r]) := by
          rw [plink_concat, e]
        rw [hlink]
        obtain ⟨pre1, r1, post1, e1, e2, e3, e4, e5⟩ := hbest.step r a3
        refine ih (pre ++ [r]) r' fuel _ _ (by rw [hrs]; simp) (by simp at hfuel; omega) ?_
          (Or.inr ⟨pre1, r1, post1, e1, e2, e3, e4, e5⟩)
        intro p hp
        rcases List.mem_append.1 hp with hp | hp
        · exact hpre p hp
        · simp at hp; subst hp; omega

theorem store_nbufs (f : Fifo) (l : Link) (v : Option Int) : (f.store l v).nbufs = f.nbufs := by
  cases l <;> rfl

theorem store_type (f : Fifo) (l : Link) (v : Option Int) : (f.store l v).type = f.type := by
  cases l <;> rfl

theorem store_native (f : Fifo) (l : Link) (v : Option Int) : (f.store l v).native = f.native := by
  cases l <;> rfl

theorem store_owned (f : Fifo) (l : Link) (v : Option Int) :
    (f.store l v).pool_owned = f.pool_owned := by
  cases l <;> rfl

theorem store_cap (f : Fifo) (l : Link) (v : Option Int) :
    (f.store l v).buffer_pool_capacity = f.buffer_pool_capacity := by
  cases l <;> rfl

theorem store_res (f : Fifo) (l : Link) (v : Option Int) :
    (f.store l v).alloc_cb_data = f.alloc_cb_data := by
  cases l <;> rfl

theorem store_cb (f : Fifo) (l : Link) (v : Option Int) :
    (f.store l v).alloc_cb = f.alloc_cb := by
  cases l <;> rfl

theorem store_free (f : Fifo) (l : Link) (v : Option Int) :
    (f.store l v).buffer_pool_num_free = f.buffer_pool_num_free := by
  cases l <;> rfl

theorem store_buf_size (f : Fifo) (l : Link) (v : Option Int) :
    (f.store l v).buffer_pool_buf_size = f.buffer_pool_buf_size := by
  cases l <;> rfl

theorem store_last (f : Fifo) (l : Link) (v : Option Int) : (f.store l v).last = f.last := by
  cases l <;> rfl

theorem store_la0 (f : Fifo) (l : Link) (v : Option Int) :
    (f.store l v).last_add0 = f.last_add0 := by
  cases l <;> rfl

theorem store_la1 (f : Fifo) (l : Link) (v : Option Int) :
    (f.store l v).last_add1 = f.last_add1 := by
  cases l <;> rfl

theorem store_plink_first (f : Fifo) (pre : List (Int × Int)) (v : Option Int) :
    (f.store (plink pre) v).first = f.first := by
  rcases List.eq_nil_or_concat pre with e | ⟨pre', p, e⟩
  · subst e; rfl
  · rw [List.concat_eq_append] at e; subst e; rw [plink_concat]; rfl

theorem store_set_nbufs_next (f : Fifo) (a n : Int) (l : Link) (v : Option Int) :
    ((set_nbufs f a n).store l v).next = (f.store l v).next := by
  cases l <;> rfl

theorem store_set_nbufs_top (f : Fifo) (a n : Int) (l : Link) (v : Option Int) :
    ((set_nbufs f a n).store l v).buffer_pool_top = (f.store l v).buffer_pool_top := by
  cases l <;> rfl

/-- The `next` fields that a store through `plink pre` changes belong to a free slab. -/
theorem store_plink_next_out {f : Fifo} {pre post : List (Int × Int)} {r : Int × Int}
    {out : List Int} (h : PInv f (pre ++ r :: post) out) (v : Option Int) :
    ∀ x ∈ out, (f.store (plink pre) v).next x = f.next x := by
  intro x hx
  rcases List.eq_nil_or_concat pre with e | ⟨pre', p, e⟩
  · subst e; rfl
  · rw [List.concat_eq_append] at e; subst e
    rw [plink_concat, store_next_next]
    have hp : p ∈ pre' ++ [p] ++ r :: post := by simp
    have hp2 := FreeSeg_pos h.seg p hp
    have : x ≠ p.1 + p.2 - 1 := fun e =>
      h.free_not_out hp (j := p.1 + p.2 - 1) (by omega) (by omega) (e ▸ hx)
    rw [upd_ne _ _ this]

/-- The state that `_buffer_pool_size_alloc` returns after its search took `m` slabs of
run `r` satisfies the pool invariant. -/
theorem PInv.take_final {f f1 : Fifo} {pre post L : List (Int × Int)} {r : Int × Int} {m X : Int}
    {out : List Int} (h : PInv f (pre ++ r :: post) out)
    (hf1 : (0 < m ∧ m < r.2 ∧ L = [(r.1 + m, r.2 - m)] ∧ f1 = take_split f pre r m) ∨
      (m = r.2 ∧ L = [] ∧ f1 = take_whole f pre r)) :
    PInv (set_nbufs (reset_element (sub_free f1 m) r.1 X) r.1 m) (pre ++ L ++ post) (r.1 :: out) ∧
    Frame f (set_nbufs (reset_element (sub_free f1 m) r.1 X) r.1 m) out := by
  have hmem : r ∈ pre ++ r :: post := by simp
  have hpos := FreeSeg_pos h.seg
  have hr2 := hpos r hmem
  have hra := h.run_in_arena hmem
  have hnotout : r.1 ∉ out := h.free_not_out hmem (le_refl _) (by omega)
  have hpre : ∀ p ∈ pre, p.1 + p.2 < r.1 := fun p hp =>
    gapped_append_above h.gap hpos p hp r (by simp)
  have hpost : ∀ p ∈ post, r.1 + r.2 < p.1 :=
    gapped_above (gapped_append_right h.gap)
      (fun x hx => hpos x (List.mem_append_right _ (List.mem_cons_of_mem _ hx)))
  have hpp : ∀ p ∈ pre ++ post, p.1 ≠ r.1 ∧ ¬ (r.1 ≤ p.1 ∧ p.1 < r.1 + r.2) := by
    intro p hp
    rcases List.mem_append.1 hp with hp | hp
    · have := hpre p hp
      have := hpos p (List.mem_append_left _ hp)
      omega
    · have := hpost p hp; omega
  rcases hf1 with ⟨e1, e2, e3, e4⟩ | ⟨e1, e3, e4⟩
  · subst e3 e4
    have hnb : (set_nbufs (reset_element (sub_free (take_split f pre r m) m) r.1 X) r.1 m).nbufs
        = upd (upd f.nbufs (r.1 + m) (r.2 - m)) r.1 m := by
      show upd (take_split f pre r m).nbufs r.1 m = _
      unfold take_split
      rw [store_nbufs]; rfl
    have hout : ∀ x ∈ out,
        (set_nbufs (reset_element (sub_free (take_split f pre r m) m) r.1 X) r.1 m).nbufs x
          = f.nbufs x := by
      intro x hx
      have hx1 : x ≠ r.1 := fun e => hnotout (e ▸ hx)
      have hx2 : x ≠ r.1 + m := fun e =>
        h.free_not_out hmem (j := r.1 + m) (by omega) (by omega) (e ▸ hx)
      rw [hnb, upd_ne _ _ hx1, upd_ne _ _ hx2]
    constructor
    · refine h.take_core (Or.inr ⟨e1, e2, rfl⟩) ?_ ?_ ?_ ?_ ?_ ?_ ?_ hout ?_
      · show (take_split f pre r m).native = _
        unfold take_split; rw [store_native]; rfl
      · show (take_split f pre r m).pool_owned = _
        unfold take_split; rw [store_owned]; rfl
      · show (take_split f pre r m).buffer_pool_capacity = _
        unfold take_split; rw [store_cap]; rfl
      · show (take_split f pre r m).alloc_cb_data = _
        unfold take_split; rw [store_res]; rfl
      · have := @FreeList_split _
          (set_nbufs (reset_element (sub_free (take_split f pre r m) m) r.1 X) r.1 m) _ _ _ _
          h.seg h.gap e1 e2
          (by show (take_split f pre r m).next = _
              unfold take_split; rw [store_set_nbufs_next])
          (by show (take_split f pre r m).buffer_pool_top = _
              unfold take_split; rw [store_set_nbufs_top])
          (by rw [hnb, upd_ne _ _ (by omega), upd_same])
          (by intro p hp
              have := hpp p hp
              rw [hnb, upd_ne _ _ this.1, upd_ne _ _ (by omega)])
        simpa using this
      · show (take_split f pre r m).buffer_pool_num_free - m = _
        unfold take_split; rw [store_free]; rfl
      · rw [hnb, upd_same]
      · intro x hx
        rw [hnb, upd_ne _ _ (by omega), upd_ne _ _ (by omega)]
        exact h.foreign x hx
    · exact
        { nbufs := hout
          first := by
            show (take_split f pre r m).first = _
            unfold take_split; rw [store_plink_first]; rfl
          last := by
            show (take_split f pre r m).last = _
            unfold take_split; rw [store_last]; rfl
          la0 := by
            show (take_split f pre r m).last_add0 = _
            unfold take_split; rw [store_la0]; rfl
          la1 := by
            show (take_split f pre r m).last_add1 = _
            unfold take_split; rw [store_la1]; rfl
          cap := by
            show (take_split f pre r m).buffer_pool_capacity = _
            unfold take_split; rw [store_cap]; rfl
          next := by
            intro x hx
            show (take_split f pre r m).next x = _
            unfold take_split
            rw [store_set_nbufs_next]
            exact store_plink_next_out h _ x hx
          type := by
            intro x _
            show (take_split f pre r m).type x = _
            unfold take_split; rw [store_type]; rfl }
  · subst e3 e4
    have e : r.1 + (r.2 - 1) = r.1 + r.2 - 1 := by omega
    have hnb : (set_nbufs (reset_element (sub_free (take_whole f pre r) m) r.1 X) r.1 m).nbufs
        = upd f.nbufs r.1 m := by
      show upd (take_whole f pre r).nbufs r.1 m = _
      unfold take_whole
      rw [store_nbufs]
    have hout : ∀ x ∈ out,
        (set_nbufs (reset_element (sub_free (take_whole f pre r) m) r.1 X) r.1 m).nbufs x
          = f.nbufs x := by
      intro x hx
      have hx1 : x ≠ r.1 := fun e => hnotout (e ▸ hx)
      rw [hnb, upd_ne _ _ hx1]
    constructor
    · refine h.take_core (Or.inl ⟨e1, rfl⟩) ?_ ?_ ?_ ?_ ?_ ?_ ?_ hout ?_
      · show (take_whole f pre r).native = _
        unfold take_whole; rw [store_native]
      · show (take_whole f pre r).pool_owned = _
        unfold take_whole; rw [store_owned]
      · show (take_whole f pre r).buffer_pool_capacity = _
        unfold take_whole; rw [store_cap]
      · show (take_whole f pre r).alloc_cb_data = _
        unfold take_whole; rw [store_res]
      · have := @FreeList_remove _
          (set_nbufs (reset_element (sub_free (take_whole f pre r) m) r.1 X) r.1 m) _ _ _
          h.seg h.gap
          (by show (take_whole f pre r).next = _
              unfold take_whole; rw [e])
          (by show (take_whole f pre r).buffer_pool_top = _
              unfold take_whole; rw [e])
          (by intro p hp
              have := hpp p hp
              rw [hnb, upd_ne _ _ this.1])
        simpa using this
      · show (take_whole f pre r).buffer_pool_num_free - m = _
        unfold take_whole; rw [store_free]
      · rw [hnb, upd_same]
      · intro x hx
        rw [hnb, upd_ne _ _ (by omega)]
        exact h.foreign x hx
    · exact
        { nbufs := hout
          first := by
            show (take_whole f pre r).first = _
            unfold take_whole; rw [store_plink_first]
          last := by
            show (take_whole f pre r).last = _
            unfold take_whole; rw [store_last]
          la0 := by
            show (take_whole f pre r).last_add0 = _
            unfold take_whole; rw [store_la0]
          la1 := by
            show (take_whole f pre r).last_add1 = _
            unfold take_whole; rw [store_la1]
          cap := by
            show (take_whole f pre r).buffer_pool_capacity = _
            unfold take_whole; rw [store_cap]
          next := by
            intro x hx
            show (take_whole f pre r).next x = _
            unfold take_whole
            exact store_plink_next_out h _ x hx
          type := by
            intro x _
            show (take_whole f pre r).type x = _
            unfold take_whole; rw [store_type] }

theorem size_alloc_search_mono {f : Fifo} {n : Int} :
    ∀ (fuel : Nat) (buf : Int) (link bl : Link) (bs : Int) (x : Fifo × Int × Int),
      size_alloc_search f n fuel buf link bl bs = .done x →
      ∀ fuel', fuel ≤ fuel' → size_alloc_search f n fuel' buf link bl bs = .done x := by
  intro fuel
  induction fuel with
  | zero => intro buf link bl bs x hx; cases hx
  | succ fuel ih =>
    intro buf link bl bs x hx fuel' hf
    obtain ⟨k, rfl⟩ : ∃ k, fuel' = k + 1 := ⟨fuel' - 1, by omega⟩
    rw [size_alloc_search_succ] at hx ⊢
    by_cases h1 : f.nbufs buf > n
    · rw [if_pos h1] at hx ⊢; exact hx
    · rw [if_neg h1] at hx ⊢
      by_cases h2 : f.nbufs buf = n
      · rw [if_pos h2] at hx ⊢; exact hx
      · rw [if_neg h2] at hx ⊢
        cases hl : f.load (Link.next (buf + (f.nbufs buf - 1))) with
        | none => rw [hl] at hx; exact hx
        | some b =>
          rw [hl] at hx
          exact ih _ _ _ _ x hx k (by omega)

theorem PInv.run_alloc_cb {f : Fifo} {rs : List (Int × Int)} {out : List Int} (K : BufferH)
    (h : PInv f rs out) : PInv (run_alloc_cb K f) rs out :=
  { native := h.native, owned := h.owned, foreign := h.foreign, res := h.res, seg := h.seg
    gap := h.gap, nfree := h.nfree, tile := h.tile, nodup := h.nodup, pos := h.pos
    notcap := h.notcap
    total := by
      have e : bsum (Xine.run_alloc_cb K f) out = bsum f out := bsum_congr (fun _ _ => rfl)
      show f.buffer_pool_num_free + bsum (Xine.run_alloc_cb K f) out = f.buffer_pool_capacity
      rw [e]; exact h.total }

theorem alloc_runs_spec (r : Int × Int) (rest : List (Int × Int)) (hr : 0 < r.2) :
    SizeAllocSpec 1 (r :: rest) r.1 1 (alloc_runs (r :: rest)) := by
  refine ⟨[], r, rest, rfl, rfl, Or.inl ⟨by omega, by simp, rfl, ?_⟩⟩
  rw [alloc_runs_cons]
  by_cases h : r.2 - 1 > 0
  · rw [if_pos h, if_pos (by omega)]; rfl
  · rw [if_neg h, if_neg (by omega)]; rfl

/-- What a completed `_buffer_pool_size_alloc` does. -/
theorem size_alloc_done {K : BufferH} {f f' : Fifo} {b n : Int} {fuel : Nat}
    {rs : List (Int × Int)} {out : List Int} (h : PInv f rs out)
    (ha : _buffer_pool_size_alloc K fuel f n = .done (f', b)) :
    (if n < 1 then 1 else n) + 2 ≤ _fbc_avail f ∧
    ∃ rs', SizeAllocSpec (if n < 1 then 1 else n) rs b (f'.nbufs b) rs' ∧
      PInv f' rs' (b :: out) ∧ Frame f f' out ∧
      f'.max_size b = f'.nbufs b * f.buffer_pool_buf_size ∧
      f'.buffer_pool_num_free = f.buffer_pool_num_free - f'.nbufs b := by
  unfold _buffer_pool_size_alloc at ha
  simp only [fbc_avail_run_alloc_cb] at ha
  generalize hn' : (if n < 1 then 1 else n) = n' at ha ⊢
  have hn1 : 1 ≤ n' := by rw [← hn']; split <;> omega
  have e : n' + 2 - 2 = n' := by omega
  rw [e] at ha
  split at ha
  · cases ha
  · rename_i hav
    have hF := h.run_alloc_cb K
    have hfree : 1 ≤ f.buffer_pool_num_free := by have := fbc_avail_le h; omega
    obtain ⟨r, rest, rfl⟩ := h.exists_head hfree
    have htop : (run_alloc_cb K f).buffer_pool_top = some r.1 := h.top_eq
    have hr2 := FreeSeg_pos h.seg r (List.mem_cons_self _ _)
    rw [htop] at ha
    simp only at ha
    refine ⟨by omega, ?_⟩
    by_cases h1 : n' = 1
    · rw [if_pos h1] at ha
      simp only [Outcome.done.injEq, Prod.mk.injEq] at ha
      obtain ⟨hf, hb⟩ := ha
      subst hb hf h1
      have hcore := @PInv.alloc_core _ (set_nbufs (reset_element
        (take_head (run_alloc_cb K f) r.1) r.1
        (1 * (take_head (run_alloc_cb K f) r.1).buffer_pool_buf_size)) r.1 1) _ _ _ h
        rfl rfl rfl rfl rfl rfl rfl rfl
      refine ⟨alloc_runs (r :: rest), ?_, ?_, ?_, ?_, ?_⟩
      · have : (set_nbufs (reset_element (take_head (run_alloc_cb K f) r.1) r.1
            (1 * (take_head (run_alloc_cb K f) r.1).buffer_pool_buf_size)) r.1 1).nbufs r.1 = 1 :=
          upd_same _ _ _
        rw [this]
        exact alloc_runs_spec r rest hr2
      · exact hcore.1
      · exact { first := rfl, last := rfl, la0 := rfl, la1 := rfl, cap := rfl
                next := fun _ _ => rfl, type := fun _ _ => rfl
                nbufs := hcore.2 }
      · show upd _ _ _ r.1 = upd _ _ _ r.1 * _
        rw [upd_same, upd_same]; rfl
      · show f.buffer_pool_num_free - 1 = f.buffer_pool_num_free - upd _ _ _ r.1
        rw [upd_same]
    · rw [if_neg h1] at ha
      obtain ⟨f1, m, pre', r', post', hrs, hs, hspec⟩ :=
        size_alloc_search_spec (n := n') hF.seg hF.gap rest [] r (fuel + rest.length + 1)
          Link.pool_top 0 rfl (by omega) (by simp) (Or.inl ⟨rfl, rfl, rfl⟩)
      rw [plink_nil] at hs
      cases hs0 : size_alloc_search (run_alloc_cb K f) n' fuel r.1 Link.pool_top Link.pool_top 0 with
      | wait => rw [hs0] at ha; cases ha
      | abort => rw [hs0] at ha; cases ha
      | fault => rw [hs0] at ha; cases ha
      | timeout => rw [hs0] at ha; cases ha
      | done x =>
        have hx := size_alloc_search_mono fuel _ _ _ _ x hs0 (fuel + rest.length + 1) (by omega)
        rw [hs] at hx
        simp only [Outcome.done.injEq] at hx
        subst hx
        rw [hs0] at ha
        simp only [Outcome.done.injEq, Prod.mk.injEq] at ha
        obtain ⟨hf, hb⟩ := ha
        subst hb hf
        rw [hrs] at hF h ⊢
        have hr'2 := FreeSeg_pos h.seg r' (by simp)
        have hnbm : ∀ X, (set_nbufs (reset_element (sub_free f1 m) r'.1 X) r'.1 m).nbufs r'.1 = m :=
          fun X => upd_same _ _ _
        have hbs : ∀ X, (set_nbufs (reset_element (sub_free f1 m) r'.1 X) r'.1 m).max_size r'.1
            = X := fun X => upd_same _ _ _
        rw [hnbm]
        have hfin : f1.buffer_pool_buf_size = f.buffer_pool_buf_size ∧
            f1.buffer_pool_num_free = f.buffer_pool_num_free := by
          rcases hspec with ⟨_, _, _, e4⟩ | ⟨_, _, _, e4⟩ | ⟨_, _, _, _, e4⟩
          · subst e4; unfold take_split; rw [store_buf_size, store_free]; exact ⟨rfl, rfl⟩
          · subst e4; unfold take_whole; rw [store_buf_size, store_free]; exact ⟨rfl, rfl⟩
          · subst e4; unfold take_whole; rw [store_buf_size, store_free]; exact ⟨rfl, rfl⟩
        have hlast : (set_nbufs (reset_element (sub_free f1 m) r'.1
              (m * (sub_free f1 m).buffer_pool_buf_size)) r'.1 m).max_size r'.1
              = m * f.buffer_pool_buf_size ∧
            (set_nbufs (reset_element (sub_free f1 m) r'.1
              (m * (sub_free f1 m).buffer_pool_buf_size)) r'.1 m).buffer_pool_num_free
              = f.buffer_pool_num_free - m := by
          constructor
          · rw [hbs]
            show m * f1.buffer_pool_buf_size = _
            rw [hfin.1]
          · show f1.buffer_pool_num_free - m = _
            rw [hfin.2]
        rcases hspec with ⟨e1, e2, e3, e4⟩ | ⟨e1, e2, e3, e4⟩ | ⟨e1, e2, e2', e3, e4⟩
        · subst e3
          obtain ⟨p1, p2⟩ := hF.take_final (X := m * (sub_free f1 m).buffer_pool_buf_size)
            (L := [(r'.1 + m, r'.2 - m)]) (Or.inl ⟨by omega, e1, rfl, e4⟩)
          refine ⟨pre' ++ [(r'.1 + m, r'.2 - m)] ++ post', ?_, p1,
            ⟨p2.first, p2.last, p2.la0, p2.la1, p2.cap, p2.next, p2.type, p2.nbufs⟩, hlast.1, hlast.2⟩
          exact ⟨pre', r', post', rfl, rfl, Or.inl ⟨by omega, e2, rfl, by rw [if_pos e1]⟩⟩
        · subst e3
          obtain ⟨p1, p2⟩ := hF.take_final (X := m * (sub_free f1 m).buffer_pool_buf_size)
            (L := []) (Or.inr ⟨e1, rfl, e4⟩)
          refine ⟨pre' ++ [] ++ post', ?_, p1,
            ⟨p2.first, p2.last, p2.la0, p2.la1, p2.cap, p2.next, p2.type, p2.nbufs⟩, hlast.1, hlast.2⟩
          exact ⟨pre', r', post', rfl, rfl, Or.inl ⟨by omega, e2, rfl, by rw [if_neg (by omega)]⟩⟩
        · obtain ⟨p1, p2⟩ := hF.take_final (X := m * (sub_free f1 m).buffer_pool_buf_size)
            (L := []) (Or.inr ⟨e3, rfl, e4⟩)
          refine ⟨pre' ++ [] ++ post', ?_, p1,
            ⟨p2.first, p2.last, p2.la0, p2.la1, p2.cap, p2.next, p2.type, p2.nbufs⟩, hlast.1, hlast.2⟩
          exact ⟨pre', r', post', rfl, rfl, Or.inr ⟨hrs ▸ e1, e2, e2', e3, by simp⟩⟩

/-! ## `buffer_pool_realloc` -/

theorem FreeSeg_load_end {f : Fifo} {pre : List (Int × Int)} {m : Option Int}
    (h : FreeSeg f.next f.nbufs f.buffer_pool_top pre m) : f.load (plink pre) = m := by
  rcases List.eq_nil_or_concat pre with e | ⟨pre', p, e⟩
  · subst e
    have : f.buffer_pool_top = m := h
    rw [plink_nil]; exact this
  · rw [List.concat_eq_append] at e; subst e
    rw [plink_concat]
    obtain ⟨m', _, hm4⟩ := FreeSeg_append.1 h
    obtain ⟨_, _, _, _, h9⟩ := hm4
    exact h9

theorem realloc_find_succ (f : Fifo) (want : Int) (fuel : Nat) (last_buf : Link) :
    realloc_find f want (fuel + 1) last_buf =
      match f.load last_buf with
      | none => some (last_buf, none)
      | some new_buf =>
        if new_buf = want then some (last_buf, some new_buf)
        else if new_buf > want then some (last_buf, none)
        else realloc_find f want fuel (Link.next (new_buf + f.nbufs new_buf - 1)) := rfl

/-- When the search of `buffer_pool_realloc` finds a buffer, it is the run that starts at
`want_buf`, and `last_buf` is the link that leads to it. -/
theorem realloc_find_found {f : Fifo} {rs : List (Int × Int)} {want : Int}
    (hseg : FreeList f rs) (hg : Gapped rs) :
    ∀ (fuel : Nat) (pre rest : List (Int × Int)), rs = pre ++ rest →
      ∀ (l : Link) (nb : Int), realloc_find f want fuel (plink pre) = some (l, some nb) →
      ∃ pre' r post, rs = pre' ++ r :: post ∧ r.1 = want ∧ nb = want ∧ l = plink pre' := by
  intro fuel
  induction fuel with
  | zero => intro pre rest _ l nb h; cases h
  | succ fuel ih =>
    intro pre rest hrs l nb h
    rw [realloc_find_succ] at h
    cases rest with
    | nil =>
      rw [hrs] at hseg
      have hm := FreeSeg_append.1 hseg
      obtain ⟨m, hm1, hm2⟩ := hm
      have hm2' : m = none := hm2
      rw [FreeSeg_load_end hm1, hm2'] at h
      simp at h
    | cons r rest =>
      have hseg' := hseg
      have hg' := hg
      rw [hrs] at hseg' hg'
      obtain ⟨a1, a2, _, _, _⟩ := FreeList_at hseg' hg'
      rw [a1] at h
      simp only at h
      by_cases h1 : r.1 = want
      · rw [if_pos h1] at h
        simp only [Option.some.injEq, Prod.mk.injEq] at h
        exact ⟨pre, r, rest, hrs, h1, by rw [← h.2, h1], h.1.symm⟩
      · rw [if_neg h1] at h
        by_cases h2 : r.1 > want
        · rw [if_pos h2] at h
          simp at h
        · rw [if_neg h2, a2, ← plink_concat pre r] at h
          exact ih (pre ++ [r]) rest (by rw [hrs]; simp) l nb h

/-- Growing the outstanding element `b` by the first `m` slabs of the run `r` behind it. -/
theorem PInv.grow_core {f f' : Fifo} {pre post L : List (Int × Int)} {r : Int × Int} {m b : Int}
    {out : List Int} (h : PInv f (pre ++ r :: post) out) (hb : b ∈ out)
    (hadj : b + f.nbufs b = r.1)
    (hL : (m = r.2 ∧ L = []) ∨ (0 < m ∧ m < r.2 ∧ L = [(r.1 + m, r.2 - m)]))
    (hnat : f'.native = f.native) (hown : f'.pool_owned = f.pool_owned)
    (hcap : f'.buffer_pool_capacity = f.buffer_pool_capacity)
    (hres : f'.alloc_cb_data = f.alloc_cb_data)
    (hseg : FreeList f' (pre ++ L ++ post))
    (hfree : f'.buffer_pool_num_free = f.buffer_pool_num_free - m)
    (hself : f'.nbufs b = f.nbufs b + m)
    (hnb : ∀ x ∈ out.erase b, f'.nbufs x = f.nbufs x)
    (hfor : ∀ x, ¬ (0 ≤ x ∧ x < f.buffer_pool_capacity) → f'.nbufs x = 0) :
    PInv f' (pre ++ L ++ post) out := by
  have hmem : r ∈ pre ++ r :: post := by simp
  have hpos := FreeSeg_pos h.seg
  have hr2 := hpos r hmem
  have hra := h.run_in_arena hmem
  have hm : 0 < m ∧ m ≤ r.2 := by rcases hL with ⟨e, _⟩ | ⟨e1, e2, _⟩ <;> omega
  have hnb0 := h.nbufs_nonneg hb
  exact
    { native := by rw [hnat]; exact h.native
      owned := by rw [hown, hcap]; exact h.owned
      foreign := by rw [hcap]; exact hfor
      res := by rw [hres]; exact h.res
      seg := hseg
      gap := by
        rcases hL with ⟨_, e⟩ | ⟨e1, _, e⟩
        · subst e; simpa using gapped_remove h.gap hr2
        · subst e; simpa using gapped_split h.gap e1
      nfree := by
        rw [hfree, h.nfree]
        rcases hL with ⟨e1, e⟩ | ⟨_, _, e⟩
        · subst e; simp only [lsum_append, lsum_cons, lsum_nil]; omega
        · subst e; simp only [lsum_append, lsum_cons, lsum_nil]; omega
      tile := by
        intro j
        have ht := h.tile j
        rw [hcap, cnt_blk_erase f' hb j, blk_congr hnb, hself]
        rw [cnt_blk_erase f hb j] at ht
        have hs := ind_split b (f.nbufs b + m) (f.nbufs b) j hnb0 (by omega)
        rw [hadj, show f.nbufs b + m - f.nbufs b = m by omega] at hs
        simp only [cnt_cons, cnt_append] at ht ⊢
        rcases hL with ⟨e1, e⟩ | ⟨e1, e2, e⟩
        · subst e; subst e1; simp only [cnt_nil]; omega
        · subst e
          have := ind_split r.1 r.2 m j (by omega) (by omega)
          simp only [cnt_cons, cnt_nil]; omega
      total := by
        rw [hfree, hcap, bsum_erase f' hb, bsum_congr hnb, hself]
        have := h.total
        rw [bsum_erase f hb] at this
        omega
      nodup := h.nodup
      pos := by
        intro x hx
        rw [hcap]
        by_cases e : x = b
        · subst e; intro _ _; rw [hself]; omega
        · rw [hnb x ((List.mem_erase_of_ne e).2 hx)]; exact h.pos x hx
      notcap := by rw [hcap]; exact h.notcap }

theorem some_elem_done {o : Outcome (Fifo × Int)} {f' : Fifo} {res : Option Int}
    (h : o.some_elem = .done (f', res)) : ∃ e, res = some e ∧ o = .done (f', e) := by
  cases o with
  | done x =>
    obtain ⟨f1, e⟩ := x
    simp only [Outcome.some_elem, Outcome.done.injEq, Prod.mk.injEq] at h
    exact ⟨e, h.2.symm, by rw [h.1]⟩
  | wait => cases h
  | abort => cases h
  | fault => cases h
  | timeout => cases h

theorem realloc_grow_nbufs (f : Fifo) (old : Int) (l : Link) (nb n : Int) :
    (realloc_grow f old l nb n).nbufs =
      upd (if f.nbufs nb - n > 0 then upd f.nbufs (nb + n) (f.nbufs nb - n) else f.nbufs) old
        ((if f.nbufs nb - n > 0 then upd f.nbufs (nb + n) (f.nbufs nb - n) else f.nbufs) old
          + (if f.nbufs nb - n > 0 then n else f.nbufs nb)) := by
  cases l <;> rfl

theorem realloc_grow_next (f : Fifo) (old : Int) (l : Link) (nb n : Int) :
    (realloc_grow f old l nb n).next =
      (f.store l (if f.nbufs nb - n > 0 then some (nb + n)
        else f.next (nb + f.nbufs nb - 1))).next := by
  cases l <;> rfl

theorem realloc_grow_top (f : Fifo) (old : Int) (l : Link) (nb n : Int) :
    (realloc_grow f old l nb n).buffer_pool_top =
      (f.store l (if f.nbufs nb - n > 0 then some (nb + n)
        else f.next (nb + f.nbufs nb - 1))).buffer_pool_top := by
  cases l <;> rfl

theorem realloc_grow_free (f : Fifo) (old : Int) (l : Link) (nb n : Int) :
    (realloc_grow f old l nb n).buffer_pool_num_free =
      f.buffer_pool_num_free - (if f.nbufs nb - n > 0 then n else f.nbufs nb) := by
  cases l <;> rfl

theorem realloc_grow_native (f : Fifo) (old : Int) (l : Link) (nb n : Int) :
    (realloc_grow f old l nb n).native = f.native := by
  cases l <;> rfl

theorem realloc_grow_owned (f : Fifo) (old : Int) (l : Link) (nb n : Int) :
    (realloc_grow f old l nb n).pool_owned = f.pool_owned := by
  cases l <;> rfl

theorem realloc_grow_cap (f : Fifo) (old : Int) (l : Link) (nb n : Int) :
    (realloc_grow f old l nb n).buffer_pool_capacity = f.buffer_pool_capacity := by
  cases l <;> rfl

theorem realloc_grow_res (f : Fifo) (old : Int) (l : Link) (nb n : Int) :
    (realloc_grow f old l nb n).alloc_cb_data = f.alloc_cb_data := by
  cases l <;> rfl

theorem realloc_grow_type (f : Fifo) (old : Int) (l : Link) (nb n : Int) :
    (realloc_grow f old l nb n).type = f.type := by
  cases l <;> rfl

theorem realloc_grow_last (f : Fifo) (old : Int) (l : Link) (nb n : Int) :
    (realloc_grow f old l nb n).last = f.last := by
  cases l <;> rfl

theorem realloc_grow_la0 (f : Fifo) (old : Int) (l : Link) (nb n : Int) :
    (realloc_grow f old l nb n).last_add0 = f.last_add0 := by
  cases l <;> rfl

theorem realloc_grow_la1 (f : Fifo) (old : Int) (l : Link) (nb n : Int) :
    (realloc_grow f old l nb n).last_add1 = f.last_add1 := by
  cases l <;> rfl

theorem realloc_grow_first (f : Fifo) (old : Int) (pre : List (Int × Int)) (nb n : Int) :
    (realloc_grow f old (plink pre) nb n).first = f.first := by
  rcases List.eq_nil_or_concat pre with e | ⟨pre', p, e⟩
  · subst e; rfl
  · rw [List.concat_eq_append] at e; subst e; rw [plink_concat]; rfl

/-- The in-place growth of `buffer_pool_realloc` keeps the pool invariant. -/
theorem realloc_grow_inv {f : Fifo} {pre post : List (Int × Int)} {r : Int × Int} {n b : Int}
    {out : List Int} (h : PInv f (pre ++ r :: post) out) (hb : b ∈ out)
    (hadj : b + f.nbufs b = r.1) (hn : 1 ≤ n) :
    ∃ rs', PInv (realloc_grow f b (plink pre) r.1 n) rs' out ∧
      Frame f (realloc_grow f b (plink pre) r.1 n) (out.erase b) ∧
      f.nbufs b ≤ (realloc_grow f b (plink pre) r.1 n).nbufs b := by
  have hmem : r ∈ pre ++ r :: post := by simp
  have hpos := FreeSeg_pos h.seg
  have hr2 := hpos r hmem
  obtain ⟨_, a2, _, _, _⟩ := FreeList_at h.seg h.gap
  have hpre : ∀ p ∈ pre, p.1 + p.2 < r.1 := fun p hp =>
    gapped_append_above h.gap hpos p hp r (by simp)
  have hpost : ∀ p ∈ post, r.1 + r.2 < p.1 :=
    gapped_above (gapped_append_right h.gap)
      (fun x hx => hpos x (List.mem_append_right _ (List.mem_cons_of_mem _ hx)))
  have hnb0 := h.nbufs_nonneg hb
  have hpp : ∀ p ∈ pre ++ post, p.1 ≠ b ∧ ¬ (r.1 ≤ p.1 ∧ p.1 < r.1 + r.2) := by
    intro p hp
    have hp' : p ∈ pre ++ r :: post := by
      rcases List.mem_append.1 hp with hp | hp
      · exact List.mem_append_left _ hp
      · exact List.mem_append_right _ (List.mem_cons_of_mem _ hp)
    have hpb : p.1 ≠ b := fun e =>
      h.free_not_out hp' (j := p.1) (le_refl _) (by have := hpos p hp'; omega) (e ▸ hb)
    refine ⟨hpb, ?_⟩
    rcases List.mem_append.1 hp with hp | hp
    · have := hpre p hp
      have := hpos p hp'
      omega
    · have := hpost p hp; omega
  have hbr : ∀ j, r.1 ≤ j → j < r.1 + r.2 → b ≠ j := fun j h1 h2 e =>
    h.free_not_out hmem (j := j) h1 h2 (e ▸ hb)
  have hxb : ∀ x ∈ out.erase b, x ≠ b := fun x hx => ((h.nodup.mem_erase_iff).1 hx).1
  have hframe : ∀ (_ : Nat),
      (∀ x ∈ out.erase b, (realloc_grow f b (plink pre) r.1 n).nbufs x = f.nbufs x) →
      Frame f (realloc_grow f b (plink pre) r.1 n) (out.erase b) := fun _ hnbx =>
    { first := realloc_grow_first _ _ _ _ _
      last := realloc_grow_last _ _ _ _ _
      la0 := realloc_grow_la0 _ _ _ _ _
      la1 := realloc_grow_la1 _ _ _ _ _
      cap := realloc_grow_cap _ _ _ _ _
      type := fun x _ => by rw [realloc_grow_type]
      nbufs := hnbx
      next := fun x hx => by
        rw [realloc_grow_next]
        exact store_plink_next_out h _ x (List.mem_of_mem_erase hx) }
  by_cases hs : r.2 - n > 0
  · have hnbG : (realloc_grow f b (plink pre) r.1 n).nbufs
        = upd (upd f.nbufs (r.1 + n) (r.2 - n)) b (f.nbufs b + n) := by
      rw [realloc_grow_nbufs, a2, if_pos hs, if_pos hs, upd_ne _ _ (hbr _ (by omega) (by omega))]
    have hnbx : ∀ x ∈ out.erase b, (realloc_grow f b (plink pre) r.1 n).nbufs x = f.nbufs x := by
      intro x hx
      have hx2 : x ≠ r.1 + n := fun e =>
        h.free_not_out hmem (j := r.1 + n) (by omega) (by omega) (e ▸ List.mem_of_mem_erase hx)
      rw [hnbG, upd_ne _ _ (hxb x hx), upd_ne _ _ hx2]
    refine ⟨pre ++ [(r.1 + n, r.2 - n)] ++ post, ?_, hframe 0 hnbx, ?_⟩
    · refine h.grow_core hb hadj (Or.inr ⟨by omega, by omega, rfl⟩)
        (realloc_grow_native _ _ _ _ _) (realloc_grow_owned _ _ _ _ _)
        (realloc_grow_cap _ _ _ _ _) (realloc_grow_res _ _ _ _ _) ?_ ?_ ?_ hnbx ?_
      · have := @FreeList_split _ (realloc_grow f b (plink pre) r.1 n) _ _ _ _ h.seg h.gap
          (show 0 < n by omega) (by omega)
          (by rw [realloc_grow_next, a2, if_pos hs])
          (by rw [realloc_grow_top, a2, if_pos hs])
          (by rw [hnbG, upd_ne _ _ (fun e => hbr _ (by omega) (by omega) e.symm), upd_same])
          (by intro p hp
              have := hpp p hp
              rw [hnbG, upd_ne _ _ this.1, upd_ne _ _ (by omega)])
        simpa using this
      · rw [realloc_grow_free, a2, if_pos hs]
      · rw [hnbG, upd_same]
      · intro x hx
        have hb1 : x ≠ b := by
          have := (h.owned b).1
          intro e
          subst e
          have := h.foreign x hx
          have := hpos r hmem
          have := h.run_in_arena hmem
          omega
        have := h.run_in_arena hmem
        rw [hnbG, upd_ne _ _ hb1, upd_ne _ _ (by omega)]
        exact h.foreign x hx
    · rw [hnbG, upd_same]; omega
  · have hnbG : (realloc_grow f b (plink pre) r.1 n).nbufs = upd f.nbufs b (f.nbufs b + r.2) := by
      rw [realloc_grow_nbufs, a2, if_neg hs, if_neg hs]
    have hnbx : ∀ x ∈ out.erase b, (realloc_grow f b (plink pre) r.1 n).nbufs x = f.nbufs x := by
      intro x hx
      rw [hnbG, upd_ne _ _ (hxb x hx)]
    refine ⟨pre ++ [] ++ post, ?_, hframe 0 hnbx, ?_⟩
    · refine h.grow_core hb hadj (Or.inl ⟨rfl, rfl⟩)
        (realloc_grow_native _ _ _ _ _) (realloc_grow_owned _ _ _ _ _)
        (realloc_grow_cap _ _ _ _ _) (realloc_grow_res _ _ _ _ _) ?_ ?_ ?_ hnbx ?_
      · have := @FreeList_remove _ (realloc_grow f b (plink pre) r.1 n) _ _ _ h.seg h.gap
          (by rw [realloc_grow_next, a2, if_neg hs])
          (by rw [realloc_grow_top, a2, if_neg hs])
          (by intro p hp
              have := hpp p hp
              rw [hnbG, upd_ne _ _ this.1])
        simpa using this
      · rw [realloc_grow_free, a2, if_neg hs]
      · rw [hnbG, upd_same]
      · intro x hx
        have hb1 : x ≠ b := by
          intro e
          subst e
          have := h.foreign x hx
          have := h.run_in_arena hmem
          omega
        rw [hnbG, upd_ne _ _ hb1]
        exact h.foreign x hx
    · rw [hnbG, upd_same]; omega

theorem Frame.refl (f : Fifo) (q : List Int) : Frame f f q :=
  { first := rfl, last := rfl, la0 := rfl, la1 := rfl, cap := rfl
    next := fun _ _ => rfl, type := fun _ _ => rfl, nbufs := fun _ _ => rfl }

/-- What a completed `buffer_pool_realloc` does: either the element `b` has grown in place
(or nothing happened) and no pointer is returned, or a fresh element is returned. -/
theorem realloc_done {K : BufferH} {f f' : Fifo} {b : Int} {fuel : Nat} {new_size : Nat}
    {res : Option Int} {rs : List (Int × Int)} {out : List Int} (h : PInv f rs out)
    (hb : b ∈ out) (ha : buffer_pool_realloc K fuel f b new_size = .done (f', res)) :
    ∃ rs', PInv f' rs' (res.toList ++ out) ∧ Frame f f' (out.erase b) ∧
      f.nbufs b ≤ f'.nbufs b ∧ (res ≠ none → f'.nbufs b = f.nbufs b) := by
  have hsub : ∀ x ∈ out.erase b, x ∈ out := fun x hx => List.mem_of_mem_erase hx
  have fallback : ∀ n, (_buffer_pool_size_alloc K fuel f n).some_elem = .done (f', res) →
      ∃ rs', PInv f' rs' (res.toList ++ out) ∧ Frame f f' (out.erase b) ∧
        f.nbufs b ≤ f'.nbufs b ∧ (res ≠ none → f'.nbufs b = f.nbufs b) := by
    intro n hn
    obtain ⟨e, he, hd⟩ := some_elem_done hn
    obtain ⟨_, rs', _, p1, p2, _⟩ := size_alloc_done h hd
    subst he
    exact ⟨rs', p1, p2.mono hsub, le_of_eq (p2.nbufs b hb).symm, fun _ => p2.nbufs b hb⟩
  unfold buffer_pool_realloc at ha
  simp only at ha
  split at ha
  · simp only [Outcome.done.injEq, Prod.mk.injEq] at ha
    obtain ⟨e1, e2⟩ := ha
    subst e1 e2
    exact ⟨rs, h, Frame.refl _ _, le_refl _, fun _ => rfl⟩
  · split at ha
    · simp only [Outcome.done.injEq, Prod.mk.injEq] at ha
      obtain ⟨e1, e2⟩ := ha
      subst e1 e2
      exact ⟨rs, h, Frame.refl _ _, le_refl _, fun _ => rfl⟩
    · split at ha
      · rename_i hnat
        have : _fifo_is_native f = true := h.native
        rw [this] at hnat
        simp at hnat
      · split at ha
        · cases ha
        cases hfind : realloc_find f (b + f.nbufs b) fuel Link.pool_top with
        | none => rw [hfind] at ha; cases ha
        | some x =>
          obtain ⟨l, o⟩ := x
          rw [hfind] at ha
          cases o with
          | none => exact fallback _ ha
          | some nb =>
            simp only at ha
            obtain ⟨pre, r, post, hrs, hr1, hnb, hl⟩ :=
              realloc_find_found h.seg h.gap fuel [] rs rfl l nb (by rw [plink_nil]; exact hfind)
            by_cases hn1 : realloc_limit f (realloc_need f b new_size) < 1
            · rw [if_pos hn1] at ha
              exact fallback _ ha
            · rw [if_neg hn1] at ha
              simp only [Outcome.done.injEq, Prod.mk.injEq] at ha
              obtain ⟨e1, e2⟩ := ha
              subst e2 hnb hl hrs
              rw [← hr1] at e1
              obtain ⟨rs', p1, p2, p3⟩ := realloc_grow_inv h hb hr1.symm (le_of_not_lt hn1)
              rw [e1] at p1 p2 p3
              exact ⟨rs', p1, p2, p3, fun hc => absurd rfl hc⟩

/-! ## Fifo operations: `get` and `insert` -/

/-- The pool invariant reads only the pool fields, `nbufs`, and `next` of free slabs. -/
theorem PInv.congr {f f' : Fifo} {rs : List (Int × Int)} {out : List Int} (h : PInv f rs out)
    (hnat : f'.native = f.native) (hown : f'.pool_owned = f.pool_owned)
    (hcap : f'.buffer_pool_capacity = f.buffer_pool_capacity)
    (hres : 0 ≤ f'.alloc_cb_data 0)
    (htop : f'.buffer_pool_top = f.buffer_pool_top)
    (hfree : f'.buffer_pool_num_free = f.buffer_pool_num_free)
    (hnb : f'.nbufs = f.nbufs)
    (hnext : ∀ x, x ∉ out → f'.next x = f.next x) : PInv f' rs out where
  native := by rw [hnat]; exact h.native
  owned := by rw [hown, hcap]; exact h.owned
  foreign := by rw [hnb, hcap]; exact h.foreign
  res := hres
  seg := by
    unfold FreeList
    rw [htop, hnb]
    refine FreeSeg_congr ?_ (fun _ _ => rfl) h.seg
    intro r hr j hj1 hj2
    exact hnext j (h.free_not_out hr hj1 hj2)
  gap := h.gap
  nfree := by rw [hfree]; exact h.nfree
  tile := by
    intro j
    rw [hcap, @blk_congr f f' _ (fun b _ => by rw [hnb])]
    exact h.tile j
  total := by
    rw [hfree, hcap, @bsum_congr f f' _ (fun b _ => by rw [hnb])]
    exact h.total
  nodup := h.nodup
  pos := by rw [hnb, hcap]; exact h.pos
  notcap := by rw [hcap]; exact h.notcap

theorem qlink_nil : qlink [] = Link.first := rfl

theorem qlink_concat (q : List Int) (a : Int) : qlink (q ++ [a]) = Link.next a := by
  simp [qlink]

theorem qlink_cons_cons (e a : Int) (q : List Int) : qlink (e :: a :: q) = qlink (a :: q) := by
  simp [qlink, List.getLast?_cons_cons]

theorem Queue.head {f : Fifo} {q : List Int} (h : Queue f q) : f.first = q.head? := by
  cases q with
  | nil => exact h
  | cons x q => exact h.1

theorem pair_sublist_tail {x y b : Int} {q : List Int} (h : [x, y].Sublist (b :: q)) (hx : x ≠ b) :
    [x, y].Sublist q := by
  cases h with
  | cons _ h' => exact h'
  | cons₂ _ _ => exact absurd rfl hx

/-- The function `fifo_buffer_get` takes the head element off the queue. -/
theorem get_inv {K : BufferH} {s : Sys} {f' : Fifo} {b : Int} {rs : List (Int × Int)} {q : List Int}
    (hP : PInv s.f rs (s.held ++ q)) (hQ : QInv K s q)
    (hg : fifo_buffer_get K s.f = .done (f', b)) :
    ∃ q', q = b :: q' ∧ f' = run_get_cb K (get_unlink s.f b) b ∧
      PInv f' rs ((b :: s.held) ++ q') ∧ QInv K { s with f := f', held := b :: s.held } q' := by
  unfold fifo_buffer_get at hg
  cases q with
  | nil =>
    have : s.f.first = none := hQ.seg
    rw [this] at hg
    cases hg
  | cons x q' =>
    obtain ⟨hfirst, hseg⟩ := hQ.seg
    rw [hfirst] at hg
    simp only [Outcome.done.injEq, Prod.mk.injEq] at hg
    obtain ⟨hf, hb⟩ := hg
    subst hb
    have hnd : (x :: q').Nodup := (List.nodup_append.1 hP.nodup).2.1
    have hxq : x ∉ q' := (List.nodup_cons.1 hnd).1
    have hperm : (s.held ++ x :: q').Perm ((x :: s.held) ++ q') := by
      simpa using List.perm_middle
    have hnative : _fifo_is_native s.f = true := hP.native
    refine ⟨q', rfl, hf.symm, ?_, ?_⟩
    · subst hf
      refine (hP.perm hperm).congr rfl rfl rfl hP.res rfl rfl rfl ?_
      intro y hy
      have : y ≠ x := fun e => hy (by rw [e]; simp)
      exact upd_ne _ _ this
    · subst hf
      have hnext : ∀ y ∈ q', (run_get_cb K (get_unlink s.f x) x).next y = s.f.next y := by
        intro y hy
        have : y ≠ x := fun e => hxq (e ▸ hy)
        exact upd_ne _ _ this
      have hcur : ∀ (la : Link) (g : Nat), Cur K s.f (x :: q') la g →
          Cur K (run_get_cb K (get_unlink s.f x) x) q'
            (if _fifo_is_native s.f ∧ la = Link.next x then Link.first else la) g := by
        intro la g ⟨q1, q2, e, hl, hg⟩
        cases q1 with
        | nil =>
          simp only [List.nil_append] at e
          subst e
          rw [hl, qlink_nil, if_neg (by simp)]
          exact ⟨[], q', rfl, rfl, fun y hy => hg y (List.mem_cons_of_mem _ hy)⟩
        | cons a q1 =>
          simp only [List.cons_append, List.cons.injEq] at e
          obtain ⟨e1, e2⟩ := e
          subst e1
          cases q1 with
          | nil =>
            simp only [List.nil_append] at e2
            subst e2
            rw [hl, show qlink [x] = Link.next x from rfl, if_pos ⟨hnative, rfl⟩]
            exact ⟨[], _, rfl, rfl, hg⟩
          | cons c q1 =>
            have hne : qlink (x :: c :: q1) ≠ Link.next x := by
              rw [qlink_cons_cons]
              intro hc
              have hlast : (c :: q1).getLast? = some x := by
                unfold qlink at hc
                cases hgl : (c :: q1).getLast? with
                | none => rw [hgl] at hc; cases hc
                | some z => rw [hgl] at hc; simp only [Link.next.injEq] at hc; rw [hc]
              have : x ∈ c :: q1 := List.mem_of_getLast?_eq_some hlast
              exact hxq (by rw [e2]; exact List.mem_append_left _ this)
            rw [hl, if_neg (fun hc => hne hc.2), qlink_cons_cons]
            exact ⟨c :: q1, q2, e2, rfl, hg⟩
      exact
        { seg := QSeg_congr hnext hseg
          last := by
            show (if s.f.next x = none then none else s.f.last) = q'.getLast?
            cases q' with
            | nil =>
              have : s.f.next x = none := hseg
              rw [if_pos this]; rfl
            | cons y q'' =>
              have : s.f.next x = some y := hseg.1
              rw [if_neg (by rw [this]; simp), hQ.last]
              simp [List.getLast?_cons_cons]
          cur0 := hcur _ _ hQ.cur0
          cur1 := hcur _ _ hQ.cur1
          clk := fun y hy => hQ.clk y (List.mem_cons_of_mem _ hy)
          ord := by
            intro a ha c hc i j h1 h2 h3 h4
            have := hQ.ord a (List.mem_cons_of_mem _ ha) c (List.mem_cons_of_mem _ hc) i j h1 h2 h3 h4
            exact pair_sublist_tail this (fun e => hxq (e ▸ ha)) }

theorem QSeg_append {next : Int → Option Int} {l1 l2 : List Int} {a b : Option Int} :
    QSeg next a (l1 ++ l2) b ↔ ∃ m, QSeg next a l1 m ∧ QSeg next m l2 b := by
  induction l1 generalizing a with
  | nil =>
    constructor
    · intro h; exact ⟨a, rfl, h⟩
    · rintro ⟨m, h1, h2⟩
      have : a = m := h1
      subst this; exact h2
  | cons r l1 ih =>
    constructor
    · rintro ⟨h1, h5⟩
      obtain ⟨m, hm1, hm2⟩ := ih.1 h5
      exact ⟨m, ⟨h1, hm1⟩, hm2⟩
    · rintro ⟨m, ⟨h1, h5⟩, hm2⟩
      exact ⟨h1, ih.2 ⟨m, h5, hm2⟩⟩

theorem QSeg_head {next : Int → Option Int} {l : List Int} {a : Option Int}
    (h : QSeg next a l none) : a = l.head? := by
  cases l with
  | nil => exact h
  | cons x l => exact h.1

/-- The link behind the elements `A` of a queue `A ++ B` holds the head of `B`. -/
theorem Queue.load_qlink {f : Fifo} {A B : List Int} (h : Queue f (A ++ B)) :
    f.load (qlink A) = B.head? := by
  unfold Queue at h
  obtain ⟨m, h1, h2⟩ := QSeg_append.1 h
  rw [← QSeg_head h2]
  rcases List.eq_nil_or_concat A with e | ⟨A', a, e⟩
  · subst e
    have : f.first = m := h1
    rw [qlink_nil]; exact this
  · rw [List.concat_eq_append] at e; subst e
    rw [qlink_concat]
    obtain ⟨m', _, h4⟩ := QSeg_append.1 h1
    exact h4.2

theorem Queue_insert_head {f f' : Fifo} {B : List Int} {e : Int} (h : Queue f B) (he : e ∉ B)
    (hfirst : f'.first = some e) (hnext : f'.next e = f.first)
    (hsame : ∀ x ∈ B, f'.next x = f.next x) : Queue f' (e :: B) := by
  refine ⟨hfirst, ?_⟩
  rw [hnext]
  exact QSeg_congr hsame h

theorem Queue_insert_after {f f' : Fifo} {A B : List Int} {a e : Int}
    (h : Queue f (A ++ a :: B)) (hfirst : f'.first = f.first) (ha : f'.next a = some e)
    (hnext : f'.next e = f.next a) (hsame : ∀ x ∈ A ++ B, f'.next x = f.next x) :
    Queue f' (A ++ a :: e :: B) := by
  unfold Queue at h ⊢
  obtain ⟨m, h1, h2, h3⟩ := QSeg_append.1 h
  rw [hfirst]
  refine QSeg_append.2 ⟨m, QSeg_congr (fun x hx => hsame x (List.mem_append_left _ hx)) h1, h2, ?_⟩
  rw [ha]
  refine ⟨rfl, ?_⟩
  rw [hnext]
  exact QSeg_congr (fun x hx => hsame x (List.mem_append_right _ hx)) h3

theorem Cur.mono_type {K : BufferH} {f f' : Fifo} {q : List Int} {l : Link} {g : Nat}
    (h : Cur K f q l g) (ht : f'.type = f.type) : Cur K f' q l g :=
  h.frame_types (fun b _ => by rw [ht])

/-- A cursor stays a cursor when an element of its group `g` is linked in anywhere, or any
element is linked in ahead of it. -/
theorem Cur.insert {K : BufferH} {f : Fifo} {A B : List Int} {l : Link} {g : Nat} {e : Int}
    (h : Cur K f (A ++ B) l g) (he : tix K f e = g) : Cur K f (A ++ e :: B) l g := by
  obtain ⟨p1, p2, hq, hl, hg⟩ := h
  rcases List.append_eq_append_iff.1 hq with ⟨w, e1, e2⟩ | ⟨w, e1, e2⟩
  · -- the cursor is at or behind the insertion point
    cases w with
    | nil =>
      simp only [List.append_nil] at e1
      simp only [List.nil_append] at e2
      subst e1 e2
      refine ⟨_, e :: _, rfl, hl, ?_⟩
      intro x hx
      rcases List.mem_cons.1 hx with h | h
      · rw [h]; exact he
      · exact hg x h
    | cons c w =>
      subst e1 e2
      refine ⟨A ++ e :: c :: w, p2, by simp, ?_, hg⟩
      rw [hl]
      unfold qlink
      simp [List.getLast?_append, List.getLast?_cons_cons]
  · -- the cursor is ahead of the insertion point
    subst e1 e2
    refine ⟨p1, w ++ e :: B, by simp, hl, ?_⟩
    intro x hx
    rcases List.mem_append.1 hx with h | h
    · exact hg x (List.mem_append_left _ h)
    · rcases List.mem_cons.1 h with h | h
      · rw [h]; exact he
      · exact hg x (List.mem_append_right _ h)

theorem pair_sublist_insert {x y e : Int} {A B : List Int} (h : [x, y].Sublist (A ++ B)) :
    [x, y].Sublist (A ++ e :: B) :=
  h.trans (List.Sublist.append (List.Sublist.refl A) (List.sublist_cons_self e B))

theorem pair_sublist_new {x e : Int} {A B : List Int} (hx : x ∈ A) :
    [x, e].Sublist (A ++ e :: B) := by
  have h1 : [x].Sublist A := List.singleton_sublist.2 hx
  have h2 : [e].Sublist (e :: B) := List.singleton_sublist.2 (List.mem_cons_self _ _)
  exact List.Sublist.append h1 h2

theorem perm_move_to_queue {held q : List Int} {e : Int} (he : e ∈ held) (A B : List Int)
    (hq : q = A ++ B) : (held ++ q).Perm (held.erase e ++ (A ++ e :: B)) := by
  subst hq
  have h1 : (held ++ (A ++ B)).Perm ((e :: held.erase e) ++ (A ++ B)) :=
    (List.perm_cons_erase he).append_right _
  refine h1.trans ?_
  have h2 : (A ++ e :: B).Perm (e :: (A ++ B)) := List.perm_middle
  have h3 : (held.erase e ++ (A ++ e :: B)).Perm (held.erase e ++ e :: (A ++ B)) :=
    h2.append_left _
  refine List.Perm.trans ?_ h3.symm
  simpa using (@List.perm_middle _ e (held.erase e) (A ++ B)).symm

theorem not_mem_queue_of_held {held q : List Int} {e : Int} (hnd : (held ++ q).Nodup)
    (he : e ∈ held) : e ∉ q := fun hq =>
  (List.nodup_append.1 hnd).2.2 he hq

theorem qlink_ne_first_of_ne_nil {q : List Int} (h : q ≠ []) : qlink q ≠ Link.first := by
  rcases List.eq_nil_or_concat q with e | ⟨q', a, e⟩
  · exact absurd e h
  · rw [List.concat_eq_append] at e; subst e
    rw [qlink_concat]; simp

/-- The function `fifo_buffer_insert` puts the element in front of the queue. -/
theorem insert_inv {K : BufferH} {s : Sys} {e : Int} {rs : List (Int × Int)} {q : List Int}
    (hP : PInv s.f rs (s.held ++ q)) (hQ : QInv K s q) (he : e ∈ s.held) :
    PInv (fifo_buffer_insert s.f e) rs (s.held.erase e ++ (e :: q)) ∧
    QInv K { s with f := fifo_buffer_insert s.f e, held := s.held.erase e,
                    stamp := upd s.stamp e none } (e :: q) := by
  have heq : e ∉ q := not_mem_queue_of_held hP.nodup he
  have hnative : _fifo_is_native s.f = true := hP.native
  have hperm := perm_move_to_queue he [] q rfl
  have hsame : ∀ x ∈ q, (fifo_buffer_insert s.f e).next x = s.f.next x := by
    intro x hx
    have : x ≠ e := fun h => heq (h ▸ hx)
    exact upd_ne _ _ this
  constructor
  · refine (hP.perm hperm).congr rfl rfl rfl hP.res rfl rfl rfl ?_
    intro y hy
    have : y ≠ e := fun h => hy (by rw [h]; simp)
    exact upd_ne _ _ this
  · have hcur : ∀ (la : Link) (g : Nat), Cur K s.f q la g →
        Cur K (fifo_buffer_insert s.f e) (e :: q)
          (if _fifo_is_native s.f ∧ la = Link.first then Link.next e else la) g := by
      intro la g ⟨q1, q2, hq, hl, hg⟩
      cases q1 with
      | nil =>
        rw [hl, qlink_nil, if_pos ⟨hnative, rfl⟩]
        exact ⟨[e], q2, by rw [hq]; rfl, rfl, hg⟩
      | cons a q1 =>
        rw [hl, if_neg (fun hc => qlink_ne_first_of_ne_nil (by simp) hc.2)]
        exact ⟨e :: a :: q1, q2, by rw [hq]; rfl, (qlink_cons_cons e a q1).symm, hg⟩
    exact
      { seg := Queue_insert_head hQ.seg heq rfl (upd_same _ _ _) hsame
        last := by
          show (if s.f.last = none then some e else s.f.last) = (e :: q).getLast?
          rw [hQ.last]
          cases q with
          | nil => rfl
          | cons y q' => rw [if_neg (by simp), List.getLast?_cons_cons]
        cur0 := hcur _ _ hQ.cur0
        cur1 := hcur _ _ hQ.cur1
        clk := by
          intro x hx i hi
          have hi0 : upd s.stamp e none x = some i := hi
          have hxe : x ≠ e := fun h => by
            rw [h, upd_same] at hi0; cases hi0
          have hi' : s.stamp x = some i := by rw [← hi0]; exact (upd_ne _ _ hxe).symm
          rcases List.mem_cons.1 hx with h | h
          · exact absurd h hxe
          · exact hQ.clk x h i hi'
        ord := by
          intro x hx y hy i j h1 h2 h3 h4
          have hne : ∀ z k, upd s.stamp e none z = some k → z ≠ e ∧ s.stamp z = some k := by
            intro z k hz
            have hze : z ≠ e := fun h => by
              rw [h, upd_same] at hz; cases hz
            exact ⟨hze, by rw [← hz]; exact (upd_ne _ _ hze).symm⟩
          obtain ⟨hx1, hx2⟩ := hne x i h1
          obtain ⟨hy1, hy2⟩ := hne y j h2
          have hxq : x ∈ q := by
            rcases List.mem_cons.1 hx with h | h
            · exact absurd h hx1
            · exact h
          have hyq : y ∈ q := by
            rcases List.mem_cons.1 hy with h | h
            · exact absurd h hy1
            · exact h
          exact List.Sublist.cons _ (hQ.ord x hxq y hyq i j hx2 hy2 h3 h4) }

/-! ## `fifo_buffer_put` -/

/-- Folding the outstanding element `e` into the element `a` that ends where `e` starts. -/
theorem PInv.merge_core {f f' : Fifo} {rs : List (Int × Int)} {out : List Int} {a e : Int}
    (h : PInv f rs out) (ha : a ∈ out) (he : e ∈ out) (hne : a ≠ e)
    (hadj : a + f.nbufs a = e)
    (hnat : f'.native = f.native) (hown : f'.pool_owned = f.pool_owned)
    (hcap : f'.buffer_pool_capacity = f.buffer_pool_capacity)
    (hres : f'.alloc_cb_data = f.alloc_cb_data)
    (htop : f'.buffer_pool_top = f.buffer_pool_top)
    (hfree : f'.buffer_pool_num_free = f.buffer_pool_num_free)
    (hnext : f'.next = f.next)
    (hnb : f'.nbufs = upd f.nbufs a (f.nbufs a + f.nbufs e)) :
    PInv f' rs (out.erase e) := by
  have haa : 0 ≤ a ∧ a < f.buffer_pool_capacity := by
    by_contra hc
    have := h.foreign a hc
    omega
  have hna := h.pos a ha haa.1 haa.2
  have hae := h.out_in_arena ha haa.1 haa.2
  have hec := h.notcap e he
  have hne' := h.pos e he (by omega) (by omega)
  have ha' : a ∈ out.erase e := (List.mem_erase_of_ne hne).2 ha
  have hnd' : (out.erase e).Nodup := h.nodup.erase e
  have hsame : ∀ x ∈ (out.erase e).erase a, f'.nbufs x = f.nbufs x := by
    intro x hx
    have : x ≠ a := ((hnd'.mem_erase_iff).1 hx).1
    rw [hnb, upd_ne _ _ this]
  have hself : f'.nbufs a = f.nbufs a + f.nbufs e := by rw [hnb, upd_same]
  exact
    { native := by rw [hnat]; exact h.native
      owned := by rw [hown, hcap]; exact h.owned
      foreign := by
        intro x hx
        rw [hcap] at hx
        rw [hnb, upd_ne _ _ (by omega)]
        exact h.foreign x hx
      res := by rw [hres]; exact h.res
      seg := by
        unfold FreeList
        rw [htop, hnext]
        refine FreeSeg_congr (fun _ _ _ _ _ => rfl) ?_ h.seg
        intro r hr
        have : r.1 ≠ a := fun e' =>
          h.free_not_out hr (j := r.1) (le_refl _) (by have := FreeSeg_pos h.seg r hr; omega)
            (e' ▸ ha)
        rw [hnb, upd_ne _ _ this]
      gap := h.gap
      nfree := by rw [hfree]; exact h.nfree
      tile := by
        intro j
        have ht := h.tile j
        rw [cnt_blk_erase f he j, cnt_blk_erase f ha' j] at ht
        rw [hcap, cnt_blk_erase f' ha' j, blk_congr hsame, hself]
        have := ind_split a (f.nbufs a + f.nbufs e) (f.nbufs a) j (by omega) (by omega)
        rw [hadj, show f.nbufs a + f.nbufs e - f.nbufs a = f.nbufs e by omega] at this
        omega
      total := by
        have ht := h.total
        rw [bsum_erase f he, bsum_erase f ha'] at ht
        rw [hfree, hcap, bsum_erase f' ha', bsum_congr hsame, hself]
        omega
      nodup := hnd'
      pos := by
        intro x hx
        rw [hcap]
        by_cases e' : x = a
        · subst e'; intro _ _; rw [hself]; omega
        · rw [hnb, upd_ne _ _ e']; exact h.pos x (List.mem_of_mem_erase hx)
      notcap := by
        intro x hx
        rw [hcap]
        exact h.notcap x (List.mem_of_mem_erase hx) }

theorem put_scan_succ (f : Fifo) (epts : Int) (fuel : Nat) (next : Link) :
    put_scan f epts (fuel + 1) next =
      match f.load next with
      | none => some next
      | some b2 => if f.pts b2 > epts then some next else put_scan f epts fuel (Link.next b2) :=
  rfl

/-- The scan of `fifo_buffer_put` stops at a link behind the cursor: it has passed the
elements `B1`, whose timestamps do not exceed `epts`, and the next element, if any, has a
larger timestamp. -/
theorem put_scan_spec {f : Fifo} {epts : Int} :
    ∀ (fuel : Nat) (A B : List Int) (link : Link), Queue f (A ++ B) →
      put_scan f epts fuel (qlink A) = some link →
      ∃ B1 B2, B = B1 ++ B2 ∧ link = qlink (A ++ B1) ∧ (∀ x ∈ B1, f.pts x ≤ epts) ∧
        (∀ x ∈ B2.head?, f.pts x > epts) := by
  intro fuel
  induction fuel with
  | zero => intro A B link _ h; cases h
  | succ fuel ih =>
    intro A B link hq h
    rw [put_scan_succ, hq.load_qlink] at h
    cases B with
    | nil =>
      simp only [List.head?_nil, Option.some.injEq] at h
      exact ⟨[], [], rfl, by rw [← h]; simp, by simp, by simp⟩
    | cons b B =>
      simp only [List.head?_cons] at h
      by_cases hp : f.pts b > epts
      · rw [if_pos hp] at h
        simp only [Option.some.injEq] at h
        exact ⟨[], b :: B, rfl, by rw [← h]; simp, by simp, by simpa using hp⟩
      · rw [if_neg hp, ← qlink_concat A b] at h
        obtain ⟨B1, B2, e1, e2, e3, e4⟩ := ih (A ++ [b]) B link (by simpa using hq) h
        refine ⟨b :: B1, B2, by rw [e1]; rfl, by rw [e2]; simp, ?_, e4⟩
        intro x hx
        rcases List.mem_cons.1 hx with h' | h'
        · rw [h']; omega
        · exact e3 x h'

theorem put_link_first_nil (f : Fifo) (e : Int) (t : Nat) :
    (put_link f e t (qlink [])).first = some e := rfl

theorem put_link_next_nil (f : Fifo) (e : Int) (t : Nat) :
    (put_link f e t (qlink [])).next = upd f.next e f.first := rfl

theorem put_link_first_concat (f : Fifo) (e : Int) (t : Nat) (A : List Int) (a : Int) :
    (put_link f e t (qlink (A ++ [a]))).first = f.first := by
  rw [qlink_concat]; rfl

theorem put_link_next_concat (f : Fifo) (e : Int) (t : Nat) (A : List Int) (a : Int) :
    (put_link f e t (qlink (A ++ [a]))).next = upd (upd f.next e (f.next a)) a (some e) := by
  rw [qlink_concat]; rfl

theorem put_link_last (f : Fifo) (e : Int) (t : Nat) (l : Link) :
    (put_link f e t l).last = if f.load l = none then some e else f.last := by
  cases l <;> rfl

theorem put_link_la0 (f : Fifo) (e : Int) (t : Nat) (l : Link) :
    (put_link f e t l).last_add0 = if t = 0 then Link.next e else f.last_add0 := by
  cases l <;> rfl

theorem put_link_la1 (f : Fifo) (e : Int) (t : Nat) (l : Link) :
    (put_link f e t l).last_add1 = if t = 0 then f.last_add1 else Link.next e := by
  cases l <;> rfl

theorem put_link_type (f : Fifo) (e : Int) (t : Nat) (l : Link) :
    (put_link f e t l).type = f.type := by
  cases l <;> rfl

/-- Linking `e` in at the link behind `A` yields the queue `A ++ e :: B`. -/
theorem put_link_queue {f : Fifo} {A B : List Int} {e : Int} (t : Nat) (h : Queue f (A ++ B))
    (he : e ∉ A ++ B) (hnd : (A ++ B).Nodup) (hlast : f.last = (A ++ B).getLast?) :
    Queue (put_link f e t (qlink A)) (A ++ e :: B) ∧
    (put_link f e t (qlink A)).last = (A ++ e :: B).getLast? ∧
    (∀ x, x ∉ e :: (A ++ B) → (put_link f e t (qlink A)).next x = f.next x) := by
  have hload := h.load_qlink
  refine ⟨?_, ?_, ?_⟩
  · rcases List.eq_nil_or_concat A with e1 | ⟨A', a, e1⟩
    · subst e1
      refine Queue_insert_head h he (put_link_first_nil f e t) ?_ ?_
      · rw [put_link_next_nil, upd_same]
      · intro x hx
        have : x ≠ e := fun h' => he (h' ▸ hx)
        rw [put_link_next_nil, upd_ne _ _ this]
    · rw [List.concat_eq_append] at e1; subst e1
      have hae : a ≠ e := fun h' => he (by rw [← h']; simp)
      have := @Queue_insert_after _ (put_link f e t (qlink (A' ++ [a]))) A' B a e
        (by simpa using h) (put_link_first_concat f e t A' a)
        (by rw [put_link_next_concat, upd_same])
        (by rw [put_link_next_concat, upd_ne _ _ hae.symm, upd_same])
        (by intro x hx
            have hxe : x ≠ e := fun h' => he (by
              rw [← h']
              rcases List.mem_append.1 hx with h1 | h1
              · simp [h1]
              · simp [h1])
            have hxa : x ≠ a := by
              intro h'
              rw [h'] at hx
              have hnd' : (A' ++ a :: B).Nodup := by simpa using hnd
              have := List.nodup_middle.1 hnd'
              exact (List.nodup_cons.1 this).1 hx
            rw [put_link_next_concat, upd_ne _ _ hxa, upd_ne _ _ hxe])
      simpa using this
  · rw [put_link_last, hload, hlast]
    cases B with
    | nil => simp
    | cons b B =>
      simp only [List.head?_cons]
      rw [if_neg (by simp)]
      simp [List.getLast?_append, List.getLast?_cons_cons]
  · intro x hx
    have hxe : x ≠ e := fun h' => hx (by rw [h']; simp)
    rcases List.eq_nil_or_concat A with e1 | ⟨A', a, e1⟩
    · subst e1
      rw [put_link_next_nil, upd_ne _ _ hxe]
    · rw [List.concat_eq_append] at e1; subst e1
      have hxa : x ≠ a := fun h' => hx (by rw [h']; simp)
      rw [put_link_next_concat, upd_ne _ _ hxa, upd_ne _ _ hxe]

theorem tix_le_two (K : BufferH) (f : Fifo) (b : Int) : tix K f b ≤ 2 := by
  unfold tix _fifo_buf_type_index
  split
  · omega
  · split
    · omega
    · split <;> omega

theorem last_link_eq {f : Fifo} {q : List Int} (hlast : f.last = q.getLast?) :
    last_link f = qlink q := by
  unfold last_link qlink
  rw [hlast]
  cases q.getLast? <;> rfl

theorem put_fence_eq (f : Fifo) (e : Int) (t : Nat) (q : List Int) (hlast : f.last = q.getLast?)
    (hload : f.load (qlink q) = none) :
    (put_fence f e).next = (put_link f e t (qlink q)).next ∧
    (put_fence f e).first = (put_link f e t (qlink q)).first ∧
    (put_fence f e).last = (put_link f e t (qlink q)).last := by
  have hl : last_link f = qlink q := last_link_eq hlast
  refine ⟨?_, ?_, ?_⟩
  · show ((Fifo.store _ (last_link f) (some e))).next = _
    rw [hl]
    have : ∀ l : Link, f.load l = none →
        (Fifo.store { f with next := upd f.next e none } l (some e)).next
          = (put_link f e t l).next := by
      intro l hl'
      cases l with
      | first => show upd f.next e none = upd f.next e f.first; rw [show f.first = none from hl']
      | pool_top =>
        show upd f.next e none = upd f.next e f.buffer_pool_top
        rw [show f.buffer_pool_top = none from hl']
      | next b =>
        show upd (upd f.next e none) b (some e) = upd (upd f.next e (f.next b)) b (some e)
        rw [show f.next b = none from hl']
    exact this _ hload
  · show ((Fifo.store _ (last_link f) (some e))).first = _
    rw [hl]
    cases (qlink q) <;> rfl
  · rw [put_link_last, hload, if_pos rfl]; rfl

theorem put_fence_type (f : Fifo) (e : Int) : (put_fence f e).type = f.type := by
  show (Fifo.store _ (last_link f) (some e)).type = _
  rw [store_type]

/-- The fifo invariant after `put` linked `e` in between `A` and `B`, given the cursors. -/
theorem QInv.put_core {K : BufferH} {s : Sys} {f' : Fifo} {A B : List Int} {e : Int}
    (hQ : QInv K s (A ++ B)) (he : e ∉ A ++ B)
    (hq : Queue f' (A ++ e :: B)) (hlast : f'.last = (A ++ e :: B).getLast?)
    (htype : f'.type = s.f.type)
    (hc0 : Cur K f' (A ++ e :: B) f'.last_add0 2) (hc1 : Cur K f' (A ++ e :: B) f'.last_add1 1)
    (hB : ∀ z ∈ B, tix K s.f z ≠ 0 ∧ tix K s.f z ≠ tix K s.f e) (held' : List Int) :
    QInv K { f := f', held := held', stamp := upd s.stamp e (some s.clock),
             clock := s.clock + 1 } (A ++ e :: B) := by
  have hmem : ∀ x, x ∈ A ++ e :: B → x = e ∨ x ∈ A ++ B := by
    intro x hx
    rcases List.mem_append.1 hx with h | h
    · exact Or.inr (List.mem_append_left _ h)
    · rcases List.mem_cons.1 h with h | h
      · exact Or.inl h
      · exact Or.inr (List.mem_append_right _ h)
  have hst : ∀ x, x ≠ e → upd s.stamp e (some s.clock) x = s.stamp x := fun x hx => upd_ne _ _ hx
  have hse : upd s.stamp e (some s.clock) e = some s.clock := upd_same _ _ _
  have htix : ∀ x, tix K f' x = tix K s.f x := fun x => by unfold tix; rw [htype]
  exact
    { seg := hq
      last := hlast
      cur0 := hc0
      cur1 := hc1
      clk := by
        intro x hx i hi
        have hi' : upd s.stamp e (some s.clock) x = some i := hi
        show i < s.clock + 1
        rcases hmem x hx with h | h
        · rw [h, hse] at hi'
          simp only [Option.some.injEq] at hi'
          omega
        · have hxe : x ≠ e := fun h' => he (h' ▸ h)
          rw [hst x hxe] at hi'
          have := hQ.clk x h i hi'
          omega
      ord := by
        intro x hx y hy i j h1 h2 h3 h4
        have h1' : upd s.stamp e (some s.clock) x = some i := h1
        have h2' : upd s.stamp e (some s.clock) y = some j := h2
        have h4' : tix K s.f x = 0 ∨ tix K s.f x = tix K s.f y := by
          rw [← htix x, ← htix y]; exact h4
        rcases hmem x hx with hxe | hxq
        · -- `x` is the new element: nothing was queued by a later `put`
          rw [hxe, hse] at h1'
          simp only [Option.some.injEq] at h1'
          rcases hmem y hy with hye | hyq
          · rw [hye, hse] at h2'
            simp only [Option.some.injEq] at h2'
            omega
          · have hyne : y ≠ e := fun h' => he (h' ▸ hyq)
            rw [hst y hyne] at h2'
            have := hQ.clk y hyq j h2'
            omega
        · have hxne : x ≠ e := fun h' => he (h' ▸ hxq)
          rw [hst x hxne] at h1'
          rcases hmem y hy with hye | hyq
          · rw [hye]
            rcases List.mem_append.1 hxq with hxA | hxB
            · exact pair_sublist_new hxA
            · have := hB x hxB
              rw [hye] at h4'
              rcases h4' with h | h
              · exact absurd h this.1
              · exact absurd h this.2
          · have hyne : y ≠ e := fun h' => he (h' ▸ hyq)
            rw [hst y hyne] at h2'
            exact pair_sublist_insert (hQ.ord x hxq y hyq i j h1' h2' h3 h4') }

/-- A change of the heap and of the ghost state that leaves what the fifo invariant reads of
the queued elements alone keeps the invariant. -/
theorem QInv.congr_heap {K : BufferH} {s s' : Sys} {q : List Int} (h : QInv K s q)
    (hfirst : s'.f.first = s.f.first) (hlast : s'.f.last = s.f.last)
    (hla0 : s'.f.last_add0 = s.f.last_add0) (hla1 : s'.f.last_add1 = s.f.last_add1)
    (hnext : ∀ b ∈ q, s'.f.next b = s.f.next b) (htype : ∀ b ∈ q, s'.f.type b = s.f.type b)
    (hs : ∀ b ∈ q, s'.stamp b = s.stamp b) (hc : s.clock ≤ s'.clock) : QInv K s' q where
  seg := by
    unfold Queue
    rw [hfirst]
    exact QSeg_congr hnext h.seg
  last := by rw [hlast]; exact h.last
  cur0 := by rw [hla0]; exact h.cur0.frame_types htype
  cur1 := by rw [hla1]; exact h.cur1.frame_types htype
  clk := by
    intro x hx i hi
    rw [hs x hx] at hi
    exact lt_of_lt_of_le (h.clk x hx i hi) hc
  ord := by
    intro x hx y hy i j h1 h2 h3 h4
    rw [hs x hx] at h1
    rw [hs y hy] at h2
    rw [tix_congr (htype x hx), tix_congr (htype y hy)] at h4
    exact h.ord x hx y hy i j h1 h2 h3 h4

theorem erase_append_held {held q : List Int} {e : Int} (he : e ∈ held) :
    (held ++ q).erase e = held.erase e ++ q := List.erase_append_left _ he

/-- The merge branch of `fifo_buffer_put`. -/
theorem put_merge_inv {K : BufferH} {s : Sys} {e prev : Int} {rs : List (Int × Int)}
    {q : List Int} (hP : PInv s.f rs (s.held ++ q)) (hQ : QInv K s q) (he : e ∈ s.held)
    (hm : put_merge_prev (clear_merge_flag K s.f e) e = some prev) :
    PInv (put_merge (clear_merge_flag K s.f e) prev e) rs (s.held.erase e ++ q) ∧
    QInv K { f := put_merge (clear_merge_flag K s.f e) prev e, held := s.held.erase e,
             stamp := upd s.stamp e (some s.clock), clock := s.clock + 1 } q ∧
    q.getLast? = some prev ∧ prev + s.f.nbufs prev = e ∧ s.f.type prev = s.f.type e := by
  have heq : e ∉ q := not_mem_queue_of_held hP.nodup he
  unfold put_merge_prev at hm
  have hl : (clear_merge_flag K s.f e).last = q.getLast? := hQ.last
  rw [hl] at hm
  cases hg : q.getLast? with
  | none => rw [hg] at hm; cases hm
  | some p =>
    rw [hg] at hm
    simp only at hm
    split at hm
    · rename_i hc
      simp only [Option.some.injEq] at hm
      subst hm
      have hadj : p + s.f.nbufs p = e := hc.1
      have hpq : p ∈ q := List.mem_of_getLast?_eq_some hg
      have hpe : p ≠ e := fun h' => heq (h' ▸ hpq)
      refine ⟨?_, ?_, rfl, hadj, hc.2.1⟩
      · rw [← erase_append_held he]
        exact hP.merge_core (List.mem_append_right _ hpq) (List.mem_append_left _ he) hpe hadj
          rfl rfl rfl rfl rfl rfl rfl rfl
      · exact hQ.congr_heap rfl rfl rfl rfl (fun _ _ => rfl) (fun _ _ => rfl)
          (fun b hb => upd_ne _ _ (fun h' => heq (h' ▸ hb))) (Nat.le_succ _)
    · cases hm

theorem store_qlink_top (f : Fifo) (A : List Int) (v : Option Int) :
    (f.store (qlink A) v).buffer_pool_top = f.buffer_pool_top := by
  unfold qlink; cases A.getLast? <;> rfl

theorem put_link_top (f : Fifo) (e : Int) (t : Nat) (A : List Int) :
    (put_link f e t (qlink A)).buffer_pool_top = f.buffer_pool_top := by
  unfold qlink; cases A.getLast? <;> rfl

theorem put_link_cb_next (K : BufferH) (f : Fifo) (e : Int) (t : Nat) (l : Link) :
    (put_link (run_put_cb K (clear_merge_flag K f e) e) e t l).next = (put_link f e t l).next := by
  cases l <;> rfl

theorem put_link_cb_first (K : BufferH) (f : Fifo) (e : Int) (t : Nat) (l : Link) :
    (put_link (run_put_cb K (clear_merge_flag K f e) e) e t l).first = (put_link f e t l).first := by
  cases l <;> rfl

theorem put_link_cb_last (K : BufferH) (f : Fifo) (e : Int) (t : Nat) (l : Link) :
    (put_link (run_put_cb K (clear_merge_flag K f e) e) e t l).last = (put_link f e t l).last := by
  cases l <;> rfl

theorem put_link_nbufs (f : Fifo) (e : Int) (t : Nat) (l : Link) :
    (put_link f e t l).nbufs = f.nbufs := by
  cases l <;> rfl

theorem put_link_native (f : Fifo) (e : Int) (t : Nat) (l : Link) :
    (put_link f e t l).native = f.native := by
  cases l <;> rfl

theorem put_link_owned (f : Fifo) (e : Int) (t : Nat) (l : Link) :
    (put_link f e t l).pool_owned = f.pool_owned := by
  cases l <;> rfl

theorem put_link_cap (f : Fifo) (e : Int) (t : Nat) (l : Link) :
    (put_link f e t l).buffer_pool_capacity = f.buffer_pool_capacity := by
  cases l <;> rfl

theorem put_link_res (f : Fifo) (e : Int) (t : Nat) (l : Link) :
    (put_link f e t l).alloc_cb_data = f.alloc_cb_data := by
  cases l <;> rfl

theorem put_link_free (f : Fifo) (e : Int) (t : Nat) (l : Link) :
    (put_link f e t l).buffer_pool_num_free = f.buffer_pool_num_free := by
  cases l <;> rfl

/-- Linking the held element `e` in between `A` and `B` keeps both invariants, given the
cursors of the result. -/
theorem put_at_inv {K : BufferH} {s : Sys} {e : Int} {rs : List (Int × Int)} {A B : List Int}
    {f' : Fifo} (t : Nat)
    (hP : PInv s.f rs (s.held ++ (A ++ B))) (hQ : QInv K s (A ++ B)) (he : e ∈ s.held)
    (hnext : f'.next = (put_link s.f e t (qlink A)).next)
    (hfirst : f'.first = (put_link s.f e t (qlink A)).first)
    (hlast : f'.last = (put_link s.f e t (qlink A)).last)
    (htype : f'.type = s.f.type) (hnat : f'.native = s.f.native)
    (hown : f'.pool_owned = s.f.pool_owned)
    (hcap : f'.buffer_pool_capacity = s.f.buffer_pool_capacity)
    (hres : f'.alloc_cb_data = s.f.alloc_cb_data)
    (htop : f'.buffer_pool_top = s.f.buffer_pool_top)
    (hfree : f'.buffer_pool_num_free = s.f.buffer_pool_num_free)
    (hnb : f'.nbufs = s.f.nbufs)
    (hc0 : Cur K s.f (A ++ e :: B) f'.last_add0 2) (hc1 : Cur K s.f (A ++ e :: B) f'.last_add1 1)
    (hB : ∀ z ∈ B, tix K s.f z ≠ 0 ∧ tix K s.f z ≠ tix K s.f e) :
    PInv f' rs (s.held.erase e ++ (A ++ e :: B)) ∧
    QInv K { f := f', held := s.held.erase e, stamp := upd s.stamp e (some s.clock),
             clock := s.clock + 1 } (A ++ e :: B) := by
  have heq : e ∉ A ++ B := not_mem_queue_of_held hP.nodup he
  have hnd : (A ++ B).Nodup := (List.nodup_append.1 hP.nodup).2.1
  obtain ⟨h1, h2, h3⟩ := put_link_queue t hQ.seg heq hnd hQ.last
  constructor
  · refine (hP.perm (perm_move_to_queue he A B rfl)).congr hnat hown hcap
      (by rw [hres]; exact hP.res) htop hfree hnb ?_
    intro x hx
    rw [hnext]
    refine h3 x (fun hc => hx ?_)
    refine List.mem_append_right _ ?_
    rcases List.mem_cons.1 hc with h | h
    · rw [h]; simp
    · rcases List.mem_append.1 h with h | h
      · simp [h]
      · simp [h]
  · refine hQ.put_core heq ?_ (by rw [hlast]; exact h2) htype (hc0.mono_type htype)
      (hc1.mono_type htype) hB _
    unfold Queue
    rw [hfirst, hnext]
    exact h1

/-- A cursor right behind the element just linked in. -/
theorem Cur.behind {K : BufferH} {f : Fifo} {A B : List Int} {e : Int} {g : Nat}
    (h : ∀ x ∈ B, tix K f x = g) : Cur K f (A ++ e :: B) (Link.next e) g :=
  ⟨A ++ [e], B, by simp, (qlink_concat A e).symm, h⟩

theorem put_fence_nbufs (f : Fifo) (e : Int) : (put_fence f e).nbufs = f.nbufs := by
  show (Fifo.store _ (last_link f) (some e)).nbufs = _
  rw [store_nbufs]

theorem put_fence_native (f : Fifo) (e : Int) : (put_fence f e).native = f.native := by
  show (Fifo.store _ (last_link f) (some e)).native = _
  rw [store_native]

theorem put_fence_owned (f : Fifo) (e : Int) : (put_fence f e).pool_owned = f.pool_owned := by
  show (Fifo.store _ (last_link f) (some e)).pool_owned = _
  rw [store_owned]

theorem put_fence_cap (f : Fifo) (e : Int) :
    (put_fence f e).buffer_pool_capacity = f.buffer_pool_capacity := by
  show (Fifo.store _ (last_link f) (some e)).buffer_pool_capacity = _
  rw [store_cap]

theorem put_fence_res (f : Fifo) (e : Int) : (put_fence f e).alloc_cb_data = f.alloc_cb_data := by
  show (Fifo.store _ (last_link f) (some e)).alloc_cb_data = _
  rw [store_res]

theorem put_fence_free (f : Fifo) (e : Int) :
    (put_fence f e).buffer_pool_num_free = f.buffer_pool_num_free := by
  show (Fifo.store _ (last_link f) (some e)).buffer_pool_num_free = _
  rw [store_free]

theorem put_fence_top (f : Fifo) (e : Int) :
    (put_fence f e).buffer_pool_top = f.buffer_pool_top := by
  show (Fifo.store _ (last_link f) (some e)).buffer_pool_top = _
  unfold last_link
  cases f.last <;> rfl

/-- The fence branch of `fifo_buffer_put`: the element becomes the tail. -/
theorem put_fence_inv {K : BufferH} {s : Sys} {e : Int} {rs : List (Int × Int)} {q : List Int}
    (hP : PInv s.f rs (s.held ++ q)) (hQ : QInv K s q) (he : e ∈ s.held) :
    PInv (fifo_count_add (put_fence (run_put_cb K (clear_merge_flag K s.f e) e) e) e) rs
      (s.held.erase e ++ (q ++ [e])) ∧
    QInv K { f := fifo_count_add (put_fence (run_put_cb K (clear_merge_flag K s.f e) e) e) e,
             held := s.held.erase e, stamp := upd s.stamp e (some s.clock),
             clock := s.clock + 1 } (q ++ [e]) := by
  have hP' : PInv s.f rs (s.held ++ (q ++ [])) := by rw [List.append_nil]; exact hP
  have hQ' : QInv K s (q ++ []) := by rw [List.append_nil]; exact hQ
  have hload : (run_put_cb K (clear_merge_flag K s.f e) e).load (qlink q) = none :=
    Queue.load_qlink (f := run_put_cb K (clear_merge_flag K s.f e) e) (B := []) hQ'.seg
  obtain ⟨e1, e2, e3⟩ := put_fence_eq (run_put_cb K (clear_merge_flag K s.f e) e) e 0 q hQ.last hload
  exact put_at_inv 0 hP' hQ' he
    (e1.trans (put_link_cb_next K s.f e 0 _)) (e2.trans (put_link_cb_first K s.f e 0 _))
    (e3.trans (put_link_cb_last K s.f e 0 _))
    (put_fence_type _ e) (put_fence_native _ e) (put_fence_owned _ e) (put_fence_cap _ e)
    (put_fence_res _ e) (put_fence_top _ e) (put_fence_free _ e) (put_fence_nbufs _ e)
    (Cur.behind (by simp)) (Cur.behind (by simp)) (by simp)

/-- The branch of `fifo_buffer_put` for the groups: the element is linked in at a place
behind the cursor of its group. -/
theorem put_group_inv {K : BufferH} {s : Sys} {e : Int} {rs : List (Int × Int)}
    {A B : List Int} (t : Nat)
    (hP : PInv s.f rs (s.held ++ (A ++ B))) (hQ : QInv K s (A ++ B)) (he : e ∈ s.held)
    (ht : tix K s.f e = t + 1) (hB : ∀ x ∈ B, tix K s.f x = 2 - t) :
    PInv (fifo_count_add (put_link (run_put_cb K (clear_merge_flag K s.f e) e) e t (qlink A)) e)
      rs (s.held.erase e ++ (A ++ e :: B)) ∧
    QInv K { f := fifo_count_add
               (put_link (run_put_cb K (clear_merge_flag K s.f e) e) e t (qlink A)) e,
             held := s.held.erase e, stamp := upd s.stamp e (some s.clock),
             clock := s.clock + 1 } (A ++ e :: B) := by
  have h2 := tix_le_two K s.f e
  have hB' : ∀ z ∈ B, tix K s.f z ≠ 0 ∧ tix K s.f z ≠ tix K s.f e := by
    intro z hz
    have := hB z hz
    omega
  refine put_at_inv t hP hQ he (put_link_cb_next K s.f e t _) (put_link_cb_first K s.f e t _)
    (put_link_cb_last K s.f e t _) (put_link_type _ e t _) (put_link_native _ e t _)
    (put_link_owned _ e t _) (put_link_cap _ e t _) (put_link_res _ e t _)
    (put_link_top _ e t _) (put_link_free _ e t _) (put_link_nbufs _ e t _) ?_ ?_ hB'
  · show Cur K s.f (A ++ e :: B) (put_link _ e t (qlink A)).last_add0 2
    rw [put_link_la0]
    by_cases h0 : t = 0
    · rw [if_pos h0]
      exact Cur.behind (fun x hx => by rw [hB x hx, h0])
    · rw [if_neg h0]
      exact Cur.insert hQ.cur0 (by omega)
  · show Cur K s.f (A ++ e :: B) (put_link _ e t (qlink A)).last_add1 1
    rw [put_link_la1]
    by_cases h0 : t = 0
    · rw [if_pos h0]
      exact Cur.insert hQ.cur1 (by omega)
    · rw [if_neg h0]
      exact Cur.behind (fun x hx => by rw [hB x hx]; omega)

theorem put_found {f : Fifo} {epts : Int} {fuel : Nat} {A0 B0 : List Int} {link : Link}
    (hq : Queue f (A0 ++ B0)) (p : Prop) [Decidable p]
    (h : (if p then put_scan f epts fuel (qlink A0) else some (qlink A0)) = some link) :
    ∃ B1 B2, B0 = B1 ++ B2 ∧ link = qlink (A0 ++ B1) := by
  by_cases hp : p
  · rw [if_pos hp] at h
    obtain ⟨B1, B2, e1, e2, _, _⟩ := put_scan_spec fuel A0 B0 link hq h
    exact ⟨B1, B2, e1, e2⟩
  · rw [if_neg hp] at h
    simp only [Option.some.injEq] at h
    exact ⟨[], B0, rfl, by rw [← h]; simp⟩

/-- What a completed `fifo_buffer_put` of a held element does: either the element is folded into
the tail, or it is linked in somewhere; a fence element is linked in at the end. -/
theorem put_inv {K : BufferH} {s : Sys} {e : Int} {rs : List (Int × Int)} {q : List Int}
    {fuel : Nat} {f' : Fifo}
    (hP : PInv s.f rs (s.held ++ q)) (hQ : QInv K s q) (he : e ∈ s.held)
    (h : fifo_buffer_put K fuel s.f e = .done f') :
    ∃ q', PInv f' rs (s.held.erase e ++ q') ∧
      QInv K { f := f', held := s.held.erase e, stamp := upd s.stamp e (some s.clock),
               clock := s.clock + 1 } q' ∧
      ((q' = q ∧ has_merge_flag K s.f e = true ∧ ∃ prev, q.getLast? = some prev ∧
          prev + s.f.nbufs prev = e ∧ s.f.type prev = s.f.type e) ∨
       (∃ A B, q = A ++ B ∧ q' = A ++ e :: B ∧ (tix K s.f e = 0 → B = []))) := by
  unfold fifo_buffer_put at h
  simp only at h
  split at h
  · rename_i prev hm
    simp only [Outcome.done.injEq] at h
    subst h
    by_cases hflag : has_merge_flag K s.f e = true
    · rw [if_pos hflag] at hm
      obtain ⟨h1, h2, h3, h4, h5⟩ := put_merge_inv hP hQ he hm
      exact ⟨q, h1, h2, Or.inl ⟨rfl, hflag, prev, h3, h4, h5⟩⟩
    · rw [if_neg hflag] at hm
      cases hm
  · have hnat : (!_fifo_is_native (run_put_cb K (clear_merge_flag K s.f e) e)) = false := by
      show (!s.f.native) = false
      rw [hP.native]; rfl
    rw [hnat] at h
    simp only [Bool.false_eq_true, if_false] at h
    change (if tix K s.f e = 0 then _ else _) = _ at h
    by_cases ht : tix K s.f e = 0
    · rw [if_pos ht] at h
      simp only [Outcome.done.injEq] at h
      subst h
      obtain ⟨h1, h2⟩ := put_fence_inv hP hQ he
      exact ⟨q ++ [e], h1, h2, Or.inr ⟨q, [], by simp, rfl, fun _ => rfl⟩⟩
    · rw [if_neg ht] at h
      have h2 := tix_le_two K s.f e
      split at h
      · cases h
      · rename_i link hfound
        simp only [Outcome.done.injEq] at h
        subst h
        change (if s.f.pts e ≠ 0 then
            put_scan (run_put_cb K (clear_merge_flag K s.f e) e) _ fuel
              ((run_put_cb K (clear_merge_flag K s.f e) e).last_add (tix K s.f e - 1))
          else some ((run_put_cb K (clear_merge_flag K s.f e) e).last_add (tix K s.f e - 1)))
            = some link at hfound
        have hcur : ∃ A0 B0, q = A0 ++ B0 ∧
            (run_put_cb K (clear_merge_flag K s.f e) e).last_add (tix K s.f e - 1) = qlink A0 ∧
            ∀ x ∈ B0, tix K s.f x = 2 - (tix K s.f e - 1) := by
          by_cases h1 : tix K s.f e = 1
          · obtain ⟨A0, B0, e1, e2, e3⟩ := hQ.cur0
            refine ⟨A0, B0, e1, ?_, ?_⟩
            · rw [h1]; exact e2
            · rw [h1]; exact e3
          · have h1' : tix K s.f e = 2 := by omega
            obtain ⟨A0, B0, e1, e2, e3⟩ := hQ.cur1
            refine ⟨A0, B0, e1, ?_, ?_⟩
            · rw [h1']; exact e2
            · rw [h1']; exact e3
        obtain ⟨A0, B0, e1, e2, e3⟩ := hcur
        rw [e2] at hfound
        subst e1
        obtain ⟨B1, B2, e4, e5⟩ := @put_found (run_put_cb K (clear_merge_flag K s.f e) e) _ _ _ _ _ hQ.seg
          (s.f.pts e ≠ 0) _ hfound
        subst e4 e5
        have hP' : PInv s.f rs (s.held ++ ((A0 ++ B1) ++ B2)) := by
          rw [List.append_assoc]; exact hP
        have hQ' : QInv K s ((A0 ++ B1) ++ B2) := by
          rw [List.append_assoc]; exact hQ
        obtain ⟨g1, g2⟩ := put_group_inv (tix K s.f e - 1) hP' hQ' he (by omega)
          (fun x hx => e3 x (List.mem_append_right _ hx))
        exact ⟨(A0 ++ B1) ++ e :: B2, g1, g2,
          Or.inr ⟨A0 ++ B1, B2, by simp, rfl, fun h0 => absurd h0 ht⟩⟩

/-! ## `fifo_buffer_clear` -/

theorem upd_upd {β : Type} (g : Int → β) (a : Int) (x y : β) :
    upd (upd g a x) a y = upd g a y := by
  funext j
  by_cases h : j = a
  · rw [h, upd_same, upd_same]
  · rw [upd_ne _ _ h, upd_ne _ _ h, upd_ne _ _ h]

theorem ind_zero_len (s j : Int) : ind s 0 j = 0 := by
  unfold ind
  rw [if_neg (by omega)]

/-- A custom element leaves the set of outstanding elements. -/
theorem PInv.drop_custom {f : Fifo} {rs : List (Int × Int)} {out : List Int} {b : Int}
    (h : PInv f rs out) (hb : b ∈ out) (hown : f.pool_owned b = false) :
    PInv f rs (out.erase b) := by
  have hna : ¬ (0 ≤ b ∧ b < f.buffer_pool_capacity) := fun hc => by
    have := (h.owned b).2 hc
    rw [hown] at this
    cases this
  have hn : f.nbufs b = 0 := h.foreign b hna
  exact
    { native := h.native
      owned := h.owned
      foreign := h.foreign
      res := h.res
      seg := h.seg
      gap := h.gap
      nfree := h.nfree
      tile := by
        intro j
        have := h.tile j
        rw [cnt_blk_erase f hb j, hn, ind_zero_len] at this
        omega
      total := by
        have := h.total
        rw [bsum_erase f hb, hn] at this
        omega
      nodup := h.nodup.erase b
      pos := fun x hx => h.pos x (List.mem_of_mem_erase hx)
      notcap := fun x hx => h.notcap x (List.mem_of_mem_erase hx) }

/-- What a completed release of an outstanding pool element does, whatever the fuel. -/
theorem free_inv {f f' : Fifo} {rs : List (Int × Int)} {out : List Int} {b : Int} {fuel : Nat}
    (h : PInv f rs out) (hb : b ∈ out) (hown : f.pool_owned b = true)
    (hf : buffer_pool_free fuel f b = .done f') :
    PInv f' (free_spec b (f.nbufs b) rs) (out.erase b) ∧ Frame f f' (out.erase b) ∧
      f'.alloc_cb_data = (_fbc_sub f (f.nbufs b)).alloc_cb_data ∧ f'.alloc_cb = f.alloc_cb := by
  obtain ⟨f2, h1, h2⟩ := free_done h hb hown (le_max_right fuel rs.length)
  have h3 := buffer_pool_free_mono hf (le_max_left fuel rs.length)
  rw [h3] at h1
  simp only [Outcome.done.injEq] at h1
  subst h1
  exact h2

theorem Adj_congr {f f' : Fifo} {C : List Int} (h : ∀ c ∈ C, f'.nbufs c = f.nbufs c) :
    ∀ p, Adj f p C → Adj f' p C := by
  induction C with
  | nil => intro _ _; trivial
  | cons c C ih =>
    intro p hp
    refine ⟨hp.1, ?_⟩
    rw [h c (List.mem_cons_self _ _)]
    exact ih (fun x hx => h x (List.mem_cons_of_mem _ hx)) _ hp.2

/-- Folding a chain of adjacent outstanding elements into the element in front of them. -/
theorem PInv.merge_chain {rs : List (Int × Int)} {out : List Int} {a : Int} :
    ∀ (C : List Int) (f f' : Fifo), PInv f rs (C ++ out) → a ∈ out →
      Adj f (a + f.nbufs a) C →
      f'.native = f.native → f'.pool_owned = f.pool_owned →
      f'.buffer_pool_capacity = f.buffer_pool_capacity → f'.alloc_cb_data = f.alloc_cb_data →
      f'.buffer_pool_top = f.buffer_pool_top →
      f'.buffer_pool_num_free = f.buffer_pool_num_free → f'.next = f.next →
      f'.nbufs = upd f.nbufs a (f.nbufs a + bsum f C) → PInv f' rs out := by
  intro C
  induction C with
  | nil =>
    intro f f' h _ _ e1 e2 e3 e4 e5 e6 e7 e8
    refine h.congr e1 e2 e3 (by rw [e4]; exact h.res) e5 e6 ?_ (fun x _ => by rw [e7])
    rw [e8]
    funext j
    by_cases hj : j = a
    · rw [hj, upd_same]; simp [bsum]
    · rw [upd_ne _ _ hj]
  | cons c C ih =>
    intro f f' h ha hadj e1 e2 e3 e4 e5 e6 e7 e8
    have hnd := h.nodup
    have hca : a ≠ c := fun hc => by
      rw [List.cons_append, List.nodup_cons] at hnd
      exact hnd.1 (hc ▸ List.mem_append_right _ ha)
    have hcC : c ∉ C := fun hc => by
      rw [List.cons_append, List.nodup_cons] at hnd
      exact hnd.1 (List.mem_append_left _ hc)
    have haC : a ∉ C := fun hc => by
      rw [List.cons_append, List.nodup_cons] at hnd
      exact (List.nodup_append.1 hnd.2).2.2 hc ha
    have h1 : PInv (set_nbufs f a (f.nbufs a + f.nbufs c)) rs (C ++ out) := by
      have := @PInv.merge_core _ (set_nbufs f a (f.nbufs a + f.nbufs c)) _ _ a c h
        (List.mem_append_right _ ha) (by simp) hca hadj.1 rfl rfl rfl rfl rfl rfl rfl rfl
      rw [List.cons_append, List.erase_cons_head] at this
      exact this
    have hsame : ∀ x ∈ C, (set_nbufs f a (f.nbufs a + f.nbufs c)).nbufs x = f.nbufs x := by
      intro x hx
      exact upd_ne _ _ (fun hc => haC (hc ▸ hx))
    have hself : (set_nbufs f a (f.nbufs a + f.nbufs c)).nbufs a = f.nbufs a + f.nbufs c :=
      upd_same _ _ _
    refine ih (set_nbufs f a (f.nbufs a + f.nbufs c)) f' h1 ha ?_ e1 e2 e3 e4 e5 e6 e7 ?_
    · rw [hself]
      have := @Adj_congr f (set_nbufs f a (f.nbufs a + f.nbufs c)) _ hsame _ hadj.2
      rw [← add_assoc, hadj.1]
      exact this
    · rw [e8, hself, bsum_congr hsame]
      show _ = upd (upd f.nbufs a _) a _
      rw [upd_upd]
      simp only [bsum]
      rw [add_assoc]

theorem clear_chunk_succ (K : BufferH) (f : Fifo) (fuel : Nat) (buf n : Int) :
    clear_chunk K f (fuel + 1) buf n =
      match f.next buf with
      | none => some (n + f.nbufs buf, none)
      | some nx =>
        if buf + f.nbufs buf ≠ nx then some (n + f.nbufs buf, f.next buf)
        else if is_control K f nx then some (n + f.nbufs buf, f.next buf)
        else clear_chunk K f fuel nx (n + f.nbufs buf) := rfl

/-- The loop "get contiguous chunk" of `fifo_buffer_clear` passes the elements `C` behind
`buf`: they lie one behind the other in the arena, none of them is a control element, and
`n` is the number of slabs of `buf` and `C`. -/
theorem clear_chunk_spec {K : BufferH} {f : Fifo} :
    ∀ (fuel : Nat) (buf n0 : Int) (rest : List Int) (n : Int) (next : Option Int),
      QSeg f.next (f.next buf) rest none → clear_chunk K f fuel buf n0 = some (n, next) →
      ∃ C rest', rest = C ++ rest' ∧ QSeg f.next next rest' none ∧
        n = n0 + f.nbufs buf + bsum f C ∧ Adj f (buf + f.nbufs buf) C ∧
        ∀ c ∈ C, is_control K f c = false := by
  intro fuel
  induction fuel with
  | zero => intro _ _ _ _ _ _ h; cases h
  | succ fuel ih =>
    intro buf n0 rest n next hq h
    rw [clear_chunk_succ] at h
    have triv : ∀ nx0, some (n0 + f.nbufs buf, nx0) = some (n, next) → nx0 = f.next buf →
        ∃ C rest', rest = C ++ rest' ∧ QSeg f.next next rest' none ∧
          n = n0 + f.nbufs buf + bsum f C ∧ Adj f (buf + f.nbufs buf) C ∧
          ∀ c ∈ C, is_control K f c = false := by
      intro nx0 h1 h2
      simp only [Option.some.injEq, Prod.mk.injEq] at h1
      refine ⟨[], rest, rfl, ?_, ?_, trivial, by simp⟩
      · rw [← h1.2, h2]; exact hq
      · rw [← h1.1]; simp [bsum]
    cases hn : f.next buf with
    | none =>
      rw [hn] at h
      exact triv none h hn.symm
    | some nx =>
      rw [hn] at h
      simp only at h
      by_cases h1 : buf + f.nbufs buf ≠ nx
      · rw [if_pos h1] at h
        exact triv _ h hn.symm
      · rw [if_neg h1] at h
        by_cases h2 : is_control K f nx = true
        · rw [if_pos h2] at h
          exact triv _ h hn.symm
        · rw [if_neg h2] at h
          rw [hn] at hq
          cases rest with
          | nil => cases hq
          | cons x rest1 =>
            obtain ⟨hx, hq1⟩ := hq
            simp only [Option.some.injEq] at hx
            subst hx
            obtain ⟨C1, rest', e1, e2, e3, e4, e5⟩ := ih nx _ rest1 n next hq1 h
            refine ⟨nx :: C1, rest', by rw [e1]; rfl, e2, ?_, ⟨not_not.1 h1, e4⟩, ?_⟩
            · rw [e3]; simp only [bsum]; omega
            · intro c hc
              rcases List.mem_cons.1 hc with h' | h'
              · rw [h']; simpa using h2
              · exact e5 c h'

theorem clear_loop_none (K : BufferH) (fuel0 fuel : Nat) (f : Fifo) :
    clear_loop K fuel0 fuel f none = .done f := by
  cases fuel <;> rfl

theorem clear_loop_succ (K : BufferH) (fuel0 fuel : Nat) (f : Fifo) (start : Int) :
    clear_loop K fuel0 (fuel + 1) f (some start) =
      if is_control K f start then
        if f.first ≠ none ∧ f.last = none then .fault
        else clear_loop K fuel0 fuel (clear_keep f start) (clear_keep_link f start start)
      else if !f.pool_owned start then
        clear_loop K fuel0 fuel (clear_next f start) (f.next start)
      else
        match clear_chunk K f fuel0 start 0 with
        | none => .timeout
        | some (n, next) =>
          match buffer_pool_free fuel0 (set_nbufs f start n) start with
          | .done f => clear_loop K fuel0 fuel f next
          | .wait => .wait
          | .abort => .abort
          | .fault => .fault
          | .timeout => .timeout := rfl

theorem clear_keep_link_nil {f : Fifo} (h : f.first = none) (start : Int) :
    clear_keep_link f start = f.next := by
  unfold clear_keep_link; rw [h]

theorem clear_keep_link_some {f : Fifo} {x a : Int} (h : f.first = some x) (hl : f.last = some a)
    (start : Int) : clear_keep_link f start = upd f.next a (some start) := by
  unfold clear_keep_link; rw [h, hl]

/-- The branch "keep control bufs" of `fifo_buffer_clear` appends `start` to the kept
elements. -/
theorem clear_keep_step {f : Fifo} {held kq rest1 : List Int} {start : Int}
    {rs : List (Int × Int)} (hP : PInv f rs (held ++ (kq ++ start :: rest1)))
    (hk : QSeg f.next f.first kq none) (hl : f.last = kq.getLast?)
    (hr : QSeg f.next (f.next start) rest1 none) :
    ¬ (f.first ≠ none ∧ f.last = none) ∧ clear_keep_link f start start = f.next start ∧
    PInv (clear_keep f start) rs (held ++ ((kq ++ [start]) ++ rest1)) ∧
    QSeg (clear_keep f start).next (clear_keep f start).first (kq ++ [start]) none ∧
    (clear_keep f start).last = (kq ++ [start]).getLast? ∧
    QSeg (clear_keep f start).next (f.next start) rest1 none := by
  have hnd : (kq ++ start :: rest1).Nodup := (List.nodup_append.1 hP.nodup).2.1
  have hnd2 : (start :: (kq ++ rest1)).Nodup := List.nodup_middle.1 hnd
  have hs : start ∉ kq ++ rest1 := (List.nodup_cons.1 hnd2).1
  have hkr : (kq ++ rest1).Nodup := (List.nodup_cons.1 hnd2).2
  have hfirst : f.first = kq.head? := QSeg_head hk
  have hlast' : (clear_keep f start).last = (kq ++ [start]).getLast? := by
    show some start = _
    simp
  have hout : held ++ ((kq ++ [start]) ++ rest1) = held ++ (kq ++ start :: rest1) := by simp
  rcases List.eq_nil_or_concat kq with e | ⟨A, a, e⟩
  · subst e
    have hf : f.first = none := hfirst
    have hlink := clear_keep_link_nil hf start
    have hnext : (clear_keep f start).next = upd f.next start none := by
      show upd (clear_keep_link f start) start none = _
      rw [hlink]
    refine ⟨fun h => h.1 hf, by rw [hlink], ?_, ?_, hlast', ?_⟩
    · rw [hout]
      refine hP.congr rfl rfl rfl hP.res rfl rfl rfl ?_
      intro x hx
      rw [hnext, upd_ne]
      intro hc; exact hx (by rw [hc]; simp)
    · refine ⟨?_, ?_⟩
      · show (if f.first = none then some start else f.first) = some start
        rw [if_pos hf]
      · rw [hnext, upd_same]; rfl
    · refine QSeg_congr ?_ hr
      intro x hx
      rw [hnext, upd_ne]
      intro hc; exact hs (by rw [← hc]; simpa using hx)
  · rw [List.concat_eq_append] at e; subst e
    have hla : f.last = some a := by rw [hl]; simp
    obtain ⟨x, hx⟩ : ∃ x, f.first = some x := by
      rw [hfirst]
      cases A with
      | nil => exact ⟨a, rfl⟩
      | cons y A => exact ⟨y, rfl⟩
    have hlink := clear_keep_link_some hx hla start
    have has : a ≠ start := fun hc => hs (by rw [← hc]; simp)
    have hnext : (clear_keep f start).next = upd (upd f.next a (some start)) start none := by
      show upd (clear_keep_link f start) start none = _
      rw [hlink]
    have hfa : f.next a = none := by
      have := Queue.load_qlink (f := f) (A := A ++ [a]) (B := []) (by simpa using hk)
      rw [qlink_concat] at this
      exact this
    refine ⟨fun h => (by rw [hla] at h; cases h.2), (by rw [hlink, upd_ne _ _ has.symm]), ?_, ?_,
      hlast', ?_⟩
    · rw [hout]
      refine hP.congr rfl rfl rfl hP.res rfl rfl rfl ?_
      intro y hy
      rw [hnext, upd_ne, upd_ne]
      · intro hc; exact hy (by rw [hc]; simp)
      · intro hc; exact hy (by rw [hc]; simp)
    · have hq : Queue f (A ++ a :: []) := hk
      have := @Queue_insert_after _ (clear_keep f start) _ _ _ start hq
        (by show (if f.first = none then some start else f.first) = f.first
            rw [if_neg (by rw [hx]; simp)])
        (by rw [hnext, upd_ne _ _ has, upd_same])
        (by rw [hnext, upd_same, hfa])
        (by intro y hy
            have hya : y ≠ a := by
              intro hc
              have hndA : (A ++ [a]).Nodup := (List.nodup_append.1 hkr).1
              have hyA : y ∈ A := by simpa using hy
              exact (List.nodup_append.1 hndA).2.2 hyA (by rw [hc]; simp)
            have hys : y ≠ start := fun hc => hs (by
              rw [← hc]
              exact List.mem_append_left _ (List.mem_append_left _ (by simpa using hy)))
            rw [hnext, upd_ne _ _ hys, upd_ne _ _ hya])
      have h2 : A ++ a :: start :: [] = A ++ [a] ++ [start] := by simp
      rw [← h2]
      exact this
    · refine QSeg_congr ?_ hr
      intro y hy
      have hys : y ≠ start := fun hc => hs (by rw [← hc]; simp [hy])
      have hya : y ≠ a := by
        intro hc
        have haA : a ∈ A ++ [a] := by simp
        exact (List.nodup_append.1 hkr).2.2 haA (hc ▸ hy)
      rw [hnext, upd_ne _ _ hys, upd_ne _ _ hya]

theorem perm_front {held kq rest : List Int} (x : Int) :
    (held ++ (kq ++ x :: rest)).Perm (x :: (held ++ (kq ++ rest))) := by
  have h1 : (kq ++ x :: rest).Perm (x :: (kq ++ rest)) := List.perm_middle
  exact (h1.append_left held).trans List.perm_middle

theorem perm_chunk {held kq rest C : List Int} (x : Int) :
    (held ++ (kq ++ x :: (C ++ rest))).Perm (C ++ x :: (held ++ (kq ++ rest))) := by
  refine (perm_front x).trans ?_
  have h1 : (held ++ (kq ++ (C ++ rest))).Perm (C ++ (held ++ (kq ++ rest))) := by
    rw [← List.append_assoc kq C rest, ← List.append_assoc held, ← List.append_assoc held kq C,
      ← List.append_assoc C, ← List.append_assoc]
    refine List.Perm.append_right rest ?_
    rw [List.append_assoc C held kq]
    exact List.perm_append_comm
  exact (h1.cons x).trans List.perm_middle.symm

/-- The branch "free custom buf" of `fifo_buffer_clear` drops `start`. -/
theorem clear_custom_step {f : Fifo} {held kq rest1 : List Int} {start : Int}
    {rs : List (Int × Int)} (hP : PInv f rs (held ++ (kq ++ start :: rest1)))
    (hk : QSeg f.next f.first kq none) (hr : QSeg f.next (f.next start) rest1 none)
    (hown : f.pool_owned start = false) :
    PInv (clear_next f start) rs (held ++ (kq ++ rest1)) ∧
    QSeg (clear_next f start).next (clear_next f start).first kq none ∧
    QSeg (clear_next f start).next (f.next start) rest1 none := by
  have hnd : (start :: (held ++ (kq ++ rest1))).Nodup := (perm_front start).nodup_iff.1 hP.nodup
  have hs : start ∉ held ++ (kq ++ rest1) := (List.nodup_cons.1 hnd).1
  have hne : ∀ x ∈ kq ++ rest1, (clear_next f start).next x = f.next x := by
    intro x hx
    exact upd_ne _ _ (fun hc => hs (hc ▸ List.mem_append_right _ hx))
  refine ⟨?_, ?_, ?_⟩
  · have h1 : PInv (clear_next f start) rs (start :: (held ++ (kq ++ rest1))) := by
      refine (hP.perm (perm_front start)).congr rfl rfl rfl hP.res rfl rfl rfl ?_
      intro x hx
      exact upd_ne _ _ (fun hc => hx (by rw [hc]; simp))
    have h2 := h1.drop_custom (List.mem_cons_self _ _) hown
    rw [List.erase_cons_head] at h2
    exact h2
  · exact QSeg_congr (fun x hx => hne x (List.mem_append_left _ hx)) hk
  · exact QSeg_congr (fun x hx => hne x (List.mem_append_right _ hx)) hr

/-- The branch of `fifo_buffer_clear` that releases a chunk of adjacent pool elements. -/
theorem clear_chunk_step {K : BufferH} {f f3 : Fifo} {held kq rest0 : List Int} {start n : Int}
    {next : Option Int} {fuel0 : Nat}
    {rs : List (Int × Int)} (hP : PInv f rs (held ++ (kq ++ start :: rest0)))
    (hk : QSeg f.next f.first kq none) (hr : QSeg f.next (f.next start) rest0 none)
    (hown : f.pool_owned start = true)
    (hc : clear_chunk K f fuel0 start 0 = some (n, next))
    (hf : buffer_pool_free fuel0 (set_nbufs f start n) start = .done f3) :
    ∃ C rest' rs', rest0 = C ++ rest' ∧ (∀ c ∈ C, is_control K f c = false) ∧
      PInv f3 rs' (held ++ (kq ++ rest')) ∧ QSeg f3.next f3.first kq none ∧
      f3.last = f.last ∧ QSeg f3.next next rest' none ∧
      (∀ b ∈ held ++ (kq ++ rest'), f3.type b = f.type b) := by
  obtain ⟨C, rest', e1, e2, e3, e4, e5⟩ := clear_chunk_spec fuel0 start 0 rest0 n next hr hc
  subst e1
  have h1 : PInv f rs (C ++ start :: (held ++ (kq ++ rest'))) := hP.perm (perm_chunk start)
  have h2 : PInv (set_nbufs f start n) rs (start :: (held ++ (kq ++ rest'))) :=
    h1.merge_chain C f (set_nbufs f start n) (List.mem_cons_self _ _) e4 rfl rfl rfl rfl rfl rfl
      rfl (by rw [e3, zero_add]; rfl)
  obtain ⟨h3, h4, _, _⟩ := free_inv h2 (List.mem_cons_self _ _) hown hf
  rw [List.erase_cons_head] at h3 h4
  refine ⟨C, rest', _, rfl, e5, h3, ?_, h4.last, ?_, h4.type⟩
  · rw [h4.first]
    exact QSeg_congr
      (fun x hx => h4.next x (List.mem_append_right _ (List.mem_append_left _ hx))) hk
  · exact QSeg_congr
      (fun x hx => h4.next x (List.mem_append_right _ (List.mem_append_right _ hx))) e2

theorem QSeg_cons_of_some {next : Int → Option Int} {st : Int} {rest : List Int}
    (h : QSeg next (some st) rest none) :
    ∃ rest1, rest = st :: rest1 ∧ QSeg next (next st) rest1 none := by
  cases rest with
  | nil => cases h
  | cons x rest1 =>
    obtain ⟨h1, h2⟩ := h
    simp only [Option.some.injEq] at h1
    subst h1
    exact ⟨rest1, rfl, h2⟩

/-- The loop of `fifo_buffer_clear`: with `kq` the elements kept so far and `rest` the
elements still to visit, the loop ends with the queue `kq` followed by the control elements of
`rest`; everything else of `rest` is released. -/
theorem clear_loop_inv {K : BufferH} {fuel0 : Nat} {held : List Int} :
    ∀ (fuel : Nat) (f : Fifo) (start : Option Int) (kq rest : List Int) (rs : List (Int × Int))
      (f' : Fifo),
      PInv f rs (held ++ (kq ++ rest)) → QSeg f.next f.first kq none → f.last = kq.getLast? →
      QSeg f.next start rest none → clear_loop K fuel0 fuel f start = .done f' →
      ∃ rs', PInv f' rs' (held ++ (kq ++ rest.filter (is_control K f))) ∧
        Queue f' (kq ++ rest.filter (is_control K f)) ∧
        f'.last = (kq ++ rest.filter (is_control K f)).getLast? ∧
        (∀ b ∈ held ++ (kq ++ rest.filter (is_control K f)), f'.type b = f.type b) := by
  intro fuel
  induction fuel with
  | zero =>
    intro f start kq rest rs f' hP hk hl hr h
    cases start with
    | some st => cases h
    | none =>
      rw [clear_loop_none] at h
      simp only [Outcome.done.injEq] at h
      subst h
      cases rest with
      | cons x _ => cases hr.1
      | nil => exact ⟨rs, by simpa using hP, by simpa using hk, by simpa using hl, fun _ _ => rfl⟩
  | succ fuel ih =>
    intro f start kq rest rs f' hP hk hl hr h
    cases start with
    | none =>
      rw [clear_loop_none] at h
      simp only [Outcome.done.injEq] at h
      subst h
      cases rest with
      | cons x _ => cases hr.1
      | nil => exact ⟨rs, by simpa using hP, by simpa using hk, by simpa using hl, fun _ _ => rfl⟩
    | some st =>
      obtain ⟨rest1, e, hr1⟩ := QSeg_cons_of_some hr
      subst e
      rw [clear_loop_succ] at h
      by_cases hctl : is_control K f st = true
      · obtain ⟨g1, g2, g3, g4, g5, g6⟩ := clear_keep_step hP hk hl hr1
        rw [if_pos hctl, if_neg g1, g2] at h
        obtain ⟨rs', r1, r2, r3, r4⟩ := ih _ _ (kq ++ [st]) rest1 rs f' g3 g4 g5 g6 h
        have hfil : rest1.filter (is_control K (clear_keep f st)) = rest1.filter (is_control K f) :=
          rfl
        have hl2 : kq ++ (st :: rest1).filter (is_control K f)
            = (kq ++ [st]) ++ rest1.filter (is_control K f) := by
          rw [List.filter_cons_of_pos hctl]; simp
        rw [hfil] at r1 r2 r3 r4
        rw [hl2]
        exact ⟨rs', r1, r2, r3, r4⟩
      · rw [if_neg hctl] at h
        have hl2 : kq ++ (st :: rest1).filter (is_control K f)
            = kq ++ rest1.filter (is_control K f) := by
          rw [List.filter_cons_of_neg hctl]
        rw [hl2]
        by_cases hown : f.pool_owned st = true
        · rw [hown] at h
          simp only [Bool.not_true, Bool.false_eq_true, if_false] at h
          split at h
          · cases h
          · rename_i n next hc
            split at h
            · rename_i f3 hf
              obtain ⟨C, rest', rs3, e1, e2, e3, e4, e5, e6, e7⟩ :=
                clear_chunk_step hP hk hr1 hown hc hf
              obtain ⟨rs', r1, r2, r3, r4⟩ :=
                ih f3 next kq rest' rs3 f' e3 e4 (e5.trans hl) e6 h
              have hfil : rest'.filter (is_control K f3) = rest'.filter (is_control K f) := by
                refine List.filter_congr ?_
                intro x hx
                unfold is_control
                rw [e7 x (List.mem_append_right _ (List.mem_append_right _ hx))]
              have hfil2 : rest1.filter (is_control K f) = rest'.filter (is_control K f) := by
                rw [e1, List.filter_append]
                have : C.filter (is_control K f) = [] := by
                  rw [List.filter_eq_nil_iff]
                  intro c hc'
                  rw [e2 c hc']; simp
                rw [this]; rfl
              rw [hfil] at r1 r2 r3 r4
              rw [hfil2]
              refine ⟨rs', r1, r2, r3, ?_⟩
              intro b hb
              rw [r4 b hb]
              refine e7 b ?_
              rcases List.mem_append.1 hb with h' | h'
              · exact List.mem_append_left _ h'
              · rcases List.mem_append.1 h' with h' | h'
                · exact List.mem_append_right _ (List.mem_append_left _ h')
                · exact List.mem_append_right _
                    (List.mem_append_right _ (List.mem_of_mem_filter h'))
            all_goals cases h
        · have hown' : f.pool_owned st = false := by simpa using hown
          rw [hown'] at h
          simp only [Bool.not_false, if_true] at h
          obtain ⟨g1, g2, g3⟩ := clear_custom_step hP hk hr1 hown'
          obtain ⟨rs', r1, r2, r3, r4⟩ := ih _ _ kq rest1 rs f' g1 g2 hl g3 h
          have hfil : rest1.filter (is_control K (clear_next f st)) = rest1.filter (is_control K f) :=
            rfl
          rw [hfil] at r1 r2 r3 r4
          exact ⟨rs', r1, r2, r3, r4⟩

theorem fbc_initial_nonneg (f : Fifo) : 0 ≤ fbc_initial f := by
  unfold fbc_initial
  simp only
  split <;> omega

theorem fbc_reset_res {f : Fifo} (h : 0 ≤ f.alloc_cb_data 0) : 0 ≤ (_fbc_reset f).alloc_cb_data 0 := by
  show 0 ≤ (if f.alloc_cb 0 = some fbc_dummy ∧ (0 : Nat) = 0 then fbc_initial f else f.alloc_cb_data 0)
  split
  · exact fbc_initial_nonneg f
  · exact h

theorem Cur.at_end (K : BufferH) (f : Fifo) (q : List Int) (g : Nat) : Cur K f q (qlink q) g :=
  ⟨q, [], by simp, rfl, by simp⟩

/-- What a completed `fifo_buffer_clear` does: the control elements stay queued, in their
order, everything else is released. -/
theorem clear_inv {K : BufferH} {s : Sys} {rs : List (Int × Int)} {q : List Int}
    {fuel : Nat} {f' : Fifo}
    (hP : PInv s.f rs (s.held ++ q)) (hQ : QInv K s q)
    (h : fifo_buffer_clear K fuel s.f = .done f') :
    ∃ rs', PInv f' rs' (s.held ++ q.filter (is_control K s.f)) ∧
      QInv K { s with f := f' } (q.filter (is_control K s.f)) := by
  unfold fifo_buffer_clear at h
  split at h
  · rename_i f1 hloop
    simp only [Outcome.done.injEq] at h
    subst h
    have hP0 : PInv (clear_take s.f) rs (s.held ++ ([] ++ q)) :=
      hP.congr rfl rfl rfl hP.res rfl rfl rfl (fun _ _ => rfl)
    obtain ⟨rs', r1, r2, r3, r4⟩ := clear_loop_inv fuel (clear_take s.f) s.f.first [] q rs f1
      hP0 rfl rfl hQ.seg hloop
    have hfil : q.filter (is_control K (clear_take s.f)) = q.filter (is_control K s.f) := rfl
    rw [hfil] at r1 r2 r3 r4
    simp only [List.nil_append] at r1 r2 r3 r4
    have hnat : _fifo_is_native (_fbc_reset f1) = true := r1.native
    have hlink : last_link (_fbc_reset f1) = qlink (q.filter (is_control K s.f)) :=
      last_link_eq r3
    have htype : ∀ b ∈ q.filter (is_control K s.f),
        (_fifo_mux_last (_fbc_reset f1)).type b = s.f.type b :=
      fun b hb => r4 b (List.mem_append_right _ hb)
    refine ⟨rs', r1.congr rfl rfl rfl (fbc_reset_res r1.res) rfl rfl rfl (fun _ _ => rfl), ?_⟩
    exact
      { seg := r2
        last := r3
        cur0 := by
          show Cur K _ _ (if _fifo_is_native (_fbc_reset f1) = true then last_link (_fbc_reset f1)
            else _) 2
          rw [if_pos hnat, hlink]
          exact Cur.at_end K _ _ 2
        cur1 := by
          show Cur K _ _ (if _fifo_is_native (_fbc_reset f1) = true then last_link (_fbc_reset f1)
            else _) 1
          rw [if_pos hnat, hlink]
          exact Cur.at_end K _ _ 1
        clk := fun x hx i hi => hQ.clk x (List.mem_of_mem_filter hx) i hi
        ord := by
          intro x hx y hy i j h1 h2 h3 h4
          rw [tix_congr (htype x hx), tix_congr (htype y hy)] at h4
          have hs := hQ.ord x (List.mem_of_mem_filter hx) y (List.mem_of_mem_filter hy) i j
            h1 h2 h3 h4
          have hf := hs.filter (is_control K s.f)
          have hx' : is_control K s.f x = true := (List.mem_filter.1 hx).2
          have hy' : is_control K s.f y = true := (List.mem_filter.1 hy).2
          rw [List.filter_cons_of_pos hx', List.filter_cons_of_pos hy', List.filter_nil] at hf
          exact hf }
  all_goals cases h

/-! ## Reachable states -/

/-- The effective number of slabs of a new pool: `if (num_buffers <= 0) num_buffers = 1`. -/
theorem new_capacity (num_buffers : Int) (buf_size : Nat) :
    (_x_fifo_buffer_new num_buffers buf_size).buffer_pool_capacity
      = if num_buffers ≤ 0 then 1 else num_buffers := rfl

theorem new_capacity_pos (num_buffers : Int) (buf_size : Nat) :
    1 ≤ (_x_fifo_buffer_new num_buffers buf_size).buffer_pool_capacity := by
  rw [new_capacity]; split <;> omega

/-- A new pool is one free run that spans the arena. -/
theorem new_PInv (num_buffers : Int) (buf_size : Nat) :
    PInv (_x_fifo_buffer_new num_buffers buf_size)
      [(0, (_x_fifo_buffer_new num_buffers buf_size).buffer_pool_capacity)] [] := by
  have hN := new_capacity_pos num_buffers buf_size
  generalize hg : (_x_fifo_buffer_new num_buffers buf_size).buffer_pool_capacity = N at hN
  have hcap : (_x_fifo_buffer_new num_buffers buf_size).buffer_pool_capacity = N := hg
  have hnb : ∀ b, (_x_fifo_buffer_new num_buffers buf_size).nbufs b = if b = 0 then N else 0 := by
    intro b; rw [← hg]; rfl
  have hnext : ∀ b, (_x_fifo_buffer_new num_buffers buf_size).next b
      = if 0 ≤ b ∧ b < N - 1 then some (b + 1) else none := by
    intro b; rw [← hg]; rfl
  have hown : ∀ b, (_x_fifo_buffer_new num_buffers buf_size).pool_owned b
      = decide (0 ≤ b ∧ b < N) := by
    intro b; rw [← hg]; rfl
  have hfree : (_x_fifo_buffer_new num_buffers buf_size).buffer_pool_num_free = N := by
    rw [← hg]; rfl
  exact
    { native := rfl
      owned := by
        intro b
        rw [hown, hcap]; simp
      foreign := by
        intro b hb
        rw [hcap] at hb
        rw [hnb, if_neg (by omega)]
      res := le_refl _
      seg := by
        refine ⟨rfl, ?_, hN, ?_, ?_⟩
        · show (_x_fifo_buffer_new num_buffers buf_size).nbufs 0 = N
          rw [hnb, if_pos rfl]
        · intro j h1 h2
          simp only at h1 h2
          rw [hnext, if_pos (by omega)]
        · show (_x_fifo_buffer_new num_buffers buf_size).next (0 + N - 1) = none
          rw [hnext, if_neg (by omega)]
      gap := List.chain'_singleton _
      nfree := by rw [hfree]; simp [lsum]
      tile := by
        intro j
        rw [hcap]
        simp [cnt, blk, ind]
      total := by rw [hfree, hcap]; simp [bsum]
      nodup := List.nodup_nil
      pos := by intro b hb; cases hb
      notcap := by intro b hb; cases hb }

theorem init_inv (K : BufferH) (num_buffers : Int) (buf_size : Nat) :
    Inv K (Sys.init num_buffers buf_size) := by
  refine ⟨_, [], new_PInv num_buffers buf_size, ?_⟩
  exact
    { seg := rfl
      last := rfl
      cur0 := ⟨[], [], rfl, rfl, by simp⟩
      cur1 := ⟨[], [], rfl, rfl, by simp⟩
      clk := by intro x hx; cases hx
      ord := by intro x hx; cases hx }

/-- A custom element enters the set of outstanding elements. -/
theorem PInv.add_custom {f : Fifo} {rs : List (Int × Int)} {out : List Int} {b : Int}
    (h : PInv f rs out) (hb : b ∉ out) (hout : b < 0 ∨ f.buffer_pool_capacity < b) :
    PInv f rs (b :: out) := by
  have hn : f.nbufs b = 0 := h.foreign b (by omega)
  exact
    { native := h.native
      owned := h.owned
      foreign := h.foreign
      res := h.res
      seg := h.seg
      gap := h.gap
      nfree := h.nfree
      tile := by
        intro j
        have := h.tile j
        show cnt rs j + (ind b (f.nbufs b) j + cnt (blk f out) j) = _
        rw [hn, ind_zero_len]
        omega
      total := by
        have := h.total
        show _ + (f.nbufs b + bsum f out) = _
        rw [hn]; omega
      nodup := List.nodup_cons.2 ⟨hb, h.nodup⟩
      pos := by
        intro x hx h0 h1
        rcases List.mem_cons.1 hx with e | e
        · rw [e] at h0 h1; omega
        · exact h.pos x e h0 h1
      notcap := by
        intro x hx
        rcases List.mem_cons.1 hx with e | e
        · have h1 := h.nfree_nonneg
          have h2 := h.nfree_le
          rw [e]; omega
        · exact h.notcap x e }

theorem fbc_set_res {f : Fifo} (on_ : Bool) (h : 0 ≤ f.alloc_cb_data 0) :
    0 ≤ (xine_fbc_set f on_).1.alloc_cb_data 0 := by
  unfold xine_fbc_set
  cases on_ with
  | true =>
    simp only [if_true]
    cases hc : f.alloc_cb 0 with
    | none =>
      show 0 ≤ (if (0 : Nat) = 0 then fbc_initial f else f.alloc_cb_data 0)
      rw [if_pos rfl]; exact fbc_initial_nonneg f
    | some cb => exact h
  | false =>
    simp only [Bool.false_eq_true, if_false]
    split
    · show 0 ≤ (if (0 : Nat) = 0 then (0 : Int) else f.alloc_cb_data 0)
      rw [if_pos rfl]
    · exact h

theorem fbc_set_PInv {f : Fifo} {rs : List (Int × Int)} {out : List Int} (on_ : Bool)
    (h : PInv f rs out) : PInv (xine_fbc_set f on_).1 rs out := by
  refine h.congr ?_ ?_ ?_ (fbc_set_res on_ h.res) ?_ ?_ ?_ ?_
  all_goals
    unfold xine_fbc_set
    cases on_ with
    | true =>
      simp only [if_true]
      cases f.alloc_cb 0 <;> first | rfl | (intros; rfl)
    | false =>
      simp only [Bool.false_eq_true, if_false]
      split <;> first | rfl | (intros; rfl)

theorem fbc_set_Frame (f : Fifo) (on_ : Bool) (q : List Int) : Frame f (xine_fbc_set f on_).1 q := by
  unfold xine_fbc_set
  cases on_ with
  | true =>
    simp only [if_true]
    cases f.alloc_cb 0 <;> exact
      { first := rfl, last := rfl, la0 := rfl, la1 := rfl, cap := rfl
        next := fun _ _ => rfl, type := fun _ _ => rfl, nbufs := fun _ _ => rfl }
  | false =>
    simp only [Bool.false_eq_true, if_false]
    split <;> exact
      { first := rfl, last := rfl, la0 := rfl, la1 := rfl, cap := rfl
        next := fun _ _ => rfl, type := fun _ _ => rfl, nbufs := fun _ _ => rfl }

theorem QInv.held {K : BufferH} {s : Sys} {q : List Int} (h : QInv K s q) (held' : List Int) :
    QInv K { s with held := held' } q :=
  h.congr_heap rfl rfl rfl rfl (fun _ _ => rfl) (fun _ _ => rfl) (fun _ _ => rfl) (le_refl _)

/-- Every operation keeps the invariant. -/
theorem step_inv {K : BufferH} {s s' : Sys} (hs : Step K s s') (h : Inv K s) : Inv K s' := by
  obtain ⟨rs, q, hP, hQ⟩ := h
  cases hs with
  | alloc f' b ha =>
    obtain ⟨_, _, _, h1, h2⟩ := alloc_done hP ha
    exact ⟨_, q, h1, hQ.frame (h2.mono (fun x hx => List.mem_append_right _ hx)) rfl rfl⟩
  | size_alloc fuel n f' b ha =>
    obtain ⟨_, rs', _, h1, h2, _⟩ := size_alloc_done hP ha
    exact ⟨_, q, h1, hQ.frame (h2.mono (fun x hx => List.mem_append_right _ hx)) rfl rfl⟩
  | try_alloc =>
    rcases try_alloc_done hP with ⟨_, h1⟩ | ⟨r, rest, _, h1, h2, h3⟩
    · rw [h1]
      exact ⟨rs, q, hP, hQ.held _⟩
    · refine ⟨alloc_runs rs, q, ?_,
        hQ.frame (h3.mono (fun x hx => List.mem_append_right _ hx)) rfl rfl⟩
      have e : (buffer_pool_try_alloc s.f).2 = some r.1 := by rw [h1]
      show PInv _ _ ((buffer_pool_try_alloc s.f).2.toList ++ s.held ++ q)
      rw [e]
      exact h2
  | realloc fuel b new_size f' r hb ha =>
    obtain ⟨rs', h1, h2, _⟩ := realloc_done hP (List.mem_append_left _ hb) ha
    have hbq : b ∉ q := not_mem_queue_of_held hP.nodup hb
    refine ⟨rs', q, ?_, hQ.frame (h2.mono ?_) rfl rfl⟩
    · show PInv f' rs' (r.toList ++ s.held ++ q)
      rw [List.append_assoc]; exact h1
    · intro x hx
      have hxb : x ≠ b := fun hc => hbq (hc ▸ hx)
      exact (List.mem_erase_of_ne hxb).2 (List.mem_append_right _ hx)
  | free fuel b f' hb hown hf =>
    obtain ⟨h1, h2, _⟩ := free_inv hP (List.mem_append_left _ hb) hown hf
    rw [erase_append_held hb] at h1 h2
    exact ⟨_, q, h1, hQ.frame (h2.mono (fun x hx => List.mem_append_right _ hx)) rfl rfl⟩
  | free_custom b hb hown =>
    have h1 := hP.drop_custom (List.mem_append_left _ hb) hown
    rw [erase_append_held hb] at h1
    exact ⟨rs, q, h1, hQ.held _⟩
  | custom b hout hb hq =>
    have hbo : b ∉ s.held ++ q := fun hc => by
      rcases List.mem_append.1 hc with h' | h'
      · exact hb h'
      · exact hq q hQ.seg h'
    exact ⟨rs, q, hP.add_custom hbo hout, hQ.held _⟩
  | fill b type pts size decoder_flags hb =>
    have hbq : b ∉ q := not_mem_queue_of_held hP.nodup hb
    refine ⟨rs, q, hP.congr rfl rfl rfl hP.res rfl rfl rfl (fun _ _ => rfl), ?_⟩
    refine hQ.frame ?_ rfl rfl
    exact
      { first := rfl, last := rfl, la0 := rfl, la1 := rfl, cap := rfl
        next := fun _ _ => rfl
        type := fun x hx => upd_ne _ _ (fun hc => hbq (hc ▸ hx))
        nbufs := fun _ _ => rfl }
  | put fuel b f' hb hp =>
    obtain ⟨q', h1, h2, _⟩ := put_inv hP hQ hb hp
    exact ⟨rs, q', h1, h2⟩
  | insert b hb =>
    obtain ⟨h1, h2⟩ := insert_inv hP hQ hb
    exact ⟨rs, _, h1, h2⟩
  | get f' b hg =>
    obtain ⟨q', _, _, h1, h2⟩ := get_inv hP hQ hg
    exact ⟨rs, q', h1, h2⟩
  | clear fuel f' hc =>
    obtain ⟨rs', h1, h2⟩ := clear_inv hP hQ hc
    exact ⟨rs', _, h1, h2⟩
  | fbc_set on_ =>
    exact ⟨rs, q, fbc_set_PInv on_ hP, hQ.frame (fbc_set_Frame s.f on_ q) rfl rfl⟩

/-- Reachable states satisfy the invariant. -/
theorem reachable_inv {K : BufferH} {s : Sys} (h : Reachable K s) : Inv K s := by
  induction h with
  | init n b => exact init_inv K n b
  | step s s' _ hs ih => exact step_inv hs ih

/-- The free-run list read off the heap is the list of the invariant. -/
theorem free_runs_from_eq {f : Fifo} :
    ∀ (rs : List (Int × Int)) (fuel : Nat) (a : Option Int),
      FreeSeg f.next f.nbufs a rs none → rs.length ≤ fuel → free_runs_from f fuel a = rs := by
  intro rs
  induction rs with
  | nil =>
    intro fuel a h _
    have : a = none := h
    subst this
    cases fuel <;> rfl
  | cons r rs ih =>
    intro fuel a h hf
    obtain ⟨h1, h2, _, _, h5⟩ := h
    subst h1
    cases fuel with
    | zero => simp at hf
    | succ fuel =>
      show (r.1, f.nbufs r.1) :: free_runs_from f fuel (f.next (r.1 + f.nbufs r.1 - 1)) = _
      rw [h2, ih fuel _ h5 (by simpa using hf)]

theorem PInv.free_runs_eq {f : Fifo} {rs : List (Int × Int)} {out : List Int} (h : PInv f rs out) :
    free_runs f = rs := by
  refine free_runs_from_eq rs _ _ h.seg ?_
  have h1 := length_le_lsum (FreeSeg_pos h.seg)
  have h2 := h.nfree_le
  have h3 := h.nfree
  omega

/-! ## Facts used by the claims -/

theorem reach_alloc {K : BufferH} {s : Sys} (h : Reachable K s) : Reachable K (s.alloc K) := by
  unfold Sys.alloc
  split
  · rename_i f' b ha
    exact Reachable.step _ _ h (Step.alloc s f' b ha)
  · exact h

theorem reach_free {K : BufferH} {s : Sys} (h : Reachable K s) (fuel : Nat) (b : Int) :
    Reachable K (s.free fuel b) := by
  unfold Sys.free
  split
  · rename_i hb
    split
    · rename_i f' hf
      exact Reachable.step _ _ h (Step.free s fuel b f' hb.1 hb.2 hf)
    · exact h
  · exact h

theorem reach_put {K : BufferH} {s : Sys} (h : Reachable K s) (fuel : Nat) (b : Int) (type : Nat)
    (pts : Int) (flags : Nat) : Reachable K (s.put K fuel b type pts flags) := by
  unfold Sys.put
  split
  · rename_i hb
    have h1 : Reachable K { s with f := fill s.f b type pts 0 flags } :=
      Reachable.step _ _ h (Step.fill s b type pts 0 flags hb)
    split
    · rename_i f' hf
      exact Reachable.step _ _ h1 (Step.put _ fuel b f' hb hf)
    · exact h1
  · exact h

theorem reach_pool3 : Reachable xineH pool3 :=
  reach_alloc (reach_alloc (reach_alloc (Reachable.init 10 1024)))

/-- Gapped runs of positive length ascend strictly. -/
theorem gapped_strict {rs : List (Int × Int)} (hg : Gapped rs) (hp : ∀ r ∈ rs, 0 < r.2) :
    List.Chain' (fun a b : Int × Int => a.1 < b.1 ∧ a.1 + a.2 < b.1) rs := by
  induction rs with
  | nil => exact List.chain'_nil
  | cons a rs ih =>
    cases rs with
    | nil => exact List.chain'_singleton _
    | cons b rs =>
      have h1 : a.1 + a.2 < b.1 := (List.chain'_cons.1 hg).1
      have h2 := hp a (List.mem_cons_self _ _)
      exact List.chain'_cons.2 ⟨⟨by omega, h1⟩,
        ih (List.chain'_cons.1 hg).2 (fun r hr => hp r (List.mem_cons_of_mem _ hr))⟩

/-- An allocation takes the slabs of the new element out of the free runs. -/
theorem take_cnt {f f' : Fifo} {rs rs' : List (Int × Int)} {out : List Int} {b : Int}
    (h : PInv f rs out) (h' : PInv f' rs' (b :: out)) (hfr : Frame f f' out) (j : Int) :
    cnt (free_runs f) j = cnt (free_runs f') j + ind b (f'.nbufs b) j := by
  rw [h.free_runs_eq, h'.free_runs_eq]
  have h1 := h.tile j
  have h2 := h'.tile j
  rw [hfr.cap] at h2
  have h3 : cnt (blk f' (b :: out)) j = ind b (f'.nbufs b) j + cnt (blk f' out) j := rfl
  rw [h3, blk_congr hfr.nbufs] at h2
  omega

/-- Growing `b` in place, or replacing it, takes the added slabs out of the free runs. -/
theorem realloc_cnt {f f' : Fifo} {rs rs' : List (Int × Int)} {out : List Int} {b : Int}
    {r : Option Int} (h : PInv f rs out) (hb : b ∈ out) (h' : PInv f' rs' (r.toList ++ out))
    (hfr : Frame f f' (out.erase b)) (j : Int) :
    cnt (free_runs f) j + ind b (f.nbufs b) j
      = cnt (free_runs f') j + ind b (f'.nbufs b) j + cnt (blk f' r.toList) j := by
  rw [h.free_runs_eq, h'.free_runs_eq]
  have h1 := h.tile j
  have h2 := h'.tile j
  rw [hfr.cap, blk_append, cnt_append, cnt_blk_erase f' hb j, blk_congr hfr.nbufs] at h2
  rw [cnt_blk_erase f hb j] at h1
  omega

/-- The fatal path of `buffer_pool_free` is taken exactly when the count check fails. -/
theorem free_abort_iff (fuel : Nat) (f : Fifo) (e : Int) :
    buffer_pool_free fuel f e = .abort ↔
      f.buffer_pool_capacity < f.buffer_pool_num_free + f.nbufs e := by
  unfold buffer_pool_free
  simp only
  have hc : (free_count f (f.nbufs e)).buffer_pool_num_free
      > (free_count f (f.nbufs e)).buffer_pool_capacity ↔
      f.buffer_pool_capacity < f.buffer_pool_num_free + f.nbufs e := Iff.rfl
  constructor
  · intro h
    by_contra hn
    rw [if_neg (fun hh => hn (hc.1 hh))] at h
    split at h
    · cases h
    · split at h
      · cases h
      · split at h <;> cases h
  · intro h
    rw [if_pos (hc.2 h)]

/-- With two slabs available `buffer_pool_alloc` returns the first free slab. -/
theorem alloc_total {K : BufferH} {f : Fifo} {rs : List (Int × Int)} {out : List Int}
    (h : PInv f rs out) (hav : 2 ≤ _fbc_avail f) :
    ∃ f' b, buffer_pool_alloc K f = .done (f', b) ∧ _fbc_avail f' = _fbc_avail f - 1 := by
  have hfree : 1 ≤ f.buffer_pool_num_free := by have := fbc_avail_le h; omega
  obtain ⟨r, rest, rfl⟩ := h.exists_head hfree
  have htop : (run_alloc_cb K f).buffer_pool_top = some r.1 := h.top_eq
  refine ⟨reset_element (take_head_native (run_alloc_cb K f) r.1) r.1
    (run_alloc_cb K f).buffer_pool_buf_size, r.1, ?_, ?_⟩
  · unfold buffer_pool_alloc
    simp only [fbc_avail_run_alloc_cb]
    rw [if_neg (by omega), htop]
  · unfold _fbc_avail
    show (if f.alloc_cb 0 ≠ some fbc_dummy then f.buffer_pool_num_free - 1
      else f.buffer_pool_num_free - 1 - f.alloc_cb_data 0) = _
    split <;> omega

theorem alloc_wait_iff (K : BufferH) (f : Fifo) :
    buffer_pool_alloc K f = .wait ↔ _fbc_avail f < 2 := by
  unfold buffer_pool_alloc
  simp only [fbc_avail_run_alloc_cb]
  constructor
  · intro h
    by_contra hn
    rw [if_neg hn] at h
    split at h <;> cases h
  · intro h
    rw [if_pos h]

/-- With enough fuel for the walk along the free runs, `_buffer_pool_size_alloc` either
blocks, which it does exactly when fewer than `n + 2` slabs are available, or returns. -/
theorem size_alloc_total {K : BufferH} {f : Fifo} {n : Int} {fuel : Nat}
    {rs : List (Int × Int)} {out : List Int} (h : PInv f rs out) (hfuel : rs.length ≤ fuel) :
    (_fbc_avail f < (if n < 1 then 1 else n) + 2 ∧ _buffer_pool_size_alloc K fuel f n = .wait) ∨
    ((if n < 1 then 1 else n) + 2 ≤ _fbc_avail f ∧
      ∃ f' b, _buffer_pool_size_alloc K fuel f n = .done (f', b)) := by
  unfold _buffer_pool_size_alloc
  simp only [fbc_avail_run_alloc_cb]
  generalize hn' : (if n < 1 then 1 else n) = n'
  have hn1 : 1 ≤ n' := by rw [← hn']; split <;> omega
  have e : n' + 2 - 2 = n' := by omega
  rw [e]
  by_cases hav : _fbc_avail f < n' + 2
  · left
    exact ⟨hav, by rw [if_pos hav]⟩
  · right
    refine ⟨by omega, ?_⟩
    rw [if_neg hav]
    have hF := h.run_alloc_cb K
    have hfree : 1 ≤ f.buffer_pool_num_free := by have := fbc_avail_le h; omega
    obtain ⟨r, rest, rfl⟩ := h.exists_head hfree
    have htop : (run_alloc_cb K f).buffer_pool_top = some r.1 := h.top_eq
    rw [htop]
    simp only
    by_cases h1 : n' = 1
    · rw [if_pos h1]
      exact ⟨_, _, rfl⟩
    · rw [if_neg h1]
      obtain ⟨f1, m, pre', r', post', hrs, hs, hspec⟩ :=
        size_alloc_search_spec hF.seg hF.gap rest [] r fuel
          Link.pool_top 0 rfl (by simp at hfuel; omega) (by simp) (Or.inl ⟨rfl, rfl, rfl⟩)
      rw [plink_nil] at hs
      rw [hs]
      exact ⟨_, _, rfl⟩

theorem SizeAllocSpec.pos {n b m : Int} {rs rs' : List (Int × Int)}
    (h : SizeAllocSpec n rs b m rs') (hn : 1 ≤ n) (hp : ∀ r ∈ rs, 0 < r.2) : 1 ≤ m := by
  obtain ⟨pre, r, post, hrs, _, hcase⟩ := h
  have := hp r (by rw [hrs]; simp)
  rcases hcase with ⟨_, _, hm, _⟩ | ⟨_, _, _, hm, _⟩ <;> omega

theorem Inv.empty {K : BufferH} {s : Sys} (h : Inv K s) (hq : s.f.first = none) :
    ∃ rs, PInv s.f rs s.held ∧ QInv K s [] := by
  obtain ⟨rs, q, hP, hQ⟩ := h
  have : q = [] := by
    have h1 := QSeg_head hQ.seg
    rw [hq] at h1
    cases q with
    | nil => rfl
    | cons x q => cases h1
  subst this
  rw [List.append_nil] at hP
  exact ⟨rs, hP, hQ⟩

theorem alloc_nbufs_one {K : BufferH} {f : Fifo} (b : Int) (hnat : f.native = true) :
    (reset_element (take_head_native (run_alloc_cb K f) b) b f.buffer_pool_buf_size).nbufs b = 1 := by
  have hn : _fifo_is_native (run_alloc_cb K f) = true := hnat
  show (if _fifo_is_native (run_alloc_cb K f) = true then
      upd (if (run_alloc_cb K f).nbufs b - 1 > 0 then
        upd (run_alloc_cb K f).nbufs (b + 1) ((run_alloc_cb K f).nbufs b - 1)
        else (run_alloc_cb K f).nbufs) b 1
    else (run_alloc_cb K f).nbufs) b = 1
  rw [if_pos hn, upd_same]

theorem free_done_or_timeout (fuel : Nat) (f : Fifo) (e : Int)
    (h : f.buffer_pool_num_free + f.nbufs e ≤ f.buffer_pool_capacity) :
    (∃ f', buffer_pool_free fuel f e = .done f') ∨ buffer_pool_free fuel f e = .timeout := by
  unfold buffer_pool_free
  simp only
  have hc : ¬ (free_count f (f.nbufs e)).buffer_pool_num_free
      > (free_count f (f.nbufs e)).buffer_pool_capacity := by
    show ¬ f.buffer_pool_num_free + f.nbufs e > f.buffer_pool_capacity
    omega
  rw [if_neg hc]
  split
  · exact Or.inl ⟨_, rfl⟩
  · split
    · exact Or.inl ⟨_, rfl⟩
    · split
      · exact Or.inr rfl
      · exact Or.inl ⟨_, rfl⟩

/-- C1: in every state reachable from a freshly created pool by allocate,
allocate_contiguous, try_allocate, grow_in_place, release of an element that is handed out,
put (the merge case included), get and clear, the free count plus the sum of `nbufs` over all
elements handed out and not yet released (those in the hands of clients and those queued)
equals the capacity. -/
theorem C1_free_count_plus_outstanding (K : BufferH) (s : Sys) (h : Reachable K s) :
    ∃ q, Queue s.f q ∧ (s.held ++ q).Nodup ∧
      s.f.buffer_pool_num_free + bsum s.f (s.held ++ q) = s.f.buffer_pool_capacity := by
  obtain ⟨rs, q, hP, hQ⟩ := reachable_inv h
  exact ⟨q, hQ.seg, hP.nodup, hP.total⟩

/-- C1 at the 10-slab pool with slabs 0, 1 and 2 handed out. -/
theorem C1_free_count_plus_outstanding_witness :
    Reachable xineH pool3 ∧ pool3.held = [2, 1, 0] ∧
    ∃ q, Queue pool3.f q ∧ (pool3.held ++ q).Nodup ∧
      pool3.f.buffer_pool_num_free + bsum pool3.f (pool3.held ++ q)
        = pool3.f.buffer_pool_capacity :=
  ⟨reach_pool3, by decide, C1_free_count_plus_outstanding xineH pool3 reach_pool3⟩

/-- C2: in every reachable state the free-run list ascends strictly by slab address and no
run ends where the next one starts; and after slabs 0, 1, 2 of a fresh pool of 10 slabs are
allocated and released in the order 0, 1, 2, they belong to one run that starts at slab 0. -/
theorem C2_free_runs_ascending_merged (K : BufferH) :
    (∀ s, Reachable K s →
      List.Chain' (fun a b : Int × Int => a.1 < b.1 ∧ a.1 + a.2 < b.1) (free_runs s.f)) ∧
    scenario_B = .done ([0, 1, 2], [(0, 10)]) := by
  refine ⟨fun s h => ?_, by decide⟩
  obtain ⟨rs, q, hP, _⟩ := reachable_inv h
  rw [hP.free_runs_eq]
  exact gapped_strict hP.gap (FreeSeg_pos hP.seg)

/-- C2 at the 10-slab pool with slabs 0 and 2 handed out and slab 1 released. -/
theorem C2_free_runs_ascending_merged_witness :
    free_runs (pool3.free 10 1).f = [(1, 1), (3, 7)] ∧
    List.Chain' (fun a b : Int × Int => a.1 < b.1 ∧ a.1 + a.2 < b.1)
      (free_runs (pool3.free 10 1).f) :=
  ⟨by decide,
    (C2_free_runs_ascending_merged xineH).1 (pool3.free 10 1) (reach_free reach_pool3 10 1)⟩

/-- C3: in every reachable state every slab of the arena is either in exactly one free run
or in exactly one element handed out; an element returned by allocate, allocate_contiguous or
try_allocate consists of slabs that were in the free runs before the call and the call takes
exactly those slabs out of the free runs; grow_in_place takes exactly the slabs it adds to the
element (and those of an element it returns instead) out of the free runs. -/
theorem C3_no_double_allocate (K : BufferH) (s : Sys) (h : Reachable K s) :
    (∃ q, Queue s.f q ∧ ∀ j, cnt (free_runs s.f) j + cnt (blk s.f (s.held ++ q)) j
        = if 0 ≤ j ∧ j < s.f.buffer_pool_capacity then 1 else 0) ∧
    (∀ f' b, buffer_pool_alloc K s.f = .done (f', b) →
      ∀ j, cnt (free_runs s.f) j = cnt (free_runs f') j + ind b (f'.nbufs b) j) ∧
    (∀ fuel n f' b, _buffer_pool_size_alloc K fuel s.f n = .done (f', b) →
      ∀ j, cnt (free_runs s.f) j = cnt (free_runs f') j + ind b (f'.nbufs b) j) ∧
    (∀ f' b, buffer_pool_try_alloc s.f = (f', some b) →
      ∀ j, cnt (free_runs s.f) j = cnt (free_runs f') j + ind b (f'.nbufs b) j) ∧
    (∀ fuel b new_size f' r, b ∈ s.held →
      buffer_pool_realloc K fuel s.f b new_size = .done (f', r) →
      s.f.nbufs b ≤ f'.nbufs b ∧
      ∀ j, cnt (free_runs s.f) j + ind b (s.f.nbufs b) j
        = cnt (free_runs f') j + ind b (f'.nbufs b) j + cnt (blk f' r.toList) j) := by
  obtain ⟨rs, q, hP, hQ⟩ := reachable_inv h
  refine ⟨⟨q, hQ.seg, ?_⟩, ?_, ?_, ?_, ?_⟩
  · rw [hP.free_runs_eq]; exact hP.tile
  · intro f' b ha
    obtain ⟨_, _, _, h1, h2⟩ := alloc_done hP ha
    exact take_cnt hP h1 h2
  · intro fuel n f' b ha
    obtain ⟨_, rs', _, h1, h2, _⟩ := size_alloc_done hP ha
    exact take_cnt hP h1 h2
  · intro f' b ha
    rcases try_alloc_done hP with ⟨_, h1⟩ | ⟨r, rest, _, h1, h2, h3⟩
    · rw [h1] at ha
      simp only [Prod.mk.injEq] at ha
      cases ha.2
    · have e1 : (buffer_pool_try_alloc s.f).1 = f' := by rw [ha]
      have e2 : r.1 = b := by
        rw [h1] at ha
        simp only [Prod.mk.injEq, Option.some.injEq] at ha
        exact ha.2
      rw [e1, e2] at h2
      rw [e1] at h3
      exact take_cnt hP h2 h3
  · intro fuel b new_size f' r hb ha
    obtain ⟨rs', h1, h2, h3, _⟩ := realloc_done hP (List.mem_append_left _ hb) ha
    exact ⟨h3, realloc_cnt hP (List.mem_append_left _ hb) h1 h2⟩

/-- C3 at the 10-slab pool with slabs 0, 1 and 2 handed out: what allocate takes. -/
theorem C3_no_double_allocate_witness :
    Reachable xineH pool3 ∧
    ∀ f' b, buffer_pool_alloc xineH pool3.f = .done (f', b) →
      ∀ j, cnt (free_runs pool3.f) j = cnt (free_runs f') j + ind b (f'.nbufs b) j :=
  ⟨reach_pool3, (C3_no_double_allocate xineH pool3 reach_pool3).2.1⟩

/-- C6: in every reachable state, of two queued elements of the same group that were added
with put, the one put first is ahead of the one put later (`stamp` numbers the puts),
whatever their timestamps and whatever was put in between; and putting audio elements with
timestamps 0, 10, 20, 30 and subtitle elements with timestamps 5, 15, interleaved in any of
the 15 call orders, drains the audio elements as 0, 10, 20, 30 and the subtitle elements as
5, 15. -/
theorem C6_group_order (K : BufferH) :
    (∀ s, Reachable K s → ∃ q, Queue s.f q ∧
      ∀ x ∈ q, ∀ y ∈ q, ∀ i j, s.stamp x = some i → s.stamp y = some j → i < j →
        tix K s.f x = tix K s.f y → [x, y].Sublist q) ∧
    (∀ o ∈ interleavings
        [((0 : Int), (0x03000000 : Nat), (0 : Int), (0 : Nat)), (1, 0x03000000, 10, 0),
          (2, 0x03000000, 20, 0), (3, 0x03000000, 30, 0)]
        [(4, 0x04000000, 5, 0), (5, 0x04000000, 15, 0)],
      scenario_C o = .done ([0, 10, 20, 30], [5, 15])) := by
  refine ⟨fun s h => ?_, by decide⟩
  obtain ⟨rs, q, _, hQ⟩ := reachable_inv h
  refine ⟨q, hQ.seg, ?_⟩
  intro x hx y hy i j h1 h2 h3 h4
  exact hQ.ord x hx y hy i j h1 h2 h3 (Or.inr h4)

/-- C6 at a 10-slab pool: audio elements 0 (timestamp 30) and 1 (timestamp 10) are put in
this order and stay in this order. -/
theorem C6_group_order_witness :
    fifo_list_from (((pool3.put xineH 10 0 0x03000000 30 0).put xineH 10 1 0x03000000 10 0).f) 10
        (((pool3.put xineH 10 0 0x03000000 30 0).put xineH 10 1 0x03000000 10 0).f.first)
      = [0, 1] ∧
    ∃ q, Queue ((pool3.put xineH 10 0 0x03000000 30 0).put xineH 10 1 0x03000000 10 0).f q ∧
      ∀ x ∈ q, ∀ y ∈ q, ∀ i j,
        ((pool3.put xineH 10 0 0x03000000 30 0).put xineH 10 1 0x03000000 10 0).stamp x = some i →
        ((pool3.put xineH 10 0 0x03000000 30 0).put xineH 10 1 0x03000000 10 0).stamp y = some j →
        i < j →
        tix xineH ((pool3.put xineH 10 0 0x03000000 30 0).put xineH 10 1 0x03000000 10 0).f x
          = tix xineH ((pool3.put xineH 10 0 0x03000000 30 0).put xineH 10 1 0x03000000 10 0).f y →
        [x, y].Sublist q :=
  ⟨by decide, (C6_group_order xineH).1 _
    (reach_put (reach_put reach_pool3 10 0 0x03000000 30 0) 10 1 0x03000000 10 0)⟩

/-- C7: in a reachable state, allocate_contiguous for `n ≥ 2` slabs either blocks (exactly
when fewer than `n + 2` slabs are available) or returns; when it returns, the element is the
first `n` slabs of the first free run that has `n` slabs, the rest of that run staying free,
or, when no run has `n` slabs, the whole of the first of the longest runs; and `max_size` is
the number of slabs returned times the slab size.  In the 10-slab pool with slabs 0 and 2
handed out and slab 1 released, allocate_contiguous(2) returns slabs 3 and 4. -/
theorem C7_size_alloc (K : BufferH) :
    (∀ s, Reachable K s → ∀ n : Int, 2 ≤ n → ∀ fuel, (free_runs s.f).length ≤ fuel →
      (_fbc_avail s.f < n + 2 ∧ _buffer_pool_size_alloc K fuel s.f n = .wait) ∨
      (n + 2 ≤ _fbc_avail s.f ∧ ∃ f' b, _buffer_pool_size_alloc K fuel s.f n = .done (f', b) ∧
        SizeAllocSpec n (free_runs s.f) b (f'.nbufs b) (free_runs f') ∧
        f'.max_size b = f'.nbufs b * s.f.buffer_pool_buf_size)) ∧
    scenario_A = .done (3, 2, 2048, [(1, 1), (5, 5)]) := by
  refine ⟨fun s h n hn fuel hfuel => ?_, by decide⟩
  obtain ⟨rs, q, hP, _⟩ := reachable_inv h
  rw [hP.free_runs_eq] at hfuel ⊢
  have hn' : (if n < 1 then 1 else n) = n := by rw [if_neg (by omega)]
  rcases size_alloc_total (K := K) (n := n) hP hfuel with ⟨h1, h2⟩ | ⟨h1, f', b, ha⟩
  · left
    rw [hn'] at h1
    exact ⟨h1, h2⟩
  · right
    rw [hn'] at h1
    obtain ⟨_, rs', hspec, hP', _, hmax, _⟩ := size_alloc_done hP ha
    rw [hn'] at hspec
    refine ⟨h1, f', b, ha, ?_, hmax⟩
    rw [hP'.free_runs_eq]
    exact hspec

/-- C7 at the 10-slab pool with slabs 0 and 2 handed out and slab 1 released. -/
theorem C7_size_alloc_witness :
    free_runs (pool3.free 10 1).f = [(1, 1), (3, 7)] ∧
    ((_fbc_avail (pool3.free 10 1).f < 2 + 2 ∧
        _buffer_pool_size_alloc xineH 10 (pool3.free 10 1).f 2 = .wait) ∨
      (2 + 2 ≤ _fbc_avail (pool3.free 10 1).f ∧
        ∃ f' b, _buffer_pool_size_alloc xineH 10 (pool3.free 10 1).f 2 = .done (f', b) ∧
        SizeAllocSpec 2 (free_runs (pool3.free 10 1).f) b (f'.nbufs b) (free_runs f') ∧
        f'.max_size b = f'.nbufs b * (pool3.free 10 1).f.buffer_pool_buf_size)) :=
  ⟨by decide, (C7_size_alloc xineH).1 (pool3.free 10 1) (reach_free reach_pool3 10 1) 2
    (by decide) 10 (by decide)⟩

/-- C8: release of an element with `n` slabs takes the fatal path exactly when the free
count plus `n` exceeds the capacity; otherwise it returns normally: always so for an element
that is handed out in a reachable state (given fuel for the walk along the free runs), and in
any state the only other way for the call to end is that the walk runs out of fuel. -/
theorem C8_release_abort (K : BufferH) :
    (∀ fuel f e, buffer_pool_free fuel f e = .abort ↔
      f.buffer_pool_capacity < f.buffer_pool_num_free + f.nbufs e) ∧
    (∀ fuel f e, f.buffer_pool_num_free + f.nbufs e ≤ f.buffer_pool_capacity →
      (∃ f', buffer_pool_free fuel f e = .done f') ∨ buffer_pool_free fuel f e = .timeout) ∧
    (∀ s, Reachable K s → ∀ e ∈ s.held, s.f.pool_owned e = true →
      ∀ fuel, (free_runs s.f).length ≤ fuel →
      s.f.buffer_pool_num_free + s.f.nbufs e ≤ s.f.buffer_pool_capacity ∧
      ∃ f', buffer_pool_free fuel s.f e = .done f') := by
  refine ⟨free_abort_iff, free_done_or_timeout, ?_⟩
  intro s h e he hown fuel hfuel
  obtain ⟨rs, q, hP, _⟩ := reachable_inv h
  rw [hP.free_runs_eq] at hfuel
  obtain ⟨f', hf, _⟩ := free_done hP (List.mem_append_left _ he) hown hfuel
  exact ⟨hP.free_le (List.mem_append_left _ he), f', hf⟩

/-- C8 at the 10-slab pool with slabs 0, 1 and 2 handed out: the release of slab 1. -/
theorem C8_release_abort_witness :
    (1 : Int) ∈ pool3.held ∧ pool3.f.pool_owned 1 = true ∧ (free_runs pool3.f).length ≤ 10 ∧
    pool3.f.buffer_pool_num_free + pool3.f.nbufs 1 ≤ pool3.f.buffer_pool_capacity ∧
    ∃ f', buffer_pool_free 10 pool3.f 1 = .done f' :=
  ⟨by decide, by decide, by decide,
    (C8_release_abort xineH).2.2 pool3 reach_pool3 1 (by decide) (by decide) 10 (by decide)⟩

/-- C9, amended: a double release is detected by the count check only.  In a reachable
state a slab that is in the free-run list is not handed out, and release of it takes the
fatal path exactly when the `nbufs` recorded in it exceeds the number of slabs handed out,
that is, when the free count plus `nbufs` exceeds the capacity. -/
theorem C9_double_release (K : BufferH) (s : Sys) (h : Reachable K s) (e : Int)
    (he : 1 ≤ cnt (free_runs s.f) e) (fuel : Nat) :
    ∃ q, Queue s.f q ∧ e ∉ s.held ++ q ∧
      (buffer_pool_free fuel s.f e = .abort ↔ bsum s.f (s.held ++ q) < s.f.nbufs e) ∧
      (buffer_pool_free fuel s.f e = .abort ↔
        s.f.buffer_pool_capacity < s.f.buffer_pool_num_free + s.f.nbufs e) := by
  obtain ⟨rs, q, hP, hQ⟩ := reachable_inv h
  rw [hP.free_runs_eq] at he
  obtain ⟨r, hr, h1, h2⟩ := exists_mem_of_cnt_pos (by omega : 0 < cnt rs e)
  refine ⟨q, hQ.seg, hP.free_not_out hr h1 h2, ?_, free_abort_iff fuel s.f e⟩
  rw [free_abort_iff]
  have := hP.total
  constructor <;> intro hh <;> omega

/-- C9, amended, at the 10-slab pool with slabs 0 and 2 handed out and slab 1 released: a
second release of slab 1. -/
theorem C9_double_release_witness :
    1 ≤ cnt (free_runs (pool3.free 10 1).f) 1 ∧
    ∃ q, Queue (pool3.free 10 1).f q ∧ (1 : Int) ∉ (pool3.free 10 1).held ++ q ∧
      (buffer_pool_free 10 (pool3.free 10 1).f 1 = .abort ↔
        bsum (pool3.free 10 1).f ((pool3.free 10 1).held ++ q) < (pool3.free 10 1).f.nbufs 1) ∧
      (buffer_pool_free 10 (pool3.free 10 1).f 1 = .abort ↔
        (pool3.free 10 1).f.buffer_pool_capacity
          < (pool3.free 10 1).f.buffer_pool_num_free + (pool3.free 10 1).f.nbufs 1) :=
  ⟨by decide, C9_double_release xineH (pool3.free 10 1) (reach_free reach_pool3 10 1) 1
    (by decide) 10⟩

/-- C9 as stated fails: after slabs 0, 1, 2 of a 10-slab pool are allocated and slab 1 is
released, slab 1 is in the free-run list, and a second release of it returns normally and
leaves a free count of 9. -/
theorem C9_double_release_counterexample :
    scenario_E = ([(1, 1), (3, 7)], .done 9) := by
  decide

/-- C10, amended: allocate keeps a margin of one slab.  In a reachable state it blocks
exactly when fewer than two slabs are available, and when at least two are available it
returns and leaves one slab less available, so at least one. -/
theorem C10_alloc_margin (K : BufferH) (s : Sys) (h : Reachable K s) :
    (buffer_pool_alloc K s.f = .wait ↔ _fbc_avail s.f < 2) ∧
    (2 ≤ _fbc_avail s.f →
      ∃ f' b, buffer_pool_alloc K s.f = .done (f', b) ∧ _fbc_avail f' = _fbc_avail s.f - 1 ∧
        1 ≤ _fbc_avail f') := by
  obtain ⟨rs, q, hP, _⟩ := reachable_inv h
  refine ⟨alloc_wait_iff K s.f, fun hav => ?_⟩
  obtain ⟨f', b, h1, h2⟩ := alloc_total (K := K) hP hav
  exact ⟨f', b, h1, h2, by omega⟩

/-- C10, amended, at the 10-slab pool with slabs 0, 1 and 2 handed out. -/
theorem C10_alloc_margin_witness :
    Reachable xineH pool3 ∧ _fbc_avail pool3.f = 7 ∧
    (buffer_pool_alloc xineH pool3.f = .wait ↔ _fbc_avail pool3.f < 2) ∧
    (2 ≤ _fbc_avail pool3.f →
      ∃ f' b, buffer_pool_alloc xineH pool3.f = .done (f', b) ∧
        _fbc_avail f' = _fbc_avail pool3.f - 1 ∧ 1 ≤ _fbc_avail f') :=
  ⟨reach_pool3, by decide, C10_alloc_margin xineH pool3 reach_pool3⟩

/-- C10 as stated fails: in a fresh pool of 2 slabs, where fewer than three slabs are
available, allocate does not block; it returns slab 0 and leaves one slab available. -/
theorem C10_alloc_margin_counterexample :
    _fbc_avail (_x_fifo_buffer_new 2 1024) = 2 ∧
    (buffer_pool_alloc xineH (_x_fifo_buffer_new 2 1024)).map (fun p => (p.2, _fbc_avail p.1))
      = .done (0, 1) := by
  decide

/-! ## Allocation without waiting, and what the allocators leave behind -/

theorem size_alloc_search_cb {f : Fifo} {n : Int} :
    ∀ (fuel : Nat) (buf : Int) (link bestlink : Link) (bestsize : Int) (f1 : Fifo) (b m : Int),
      size_alloc_search f n fuel buf link bestlink bestsize = .done (f1, b, m) →
      f1.alloc_cb = f.alloc_cb ∧ f1.alloc_cb_data = f.alloc_cb_data := by
  intro fuel
  induction fuel with
  | zero => intro buf link bl bs f1 b m h; cases h
  | succ k ih =>
    intro buf link bl bs f1 b m h
    rw [size_alloc_search_succ] at h
    split at h
    · cases h
      exact ⟨(store_cb _ _ _).trans rfl, (store_res _ _ _).trans rfl⟩
    · split at h
      · cases h
        exact ⟨store_cb _ _ _, store_res _ _ _⟩
      · split at h
        · exact ih _ _ _ _ _ _ _ h
        · split at h
          · cases h
          · cases h
            exact ⟨store_cb _ _ _, store_res _ _ _⟩

/-- The function `_buffer_pool_size_alloc` leaves the callback table as it is. -/
theorem size_alloc_cb {K : BufferH} {f f' : Fifo} {b n : Int} {fuel : Nat}
    (ha : _buffer_pool_size_alloc K fuel f n = .done (f', b)) :
    f'.alloc_cb = f.alloc_cb ∧ f'.alloc_cb_data = f.alloc_cb_data := by
  unfold _buffer_pool_size_alloc at ha
  simp only [fbc_avail_run_alloc_cb] at ha
  generalize (if n < 1 then 1 else n) = n' at ha
  split at ha
  · cases ha
  · split at ha
    · cases ha
    · split at ha
      · cases ha
        exact ⟨rfl, rfl⟩
      · split at ha
        · rename_i f1 b1 m1 hs
          cases ha
          have hc := size_alloc_search_cb (f := run_alloc_cb K f) _ _ _ _ _ _ _ _ hs
          exact ⟨hc.1, hc.2⟩
        all_goals cases ha

/-- The slab count of the element `_buffer_pool_size_alloc` returns is at most the count
asked for. -/
theorem SizeAllocSpec.le_asked {n : Int} {rs rs' : List (Int × Int)} {b m : Int}
    (h : SizeAllocSpec n rs b m rs') : m ≤ n := by
  obtain ⟨pre, r, post, hrs, _, h1 | h2⟩ := h
  · omega
  · have := h2.1 r (by rw [hrs]; simp)
    omega

/-- C11, amended: try_allocate is not allocate without the wait, because allocate keeps one
slab back for it.  In every reachable state try_allocate returns null exactly when no slab is
free, and then leaves the pool as it is; whenever allocate returns, try_allocate returns the
same slab and the same state except that allocate has called the alloc callbacks; allocate
blocks exactly when fewer than two slabs are available, so in a state with a free slab and
fewer than two available allocate blocks and try_allocate returns an element. -/
theorem C11_try_alloc_emergency (K : BufferH) (s : Sys) (h : Reachable K s) :
    ((buffer_pool_try_alloc s.f).2 = none ↔ s.f.buffer_pool_num_free = 0) ∧
    ((buffer_pool_try_alloc s.f).2 = none → (buffer_pool_try_alloc s.f).1 = s.f) ∧
    (∀ f' b, buffer_pool_alloc K s.f = .done (f', b) →
      (buffer_pool_try_alloc s.f).2 = some b ∧
      f' = { (buffer_pool_try_alloc s.f).1 with log := f'.log }) ∧
    (buffer_pool_alloc K s.f = .wait ↔ _fbc_avail s.f < 2) ∧
    (0 < s.f.buffer_pool_num_free → _fbc_avail s.f < 2 →
      buffer_pool_alloc K s.f = .wait ∧ ∃ b, (buffer_pool_try_alloc s.f).2 = some b) := by
  obtain ⟨rs, q, hP, _⟩ := reachable_inv h
  have hlen := length_le_lsum (FreeSeg_pos hP.seg)
  have hnf := hP.nfree
  rcases try_alloc_done hP with ⟨h0, h1⟩ | ⟨r, rest, h0, h1, _, _⟩
  · subst h0
    have hz : s.f.buffer_pool_num_free = 0 := hnf
    refine ⟨?_, ?_, ?_, alloc_wait_iff K s.f, ?_⟩
    · rw [h1]; exact ⟨fun _ => hz, fun _ => rfl⟩
    · intro _; rw [h1]
    · intro f' b ha
      obtain ⟨_, ⟨r, rest, hr, _⟩, _⟩ := alloc_done hP ha
      cases hr
    · intro hpos; omega
  · subst h0
    have hz : 0 < s.f.buffer_pool_num_free := by
      rw [hnf]
      simp only [List.length_cons] at hlen
      push_cast at hlen
      omega
    refine ⟨?_, ?_, ?_, alloc_wait_iff K s.f, ?_⟩
    · rw [h1]
      constructor
      · intro hc; cases hc
      · intro hc; omega
    · rw [h1]; intro hc; cases hc
    · intro f' b ha
      obtain ⟨_, ⟨r', rest', hr, hb⟩, hf, _⟩ := alloc_done hP ha
      cases hr
      subst hb
      rw [h1]
      refine ⟨rfl, ?_⟩
      rw [hf]
      rfl
    · intro _ hav
      exact ⟨(alloc_wait_iff K s.f).2 hav, r.1, by rw [h1]⟩

/-- C11, amended, at the 10-slab pool with slabs 0, 1 and 2 handed out, where both calls
return slab 3. -/
theorem C11_try_alloc_emergency_witness :
    Reachable xineH pool3 ∧
    (buffer_pool_alloc xineH pool3.f).map (fun p => p.2) = .done 3 ∧
    (buffer_pool_try_alloc pool3.f).2 = some 3 ∧
    (∀ f' b, buffer_pool_alloc xineH pool3.f = .done (f', b) →
      (buffer_pool_try_alloc pool3.f).2 = some b ∧
      f' = { (buffer_pool_try_alloc pool3.f).1 with log := f'.log }) :=
  ⟨reach_pool3, by decide, by decide, (C11_try_alloc_emergency xineH pool3 reach_pool3).2.2.1⟩

/-- C11 as stated fails: in a pool of 2 slabs with slab 0 handed out allocate blocks, and
try_allocate does not return null there, it returns slab 1. -/
theorem C11_try_alloc_emergency_counterexample :
    scenario_last_slab = .done (.wait, some 1) := by
  decide

/-- C12: when allocate succeeds in a reachable state, the free-run list is not empty and
the slab returned is the first slab of its first run, which starts below every other run; the
list afterwards has the rest of that run (one slab shorter, starting one slab later) in its
place if the run had more than one slab and only the other runs otherwise; the free count is
one less; and the element returned has size 0, decoder flags 0, timestamp 0, all entries of
`decoder_info` and `decoder_info_ptr` zero, its extra info reset, one slab, content at the
start of its slab in the arena and max_size equal to the slab size. -/
theorem C12_alloc_head (K : BufferH) (s : Sys) (h : Reachable K s) (f' : Fifo) (b : Int)
    (ha : buffer_pool_alloc K s.f = .done (f', b)) :
    (∃ r rest, free_runs s.f = r :: rest ∧ b = r.1 ∧ (∀ x ∈ rest, r.1 < x.1) ∧
      free_runs f' = if 1 < r.2 then (r.1 + 1, r.2 - 1) :: rest else rest) ∧
    f'.buffer_pool_num_free = s.f.buffer_pool_num_free - 1 ∧
    f'.size b = 0 ∧ f'.decoder_flags b = 0 ∧ f'.pts b = 0 ∧
    (∀ i, f'.decoder_info b i = 0) ∧ (∀ i, f'.decoder_info_ptr b i = 0) ∧
    f'.extra_info_reset b = true ∧ f'.nbufs b = 1 ∧
    f'.content b = b * s.f.buffer_pool_buf_size ∧ f'.max_size b = s.f.buffer_pool_buf_size := by
  obtain ⟨rs, q, hP, _⟩ := reachable_inv h
  obtain ⟨_, ⟨r, rest, hr, hb⟩, hf, hP', _⟩ := alloc_done hP ha
  subst hr
  have hpos := FreeSeg_pos hP.seg
  have hnb : f'.nbufs b = 1 := by rw [hf]; exact alloc_nbufs_one b hP.native
  refine ⟨⟨r, rest, hP.free_runs_eq, hb, ?_, ?_⟩, ?_, ?_, ?_, ?_, ?_, ?_, ?_, hnb, ?_, ?_⟩
  · intro x hx
    have := gapped_above hP.gap (fun p hp => hpos p (List.mem_cons_of_mem _ hp)) x hx
    have := hpos r (List.mem_cons_self _ _)
    omega
  · rw [hP'.free_runs_eq]
    show (if r.2 - 1 > 0 then (r.1 + 1, r.2 - 1) :: rest else rest) = _
    by_cases hc : 1 < r.2
    · rw [if_pos hc, if_pos (by omega)]
    · rw [if_neg hc, if_neg (by omega)]
  · rw [hf]; rfl
  · rw [hf]; exact upd_same _ _ _
  · rw [hf]; exact upd_same _ _ _
  · rw [hf]; exact upd_same _ _ _
  · intro i; rw [hf]; exact congrFun (upd_same _ _ _) i
  · intro i; rw [hf]; exact congrFun (upd_same _ _ _) i
  · rw [hf]; exact upd_same _ _ _
  · rw [hf]; exact upd_same _ _ _
  · rw [hf]; exact upd_same _ _ _

/-- C12 at the 10-slab pool with slabs 0 and 2 handed out and slab 1 released, where the
head run is the single slab 1. -/
theorem C12_alloc_head_witness :
    free_runs (pool3.free 10 1).f = [(1, 1), (3, 7)] ∧
    (∃ r rest, free_runs (pool3.free 10 1).f = r :: rest ∧ (1 : Int) = r.1 ∧
      (∀ x ∈ rest, r.1 < x.1) ∧
      free_runs (reset_element (take_head_native (run_alloc_cb xineH (pool3.free 10 1).f) 1) 1
        (run_alloc_cb xineH (pool3.free 10 1).f).buffer_pool_buf_size)
        = if 1 < r.2 then (r.1 + 1, r.2 - 1) :: rest else rest) :=
  ⟨by decide,
    (C12_alloc_head xineH (pool3.free 10 1) (reach_free reach_pool3 10 1)
      (reset_element (take_head_native (run_alloc_cb xineH (pool3.free 10 1).f) 1) 1
        (run_alloc_cb xineH (pool3.free 10 1).f).buffer_pool_buf_size) 1 rfl).1⟩

/-- C13: in a reachable state allocate_contiguous for `n >= 1` slabs, given fuel for its
search loop, blocks when the availability is below `n + 2` and returns an element otherwise;
and whenever it returns, at least two slabs are still free and still available. -/
theorem C13_size_alloc_margin (K : BufferH) (s : Sys) (h : Reachable K s) (n : Int)
    (hn : 1 ≤ n) (fuel : Nat) (hfuel : (free_runs s.f).length ≤ fuel) :
    ((∃ f' b, _buffer_pool_size_alloc K fuel s.f n = .done (f', b)) ↔ n + 2 ≤ _fbc_avail s.f) ∧
    (_buffer_pool_size_alloc K fuel s.f n = .wait ↔ _fbc_avail s.f < n + 2) ∧
    (∀ f' b, _buffer_pool_size_alloc K fuel s.f n = .done (f', b) →
      2 ≤ f'.buffer_pool_num_free ∧ 2 ≤ _fbc_avail f') := by
  obtain ⟨rs, q, hP, _⟩ := reachable_inv h
  rw [hP.free_runs_eq] at hfuel
  have hn' : (if n < 1 then 1 else n) = n := if_neg (by omega)
  have ht := @size_alloc_total K s.f n fuel rs _ hP hfuel
  rw [hn'] at ht
  refine ⟨?_, ?_, ?_⟩
  · constructor
    · rintro ⟨f', b, ha⟩
      rcases ht with ⟨_, hw⟩ | ⟨hav, _⟩
      · rw [hw] at ha; cases ha
      · exact hav
    · intro hav
      rcases ht with ⟨hlt, _⟩ | ⟨_, hd⟩
      · omega
      · exact hd
  · constructor
    · intro hw
      rcases ht with ⟨hlt, _⟩ | ⟨_, f', b, hd⟩
      · exact hlt
      · rw [hd] at hw; cases hw
    · intro hlt
      rcases ht with ⟨_, hw⟩ | ⟨hav, _⟩
      · exact hw
      · omega
  · intro f' b ha
    obtain ⟨hav, rs', hspec, _, _, _, hfree⟩ := size_alloc_done hP ha
    rw [hn'] at hav hspec
    obtain ⟨c1, c2⟩ := size_alloc_cb ha
    have hle := hspec.le_asked
    have h1 := fbc_avail_le hP
    have h2 : _fbc_avail f' = _fbc_avail s.f - f'.nbufs b := by
      unfold _fbc_avail
      rw [c1, c2, hfree]
      split <;> omega
    constructor <;> omega

/-- C13 at the 10-slab pool with slabs 0, 1 and 2 handed out, for 3 slabs: 7 slabs are
available and the call returns slab 3. -/
theorem C13_size_alloc_margin_witness :
    _fbc_avail pool3.f = 7 ∧
    (_buffer_pool_size_alloc xineH 10 pool3.f 3).map (fun p => p.2) = .done 3 ∧
    ((∃ f' b, _buffer_pool_size_alloc xineH 10 pool3.f 3 = .done (f', b))
      ↔ (3 : Int) + 2 ≤ _fbc_avail pool3.f) :=
  ⟨by decide, by decide,
    (C13_size_alloc_margin xineH pool3 reach_pool3 3 (by decide) 10 (by decide)).1⟩

/-! ## Free-run lists are determined by the slabs they cover -/

/-- Two gapped lists of positive runs that cover the same slabs are equal. -/
theorem gapped_unique : ∀ (l1 l2 : List (Int × Int)), Gapped l1 → Gapped l2 →
    (∀ r ∈ l1, 0 < r.2) → (∀ r ∈ l2, 0 < r.2) → (∀ j, cnt l1 j = cnt l2 j) → l1 = l2 := by
  intro l1
  induction l1 with
  | nil =>
    intro l2 _ _ _ hp2 hc
    cases l2 with
    | nil => rfl
    | cons b t2 =>
      have hb := hp2 b (List.mem_cons_self _ _)
      have := @cnt_pos_of_mem (b :: t2) b b.1 (List.mem_cons_self _ _) (le_refl _) (by omega)
      have := hc b.1
      simp only [cnt_nil] at this
      omega
  | cons a t1 ih =>
    intro l2 hg1 hg2 hp1 hp2 hc
    have ha := hp1 a (List.mem_cons_self _ _)
    have ab1 := gapped_above hg1 (fun p hp => hp1 p (List.mem_cons_of_mem _ hp))
    cases l2 with
    | nil =>
      have := @cnt_pos_of_mem (a :: t1) a a.1 (List.mem_cons_self _ _) (le_refl _) (by omega)
      have := hc a.1
      simp only [cnt_nil] at this
      omega
    | cons b t2 =>
      have hb := hp2 b (List.mem_cons_self _ _)
      have ab2 := gapped_above hg2 (fun p hp => hp2 p (List.mem_cons_of_mem _ hp))
      have e1 : a.1 = b.1 := by
        have c1 := @cnt_pos_of_mem (a :: t1) a a.1 (List.mem_cons_self _ _) (le_refl _) (by omega)
        have c2 := @cnt_pos_of_mem (b :: t2) b b.1 (List.mem_cons_self _ _) (le_refl _) (by omega)
        rw [hc a.1] at c1
        rw [← hc b.1] at c2
        obtain ⟨r, hr, hr1, _⟩ := exists_mem_of_cnt_pos c1
        obtain ⟨r', hr', hr1', _⟩ := exists_mem_of_cnt_pos c2
        have k1 : b.1 ≤ a.1 := by
          rcases List.mem_cons.1 hr with e | e
          · subst e; exact hr1
          · have := ab2 r e; omega
        have k2 : a.1 ≤ b.1 := by
          rcases List.mem_cons.1 hr' with e | e
          · subst e; exact hr1'
          · have := ab1 r' e; omega
        omega
      have z1 : ∀ j, a.1 + a.2 ≤ j → j ≤ a.1 + a.2 → cnt (a :: t1) j = 0 := by
        intro j h1 h2
        apply cnt_zero_of_forall
        intro r hr hh
        rcases List.mem_cons.1 hr with e | e
        · subst e; omega
        · have := ab1 r e; omega
      have z2 : ∀ j, b.1 + b.2 ≤ j → j ≤ b.1 + b.2 → cnt (b :: t2) j = 0 := by
        intro j h1 h2
        apply cnt_zero_of_forall
        intro r hr hh
        rcases List.mem_cons.1 hr with e | e
        · subst e; omega
        · have := ab2 r e; omega
      have e2 : a.2 = b.2 := by
        rcases lt_trichotomy a.2 b.2 with hlt | heq | hgt
        · have c := @cnt_pos_of_mem (b :: t2) b (a.1 + a.2) (List.mem_cons_self _ _)
            (by omega) (by omega)
          rw [← hc, z1 _ (le_refl _) (le_refl _)] at c
          omega
        · exact heq
        · have c := @cnt_pos_of_mem (a :: t1) a (b.1 + b.2) (List.mem_cons_self _ _)
            (by omega) (by omega)
          rw [hc, z2 _ (le_refl _) (le_refl _)] at c
          omega
      have e : a = b := Prod.ext e1 e2
      subst e
      have := ih t2 (Gapped.tail hg1) (Gapped.tail hg2)
        (fun p hp => hp1 p (List.mem_cons_of_mem _ hp))
        (fun p hp => hp2 p (List.mem_cons_of_mem _ hp))
        (fun j => by have := hc j; simp only [cnt_cons] at this; omega)
      rw [this]

/-- Two pool states with the same capacity whose outstanding elements cover the same slabs
have the same free-run list. -/
theorem PInv.runs_unique {f g : Fifo} {rs rs' : List (Int × Int)} {out out' : List Int}
    (h : PInv f rs out) (h' : PInv g rs' out')
    (hcap : g.buffer_pool_capacity = f.buffer_pool_capacity)
    (hc : ∀ j, cnt (blk f out) j = cnt (blk g out') j) : rs = rs' := by
  refine gapped_unique rs rs' h.gap h'.gap (FreeSeg_pos h.seg) (FreeSeg_pos h'.seg) ?_
  intro j
  have h1 := h.tile j
  have h2 := h'.tile j
  rw [hcap] at h2
  have := hc j
  omega

/-! ## The cases of `buffer_pool_realloc` -/

/-- The three ways `buffer_pool_realloc` completes: nothing is done, a fresh element is
allocated, or the element grows into the run behind it. -/
theorem realloc_branch {K : BufferH} {f f' : Fifo} {b : Int} {fuel : Nat} {new_size : Nat}
    {res : Option Int} {rs : List (Int × Int)} {out : List Int} (h : PInv f rs out)
    (ha : buffer_pool_realloc K fuel f b new_size = .done (f', res)) :
    (f' = f ∧ res = none) ∨
    (∃ n e, _buffer_pool_size_alloc K fuel f n = .done (f', e) ∧ res = some e) ∨
    (∃ pre r post, rs = pre ++ r :: post ∧ r.1 = b + f.nbufs b ∧
      1 ≤ realloc_limit f (realloc_need f b new_size) ∧
      f' = realloc_grow f b (plink pre) r.1 (realloc_limit f (realloc_need f b new_size)) ∧
      res = none) := by
  have fallback : ∀ n, (_buffer_pool_size_alloc K fuel f n).some_elem = .done (f', res) →
      ∃ n e, _buffer_pool_size_alloc K fuel f n = .done (f', e) ∧ res = some e := by
    intro n hn
    obtain ⟨e, he, hd⟩ := some_elem_done hn
    exact ⟨n, e, hd, he⟩
  unfold buffer_pool_realloc at ha
  simp only at ha
  split at ha
  · simp only [Outcome.done.injEq, Prod.mk.injEq] at ha
    exact Or.inl ⟨ha.1.symm, ha.2.symm⟩
  · split at ha
    · simp only [Outcome.done.injEq, Prod.mk.injEq] at ha
      exact Or.inl ⟨ha.1.symm, ha.2.symm⟩
    · split at ha
      · rename_i hnat
        have : _fifo_is_native f = true := h.native
        rw [this] at hnat
        simp at hnat
      · split at ha
        · cases ha
        cases hfind : realloc_find f (b + f.nbufs b) fuel Link.pool_top with
        | none => rw [hfind] at ha; cases ha
        | some x =>
          obtain ⟨l, o⟩ := x
          rw [hfind] at ha
          cases o with
          | none => exact Or.inr (Or.inl (fallback _ ha))
          | some nb =>
            simp only at ha
            obtain ⟨pre, r, post, hrs, hr1, hnb, hl⟩ :=
              realloc_find_found h.seg h.gap fuel [] rs rfl l nb (by rw [plink_nil]; exact hfind)
            by_cases hn1 : realloc_limit f (realloc_need f b new_size) < 1
            · rw [if_pos hn1] at ha
              exact Or.inr (Or.inl (fallback _ ha))
            · rw [if_neg hn1] at ha
              simp only [Outcome.done.injEq, Prod.mk.injEq] at ha
              obtain ⟨e1, e2⟩ := ha
              subst hnb hl
              refine Or.inr (Or.inr ⟨pre, r, post, hrs, hr1, le_of_not_lt hn1, ?_, e2.symm⟩)
              rw [hr1]
              exact e1.symm

/-- A division that traps makes `buffer_pool_realloc` fault, for a pool element of a native
fifo whose `max_size` is below `new_size`. -/
theorem realloc_trap {K : BufferH} {f : Fifo} {b : Int} {fuel : Nat} {new_size : Nat}
    (hnat : f.native = true) (hsz : f.max_size b < int_of_size_t new_size)
    (hown : f.pool_owned b = true)
    (ht : int_div_traps (size_dividend f new_size) f.buffer_pool_buf_size = true) :
    buffer_pool_realloc K fuel f b new_size = .fault := by
  have hn : _fifo_is_native f = true := hnat
  unfold buffer_pool_realloc
  simp only
  rw [if_neg (by omega), hown, hn, ht]
  rfl

theorem realloc_grow_max (f : Fifo) (old : Int) (l : Link) (nb n : Int) :
    (realloc_grow f old l nb n).max_size old
      = (realloc_grow f old l nb n).nbufs old * f.buffer_pool_buf_size := by
  cases l <;>
  · show upd _ _ _ old = upd _ _ _ old * _
    rw [upd_same, upd_same]
    rfl

theorem realloc_grow_content (f : Fifo) (old : Int) (l : Link) (nb n : Int) :
    (realloc_grow f old l nb n).content = f.content ∧ (realloc_grow f old l nb n).size = f.size := by
  cases l <;> exact ⟨rfl, rfl⟩

/-- The element `b` grows by `n` slabs of the run `r` behind it, or by all of `r` if `r` has
no more than `n` slabs. -/
theorem realloc_grow_self {f : Fifo} {pre post : List (Int × Int)} {r : Int × Int} {n b : Int}
    {out : List Int} (h : PInv f (pre ++ r :: post) out) (hb : b ∈ out)
    (hadj : b + f.nbufs b = r.1) (hn : 1 ≤ n) :
    (realloc_grow f b (plink pre) r.1 n).nbufs b = f.nbufs b + (if n < r.2 then n else r.2) ∧
    (realloc_grow f b (plink pre) r.1 n).buffer_pool_num_free
      = f.buffer_pool_num_free - (if n < r.2 then n else r.2) := by
  obtain ⟨_, a2, _, _, _⟩ := FreeList_at h.seg h.gap
  have hnb0 := h.nbufs_nonneg hb
  rw [realloc_grow_nbufs, realloc_grow_free, a2]
  by_cases hs : r.2 - n > 0
  · simp only [if_pos hs]
    rw [if_pos (by omega), upd_same, upd_ne _ _ (by omega : b ≠ r.1 + n)]
    exact ⟨rfl, rfl⟩
  · simp only [if_neg hs]
    rw [if_neg (by omega), upd_same]
    exact ⟨rfl, rfl⟩

/-- The shift `x >> 3` of an `int` is the division by 8 rounded down. -/
theorem shr3_eq_div (c : Int) : c >>> (3 : Int) = c / 8 := by
  cases c with
  | ofNat m =>
    show (m : ℤ) >>> ((3 : ℕ) : ℤ) = (m : ℤ) / 8
    rw [Int.shiftRight_coe_nat, Nat.shiftRight_eq_div_pow]
    norm_num
  | negSucc m =>
    show (Int.negSucc m) >>> ((3 : ℕ) : ℤ) = (Int.negSucc m) / 8
    rw [Int.shiftRight_negSucc, Nat.shiftRight_eq_div_pow, Int.negSucc_ediv m (by norm_num)]
    rw [Int.negSucc_eq]
    push_cast
    norm_num
    rfl

/-- The slab count `buffer_pool_realloc` still needs leaves the element within
`capacity / 8` slabs. -/
theorem realloc_need_le (f : Fifo) (b : Int) (new_size : Nat) :
    realloc_need f b new_size ≤ f.buffer_pool_capacity / 8 - f.nbufs b := by
  unfold realloc_need
  simp only
  rw [shr3_eq_div]
  generalize size_slabs f new_size = N
  generalize f.buffer_pool_capacity / 8 = c
  split <;> omega

theorem realloc_limit_le (f : Fifo) (n : Int) : realloc_limit f n ≤ n := by
  unfold realloc_limit
  split <;> omega

/-- C16: whenever grow_in_place completes in a reachable state with the slab count of the
element (one that is handed out) larger than before, it returns null, the slab count is at
most capacity / 8 rounded down, max_size is the slab count times the slab size, content and
size of the element are as before, and the free count is lower by the number of slabs
added. -/
theorem C16_grow_limit (K : BufferH) (s : Sys) (h : Reachable K s) (b : Int)
    (hb : b ∈ s.held) (new_size : Nat) (fuel : Nat) (f' : Fifo) (res : Option Int)
    (ha : buffer_pool_realloc K fuel s.f b new_size = .done (f', res))
    (hgrow : s.f.nbufs b < f'.nbufs b) :
    res = none ∧ f'.nbufs b ≤ s.f.buffer_pool_capacity / 8 ∧
    f'.max_size b = f'.nbufs b * s.f.buffer_pool_buf_size ∧
    f'.content b = s.f.content b ∧ f'.size b = s.f.size b ∧
    f'.buffer_pool_num_free = s.f.buffer_pool_num_free - (f'.nbufs b - s.f.nbufs b) := by
  obtain ⟨rs, q, hP, _⟩ := reachable_inv h
  have hbo : b ∈ s.held ++ q := List.mem_append_left _ hb
  rcases realloc_branch hP ha with ⟨e1, _⟩ | ⟨n, e, hd, _⟩ | ⟨pre, r, post, hrs, hr1, hn, hf, hres⟩
  · rw [e1] at hgrow; omega
  · obtain ⟨_, _, _, _, hfr, _⟩ := size_alloc_done hP hd
    have := hfr.nbufs b hbo
    omega
  · subst hrs
    obtain ⟨g1, g2⟩ := realloc_grow_self hP hbo hr1.symm hn
    rw [← hf] at g1 g2
    have g3 := realloc_grow_max s.f b (plink pre) r.1
      (realloc_limit s.f (realloc_need s.f b new_size))
    have g4 := realloc_grow_content s.f b (plink pre) r.1
      (realloc_limit s.f (realloc_need s.f b new_size))
    rw [← hf] at g3 g4
    have hneed := realloc_need_le s.f b new_size
    have hlim := realloc_limit_le s.f (realloc_need s.f b new_size)
    have hm : (if realloc_limit s.f (realloc_need s.f b new_size) < r.2 then
        realloc_limit s.f (realloc_need s.f b new_size) else r.2)
        ≤ realloc_limit s.f (realloc_need s.f b new_size) := by
      split <;> omega
    generalize (if realloc_limit s.f (realloc_need s.f b new_size) < r.2 then
        realloc_limit s.f (realloc_need s.f b new_size) else r.2) = m at g1 g2 hm
    generalize s.f.buffer_pool_capacity / 8 = c at hneed ⊢
    refine ⟨hres, ?_, g3, by rw [g4.1], by rw [g4.2], ?_⟩
    · omega
    · omega

/-- C16 at the 64-slab pool with slabs 0, 1 and 2 handed out, for element 2 and 100000
bytes: the element grows from 1 slab to 8 slabs. -/
theorem C16_grow_limit_witness :
    pool64.f.nbufs 2 = 1 ∧
    (realloc_grow pool64.f 2 Link.pool_top 3 7).nbufs 2 = 8 ∧
    (realloc_grow pool64.f 2 Link.pool_top 3 7).nbufs 2 ≤ pool64.f.buffer_pool_capacity / 8 ∧
    (realloc_grow pool64.f 2 Link.pool_top 3 7).buffer_pool_num_free
      = pool64.f.buffer_pool_num_free
        - ((realloc_grow pool64.f 2 Link.pool_top 3 7).nbufs 2 - pool64.f.nbufs 2) :=
  ⟨by decide, by decide,
    (C16_grow_limit xineH pool64
      (reach_alloc (reach_alloc (reach_alloc (Reachable.init 64 1024))))
      2 (by decide) 100000 64 (realloc_grow pool64.f 2 Link.pool_top 3 7) none rfl
      (by decide)).2.1,
    (C16_grow_limit xineH pool64
      (reach_alloc (reach_alloc (reach_alloc (Reachable.init 64 1024))))
      2 (by decide) 100000 64 (realloc_grow pool64.f 2 Link.pool_top 3 7) none rfl
      (by decide)).2.2.2.2.2⟩

/-! ## The two ways of `fifo_buffer_put` -/

/-- The fifo read off the heap is determined by the heap. -/
theorem Queue_unique {f : Fifo} {q1 q2 : List Int} (h1 : Queue f q1) (h2 : Queue f q2) :
    q1 = q2 := by
  unfold Queue at h1 h2
  generalize f.first = a at h1 h2
  induction q1 generalizing a q2 with
  | nil =>
    cases q2 with
    | nil => rfl
    | cons y ys =>
      have e1 : a = none := h1
      have e2 : a = some y := h2.1
      rw [e1] at e2
      cases e2
  | cons x xs ih =>
    cases q2 with
    | nil =>
      have e1 : a = none := h2
      have e2 : a = some x := h1.1
      rw [e1] at e2
      cases e2
    | cons y ys =>
      have e1 : a = some x := h1.1
      have e2 : a = some y := h2.1
      rw [e1] at e2
      cases e2
      rw [ih (f.next x) h1.2 h2.2]

/-- The test of the merge branch of `fifo_buffer_put`, spelled out. -/
theorem put_merge_prev_iff (f : Fifo) (e prev : Int) :
    put_merge_prev f e = some prev ↔
      (f.last = some prev ∧ prev + f.nbufs prev = e ∧ f.type prev = f.type e ∧
        f.nbufs prev < f.buffer_pool_capacity >>> 3) := by
  unfold put_merge_prev
  cases hl : f.last with
  | none => simp
  | some p =>
    simp only
    constructor
    · intro h
      split at h
      · rename_i hc
        simp only [Option.some.injEq] at h
        subst h
        exact ⟨rfl, hc⟩
      · cases h
    · rintro ⟨h1, h2⟩
      simp only [Option.some.injEq] at h1
      subst h1
      rw [if_pos h2]

/-- When `fifo_buffer_put` does not take its merge branch, the element becomes a node of
the fifo. -/
theorem put_node_inv {K : BufferH} {s : Sys} {e : Int} {rs : List (Int × Int)} {q : List Int}
    {fuel : Nat} {f' : Fifo}
    (hP : PInv s.f rs (s.held ++ q)) (hQ : QInv K s q) (he : e ∈ s.held)
    (hm : (if has_merge_flag K s.f e = true then put_merge_prev (clear_merge_flag K s.f e) e
      else none) = none)
    (h : fifo_buffer_put K fuel s.f e = .done f') :
    ∃ A B, q = A ++ B ∧ PInv f' rs (s.held.erase e ++ (A ++ e :: B)) ∧
      QInv K { f := f', held := s.held.erase e, stamp := upd s.stamp e (some s.clock),
               clock := s.clock + 1 } (A ++ e :: B) ∧ (tix K s.f e = 0 → B = []) := by
  unfold fifo_buffer_put at h
  simp only at h
  rw [hm] at h
  simp only at h
  have hnat : (!_fifo_is_native (run_put_cb K (clear_merge_flag K s.f e) e)) = false := by
    show (!s.f.native) = false
    rw [hP.native]; rfl
  rw [hnat] at h
  simp only [Bool.false_eq_true, if_false] at h
  change (if tix K s.f e = 0 then _ else _) = _ at h
  by_cases ht : tix K s.f e = 0
  · rw [if_pos ht] at h
    simp only [Outcome.done.injEq] at h
    subst h
    obtain ⟨h1, h2⟩ := put_fence_inv hP hQ he
    exact ⟨q, [], by simp, h1, h2, fun _ => rfl⟩
  · rw [if_neg ht] at h
    have h2 := tix_le_two K s.f e
    split at h
    · cases h
    · rename_i link hfound
      simp only [Outcome.done.injEq] at h
      subst h
      change (if s.f.pts e ≠ 0 then
          put_scan (run_put_cb K (clear_merge_flag K s.f e) e) _ fuel
            ((run_put_cb K (clear_merge_flag K s.f e) e).last_add (tix K s.f e - 1))
        else some ((run_put_cb K (clear_merge_flag K s.f e) e).last_add (tix K s.f e - 1)))
          = some link at hfound
      have hcur : ∃ A0 B0, q = A0 ++ B0 ∧
          (run_put_cb K (clear_merge_flag K s.f e) e).last_add (tix K s.f e - 1) = qlink A0 ∧
          ∀ x ∈ B0, tix K s.f x = 2 - (tix K s.f e - 1) := by
        by_cases h1 : tix K s.f e = 1
        · obtain ⟨A0, B0, e1, e2, e3⟩ := hQ.cur0
          refine ⟨A0, B0, e1, ?_, ?_⟩
          · rw [h1]; exact e2
          · rw [h1]; exact e3
        · have h1' : tix K s.f e = 2 := by omega
          obtain ⟨A0, B0, e1, e2, e3⟩ := hQ.cur1
          refine ⟨A0, B0, e1, ?_, ?_⟩
          · rw [h1']; exact e2
          · rw [h1']; exact e3
      obtain ⟨A0, B0, e1, e2, e3⟩ := hcur
      rw [e2] at hfound
      subst e1
      obtain ⟨B1, B2, e4, e5⟩ := @put_found (run_put_cb K (clear_merge_flag K s.f e) e) _ _ _ _ _
        hQ.seg (s.f.pts e ≠ 0) _ hfound
      subst e4 e5
      have hP' : PInv s.f rs (s.held ++ ((A0 ++ B1) ++ B2)) := by
        rw [List.append_assoc]; exact hP
      have hQ' : QInv K s ((A0 ++ B1) ++ B2) := by
        rw [List.append_assoc]; exact hQ
      obtain ⟨g1, g2⟩ := put_group_inv (tix K s.f e - 1) hP' hQ' he (by omega)
        (fun x hx => e3 x (List.mem_append_right _ hx))
      exact ⟨A0 ++ B1, B2, by simp, g1, g2, fun h0 => absurd h0 ht⟩

theorem reach_fill {K : BufferH} {s : Sys} (h : Reachable K s) (b : Int) (type : Nat)
    (pts : Int) (flags : Nat) : Reachable K (s.fill b type pts flags) := by
  unfold Sys.fill
  split
  · rename_i hb
    exact Reachable.step _ _ h (Step.fill s b type pts 0 flags hb)
  · exact h

/-- C17, amended: the guard of the merge is on the tail's slab count before the merge, so
the merged run need not stay under capacity / 8.  When put of an element that is handed out
completes in a reachable state, then either the queue is as before and the element has been
folded into the tail: it carried the merge flag, the tail lies directly in front of it and
has its type, the tail's slab count before the call was less than capacity / 8 rounded down,
and afterwards it is the sum of the two slab counts; or the element has become a node of the
queue and those conditions did not all hold. -/
theorem C17_merge_guard (K : BufferH) (s : Sys) (h : Reachable K s) (e : Int)
    (he : e ∈ s.held) (fuel : Nat) (f' : Fifo) (hput : fifo_buffer_put K fuel s.f e = .done f') :
    ∃ q, Queue s.f q ∧
      ((Queue f' q ∧ has_merge_flag K s.f e = true ∧
          ∃ prev, q.getLast? = some prev ∧ prev + s.f.nbufs prev = e ∧
            s.f.type prev = s.f.type e ∧
            s.f.nbufs prev < s.f.buffer_pool_capacity / 8 ∧
            f'.nbufs prev = s.f.nbufs prev + s.f.nbufs e) ∨
       ((∃ A B, q = A ++ B ∧ Queue f' (A ++ e :: B)) ∧
          ¬ (has_merge_flag K s.f e = true ∧
            ∃ prev, q.getLast? = some prev ∧ prev + s.f.nbufs prev = e ∧
              s.f.type prev = s.f.type e ∧
              s.f.nbufs prev < s.f.buffer_pool_capacity / 8))) := by
  obtain ⟨rs, q, hP, hQ⟩ := reachable_inv h
  refine ⟨q, hQ.seg, ?_⟩
  have hlast : (clear_merge_flag K s.f e).last = q.getLast? := hQ.last
  cases hm : (if has_merge_flag K s.f e = true then
      put_merge_prev (clear_merge_flag K s.f e) e else none) with
  | some prev =>
    left
    by_cases hflag : has_merge_flag K s.f e = true
    · rw [if_pos hflag] at hm
      obtain ⟨_, h2, h3, h4, h5⟩ := put_merge_inv hP hQ he hm
      have hf : f' = put_merge (clear_merge_flag K s.f e) prev e := by
        unfold fifo_buffer_put at hput
        simp only at hput
        rw [if_pos hflag, hm] at hput
        simp only [Outcome.done.injEq] at hput
        exact hput.symm
      obtain ⟨_, _, _, hg⟩ := (put_merge_prev_iff _ e prev).1 hm
      rw [shr3_eq_div] at hg
      refine ⟨by rw [hf]; exact h2.seg, hflag, prev, h3, h4, h5, hg, ?_⟩
      rw [hf]
      exact upd_same _ _ _
    · rw [if_neg hflag] at hm
      cases hm
  | none =>
    right
    obtain ⟨A, B, e1, _, h2, _⟩ := put_node_inv hP hQ he hm hput
    refine ⟨⟨A, B, e1, h2.seg⟩, ?_⟩
    rintro ⟨hflag, prev, c1, c2, c3, c4⟩
    rw [if_pos hflag] at hm
    have : put_merge_prev (clear_merge_flag K s.f e) e = some prev :=
      (put_merge_prev_iff _ e prev).2
        ⟨by rw [hlast, c1], c2, c3, by rw [shr3_eq_div]; exact c4⟩
    rw [this] at hm
    cases hm

/-- C17, amended, at the 16-slab pool whose queue holds the control element 0, for the put
of the flagged control element 1. -/
theorem C17_merge_guard_witness :
    pool16_tail.held = [1] ∧
    ∃ q, Queue pool16_tail.f q ∧
      ((Queue (put_merge (clear_merge_flag xineH pool16_tail.f 1) 0 1) q ∧
          has_merge_flag xineH pool16_tail.f 1 = true ∧
          ∃ prev, q.getLast? = some prev ∧ prev + pool16_tail.f.nbufs prev = 1 ∧
            pool16_tail.f.type prev = pool16_tail.f.type 1 ∧
            pool16_tail.f.nbufs prev < pool16_tail.f.buffer_pool_capacity / 8 ∧
            (put_merge (clear_merge_flag xineH pool16_tail.f 1) 0 1).nbufs prev
              = pool16_tail.f.nbufs prev + pool16_tail.f.nbufs 1) ∨
       ((∃ A B, q = A ++ B ∧
            Queue (put_merge (clear_merge_flag xineH pool16_tail.f 1) 0 1) (A ++ 1 :: B)) ∧
          ¬ (has_merge_flag xineH pool16_tail.f 1 = true ∧
            ∃ prev, q.getLast? = some prev ∧ prev + pool16_tail.f.nbufs prev = 1 ∧
              pool16_tail.f.type prev = pool16_tail.f.type 1 ∧
              pool16_tail.f.nbufs prev < pool16_tail.f.buffer_pool_capacity / 8))) :=
  ⟨by decide,
    C17_merge_guard xineH pool16_tail
      (reach_fill (reach_put (reach_alloc (reach_alloc (Reachable.init 16 1024)))
        16 0 0x01000000 0 0) 1 0x01000000 0 0x20000)
      1 (by decide) 16 (put_merge (clear_merge_flag xineH pool16_tail.f 1) 0 1) rfl⟩

/-- C17 as stated fails: in a pool of 16 slabs, where capacity / 8 is 2, the control
element 1 with the merge flag is folded into the queued control element 0, and the tail then
has 2 slabs, which is not less than 2. -/
theorem C17_merge_guard_counterexample :
    scenario_merge_count = .done ([0], 2, 2) := by
  decide

/-! ## `fifo_buffer_clear` returns -/

/-- The loop "get contiguous chunk" ends, given one iteration more than there are elements
behind `buf`. -/
theorem clear_chunk_total {K : BufferH} {f : Fifo} :
    ∀ (rest : List Int) (fuel : Nat) (buf n0 : Int),
      QSeg f.next (f.next buf) rest none → rest.length < fuel →
      ∃ n next, clear_chunk K f fuel buf n0 = some (n, next) := by
  intro rest
  induction rest with
  | nil =>
    intro fuel buf n0 hq hfuel
    obtain ⟨k, rfl⟩ : ∃ k, fuel = k + 1 := ⟨fuel - 1, by simp at hfuel; omega⟩
    have hn : f.next buf = none := hq
    rw [clear_chunk_succ, hn]
    exact ⟨_, _, rfl⟩
  | cons x rest1 ih =>
    intro fuel buf n0 hq hfuel
    obtain ⟨k, rfl⟩ : ∃ k, fuel = k + 1 := ⟨fuel - 1, by simp at hfuel; omega⟩
    obtain ⟨hx, hq1⟩ := hq
    rw [clear_chunk_succ, hx]
    simp only
    by_cases h1 : buf + f.nbufs buf ≠ x
    · rw [if_pos h1]
      exact ⟨_, _, rfl⟩
    · rw [if_neg h1]
      by_cases h2 : is_control K f x = true
      · rw [if_pos h2]
        exact ⟨_, _, rfl⟩
      · rw [if_neg h2]
        exact ih k x _ hq1 (by simp at hfuel; omega)

/-- The branch of `fifo_buffer_clear` that releases a chunk of adjacent pool elements
completes, given fuel for the chunk loop and for the loop of `buffer_pool_free`. -/
theorem clear_chunk_run {K : BufferH} {f : Fifo} {held kq rest0 : List Int} {start : Int}
    {fuel0 : Nat} {rs : List (Int × Int)}
    (hP : PInv f rs (held ++ (kq ++ start :: rest0)))
    (hk : QSeg f.next f.first kq none) (hr : QSeg f.next (f.next start) rest0 none)
    (hown : f.pool_owned start = true) (hfuel : rest0.length < fuel0)
    (hcap : f.buffer_pool_capacity ≤ fuel0) :
    ∃ n next f3 C rest' rs', clear_chunk K f fuel0 start 0 = some (n, next) ∧
      buffer_pool_free fuel0 (set_nbufs f start n) start = .done f3 ∧
      rest0 = C ++ rest' ∧ (∀ c ∈ C, is_control K f c = false) ∧
      PInv f3 rs' (held ++ (kq ++ rest')) ∧ QSeg f3.next f3.first kq none ∧
      f3.last = f.last ∧ QSeg f3.next next rest' none ∧
      (∀ b ∈ held ++ (kq ++ rest'), f3.type b = f.type b ∧ f3.nbufs b = f.nbufs b) ∧
      f3.buffer_pool_capacity = f.buffer_pool_capacity := by
  obtain ⟨n, next, hc⟩ := @clear_chunk_total K f rest0 fuel0 start 0 hr hfuel
  obtain ⟨C, rest', e1, e2, e3, e4, e5⟩ := clear_chunk_spec fuel0 start 0 rest0 n next hr hc
  subst e1
  have h1 : PInv f rs (C ++ start :: (held ++ (kq ++ rest'))) := hP.perm (perm_chunk start)
  have h2 : PInv (set_nbufs f start n) rs (start :: (held ++ (kq ++ rest'))) :=
    h1.merge_chain C f (set_nbufs f start n) (List.mem_cons_self _ _) e4 rfl rfl rfl rfl rfl rfl
      rfl (by rw [e3, zero_add]; rfl)
  have hlen : rs.length ≤ fuel0 := by
    have a1 := length_le_lsum (FreeSeg_pos hP.seg)
    have a2 := hP.nfree
    have a3 := hP.nfree_le
    omega
  obtain ⟨f3, hf, h3, h4, _, _⟩ := free_done h2 (List.mem_cons_self _ _) hown hlen
  rw [List.erase_cons_head] at h3 h4
  have hs : start ∉ held ++ (kq ++ rest') := (List.nodup_cons.1 h2.nodup).1
  refine ⟨n, next, f3, C, rest', _, hc, hf, rfl, e5, h3, ?_, h4.last, ?_, ?_, h4.cap⟩
  · rw [h4.first]
    exact QSeg_congr
      (fun x hx => h4.next x (List.mem_append_right _ (List.mem_append_left _ hx))) hk
  · exact QSeg_congr
      (fun x hx => h4.next x (List.mem_append_right _ (List.mem_append_right _ hx))) e2
  · intro b hb
    refine ⟨h4.type b hb, ?_⟩
    rw [h4.nbufs b hb]
    exact upd_ne _ _ (fun hc' => hs (hc' ▸ hb))

/-- The loop of `fifo_buffer_clear` completes, given an iteration for every element still
to visit and fuel for the inner loops; it leaves the capacity and the slab counts of the
elements that stay outstanding as they are. -/
theorem clear_loop_run {K : BufferH} {fuel0 : Nat} {held : List Int} :
    ∀ (fuel : Nat) (f : Fifo) (start : Option Int) (kq rest : List Int) (rs : List (Int × Int)),
      PInv f rs (held ++ (kq ++ rest)) → QSeg f.next f.first kq none → f.last = kq.getLast? →
      QSeg f.next start rest none → rest.length ≤ fuel → rest.length < fuel0 →
      f.buffer_pool_capacity ≤ fuel0 →
      ∃ f', clear_loop K fuel0 fuel f start = .done f' ∧
        f'.buffer_pool_capacity = f.buffer_pool_capacity ∧
        ∀ b ∈ held ++ (kq ++ rest.filter (is_control K f)),
          f'.nbufs b = f.nbufs b ∧ f'.type b = f.type b := by
  intro fuel
  induction fuel with
  | zero =>
    intro f start kq rest rs hP hk hl hr hfuel _ _
    have hnil : rest = [] := List.length_eq_zero.1 (by omega)
    subst hnil
    have hs : start = none := hr
    subst hs
    exact ⟨f, clear_loop_none K fuel0 0 f, rfl, fun _ _ => ⟨rfl, rfl⟩⟩
  | succ fuel ih =>
    intro f start kq rest rs hP hk hl hr hfuel hfuel0 hcap
    cases start with
    | none => exact ⟨f, clear_loop_none K fuel0 _ f, rfl, fun _ _ => ⟨rfl, rfl⟩⟩
    | some st =>
      obtain ⟨rest1, e, hr1⟩ := QSeg_cons_of_some hr
      subst e
      have hlen1 : rest1.length ≤ fuel := by simp at hfuel; omega
      have hlen0 : rest1.length < fuel0 := by simp at hfuel0; omega
      rw [clear_loop_succ]
      by_cases hctl : is_control K f st = true
      · obtain ⟨g1, g2, g3, g4, g5, g6⟩ := clear_keep_step hP hk hl hr1
        rw [if_pos hctl, if_neg g1, g2]
        obtain ⟨f', r1, r2, r3⟩ := ih (clear_keep f st) (f.next st) (kq ++ [st]) rest1 rs
          g3 g4 g5 g6 hlen1 hlen0 hcap
        have hfil : rest1.filter (is_control K (clear_keep f st))
            = rest1.filter (is_control K f) := rfl
        rw [hfil] at r3
        refine ⟨f', r1, r2, ?_⟩
        intro b hb
        rw [List.filter_cons_of_pos hctl] at hb
        exact r3 b (by simpa using hb)
      · rw [if_neg hctl]
        by_cases hown : f.pool_owned st = true
        · rw [hown]
          simp only [Bool.not_true, Bool.false_eq_true, if_false]
          obtain ⟨n, next, f3, C, rest', rs3, hc, hf, e1, e2, e3, e4, e5, e6, e7, e8⟩ :=
            clear_chunk_run (K := K) hP hk hr1 hown hlen0 hcap
          rw [hc]
          simp only
          rw [hf]
          simp only
          have hl' : rest'.length ≤ rest1.length := by rw [e1]; simp
          obtain ⟨f', r1, r2, r3⟩ := ih f3 next kq rest' rs3 e3 e4 (e5.trans hl) e6
            (by omega) (by omega) (by rw [e8]; exact hcap)
          have hfil : rest'.filter (is_control K f3) = rest'.filter (is_control K f) := by
            refine List.filter_congr ?_
            intro x hx
            unfold is_control
            rw [(e7 x (List.mem_append_right _ (List.mem_append_right _ hx))).1]
          have hfil2 : rest1.filter (is_control K f) = rest'.filter (is_control K f) := by
            rw [e1, List.filter_append]
            have : C.filter (is_control K f) = [] := by
              rw [List.filter_eq_nil_iff]
              intro c hc'
              rw [e2 c hc']; simp
            rw [this]; rfl
          rw [hfil] at r3
          refine ⟨f', r1, r2.trans e8, ?_⟩
          intro b hb
          rw [List.filter_cons_of_neg hctl, hfil2] at hb
          obtain ⟨n1, t1⟩ := r3 b hb
          have hb' : b ∈ held ++ (kq ++ rest') := by
            rcases List.mem_append.1 hb with h' | h'
            · exact List.mem_append_left _ h'
            · rcases List.mem_append.1 h' with h' | h'
              · exact List.mem_append_right _ (List.mem_append_left _ h')
              · exact List.mem_append_right _
                  (List.mem_append_right _ (List.mem_of_mem_filter h'))
          exact ⟨n1.trans (e7 b hb').2, t1.trans (e7 b hb').1⟩
        · have hown' : f.pool_owned st = false := by simpa using hown
          rw [hown']
          simp only [Bool.not_false, if_true]
          obtain ⟨g1, g2, g3⟩ := clear_custom_step hP hk hr1 hown'
          obtain ⟨f', r1, r2, r3⟩ := ih (clear_next f st) (f.next st) kq rest1 rs g1 g2 hl g3
            hlen1 hlen0 hcap
          have hfil : rest1.filter (is_control K (clear_next f st))
              = rest1.filter (is_control K f) := rfl
          rw [hfil] at r3
          refine ⟨f', r1, r2, ?_⟩
          intro b hb
          rw [List.filter_cons_of_neg hctl] at hb
          exact r3 b hb

/-- The function `fifo_buffer_clear` returns in a state that satisfies the invariants,
given more iterations than there are queued elements and at least as many as the pool has
slabs; afterwards the control elements are queued, and the capacity and the slab counts of
the elements that stay outstanding are as before. -/
theorem clear_run {K : BufferH} {s : Sys} {rs : List (Int × Int)} {q : List Int} {fuel : Nat}
    (hP : PInv s.f rs (s.held ++ q)) (hQ : QInv K s q) (hfuel : q.length < fuel)
    (hcap : s.f.buffer_pool_capacity ≤ fuel) :
    ∃ f' rs', fifo_buffer_clear K fuel s.f = .done f' ∧
      PInv f' rs' (s.held ++ q.filter (is_control K s.f)) ∧
      QInv K { s with f := f' } (q.filter (is_control K s.f)) ∧
      f'.buffer_pool_capacity = s.f.buffer_pool_capacity ∧
      ∀ b ∈ s.held ++ q.filter (is_control K s.f),
        f'.nbufs b = s.f.nbufs b ∧ f'.type b = s.f.type b := by
  have hP0 : PInv (clear_take s.f) rs (s.held ++ ([] ++ q)) :=
    hP.congr rfl rfl rfl hP.res rfl rfl rfl (fun _ _ => rfl)
  obtain ⟨f1, r1, r2, r3⟩ := @clear_loop_run K fuel s.held fuel (clear_take s.f) s.f.first [] q rs
    hP0 rfl rfl hQ.seg (by omega) hfuel hcap
  have hd : fifo_buffer_clear K fuel s.f = .done (_fifo_mux_last (_fbc_reset f1)) := by
    unfold fifo_buffer_clear
    rw [r1]
  obtain ⟨rs', p1, p2⟩ := clear_inv hP hQ hd
  refine ⟨_, rs', hd, p1, p2, r2, ?_⟩
  intro b hb
  exact r3 b (by simpa using hb)

/-! ## Releasing the elements one by one -/

theorem release_each_cons (fuel : Nat) (b : Int) (bs : List Int) (f : Fifo) :
    release_each fuel (b :: bs) f =
      if f.pool_owned b then (buffer_pool_free fuel f b).bind (release_each fuel bs)
      else release_each fuel bs f := rfl

/-- Elements without slabs cover nothing. -/
theorem cnt_blk_zero {f : Fifo} {l : List Int} (h : ∀ c ∈ l, f.nbufs c = 0) (j : Int) :
    cnt (blk f l) j = 0 := by
  induction l with
  | nil => rfl
  | cons c l ih =>
    show ind c (f.nbufs c) j + cnt (blk f l) j = 0
    rw [h c (List.mem_cons_self _ _), ind_zero_len, ih (fun x hx => h x (List.mem_cons_of_mem _ hx))]

/-- Releasing the outstanding elements `L` one by one completes, given fuel for the loop of
`buffer_pool_free`: the pool elements of `L` are no longer outstanding, and the capacity and
the slab counts of the other outstanding elements are as before. -/
theorem release_each_run {fuel : Nat} :
    ∀ (L : List Int) (f : Fifo) (rs : List (Int × Int)) (out : List Int),
      PInv f rs out → L.Nodup → (∀ b ∈ L, b ∈ out) → f.buffer_pool_capacity ≤ fuel →
      ∃ g rs2 out', release_each fuel L f = .done g ∧ PInv g rs2 out' ∧
        out.Perm (L.filter f.pool_owned ++ out') ∧
        g.buffer_pool_capacity = f.buffer_pool_capacity ∧
        (∀ b ∈ out', g.nbufs b = f.nbufs b) := by
  intro L
  induction L with
  | nil =>
    intro f rs out h _ _ _
    exact ⟨f, rs, out, rfl, h, List.Perm.refl _, rfl, fun _ _ => rfl⟩
  | cons b L ih =>
    intro f rs out h hnd hsub hcap
    have hb : b ∈ out := hsub b (List.mem_cons_self _ _)
    have hbL : b ∉ L := (List.nodup_cons.1 hnd).1
    have hndL : L.Nodup := (List.nodup_cons.1 hnd).2
    rw [release_each_cons]
    by_cases hown : f.pool_owned b = true
    · have hlen : rs.length ≤ fuel := by
        have a1 := length_le_lsum (FreeSeg_pos h.seg)
        have a2 := h.nfree
        have a3 := h.nfree_le
        omega
      obtain ⟨f1, hf, h1, hfr, _, _⟩ := free_done h hb hown hlen
      rw [if_pos hown, hf]
      have hsub1 : ∀ x ∈ L, x ∈ out.erase b := fun x hx =>
        (List.mem_erase_of_ne (fun hc => hbL (by rw [← hc]; exact hx))).2 (hsub x (List.mem_cons_of_mem _ hx))
      obtain ⟨g, rs2, out', r1, r2, r3, r4, r5⟩ := ih f1 _ (out.erase b) h1 hndL hsub1
        (by rw [hfr.cap]; exact hcap)
      have hown1 : f1.pool_owned = f.pool_owned := by
        funext x
        have a1 := h1.owned x
        have a2 := h.owned x
        rw [hfr.cap] at a1
        exact Bool.eq_iff_iff.2 (a1.trans a2.symm)
      rw [hown1] at r3
      refine ⟨g, rs2, out', r1, r2, ?_, r4.trans hfr.cap, ?_⟩
      · rw [List.filter_cons_of_pos hown]
        exact (List.perm_cons_erase hb).trans (r3.cons b)
      · intro x hx
        rw [r5 x hx]
        exact hfr.nbufs x (r3.mem_iff.2 (List.mem_append_right _ hx))
    · rw [if_neg hown]
      obtain ⟨g, rs2, out', r1, r2, r3, r4, r5⟩ := ih f rs out h hndL
        (fun x hx => hsub x (List.mem_cons_of_mem _ hx)) hcap
      refine ⟨g, rs2, out', r1, r2, ?_, r4, r5⟩
      rw [List.filter_cons_of_neg hown]
      exact r3

/-- The function `fifo_buffer_clear` leaves the pool as releasing the elements it removes
one by one, in queue order, leaves it. -/
theorem clear_eq_release {K : BufferH} {s : Sys} {rs : List (Int × Int)} {q : List Int}
    {fuel : Nat} (hP : PInv s.f rs (s.held ++ q)) (hQ : QInv K s q) (hfuel : q.length < fuel)
    (hcap : s.f.buffer_pool_capacity ≤ fuel) :
    ∃ f' g, fifo_buffer_clear K fuel s.f = .done f' ∧
      release_each fuel (q.filter (fun b => !is_control K s.f b)) s.f = .done g ∧
      free_runs f' = free_runs g ∧ f'.buffer_pool_num_free = g.buffer_pool_num_free ∧
      f'.buffer_pool_num_free
        = s.f.buffer_pool_num_free + bsum s.f (q.filter (fun b => !is_control K s.f b)) := by
  obtain ⟨f', rs', c1, c2, _, c4, c5⟩ := clear_run hP hQ hfuel hcap
  have hqnd : q.Nodup := (List.nodup_append.1 hP.nodup).2.1
  obtain ⟨g, rs2, out', r1, r2, r3, r4, r5⟩ :=
    @release_each_run fuel (q.filter (fun b => !is_control K s.f b)) s.f rs (s.held ++ q) hP
      (hqnd.filter _) (fun b hb => List.mem_append_right _ (List.mem_of_mem_filter hb)) hcap
  have hq1 : q.Perm (q.filter (is_control K s.f) ++ q.filter (fun b => !is_control K s.f b)) :=
    (List.filter_append_perm (is_control K s.f) q).symm
  have hq2 : (q.filter (fun b => !is_control K s.f b)).Perm
      ((q.filter (fun b => !is_control K s.f b)).filter s.f.pool_owned ++
        (q.filter (fun b => !is_control K s.f b)).filter (fun b => !s.f.pool_owned b)) :=
    (List.filter_append_perm s.f.pool_owned _).symm
  generalize hL : q.filter (fun b => !is_control K s.f b) = L at *
  generalize hkept : q.filter (is_control K s.f) = kept at *
  have p2 : (s.held ++ q).Perm
      (L.filter s.f.pool_owned ++ (L.filter (fun b => !s.f.pool_owned b) ++ (s.held ++ kept))) := by
    have a1 : (s.held ++ q).Perm (s.held ++ (kept ++ L)) := hq1.append_left _
    have a2 : (s.held ++ (kept ++ L)).Perm (L ++ (s.held ++ kept)) := by
      rw [← List.append_assoc]
      exact List.perm_append_comm
    have a3 : (L ++ (s.held ++ kept)).Perm
        ((L.filter s.f.pool_owned ++ L.filter (fun b => !s.f.pool_owned b)) ++ (s.held ++ kept)) :=
      hq2.append_right _
    rw [List.append_assoc] at a3
    exact (a1.trans a2).trans a3
  have p3 : out'.Perm (L.filter (fun b => !s.f.pool_owned b) ++ (s.held ++ kept)) :=
    (List.perm_append_left_iff _).1 (r3.symm.trans p2)
  have hcz : ∀ c ∈ L.filter (fun b => !s.f.pool_owned b), g.nbufs c = 0 := by
    intro c hc
    rw [r5 c (p3.mem_iff.2 (List.mem_append_left _ hc))]
    have ho : s.f.pool_owned c = false := by simpa using (List.mem_filter.1 hc).2
    refine hP.foreign c (fun ha => ?_)
    have := (hP.owned c).2 ha
    rw [ho] at this
    cases this
  have hsame : ∀ b ∈ s.held ++ kept, g.nbufs b = f'.nbufs b := by
    intro b hb
    rw [(c5 b hb).1, r5 b (p3.mem_iff.2 (List.mem_append_right _ hb))]
  have hrs : rs' = rs2 := by
    refine c2.runs_unique r2 (r4.trans c4.symm) ?_
    intro j
    have e : cnt (blk g out') j = cnt (blk f' (s.held ++ kept)) j := by
      rw [cnt_perm (blk_perm g p3) j, blk_append, cnt_append, cnt_blk_zero hcz, zero_add,
        blk_congr hsame]
    exact e.symm
  have hnf : f'.buffer_pool_num_free = g.buffer_pool_num_free := by
    rw [c2.nfree, r2.nfree, hrs]
  refine ⟨f', g, c1, r1, by rw [c2.free_runs_eq, r2.free_runs_eq, hrs], hnf, ?_⟩
  have t1 := hP.total
  have t2 := c2.total
  rw [c4, bsum_congr (fun b hb => (c5 b hb).1), bsum_append] at t2
  rw [bsum_append, bsum_perm s.f hq1, bsum_append] at t1
  omega

/-- C18, amended: clear keeps the control elements, not every fence.  In a reachable state,
given more iterations than there are queued elements and at least as many as the pool has
slabs, clear returns, and afterwards the queue consists of exactly those previously queued
elements whose type has the major type `BUF_CONTROL_BASE`, in their previous relative order;
each of them has its type and its slab count as before and none of its slabs is in a free
run.  Every other queued element is removed, also one of a custom type that the
classification maps to the fence group. -/
theorem C18_clear_keeps_control (K : BufferH) (s : Sys) (h : Reachable K s) (q : List Int)
    (hq : Queue s.f q) (fuel : Nat) (hfuel : q.length < fuel)
    (hcap : s.f.buffer_pool_capacity ≤ fuel) :
    ∃ f', fifo_buffer_clear K fuel s.f = .done f' ∧
      Queue f' (q.filter (is_control K s.f)) ∧
      ∀ x ∈ q.filter (is_control K s.f),
        f'.type x = s.f.type x ∧ f'.nbufs x = s.f.nbufs x ∧
        ∀ j, x ≤ j → j < x + s.f.nbufs x → cnt (free_runs f') j = 0 := by
  obtain ⟨rs, q0, hP, hQ⟩ := reachable_inv h
  have e := Queue_unique hq hQ.seg
  subst e
  obtain ⟨f', rs', c1, c2, c3, _, c5⟩ := clear_run hP hQ hfuel hcap
  refine ⟨f', c1, c3.seg, ?_⟩
  intro x hx
  have hxo : x ∈ s.held ++ q.filter (is_control K s.f) := List.mem_append_right _ hx
  obtain ⟨n1, t1⟩ := c5 x hxo
  refine ⟨t1, n1, ?_⟩
  intro j h1 h2
  rw [c2.free_runs_eq]
  have t := c2.tile j
  have := @cnt_pos_of_mem (blk f' (s.held ++ q.filter (is_control K s.f))) (x, f'.nbufs x) j
    (mem_blk hxo) h1 (by rw [n1]; exact h2)
  split at t <;> omega

/-- C18, amended, at the 10-slab pool whose queue holds the video elements 0 and 1, the
control element 2 and the video element 3: clear leaves the queue [2]. -/
theorem C18_clear_keeps_control_witness :
    [0, 1, 2, 3].filter (is_control xineH queued4.f) = [2] ∧
    ∃ f', fifo_buffer_clear xineH 11 queued4.f = .done f' ∧
      Queue f' ([0, 1, 2, 3].filter (is_control xineH queued4.f)) ∧
      ∀ x ∈ [0, 1, 2, 3].filter (is_control xineH queued4.f),
        f'.type x = queued4.f.type x ∧ f'.nbufs x = queued4.f.nbufs x ∧
        ∀ j, x ≤ j → j < x + queued4.f.nbufs x → cnt (free_runs f') j = 0 :=
  ⟨by decide,
    C18_clear_keeps_control xineH queued4
      (reach_put (reach_put (reach_put (reach_put (reach_alloc (reach_alloc reach_pool3))
        10 0 0x02000000 0 0) 10 1 0x02000000 0 0) 10 2 0x01000000 0 0) 10 3 0x02000000 0 0)
      [0, 1, 2, 3] ⟨rfl, rfl, rfl, rfl, rfl⟩ 11 (by decide) (by decide)⟩

/-- C18 as stated fails: elements of the types `0x05010000`, `BUF_CONTROL_BASE` and
`0x0f010000` are all classified as fences (group index 0) and are queued as 0, 1, 2; after
clear only the control element 1 is queued, and slabs 0 and 2 are free again. -/
theorem C18_clear_keeps_control_counterexample :
    scenario_clear = .done ([0, 0, 0], [0, 1, 2], [1], [(0, 1), (2, 8)]) := by
  decide

/-- C19: in a reachable state, given more iterations than there are queued elements and at
least as many as the pool has slabs, clear returns, releasing one by one (in queue order) the
queued elements that clear does not retain returns as well, both leave the same free-run
list and the same free count, and the free count has grown by the total slab count of the
removed elements. -/
theorem C19_clear_as_release_each (K : BufferH) (s : Sys) (h : Reachable K s) (q : List Int)
    (hq : Queue s.f q) (fuel : Nat) (hfuel : q.length < fuel)
    (hcap : s.f.buffer_pool_capacity ≤ fuel) :
    ∃ f' g, fifo_buffer_clear K fuel s.f = .done f' ∧
      release_each fuel (q.filter (fun b => !is_control K s.f b)) s.f = .done g ∧
      free_runs f' = free_runs g ∧ f'.buffer_pool_num_free = g.buffer_pool_num_free ∧
      f'.buffer_pool_num_free
        = s.f.buffer_pool_num_free + bsum s.f (q.filter (fun b => !is_control K s.f b)) := by
  obtain ⟨rs, q0, hP, hQ⟩ := reachable_inv h
  have e := Queue_unique hq hQ.seg
  subst e
  exact clear_eq_release hP hQ hfuel hcap

/-- C19 at the 10-slab pool whose queue holds the video elements 0 and 1, the control
element 2 and the video element 3: clear releases the adjacent elements 0 and 1 as one run
of 2 slabs, and the result is that of releasing 0, 1 and 3 one by one. -/
theorem C19_clear_as_release_each_witness :
    (fifo_buffer_clear xineH 11 queued4.f).map (fun g => (free_runs g, g.buffer_pool_num_free))
      = .done ([(0, 2), (3, 1), (5, 5)], 8) ∧
    (release_each 11 [0, 1, 3] queued4.f).map (fun g => (free_runs g, g.buffer_pool_num_free))
      = .done ([(0, 2), (3, 1), (5, 5)], 8) ∧
    ∃ f' g, fifo_buffer_clear xineH 11 queued4.f = .done f' ∧
      release_each 11 ([0, 1, 2, 3].filter (fun b => !is_control xineH queued4.f b)) queued4.f
        = .done g ∧
      free_runs f' = free_runs g ∧ f'.buffer_pool_num_free = g.buffer_pool_num_free ∧
      f'.buffer_pool_num_free = queued4.f.buffer_pool_num_free
        + bsum queued4.f ([0, 1, 2, 3].filter (fun b => !is_control xineH queued4.f b)) :=
  ⟨by decide, by decide,
    C19_clear_as_release_each xineH queued4
      (reach_put (reach_put (reach_put (reach_put (reach_alloc (reach_alloc reach_pool3))
        10 0 0x02000000 0 0) 10 1 0x02000000 0 0) 10 2 0x01000000 0 0) 10 3 0x02000000 0 0)
      [0, 1, 2, 3] ⟨rfl, rfl, rfl, rfl, rfl⟩ 11 (by decide) (by decide)⟩

/-- C20, amended: Scenario C does not drain in timestamp order.  When audio elements with
timestamps 0, 10, 20, 30 and subtitle elements with timestamps 5, 15 are put in any of the 15
call orders that keep each group's own order, draining the queue yields 5, 15, 0, 10, 20, 30
if the audio element with timestamp 0 was put first, and 0, 5, 15, 10, 20, 30 if the subtitle
element with timestamp 5 was put first. -/
theorem C20_scenario_C_merged_order :
    ∀ o ∈ interleavings
        [((0 : Int), (0x03000000 : Nat), (0 : Int), (0 : Nat)), (1, 0x03000000, 10, 0),
          (2, 0x03000000, 20, 0), (3, 0x03000000, 30, 0)]
        [(4, 0x04000000, 5, 0), (5, 0x04000000, 15, 0)],
      scenario_C_drain o = .done
        (if o.head? = some (0, 0x03000000, 0, 0) then [5, 15, 0, 10, 20, 30]
          else [0, 5, 15, 10, 20, 30]) := by
  decide

/-- C20, amended, at the call order that puts the subtitle element with timestamp 5 first,
then the audio element with timestamp 0, then the subtitle element with timestamp 15 and the
other audio elements: the queue drains as 0, 5, 15, 10, 20, 30. -/
theorem C20_scenario_C_merged_order_witness :
    [((4 : Int), (0x04000000 : Nat), (5 : Int), (0 : Nat)), (0, 0x03000000, 0, 0),
        (5, 0x04000000, 15, 0), (1, 0x03000000, 10, 0), (2, 0x03000000, 20, 0),
        (3, 0x03000000, 30, 0)] ∈ interleavings
        [((0 : Int), (0x03000000 : Nat), (0 : Int), (0 : Nat)), (1, 0x03000000, 10, 0),
          (2, 0x03000000, 20, 0), (3, 0x03000000, 30, 0)]
        [(4, 0x04000000, 5, 0), (5, 0x04000000, 15, 0)] ∧
    scenario_C_drain [(4, 0x04000000, 5, 0), (0, 0x03000000, 0, 0),
        (5, 0x04000000, 15, 0), (1, 0x03000000, 10, 0), (2, 0x03000000, 20, 0),
        (3, 0x03000000, 30, 0)] = .done [0, 5, 15, 10, 20, 30] :=
  ⟨by decide,
    C20_scenario_C_merged_order
      [(4, 0x04000000, 5, 0), (0, 0x03000000, 0, 0), (5, 0x04000000, 15, 0),
        (1, 0x03000000, 10, 0), (2, 0x03000000, 20, 0), (3, 0x03000000, 30, 0)] (by decide)⟩

/-- C20 as stated fails: when the four audio elements are put first and the two subtitle
elements after them, draining the queue yields 5, 15, 0, 10, 20, 30 and not 0, 5, 10, 15,
20, 30. -/
theorem C20_scenario_C_merged_order_counterexample :
    scenario_C_drain [(0, 0x03000000, 0, 0), (1, 0x03000000, 10, 0), (2, 0x03000000, 20, 0),
        (3, 0x03000000, 30, 0), (4, 0x04000000, 5, 0), (5, 0x04000000, 15, 0)]
      = .done [5, 15, 0, 10, 20, 30] ∧
    scenario_C_drain [(0, 0x03000000, 0, 0), (1, 0x03000000, 10, 0), (2, 0x03000000, 20, 0),
        (3, 0x03000000, 30, 0), (4, 0x04000000, 5, 0), (5, 0x04000000, 15, 0)]
      ≠ .done [0, 5, 10, 15, 20, 30] := by
  decide

/-! ## The pool operations leave the counters of the fifo alone -/

theorem store_counts (g : Fifo) (l : Link) (v : Option Int) :
    (g.store l v).fifo_size = g.fifo_size ∧ (g.store l v).fifo_data_size = g.fifo_data_size ∧
    (g.store l v).size = g.size ∧ (g.store l v).log = g.log := by
  cases l <;> exact ⟨rfl, rfl, rfl, rfl⟩

/-- What `buffer_pool_alloc` leaves alone: the counters of the fifo, the sizes of all other
elements and the callback table; the calls of the alloc callbacks are recorded. -/
theorem alloc_counts {K : BufferH} {f f' : Fifo} {b : Int}
    (ha : buffer_pool_alloc K f = .done (f', b)) :
    f'.fifo_size = f.fifo_size ∧ f'.fifo_data_size = f.fifo_data_size ∧
    (∀ x, x ≠ b → f'.size x = f.size x) ∧
    f'.alloc_cb = f.alloc_cb ∧ f'.alloc_cb_data = f.alloc_cb_data ∧
    f'.log = f.log ++ alloc_hook_calls f K.BUF_MAX_CALLBACKS 0 := by
  unfold buffer_pool_alloc at ha
  simp only at ha
  split at ha
  · cases ha
  · split at ha
    · cases ha
    · cases ha
      exact ⟨rfl, rfl, fun x hx => upd_ne _ _ hx, rfl, rfl, rfl⟩

theorem try_alloc_counts (f : Fifo) :
    (buffer_pool_try_alloc f).1.fifo_size = f.fifo_size ∧
    (buffer_pool_try_alloc f).1.fifo_data_size = f.fifo_data_size ∧
    (∀ x, (buffer_pool_try_alloc f).2 ≠ some x → (buffer_pool_try_alloc f).1.size x = f.size x) := by
  unfold buffer_pool_try_alloc
  split
  · exact ⟨rfl, rfl, fun _ _ => rfl⟩
  · rename_i buf _
    refine ⟨rfl, rfl, fun x hx => upd_ne _ _ (fun hc => hx (by rw [hc]))⟩

theorem size_alloc_search_counts {f : Fifo} {n : Int} :
    ∀ (fuel : Nat) (buf : Int) (link bestlink : Link) (bestsize : Int) (f1 : Fifo) (b m : Int),
      size_alloc_search f n fuel buf link bestlink bestsize = .done (f1, b, m) →
      f1.fifo_size = f.fifo_size ∧ f1.fifo_data_size = f.fifo_data_size ∧ f1.size = f.size ∧
      f1.log = f.log := by
  intro fuel
  induction fuel with
  | zero => intro buf link bl bs f1 b m h; cases h
  | succ k ih =>
    intro buf link bl bs f1 b m h
    rw [size_alloc_search_succ] at h
    split at h
    · cases h
      exact store_counts (set_nbufs f _ _) _ _
    · split at h
      · cases h
        exact store_counts _ _ _
      · split at h
        · exact ih _ _ _ _ _ _ _ h
        · split at h
          · cases h
          · cases h
            exact store_counts _ _ _

/-- What `_buffer_pool_size_alloc` leaves alone. -/
theorem size_alloc_counts {K : BufferH} {f f' : Fifo} {b n : Int} {fuel : Nat}
    (ha : _buffer_pool_size_alloc K fuel f n = .done (f', b)) :
    f'.fifo_size = f.fifo_size ∧ f'.fifo_data_size = f.fifo_data_size ∧
    (∀ x, x ≠ b → f'.size x = f.size x) ∧
    f'.log = f.log ++ alloc_hook_calls f K.BUF_MAX_CALLBACKS 0 := by
  unfold _buffer_pool_size_alloc at ha
  simp only [fbc_avail_run_alloc_cb] at ha
  generalize (if n < 1 then 1 else n) = n' at ha
  split at ha
  · cases ha
  · split at ha
    · cases ha
    · split at ha
      · cases ha
        exact ⟨rfl, rfl, fun x hx => upd_ne _ _ hx, rfl⟩
      · split at ha
        · rename_i f1 b1 m1 hs
          cases ha
          obtain ⟨c1, c2, c3, c4⟩ :=
            size_alloc_search_counts (f := run_alloc_cb K f) _ _ _ _ _ _ _ _ hs
          refine ⟨c1, c2, ?_, c4⟩
          intro x hx
          show upd f1.size _ _ x = f.size x
          rw [upd_ne _ _ hx, c3]
          rfl
        all_goals cases ha

theorem realloc_grow_counts (f : Fifo) (old : Int) (l : Link) (nb n : Int) :
    (realloc_grow f old l nb n).fifo_size = f.fifo_size ∧
    (realloc_grow f old l nb n).fifo_data_size = f.fifo_data_size ∧
    (realloc_grow f old l nb n).size = f.size := by
  cases l <;> exact ⟨rfl, rfl, rfl⟩

/-- What `buffer_pool_realloc` leaves alone. -/
theorem realloc_counts {K : BufferH} {f f' : Fifo} {b : Int} {fuel : Nat} {new_size : Nat}
    {res : Option Int} (ha : buffer_pool_realloc K fuel f b new_size = .done (f', res)) :
    f'.fifo_size = f.fifo_size ∧ f'.fifo_data_size = f.fifo_data_size ∧
    (∀ x, res ≠ some x → f'.size x = f.size x) := by
  have fallback : ∀ n, (_buffer_pool_size_alloc K fuel f n).some_elem = .done (f', res) →
      f'.fifo_size = f.fifo_size ∧ f'.fifo_data_size = f.fifo_data_size ∧
      (∀ x, res ≠ some x → f'.size x = f.size x) := by
    intro n hn
    obtain ⟨e, he, hd⟩ := some_elem_done hn
    obtain ⟨c1, c2, c3, _⟩ := size_alloc_counts hd
    exact ⟨c1, c2, fun x hx => c3 x (fun hc => hx (by rw [he, hc]))⟩
  unfold buffer_pool_realloc at ha
  simp only at ha
  split at ha
  · cases ha
    exact ⟨rfl, rfl, fun _ _ => rfl⟩
  · split at ha
    · cases ha
      exact ⟨rfl, rfl, fun _ _ => rfl⟩
    · split at ha
      · obtain ⟨e, he, hd⟩ := some_elem_done ha
        obtain ⟨c1, c2, c3, _⟩ := alloc_counts hd
        exact ⟨c1, c2, fun x hx => c3 x (fun hc => hx (by rw [he, hc]))⟩
      · split at ha
        · cases ha
        split at ha
        · cases ha
        · exact fallback _ ha
        · split at ha
          · exact fallback _ ha
          · cases ha
            obtain ⟨c1, c2, c3⟩ := realloc_grow_counts f b _ _ _
            exact ⟨c1, c2, fun x _ => by rw [c3]⟩

/-- What `buffer_pool_free` leaves alone. -/
theorem free_counts {f f' : Fifo} {b : Int} {fuel : Nat}
    (hf : buffer_pool_free fuel f b = .done f') :
    f'.fifo_size = f.fifo_size ∧ f'.fifo_data_size = f.fifo_data_size ∧ f'.size = f.size ∧
    f'.log = f.log ∧ f'.alloc_cb = f.alloc_cb ∧
    f'.buffer_pool_capacity = f.buffer_pool_capacity := by
  unfold buffer_pool_free at hf
  simp only at hf
  split at hf
  · cases hf
  · split at hf
    · cases hf
      exact ⟨rfl, rfl, rfl, rfl, rfl, rfl⟩
    · split at hf
      · cases hf
        exact ⟨rfl, rfl, rfl, rfl, rfl, rfl⟩
      · split at hf
        · cases hf
        · cases hf
          exact ⟨rfl, rfl, rfl, rfl, rfl, rfl⟩

theorem fbc_set_counts (f : Fifo) ( on_ : Bool) :
    (xine_fbc_set f on_).1.fifo_size = f.fifo_size ∧
    (xine_fbc_set f on_).1.fifo_data_size = f.fifo_data_size ∧
    (xine_fbc_set f on_).1.size = f.size := by
  unfold xine_fbc_set
  split
  · split <;> exact ⟨rfl, rfl, rfl⟩
  · split <;> exact ⟨rfl, rfl, rfl⟩

/-! ## What put, insert and get do to the counters -/

@[simp]
theorem dsum_nil (f : Fifo) : dsum f [] = 0 := rfl

@[simp]
theorem dsum_cons (f : Fifo) (b : Int) (q : List Int) : dsum f (b :: q) = f.size b + dsum f q :=
  rfl

theorem dsum_append (f : Fifo) (l1 l2 : List Int) : dsum f (l1 ++ l2) = dsum f l1 + dsum f l2 := by
  induction l1 with
  | nil => simp
  | cons b l1 ih => simp [ih]; omega

theorem dsum_congr {f f' : Fifo} {q : List Int} (h : ∀ b ∈ q, f'.size b = f.size b) :
    dsum f' q = dsum f q := by
  induction q with
  | nil => rfl
  | cons b q ih =>
    simp only [dsum_cons]
    rw [h b (List.mem_cons_self _ _), ih (fun x hx => h x (List.mem_cons_of_mem _ hx))]

/-- The sum of the sizes after the size of one element of the list has changed. -/
theorem dsum_upd {f f' : Fifo} {q : List Int} {a : Int} {v : Int} (hnd : q.Nodup) (ha : a ∈ q)
    (h : f'.size = upd f.size a v) : dsum f' q = dsum f q - f.size a + v := by
  induction q with
  | nil => cases ha
  | cons b q ih =>
    simp only [dsum_cons]
    have hbq : b ∉ q := (List.nodup_cons.1 hnd).1
    rcases List.mem_cons.1 ha with e | e
    · subst e
      have e1 : f'.size a = v := by rw [h, upd_same]
      have e2 : dsum f' q = dsum f q :=
        dsum_congr (fun x hx => by
          rw [h, upd_ne _ _ (fun hc : x = a => hbq (by rw [← hc]; exact hx))])
      rw [e1, e2]; omega
    · have hne : b ≠ a := fun hc => hbq (by rw [hc]; exact e)
      have e1 : f'.size b = f.size b := by rw [h, upd_ne _ _ hne]
      rw [e1, ih (List.nodup_cons.1 hnd).2 e]; omega

theorem put_hook_calls_congr {f g : Fifo} (h1 : g.put_cb = f.put_cb)
    (h2 : g.put_cb_data = f.put_cb_data) (e : Int) :
    ∀ (fuel i : Nat), put_hook_calls g e fuel i = put_hook_calls f e fuel i := by
  intro fuel
  induction fuel with
  | zero => intro i; rfl
  | succ k ih =>
    intro i
    show (match g.put_cb i with
      | none => []
      | some cb => HookCall.put cb e (g.put_cb_data i) :: put_hook_calls g e k (i + 1)) =
      (match f.put_cb i with
      | none => []
      | some cb => HookCall.put cb e (f.put_cb_data i) :: put_hook_calls f e k (i + 1))
    rw [h1, h2, ih]

theorem put_fence_counts (f : Fifo) (e : Int) :
    (put_fence f e).size = f.size ∧ (put_fence f e).fifo_size = f.fifo_size ∧
    (put_fence f e).fifo_data_size = f.fifo_data_size ∧ (put_fence f e).log = f.log := by
  unfold put_fence last_link
  cases f.last <;> exact ⟨rfl, rfl, rfl, rfl⟩

theorem put_link_counts (f : Fifo) (e : Int) (t : Nat) (l : Link) :
    (put_link f e t l).size = f.size ∧ (put_link f e t l).fifo_size = f.fifo_size ∧
    (put_link f e t l).fifo_data_size = f.fifo_data_size ∧ (put_link f e t l).log = f.log ∧
    (put_link f e t l).pool_owned = f.pool_owned ∧ (put_link f e t l).nbufs = f.nbufs := by
  cases l <;> exact ⟨rfl, rfl, rfl, rfl, rfl, rfl⟩

theorem fifo_count_add_size (g : Fifo) (e : Int) :
    (fifo_count_add g e).fifo_size = g.fifo_size + fifo_weight g e := by
  show (if g.pool_owned e = true then g.fifo_size + g.nbufs e else g.fifo_size + 1) = _
  unfold fifo_weight
  split <;> rfl

/-- The two ways of `fifo_buffer_put` and what each does to the counters and to the record
of callback calls: the merge branch calls no put callback. -/
theorem put_counts {K : BufferH} {f f' : Fifo} {e : Int} {fuel : Nat}
    (h : fifo_buffer_put K fuel f e = .done f') :
    (∃ prev, has_merge_flag K f e = true ∧
      put_merge_prev (clear_merge_flag K f e) e = some prev ∧
      f' = put_merge (clear_merge_flag K f e) prev e) ∨
    ((if has_merge_flag K f e = true then put_merge_prev (clear_merge_flag K f e) e
        else none) = none ∧
      f'.size = f.size ∧ f'.fifo_size = f.fifo_size + fifo_weight f e ∧
      f'.fifo_data_size = (f.fifo_data_size + f.size e) % 4294967296 ∧
      f'.log = f.log ++ put_hook_calls f e K.BUF_MAX_CALLBACKS 0) := by
  have hlog : (run_put_cb K (clear_merge_flag K f e) e).log
      = f.log ++ put_hook_calls f e K.BUF_MAX_CALLBACKS 0 := by
    show f.log ++ put_hook_calls (clear_merge_flag K f e) e K.BUF_MAX_CALLBACKS 0 = _
    rw [put_hook_calls_congr (f := f) (g := clear_merge_flag K f e) rfl rfl]
  unfold fifo_buffer_put at h
  simp only at h
  split at h
  · rename_i prev hm
    left
    by_cases hflag : has_merge_flag K f e = true
    · rw [if_pos hflag] at hm
      cases h
      exact ⟨prev, hflag, hm, rfl⟩
    · rw [if_neg hflag] at hm
      cases hm
  · rename_i hm
    right
    refine ⟨hm, ?_⟩
    split at h
    · cases h
      exact ⟨rfl, fifo_count_add_size _ _, rfl, hlog⟩
    · split at h
      · cases h
        obtain ⟨c1, c2, c3, c4⟩ := put_fence_counts (run_put_cb K (clear_merge_flag K f e) e) e
        refine ⟨c1, ?_, ?_, c4.trans hlog⟩
        · rw [fifo_count_add_size, c2]
          unfold fifo_weight
          rw [put_fence_owned, put_fence_nbufs]
          rfl
        · show ((put_fence _ e).fifo_data_size + (put_fence _ e).size e) % 4294967296 = _
          rw [c3, c1]
          rfl
      · split at h
        · cases h
        · cases h
          rename_i link _
          obtain ⟨c1, c2, c3, c4, c5, c6⟩ := put_link_counts
            (run_put_cb K (clear_merge_flag K f e) e) e
            (_fifo_buf_type_index K
              (((run_put_cb K (clear_merge_flag K f e) e).type e % 4294967296) >>> 24) - 1) link
          refine ⟨c1, ?_, ?_, c4.trans hlog⟩
          · rw [fifo_count_add_size, c2]
            unfold fifo_weight
            rw [c5, c6]
            rfl
          · show ((put_link _ e _ link).fifo_data_size + (put_link _ e _ link).size e)
              % 4294967296 = _
            rw [c3, c1]
            rfl

theorem insert_counts (f : Fifo) (e : Int) :
    (fifo_buffer_insert f e).size = f.size ∧
    (fifo_buffer_insert f e).fifo_size = f.fifo_size + fifo_weight f e ∧
    (fifo_buffer_insert f e).fifo_data_size = (f.fifo_data_size + f.size e) % 4294967296 := by
  refine ⟨rfl, ?_, rfl⟩
  unfold fifo_buffer_insert
  rw [fifo_count_add_size]
  rfl

theorem get_counts {K : BufferH} {f f' : Fifo} {b : Int}
    (h : fifo_buffer_get K f = .done (f', b)) :
    f.first = some b ∧ f'.size = f.size ∧ f'.fifo_size = f.fifo_size - fifo_weight f b ∧
    f'.fifo_data_size = (f.fifo_data_size - f.size b) % 4294967296 := by
  unfold fifo_buffer_get at h
  split at h
  · cases h
  · rename_i buf hb
    cases h
    refine ⟨hb, rfl, ?_, rfl⟩
    show (if f.pool_owned b = true then f.fifo_size - f.nbufs b else f.fifo_size - 1) = _
    unfold fifo_weight
    split <;> rfl

/-! ## What `fifo_buffer_clear` does to the counters and to the reservation -/

/-- The loop of `fifo_buffer_clear` counts every element it keeps as 1 in `fifo_size` and
adds its size to `fifo_data_size`; it leaves the sizes of the elements, the callback table and
the capacity as they are. -/
theorem clear_loop_fields {K : BufferH} {fuel0 : Nat} {held : List Int} :
    ∀ (fuel : Nat) (f : Fifo) (start : Option Int) (kq rest : List Int) (rs : List (Int × Int))
      (f' : Fifo),
      PInv f rs (held ++ (kq ++ rest)) → QSeg f.next f.first kq none → f.last = kq.getLast? →
      QSeg f.next start rest none → clear_loop K fuel0 fuel f start = .done f' →
      0 ≤ f.fifo_data_size → f.fifo_data_size < 4294967296 →
      f'.size = f.size ∧ f'.alloc_cb = f.alloc_cb ∧
      f'.buffer_pool_capacity = f.buffer_pool_capacity ∧
      f'.fifo_size = f.fifo_size + (rest.filter (is_control K f)).length ∧
      f'.fifo_data_size
        = (f.fifo_data_size + dsum f (rest.filter (is_control K f))) % 4294967296 := by
  intro fuel
  induction fuel with
  | zero =>
    intro f start kq rest rs f' hP hk hl hr h hd0 hd1
    cases start with
    | some st => cases h
    | none =>
      rw [clear_loop_none] at h
      simp only [Outcome.done.injEq] at h
      subst h
      cases rest with
      | cons x _ => cases hr.1
      | nil =>
        refine ⟨rfl, rfl, rfl, by simp, ?_⟩
        simp only [List.filter_nil, dsum_nil]
        omega
  | succ fuel ih =>
    intro f start kq rest rs f' hP hk hl hr h hd0 hd1
    cases start with
    | none =>
      rw [clear_loop_none] at h
      simp only [Outcome.done.injEq] at h
      subst h
      cases rest with
      | cons x _ => cases hr.1
      | nil =>
        refine ⟨rfl, rfl, rfl, by simp, ?_⟩
        simp only [List.filter_nil, dsum_nil]
        omega
    | some st =>
      obtain ⟨rest1, e, hr1⟩ := QSeg_cons_of_some hr
      subst e
      rw [clear_loop_succ] at h
      by_cases hctl : is_control K f st = true
      · obtain ⟨g1, g2, g3, g4, g5, g6⟩ := clear_keep_step hP hk hl hr1
        rw [if_pos hctl, if_neg g1, g2] at h
        have hd' : (clear_keep f st).fifo_data_size
            = (f.fifo_data_size + f.size st) % 4294967296 := rfl
        obtain ⟨r1, r2, r3, r4, r5⟩ := ih _ _ (kq ++ [st]) rest1 rs f' g3 g4 g5 g6 h
          (by rw [hd']; omega) (by rw [hd']; omega)
        have hfil : rest1.filter (is_control K (clear_keep f st))
            = rest1.filter (is_control K f) := rfl
        have hds : dsum (clear_keep f st) (rest1.filter (is_control K f))
            = dsum f (rest1.filter (is_control K f)) := dsum_congr (fun _ _ => rfl)
        have hfs : (clear_keep f st).fifo_size = f.fifo_size + 1 := rfl
        rw [hfil] at r4 r5
        rw [hds, hd'] at r5
        rw [hfs] at r4
        rw [List.filter_cons_of_pos hctl]
        refine ⟨r1, r2, r3, ?_, ?_⟩
        · rw [r4, List.length_cons]; push_cast; omega
        · rw [r5, dsum_cons]; omega
      · rw [if_neg hctl] at h
        rw [List.filter_cons_of_neg hctl]
        by_cases hown : f.pool_owned st = true
        · rw [hown] at h
          simp only [Bool.not_true, Bool.false_eq_true, if_false] at h
          split at h
          · cases h
          · rename_i n next hc
            split at h
            · rename_i f3 hf
              obtain ⟨C, rest', rs3, e1, e2, e3, e4, e5, e6, e7⟩ :=
                clear_chunk_step hP hk hr1 hown hc hf
              obtain ⟨k1, k2, k3, _, k5, k6⟩ := free_counts hf
              have hsz : f3.size = f.size := k3
              have hdz : f3.fifo_data_size = f.fifo_data_size := k2
              have hfz : f3.fifo_size = f.fifo_size := k1
              obtain ⟨r1, r2, r3, r4, r5⟩ :=
                ih f3 next kq rest' rs3 f' e3 e4 (e5.trans hl) e6 h
                  (by rw [hdz]; exact hd0) (by rw [hdz]; exact hd1)
              have hfil : rest'.filter (is_control K f3) = rest'.filter (is_control K f) := by
                refine List.filter_congr ?_
                intro x hx
                unfold is_control
                rw [e7 x (List.mem_append_right _ (List.mem_append_right _ hx))]
              have hfil2 : rest1.filter (is_control K f) = rest'.filter (is_control K f) := by
                rw [e1, List.filter_append]
                have : C.filter (is_control K f) = [] := by
                  rw [List.filter_eq_nil_iff]
                  intro c hc'
                  rw [e2 c hc']; simp
                rw [this]; rfl
              have hds : dsum f3 (rest'.filter (is_control K f))
                  = dsum f (rest'.filter (is_control K f)) :=
                dsum_congr (fun x _ => by rw [hsz])
              rw [hfil] at r4 r5
              rw [hds, hdz] at r5
              rw [hfz] at r4
              rw [hfil2]
              exact ⟨r1.trans hsz, r2.trans k5, r3.trans k6, r4, r5⟩
            all_goals cases h
        · have hown' : f.pool_owned st = false := by simpa using hown
          rw [hown'] at h
          simp only [Bool.not_false, if_true] at h
          obtain ⟨g1, g2, g3⟩ := clear_custom_step hP hk hr1 hown'
          obtain ⟨r1, r2, r3, r4, r5⟩ := ih _ _ kq rest1 rs f' g1 g2 hl g3 h hd0 hd1
          have hfil : rest1.filter (is_control K (clear_next f st))
              = rest1.filter (is_control K f) := rfl
          have hds : dsum (clear_next f st) (rest1.filter (is_control K f))
              = dsum f (rest1.filter (is_control K f)) := dsum_congr (fun _ _ => rfl)
          rw [hfil] at r4 r5
          rw [hds] at r5
          exact ⟨r1, r2, r3, r4, r5⟩

/-- After `fifo_buffer_clear`: `fifo_size` is the number of elements kept, `fifo_data_size`
the sum of their sizes, and the reservation of an active soft-start is the initial one. -/
theorem clear_fields {K : BufferH} {s : Sys} {rs : List (Int × Int)} {q : List Int}
    {fuel : Nat} {f' : Fifo}
    (hP : PInv s.f rs (s.held ++ q)) (hQ : QInv K s q)
    (h : fifo_buffer_clear K fuel s.f = .done f') :
    f'.size = s.f.size ∧ f'.alloc_cb = s.f.alloc_cb ∧
    f'.buffer_pool_capacity = s.f.buffer_pool_capacity ∧
    f'.fifo_size = ((q.filter (is_control K s.f)).length : Int) ∧
    f'.fifo_data_size = dsum s.f (q.filter (is_control K s.f)) % 4294967296 ∧
    (s.f.alloc_cb 0 = some fbc_dummy → f'.alloc_cb_data 0 = fbc_initial s.f) := by
  unfold fifo_buffer_clear at h
  split at h
  · rename_i f1 hloop
    simp only [Outcome.done.injEq] at h
    subst h
    have hP0 : PInv (clear_take s.f) rs (s.held ++ ([] ++ q)) :=
      hP.congr rfl rfl rfl hP.res rfl rfl rfl (fun _ _ => rfl)
    obtain ⟨r1, r2, r3, r4, r5⟩ := clear_loop_fields fuel (clear_take s.f) s.f.first [] q rs f1
      hP0 rfl rfl hQ.seg hloop (le_refl _) (show (0 : Int) < 4294967296 by decide)
    have hfil : q.filter (is_control K (clear_take s.f)) = q.filter (is_control K s.f) := rfl
    have hds : dsum (clear_take s.f) (q.filter (is_control K s.f))
        = dsum s.f (q.filter (is_control K s.f)) := dsum_congr (fun _ _ => rfl)
    rw [hfil] at r4 r5
    rw [hds] at r5
    refine ⟨r1, r2, r3, ?_, ?_, ?_⟩
    · show f1.fifo_size = _
      rw [r4]
      show (0 : Int) + _ = _
      omega
    · show f1.fifo_data_size = _
      rw [r5]
      show ((0 : Int) + _) % 4294967296 = _
      rw [zero_add]
    · intro hon
      show (if f1.alloc_cb 0 = some fbc_dummy ∧ (0 : Nat) = 0 then fbc_initial f1
        else f1.alloc_cb_data 0) = _
      have e1 : f1.alloc_cb 0 = some fbc_dummy := by rw [r2]; exact hon
      rw [if_pos ⟨e1, rfl⟩]
      unfold fbc_initial
      rw [r3]
      rfl
  all_goals cases h

/-! ## The byte counter of the fifo -/

/-- Every operation keeps `fifo_data_size` equal to the sum of the sizes of the queued
elements, modulo `2^32`. -/
theorem step_data {K : BufferH} {s s' : Sys} (hs : Step K s s') (hinv : Inv K s)
    (hd : ∀ q, Queue s.f q → s.f.fifo_data_size = dsum s.f q % 4294967296) :
    ∀ q', Queue s'.f q' → s'.f.fifo_data_size = dsum s'.f q' % 4294967296 := by
  obtain ⟨rs, q, hP, hQ⟩ := hinv
  have D := hd q hQ.seg
  suffices hx : ∃ q1, Queue s'.f q1 ∧ s'.f.fifo_data_size = dsum s'.f q1 % 4294967296 by
    intro q' hq'
    obtain ⟨q1, h1, h2⟩ := hx
    rw [Queue_unique hq' h1]
    exact h2
  have keep : ∀ (f' : Fifo), Frame s.f f' q → f'.fifo_data_size = s.f.fifo_data_size →
      (∀ x ∈ q, f'.size x = s.f.size x) →
      ∃ q1, Queue f' q1 ∧ f'.fifo_data_size = dsum f' q1 % 4294967296 := by
    intro f' hfr h1 h2
    refine ⟨q, ?_, by rw [h1, dsum_congr h2]; exact D⟩
    unfold Queue
    rw [hfr.first]
    exact QSeg_congr hfr.next hQ.seg
  cases hs with
  | alloc f' b ha =>
    obtain ⟨_, _, _, h1, h2⟩ := alloc_done hP ha
    obtain ⟨_, c2, c3, _⟩ := alloc_counts ha
    have hb : b ∉ s.held ++ q := (List.nodup_cons.1 h1.nodup).1
    exact keep f' (h2.mono (fun x hx => List.mem_append_right _ hx)) c2
      (fun x hx => c3 x (fun hc => hb (by rw [← hc]; exact List.mem_append_right _ hx)))
  | size_alloc fuel n f' b ha =>
    obtain ⟨_, rs', _, h1, h2, _⟩ := size_alloc_done hP ha
    obtain ⟨_, c2, c3, _⟩ := size_alloc_counts ha
    have hb : b ∉ s.held ++ q := (List.nodup_cons.1 h1.nodup).1
    exact keep f' (h2.mono (fun x hx => List.mem_append_right _ hx)) c2
      (fun x hx => c3 x (fun hc => hb (by rw [← hc]; exact List.mem_append_right _ hx)))
  | try_alloc =>
    obtain ⟨_, c2, c3⟩ := try_alloc_counts s.f
    rcases try_alloc_done hP with ⟨_, h1⟩ | ⟨r, rest, _, h1, h2, h3⟩
    · refine keep _ ?_ c2 (fun x _ => c3 x (by rw [h1]; simp))
      rw [h1]
      exact Frame.refl _ _
    · have hb : r.1 ∉ s.held ++ q := (List.nodup_cons.1 h2.nodup).1
      refine keep _ (h3.mono (fun x hx => List.mem_append_right _ hx)) c2 ?_
      intro x hx
      refine c3 x ?_
      rw [h1]
      intro hc
      simp only [Option.some.injEq] at hc
      exact hb (by rw [hc]; exact List.mem_append_right _ hx)
  | realloc fuel b new_size f' r hb ha =>
    obtain ⟨rs', h1, h2, _⟩ := realloc_done hP (List.mem_append_left _ hb) ha
    obtain ⟨_, c2, c3⟩ := realloc_counts ha
    have hbq : b ∉ q := not_mem_queue_of_held hP.nodup hb
    refine keep f' (h2.mono ?_) c2 ?_
    · intro x hx
      have hxb : x ≠ b := fun hc => hbq (by rw [← hc]; exact hx)
      exact (List.mem_erase_of_ne hxb).2 (List.mem_append_right _ hx)
    · intro x hx
      refine c3 x ?_
      intro hc
      rw [hc] at h1
      have hn : x ∉ s.held ++ q := (List.nodup_cons.1 h1.nodup).1
      exact hn (List.mem_append_right _ hx)
  | free fuel b f' hb hown hf =>
    obtain ⟨h1, h2, _⟩ := free_inv hP (List.mem_append_left _ hb) hown hf
    rw [erase_append_held hb] at h1 h2
    obtain ⟨_, c2, c3, _⟩ := free_counts hf
    exact keep f' (h2.mono (fun x hx => List.mem_append_right _ hx)) c2 (fun x _ => by rw [c3])
  | free_custom b hb hown => exact ⟨q, hQ.seg, D⟩
  | custom b hout hb hq => exact ⟨q, hQ.seg, D⟩
  | fill b type pts size decoder_flags hb =>
    have hbq : b ∉ q := not_mem_queue_of_held hP.nodup hb
    refine ⟨q, hQ.seg, ?_⟩
    show s.f.fifo_data_size = dsum (fill s.f b type pts size decoder_flags) q % 4294967296
    rw [dsum_congr (f := s.f) (fun x hx => upd_ne _ _ (fun hc => hbq (by rw [← hc]; exact hx)))]
    exact D
  | put fuel b f' hb hp =>
    have hnd : q.Nodup := (List.nodup_append.1 hP.nodup).2.1
    rcases put_counts hp with ⟨prev, hflag, hm, hf⟩ | ⟨hm, c1, _, c3, _⟩
    · obtain ⟨_, g2, g3, _, _⟩ := put_merge_inv hP hQ hb hm
      subst hf
      refine ⟨q, g2.seg, ?_⟩
      have hsz : (put_merge (clear_merge_flag K s.f b) prev b).size
          = upd s.f.size prev (s.f.size prev + s.f.size b) := rfl
      have hdz : (put_merge (clear_merge_flag K s.f b) prev b).fifo_data_size
          = (s.f.fifo_data_size + s.f.size b) % 4294967296 := rfl
      show (put_merge (clear_merge_flag K s.f b) prev b).fifo_data_size
        = dsum (put_merge (clear_merge_flag K s.f b) prev b) q % 4294967296
      rw [hdz, dsum_upd hnd (List.mem_of_getLast?_eq_some g3) hsz, D]
      omega
    · obtain ⟨A, B, e1, _, g2, _⟩ := put_node_inv hP hQ hb hm hp
      refine ⟨A ++ b :: B, g2.seg, ?_⟩
      show f'.fifo_data_size = dsum f' (A ++ b :: B) % 4294967296
      rw [c3, dsum_congr (f := s.f) (fun x _ => by rw [c1]), D, e1, dsum_append, dsum_append,
        dsum_cons]
      omega
  | insert b hb =>
    obtain ⟨_, g2⟩ := insert_inv hP hQ hb
    obtain ⟨c1, _, c3⟩ := insert_counts s.f b
    refine ⟨b :: q, g2.seg, ?_⟩
    show (fifo_buffer_insert s.f b).fifo_data_size
      = dsum (fifo_buffer_insert s.f b) (b :: q) % 4294967296
    rw [c3, dsum_congr (f := s.f) (fun x _ => by rw [c1]), D, dsum_cons]
    omega
  | get f' b hg =>
    obtain ⟨q', e1, _, _, g2⟩ := get_inv hP hQ hg
    obtain ⟨_, c1, _, c3⟩ := get_counts hg
    refine ⟨q', g2.seg, ?_⟩
    show f'.fifo_data_size = dsum f' q' % 4294967296
    rw [c3, dsum_congr (f := s.f) (fun x _ => by rw [c1]), D, e1, dsum_cons]
    omega
  | clear fuel f' hc =>
    obtain ⟨rs', _, g2⟩ := clear_inv hP hQ hc
    obtain ⟨c1, _, _, _, c5, _⟩ := clear_fields hP hQ hc
    refine ⟨_, g2.seg, ?_⟩
    show f'.fifo_data_size = dsum f' (q.filter (is_control K s.f)) % 4294967296
    rw [c5, @dsum_congr s.f f' _ (fun x _ => by rw [c1])]
  | fbc_set on_ =>
    obtain ⟨_, c2, c3⟩ := fbc_set_counts s.f on_
    exact keep _ (fbc_set_Frame s.f on_ q) c2 (fun x _ => by rw [c3])

/-- In every reachable state `fifo_data_size` is the sum of the sizes of the queued elements
modulo `2^32`. -/
theorem reachable_data {K : BufferH} {s : Sys} (h : Reachable K s) :
    ∀ q, Queue s.f q → s.f.fifo_data_size = dsum s.f q % 4294967296 := by
  induction h with
  | init n b =>
    intro q hq
    have e : q = [] := Queue_unique hq (show Queue (Sys.init n b).f [] from rfl)
    rw [e]
    rfl
  | step s s' hr hs ih => exact step_data hs (reachable_inv hr) ih

theorem reachable_data_range {K : BufferH} {s : Sys} (h : Reachable K s) :
    0 ≤ s.f.fifo_data_size ∧ s.f.fifo_data_size < 4294967296 := by
  obtain ⟨rs, q, _, hQ⟩ := reachable_inv h
  have := reachable_data h q hQ.seg
  omega

/-- The sum `pts + overlap` of `fifo_buffer_put` lies in the range of an `int64_t`. -/
theorem put_epts_range (f : Fifo) (e : Int) (t : Nat) :
    -9223372036854775808 ≤ put_epts f e t ∧ put_epts f e t ≤ 9223372036854775807 := by
  unfold put_epts int64_wrap
  simp only
  split <;> omega

/-- The list read off the heap is the queue, when the walk ended before its fuel. -/
theorem QSeg_of_list (next : Int → Option Int) :
    ∀ (n : Nat) (a : Option Int) (f : Fifo), f.next = next →
      (fifo_list_from f n a).length < n → QSeg next a (fifo_list_from f n a) none := by
  intro n
  induction n with
  | zero => intro a f _ h; simp at h
  | succ n ih =>
    intro a f hf h
    cases a with
    | none => exact rfl
    | some b =>
      have e : fifo_list_from f (n + 1) (some b) = b :: fifo_list_from f n (f.next b) := rfl
      rw [e] at h ⊢
      refine ⟨rfl, ?_⟩
      rw [← hf]
      exact hf ▸ ih (f.next b) f hf (by simpa using h)

/-- The list read off the heap is the queue, when the walk ended before its fuel. -/
theorem Queue_of_list (f : Fifo) (n : Nat) (q : List Int)
    (h : fifo_list_from f n f.first = q) (hn : q.length < n) : Queue f q := by
  subst h
  exact QSeg_of_list f.next n f.first f rfl hn

/-- The scan of `fifo_buffer_put` ends when its fuel exceeds the number of elements behind
the cursor. -/
theorem put_scan_total {f : Fifo} {epts : Int} :
    ∀ (fuel : Nat) (A B : List Int), Queue f (A ++ B) → B.length < fuel →
      ∃ link, put_scan f epts fuel (qlink A) = some link := by
  intro fuel
  induction fuel with
  | zero => intro A B _ h; omega
  | succ fuel ih =>
    intro A B hq hfuel
    rw [put_scan_succ, hq.load_qlink]
    cases B with
    | nil => exact ⟨_, rfl⟩
    | cons b B =>
      simp only [List.head?_cons]
      by_cases hp : f.pts b > epts
      · rw [if_pos hp]; exact ⟨_, rfl⟩
      · rw [if_neg hp, ← qlink_concat A b]
        exact ih (A ++ [b]) B (by simpa using hq) (by simp at hfuel; omega)

/-- In a state that satisfies the invariants, `fifo_buffer_put` returns when its fuel exceeds
the length of the queue. -/
theorem put_total {K : BufferH} {s : Sys} {rs : List (Int × Int)} {q : List Int}
    (hP : PInv s.f rs (s.held ++ q)) (hQ : QInv K s q) (e : Int) {fuel : Nat}
    (hfuel : q.length < fuel) :
    ∃ f', fifo_buffer_put K fuel s.f e = .done f' := by
  unfold fifo_buffer_put
  simp only
  split
  · exact ⟨_, rfl⟩
  · have hnat : (!_fifo_is_native (run_put_cb K (clear_merge_flag K s.f e) e)) = false := by
      show (!s.f.native) = false
      rw [hP.native]; rfl
    rw [hnat]
    simp only [Bool.false_eq_true, if_false]
    split
    · exact ⟨_, rfl⟩
    · have hcur : ∀ t, ∃ A0 B0, q = A0 ++ B0 ∧
          (run_put_cb K (clear_merge_flag K s.f e) e).last_add t = qlink A0 := by
        intro t
        by_cases h0 : t = 0
        · obtain ⟨A0, B0, e1, e2, _⟩ := hQ.cur0
          refine ⟨A0, B0, e1, ?_⟩
          show (if t = 0 then s.f.last_add0 else s.f.last_add1) = _
          rw [if_pos h0]; exact e2
        · obtain ⟨A0, B0, e1, e2, _⟩ := hQ.cur1
          refine ⟨A0, B0, e1, ?_⟩
          show (if t = 0 then s.f.last_add0 else s.f.last_add1) = _
          rw [if_neg h0]; exact e2
      obtain ⟨A0, B0, e1, e2⟩ := hcur
        (_fifo_buf_type_index K
          (((run_put_cb K (clear_merge_flag K s.f e) e).type e % 4294967296) >>> 24) - 1)
      rw [e2]
      split
      · rename_i hfound
        exfalso
        have hq : Queue (run_put_cb K (clear_merge_flag K s.f e) e) (A0 ++ B0) := by
          rw [← e1]; exact hQ.seg
        have hlen : B0.length < fuel := by
          have : q.length = A0.length + B0.length := by rw [e1]; simp
          omega
        obtain ⟨link, hl⟩ := @put_scan_total (run_put_cb K (clear_merge_flag K s.f e) e)
          (put_epts (run_put_cb K (clear_merge_flag K s.f e) e) e
            (_fifo_buf_type_index K
              (((run_put_cb K (clear_merge_flag K s.f e) e).type e % 4294967296) >>> 24) - 1))
          fuel A0 B0 hq hlen
        split at hfound
        · rw [hl] at hfound; cases hfound
        · cases hfound
      · exact ⟨_, rfl⟩

/-- The scan `for (i = 0; cb[i]; i++);` stops at the first null entry, if the array has one. -/
theorem hook_end_eq (cb : Nat → Option Nat) (data : Nat → Int) :
    ∀ (fuel i : Nat), (hook_list cb data fuel i).length < fuel →
      hook_end cb fuel i = some (i + (hook_list cb data fuel i).length) := by
  intro fuel
  induction fuel with
  | zero => intro i h; simp [hook_list] at h
  | succ n ih =>
    intro i h
    unfold hook_end
    unfold hook_list at h ⊢
    cases hc : cb i with
    | none => simp
    | some c =>
      rw [hc] at h
      simp only [List.length_cons] at h ⊢
      rw [ih (i + 1) (by omega)]
      congr 1
      omega

/-- The callbacks listed after `cb[k] = c; data[k] = d; cb[k + 1] = NULL` (and possibly
`data[k + 1] = 0`), where `k` is the first null entry. -/
theorem hook_list_add (cb : Nat → Option Nat) (data : Nat → Int) (c : Nat) (d : Int) (z : Bool) :
    ∀ (fuel i k : Nat), k = i + (hook_list cb data fuel i).length →
      (hook_list cb data fuel i).length + 1 < fuel →
      hook_list (fun j => if j = k then some c else if j = k + 1 then none else cb j)
          (fun j => if j = k then d else if j = k + 1 ∧ z = true then 0 else data j) fuel i
        = hook_list cb data fuel i ++ [(c, d)] := by
  intro fuel
  induction fuel with
  | zero => intro i k _ h; simp at h
  | succ n ih =>
    intro i k hk h
    cases hc : cb i with
    | none =>
      have hl : hook_list cb data (n + 1) i = [] := by
        unfold hook_list; rw [hc]
      rw [hl] at hk h ⊢
      simp only [List.length_nil, Nat.add_zero] at hk
      subst hk
      obtain ⟨m, rfl⟩ : ∃ m, n = m + 1 := ⟨n - 1, by simp at h; omega⟩
      simp [hook_list]
    | some c0 =>
      have hl : hook_list cb data (n + 1) i = (c0, data i) :: hook_list cb data n (i + 1) := by
        conv => lhs; unfold hook_list
        rw [hc]
      rw [hl] at hk h ⊢
      simp only [List.length_cons] at hk h
      have h1 : i ≠ k := by omega
      have h2 : i ≠ k + 1 := by omega
      conv => lhs; unfold hook_list
      simp only [if_neg h1, if_neg h2, hc, h2, false_and, if_false]
      rw [ih (i + 1) k (by omega) (by omega)]
      rfl

/-- What the shared body of the register functions does to a callback array that has a null
entry: with fewer than `BUF_MAX_CALLBACKS - 1` callbacks the new one is appended, with
`BUF_MAX_CALLBACKS - 1` nothing is changed. -/
theorem hook_add_spec (K : BufferH) (cb : Nat → Option Nat) (data : Nat → Int) (c : Nat) (d : Int)
    (z : Bool) (hwf : (hook_list cb data K.BUF_MAX_CALLBACKS 0).length < K.BUF_MAX_CALLBACKS) :
    ((hook_list cb data K.BUF_MAX_CALLBACKS 0).length + 1 < K.BUF_MAX_CALLBACKS →
      ∃ r, hook_add K cb data c d z = some r ∧
        hook_list r.1 r.2 K.BUF_MAX_CALLBACKS 0
          = hook_list cb data K.BUF_MAX_CALLBACKS 0 ++ [(c, d)]) ∧
    ((hook_list cb data K.BUF_MAX_CALLBACKS 0).length + 1 = K.BUF_MAX_CALLBACKS →
      hook_add K cb data c d z = some (cb, data)) := by
  have he := hook_end_eq cb data K.BUF_MAX_CALLBACKS 0 hwf
  simp only [Nat.zero_add] at he
  constructor
  · intro hlt
    unfold hook_add
    rw [he]
    simp only
    rw [if_pos (by omega)]
    exact ⟨_, rfl, hook_list_add cb data c d z K.BUF_MAX_CALLBACKS 0 _ (by simp) hlt⟩
  · intro heq
    unfold hook_add
    rw [he]
    simp only
    rw [if_neg (by omega)]

/-- Registrations made one after the other fill the callback array in order and stop at
`n - 1` entries, for any register function that appends below `n - 1` entries and does
nothing at `n - 1`. -/
theorem register_many_take (n : Nat) (reg : Fifo → Nat → Int → Outcome Fifo)
    (hooks : Fifo → List (Nat × Int))
    (hspec : ∀ f c d, (hooks f).length < n →
      ((hooks f).length + 1 < n → ∃ f', reg f c d = .done f' ∧ hooks f' = hooks f ++ [(c, d)]) ∧
      ((hooks f).length + 1 = n → reg f c d = .done f)) :
    ∀ (R : List (Nat × Int)) (f : Fifo), (hooks f).length < n →
      ∃ f', register_many reg R f = .done f' ∧ hooks f' = (hooks f ++ R).take (n - 1) := by
  intro R
  induction R with
  | nil =>
    intro f hf
    refine ⟨f, rfl, ?_⟩
    rw [List.append_nil, List.take_of_length_le (by omega)]
  | cons r R ih =>
    intro f hf
    obtain ⟨c, d⟩ := r
    obtain ⟨s1, s2⟩ := hspec f c d hf
    by_cases hlt : (hooks f).length + 1 < n
    · obtain ⟨f1, e1, e2⟩ := s1 hlt
      obtain ⟨f2, e3, e4⟩ := ih f1 (by rw [e2]; simp; omega)
      refine ⟨f2, ?_, ?_⟩
      · show (reg f c d).bind (register_many reg R) = _
        rw [e1]; exact e3
      · rw [e4, e2]; simp
    · have heq : (hooks f).length + 1 = n := by omega
      obtain ⟨f2, e3, e4⟩ := ih f hf
      refine ⟨f2, ?_, ?_⟩
      · show (reg f c d).bind (register_many reg R) = _
        rw [s2 heq]; exact e3
      · rw [e4]
        have hl : (hooks f).length = n - 1 := by omega
        rw [← hl, List.take_left', List.take_left']
        all_goals rfl

/-- The calls of the put callbacks are the registered callbacks in array order. -/
theorem put_hook_calls_list (f : Fifo) (e : Int) :
    ∀ (fuel i : Nat), put_hook_calls f e fuel i
      = (hook_list f.put_cb f.put_cb_data fuel i).map (fun h => HookCall.put h.1 e h.2) := by
  intro fuel
  induction fuel with
  | zero => intro i; rfl
  | succ n ih =>
    intro i
    unfold put_hook_calls hook_list
    cases f.put_cb i with
    | none => rfl
    | some c => simp only [List.map_cons]; rw [ih]

/-- The shift `x >> 2` of a signed value is the floor division by 4. -/
theorem shr2_eq_div (c : Int) : c >>> (2 : Int) = c / 4 := by
  cases c with
  | ofNat m =>
    show (m : ℤ) >>> ((2 : ℕ) : ℤ) = (m : ℤ) / 4
    rw [Int.shiftRight_coe_nat, Nat.shiftRight_eq_div_pow]
    norm_num
  | negSucc m =>
    show (Int.negSucc m) >>> ((2 : ℕ) : ℤ) = (Int.negSucc m) / 4
    rw [Int.shiftRight_negSucc, Nat.shiftRight_eq_div_pow, Int.negSucc_ediv m (by norm_num)]
    rw [Int.negSucc_eq]
    push_cast
    norm_num
    rfl

theorem reach_fbc_set {K : BufferH} {s : Sys} (h : Reachable K s) (on_ : Bool) :
    Reachable K (s.fbc_set on_) :=
  Reachable.step _ _ h (Step.fbc_set s on_)

theorem reach_insert {K : BufferH} {s : Sys} (h : Reachable K s) (b : Int) :
    Reachable K (s.insert b) := by
  unfold Sys.insert
  split
  · rename_i hb
    exact Reachable.step _ _ h (Step.insert s b hb)
  · exact h

theorem reach_put_sized {K : BufferH} {s : Sys} (h : Reachable K s) (fuel : Nat) (b : Int)
    (type : Nat) (pts size : Int) (flags : Nat) :
    Reachable K (s.put_sized K fuel b type pts size flags) := by
  unfold Sys.put_sized
  split
  · rename_i hb
    have h1 : Reachable K { s with f := fill s.f b type pts size flags } :=
      Reachable.step _ _ h (Step.fill s b type pts size flags hb)
    split
    · rename_i f' hf
      exact Reachable.step _ _ h1 (Step.put _ fuel b f' hb hf)
    · exact h1
  · exact h

/-- A cursor that is the link behind an element lies behind an element of its prefix. -/
theorem qlink_next_mem {q : List Int} {a : Int} (h : qlink q = Link.next a) : a ∈ q := by
  unfold qlink at h
  cases hl : q.getLast? with
  | none => rw [hl] at h; cases h
  | some x =>
    rw [hl] at h
    simp only [Link.next.injEq] at h
    subst h
    exact List.mem_of_mem_getLast? (Option.mem_def.2 hl)

/-- An element folded into the tail by `fifo_buffer_put` is an element of the pool. -/
theorem merge_pool_owned {K : BufferH} {s : Sys} {e prev : Int} {rs : List (Int × Int)}
    {q : List Int} (hP : PInv s.f rs (s.held ++ q)) (hQ : QInv K s q) (he : e ∈ s.held)
    (hm : put_merge_prev (clear_merge_flag K s.f e) e = some prev) :
    s.f.pool_owned e = true := by
  obtain ⟨_, _, h3, h4, _⟩ := put_merge_inv hP hQ he hm
  have hpq : prev ∈ q := List.mem_of_mem_getLast? (Option.mem_def.2 h3)
  have hpo : prev ∈ s.held ++ q := List.mem_append_right _ hpq
  have heo : e ∈ s.held ++ q := List.mem_append_left _ he
  have hne : e ∉ q := not_mem_queue_of_held hP.nodup he
  by_cases ha : 0 ≤ prev ∧ prev < s.f.buffer_pool_capacity
  · have h5 := hP.out_in_arena hpo ha.1 ha.2
    have h6 := hP.pos prev hpo ha.1 ha.2
    have h7 := hP.notcap e heo
    exact (hP.owned e).2 ⟨by omega, by omega⟩
  · have h5 := hP.foreign prev ha
    rw [h5] at h4
    simp only [add_zero] at h4
    subst h4
    exact absurd hpq hne

/-- The element handed back with `fifo_buffer_insert` becomes the head, and a get that follows
returns it and restores the queue, its counters and its cursors. -/
theorem insert_get_restore {K : BufferH} {s : Sys} {e : Int} {rs : List (Int × Int)}
    {q : List Int} (hP : PInv s.f rs (s.held ++ q)) (hQ : QInv K s q) (he : e ∈ s.held)
    (hd : 0 ≤ s.f.fifo_data_size ∧ s.f.fifo_data_size < 4294967296) :
    Queue (fifo_buffer_insert s.f e) (e :: q) ∧
    (fifo_buffer_insert s.f e).first = some e ∧
    (fifo_buffer_insert s.f e).last_add0
      = (if s.f.last_add0 = Link.first then Link.next e else s.f.last_add0) ∧
    (fifo_buffer_insert s.f e).last_add1
      = (if s.f.last_add1 = Link.first then Link.next e else s.f.last_add1) ∧
    ∃ f2, fifo_buffer_get K (fifo_buffer_insert s.f e) = .done (f2, e) ∧ Queue f2 q ∧
      f2.first = s.f.first ∧ f2.last = s.f.last ∧
      f2.fifo_size = s.f.fifo_size ∧ f2.fifo_data_size = s.f.fifo_data_size ∧
      f2.last_add0 = s.f.last_add0 ∧ f2.last_add1 = s.f.last_add1 := by
  obtain ⟨hP1, hQ1⟩ := insert_inv hP hQ he
  have hne : e ∉ q := not_mem_queue_of_held hP.nodup he
  have hnat : _fifo_is_native s.f = true := hP.native
  have hla0 : (fifo_buffer_insert s.f e).last_add0
      = (if s.f.last_add0 = Link.first then Link.next e else s.f.last_add0) := by
    show (if _fifo_is_native s.f = true ∧ s.f.last_add0 = Link.first then Link.next e
      else s.f.last_add0) = _
    rw [hnat]; simp
  have hla1 : (fifo_buffer_insert s.f e).last_add1
      = (if s.f.last_add1 = Link.first then Link.next e else s.f.last_add1) := by
    show (if _fifo_is_native s.f = true ∧ s.f.last_add1 = Link.first then Link.next e
      else s.f.last_add1) = _
    rw [hnat]; simp
  refine ⟨hQ1.seg, rfl, hla0, hla1, ?_⟩
  have hg : fifo_buffer_get K (fifo_buffer_insert s.f e)
      = .done (run_get_cb K (get_unlink (fifo_buffer_insert s.f e) e) e, e) := rfl
  obtain ⟨q', e1, _, hP2, hQ2⟩ := get_inv hP1 hQ1 hg
  have hq : q' = q := by
    simp only [List.cons.injEq, true_and] at e1
    exact e1.symm
  subst hq
  obtain ⟨_, _, c3, c4⟩ := get_counts hg
  obtain ⟨i1, i2, i3⟩ := insert_counts s.f e
  have hw : fifo_weight (fifo_buffer_insert s.f e) e = fifo_weight s.f e := rfl
  have hnat1 : _fifo_is_native (fifo_buffer_insert s.f e) = true := hP.native
  have hc0 : s.f.last_add0 ≠ Link.next e := by
    obtain ⟨q1, q2, a1, a2, _⟩ := hQ.cur0
    intro hc
    rw [a2] at hc
    exact hne (by rw [a1]; exact List.mem_append_left _ (qlink_next_mem hc))
  have hc1 : s.f.last_add1 ≠ Link.next e := by
    obtain ⟨q1, q2, a1, a2, _⟩ := hQ.cur1
    intro hc
    rw [a2] at hc
    exact hne (by rw [a1]; exact List.mem_append_left _ (qlink_next_mem hc))
  refine ⟨_, hg, hQ2.seg, ?_, ?_, ?_, ?_, ?_, ?_⟩
  · have a := hQ2.seg.head
    have b := hQ.seg.head
    rw [b]; exact a
  · have a := hQ2.last
    have b := hQ.last
    rw [b]; exact a
  · rw [c3, i2, hw]; omega
  · rw [c4, i3, i1]
    obtain ⟨d1, d2⟩ := hd
    generalize s.f.fifo_data_size = d at d1 d2 ⊢
    generalize s.f.size e = z
    omega
  · show (if _fifo_is_native (fifo_buffer_insert s.f e) = true ∧
        (fifo_buffer_insert s.f e).last_add0 = Link.next e then Link.first
      else (fifo_buffer_insert s.f e).last_add0) = _
    rw [hnat1, hla0]
    by_cases hx : s.f.last_add0 = Link.first
    · rw [if_pos hx]; simp [hx]
    · rw [if_neg hx]; simp [hc0]
  · show (if _fifo_is_native (fifo_buffer_insert s.f e) = true ∧
        (fifo_buffer_insert s.f e).last_add1 = Link.next e then Link.first
      else (fifo_buffer_insert s.f e).last_add1) = _
    rw [hnat1, hla1]
    by_cases hx : s.f.last_add1 = Link.first
    · rw [if_pos hx]; simp [hx]
    · rw [if_neg hx]; simp [hc1]

/-- The reservation after a release: `buffer_pool_free` lowers it by the slab count of the
element, not below zero, when soft-start is on, and never touches the callbacks. -/
theorem free_reservation {f f' : Fifo} {b : Int} {fuel : Nat}
    (hon : f.alloc_cb 0 = some fbc_dummy) (hf : buffer_pool_free fuel f b = .done f') :
    f'.alloc_cb 0 = some fbc_dummy ∧
    f'.alloc_cb_data 0
      = (if f.alloc_cb_data 0 - f.nbufs b < 0 then 0 else f.alloc_cb_data 0 - f.nbufs b) := by
  have key : f'.alloc_cb = f.alloc_cb ∧
      f'.alloc_cb_data = (_fbc_sub f (f.nbufs b)).alloc_cb_data := by
    unfold buffer_pool_free at hf
    simp only at hf
    split at hf
    · cases hf
    · split at hf
      · cases hf
        exact ⟨rfl, rfl⟩
      · split at hf
        · cases hf
          exact ⟨rfl, rfl⟩
        · split at hf
          · cases hf
          · cases hf
            exact ⟨rfl, rfl⟩
  rw [key.1, key.2]
  refine ⟨hon, ?_⟩
  show (if f.alloc_cb 0 = some fbc_dummy ∧ (0 : Nat) = 0 then
      (if f.alloc_cb_data 0 - f.nbufs b < 0 then 0 else f.alloc_cb_data 0 - f.nbufs b)
    else f.alloc_cb_data 0) = _
  rw [if_pos ⟨hon, rfl⟩]

/-- C22: in a reachable state, insert of a handed-out element makes it the head in front of
the elements queued before, in unchanged order; an insertion cursor that designated the head
link designates the link behind the inserted element afterwards, any other cursor is
unchanged; and a get that follows at once returns that element and restores the queue, its
head and tail, the two counters and both cursors. -/
theorem C22_insert_prepends (K : BufferH) (s : Sys) (h : Reachable K s) (e : Int)
    (he : e ∈ s.held) :
    ∃ q, Queue s.f q ∧ Queue (fifo_buffer_insert s.f e) (e :: q) ∧
      (fifo_buffer_insert s.f e).first = some e ∧
      (fifo_buffer_insert s.f e).last_add0
        = (if s.f.last_add0 = Link.first then Link.next e else s.f.last_add0) ∧
      (fifo_buffer_insert s.f e).last_add1
        = (if s.f.last_add1 = Link.first then Link.next e else s.f.last_add1) ∧
      ∃ f2, fifo_buffer_get K (fifo_buffer_insert s.f e) = .done (f2, e) ∧ Queue f2 q ∧
        f2.first = s.f.first ∧ f2.last = s.f.last ∧
        fifo_buffer_size f2 = fifo_buffer_size s.f ∧
        fifo_buffer_data_size f2 = fifo_buffer_data_size s.f ∧
        f2.last_add0 = s.f.last_add0 ∧ f2.last_add1 = s.f.last_add1 := by
  obtain ⟨rs, q, hP, hQ⟩ := reachable_inv h
  exact ⟨q, hQ.seg, insert_get_restore hP hQ he (reachable_data_range h)⟩

/-- C22 at the 10-slab pool with the video elements 0 and 1 queued, for the insert of
element 2. -/
theorem C22_insert_prepends_witness :
    (2 : Int) ∈ sized2.held ∧
    ∃ q, Queue sized2.f q ∧ Queue (fifo_buffer_insert sized2.f 2) (2 :: q) ∧
      (fifo_buffer_insert sized2.f 2).first = some 2 ∧
      (fifo_buffer_insert sized2.f 2).last_add0
        = (if sized2.f.last_add0 = Link.first then Link.next 2 else sized2.f.last_add0) ∧
      (fifo_buffer_insert sized2.f 2).last_add1
        = (if sized2.f.last_add1 = Link.first then Link.next 2 else sized2.f.last_add1) ∧
      ∃ f2, fifo_buffer_get xineH (fifo_buffer_insert sized2.f 2) = .done (f2, 2) ∧
        Queue f2 q ∧ f2.first = sized2.f.first ∧ f2.last = sized2.f.last ∧
        fifo_buffer_size f2 = fifo_buffer_size sized2.f ∧
        fifo_buffer_data_size f2 = fifo_buffer_data_size sized2.f ∧
        f2.last_add0 = sized2.f.last_add0 ∧ f2.last_add1 = sized2.f.last_add1 :=
  ⟨by decide,
    C22_insert_prepends xineH sized2
      (reach_put_sized (reach_put_sized reach_pool3 10 0 0x02000000 0 100 0)
        10 1 0x02000000 0 250 0)
      2 (by decide)⟩

/-! ## The size counter of the fifo -/

theorem wsum_cons (f : Fifo) (b : Int) (q : List Int) :
    wsum f (b :: q) = fifo_weight f b + wsum f q := rfl

theorem wsum_append (f : Fifo) (l1 l2 : List Int) :
    wsum f (l1 ++ l2) = wsum f l1 + wsum f l2 := by
  induction l1 with
  | nil => simp [wsum]
  | cons a t ih => simp only [List.cons_append, wsum_cons, ih]; omega

theorem wsum_congr {f f' : Fifo} {L : List Int}
    (h : ∀ b ∈ L, fifo_weight f' b = fifo_weight f b) : wsum f' L = wsum f L := by
  induction L with
  | nil => rfl
  | cons a t ih =>
    show fifo_weight f' a + wsum f' t = fifo_weight f a + wsum f t
    rw [h a (List.mem_cons_self _ _), ih (fun b hb => h b (List.mem_cons_of_mem _ hb))]

theorem wsum_ge {f : Fifo} {L : List Int} (h : ∀ b ∈ L, 1 ≤ fifo_weight f b) :
    (L.length : Int) ≤ wsum f L := by
  induction L with
  | nil => exact le_refl _
  | cons a t ih =>
    show ((t.length + 1 : Nat) : Int) ≤ fifo_weight f a + wsum f t
    have h1 := h a (List.mem_cons_self _ _)
    have h2 := ih (fun b hb => h b (List.mem_cons_of_mem _ hb))
    push_cast
    omega

theorem wsum_gt {f : Fifo} {L : List Int} (h : ∀ b ∈ L, 1 ≤ fifo_weight f b)
    (hx : ∃ b ∈ L, 1 < fifo_weight f b) : (L.length : Int) < wsum f L := by
  induction L with
  | nil =>
    obtain ⟨b, hb, _⟩ := hx
    cases hb
  | cons a t ih =>
    show ((t.length + 1 : Nat) : Int) < fifo_weight f a + wsum f t
    have h1 := h a (List.mem_cons_self _ _)
    have h2 := wsum_ge (fun b hb => h b (List.mem_cons_of_mem _ hb))
    push_cast
    obtain ⟨b, hb, hw⟩ := hx
    rcases List.mem_cons.1 hb with rfl | hb'
    · omega
    · have h3 := ih (fun b hb => h b (List.mem_cons_of_mem _ hb)) ⟨b, hb', hw⟩
      omega

/-- Elements that each weigh 1 weigh as much as they are many. -/
theorem wsum_ones {f : Fifo} {L : List Int} (h : ∀ b ∈ L, fifo_weight f b = 1) :
    wsum f L = (L.length : Int) := by
  induction L with
  | nil => rfl
  | cons a t ih =>
    rw [wsum_cons, h a (List.mem_cons_self _ _),
      ih (fun b hb => h b (List.mem_cons_of_mem _ hb)), List.length_cons]
    push_cast
    omega

/-- The sum of the weights after the weight of one element changed. -/
theorem wsum_upd {f f' : Fifo} {q : List Int} {a : Int} (hnd : q.Nodup) (ha : a ∈ q)
    (h : ∀ x ∈ q, x ≠ a → fifo_weight f' x = fifo_weight f x) :
    wsum f' q = wsum f q - fifo_weight f a + fifo_weight f' a := by
  induction q with
  | nil => cases ha
  | cons b q ih =>
    simp only [wsum_cons]
    have hbq : b ∉ q := (List.nodup_cons.1 hnd).1
    rcases List.mem_cons.1 ha with e | e
    · subst e
      have e2 : wsum f' q = wsum f q :=
        wsum_congr (fun x hx => h x (List.mem_cons_of_mem _ hx)
          (fun hc : x = a => hbq (by rw [← hc]; exact hx)))
      rw [e2]; omega
    · have hne : b ≠ a := fun hc => hbq (by rw [hc]; exact e)
      rw [h b (List.mem_cons_self _ _) hne,
        ih (List.nodup_cons.1 hnd).2 e (fun x hx => h x (List.mem_cons_of_mem _ hx))]
      omega

/-- An outstanding element weighs at least 1. -/
theorem weight_pos {f : Fifo} {rs : List (Int × Int)} {out : List Int} (h : PInv f rs out)
    {b : Int} (hb : b ∈ out) : 1 ≤ fifo_weight f b := by
  unfold fifo_weight
  split
  · rename_i ho
    have ha := (h.owned b).1 ho
    exact h.pos b hb ha.1 ha.2
  · exact le_refl _

/-- Two heaps of the same pool in which an element has the same slab count give it the same
weight. -/
theorem weight_same {f f' : Fifo} {rs rs' : List (Int × Int)} {out out' : List Int}
    (h : PInv f rs out) (h' : PInv f' rs' out')
    (hcap : f'.buffer_pool_capacity = f.buffer_pool_capacity) {b : Int}
    (hn : f'.nbufs b = f.nbufs b) : fifo_weight f' b = fifo_weight f b := by
  have ho : f'.pool_owned b = f.pool_owned b := by
    have a := h'.owned b
    have c := h.owned b
    rw [hcap] at a
    exact Bool.eq_iff_iff.2 (a.trans c.symm)
  unfold fifo_weight
  rw [ho, hn]

theorem fifo_count_add_weight (g : Fifo) (e x : Int) :
    fifo_weight (fifo_count_add g e) x = fifo_weight g x := rfl

theorem put_link_weight (f : Fifo) (e : Int) (t : Nat) (l : Link) (x : Int) :
    fifo_weight (put_link f e t l) x = fifo_weight f x := by
  unfold fifo_weight
  rw [put_link_owned, put_link_nbufs]

theorem put_fence_weight (f : Fifo) (e x : Int) :
    fifo_weight (put_fence f e) x = fifo_weight f x := by
  unfold fifo_weight
  rw [put_fence_owned, put_fence_nbufs]

theorem fbc_set_weight (f : Fifo) ( on_ : Bool) :
    (xine_fbc_set f on_).1.pool_owned = f.pool_owned ∧
    (xine_fbc_set f on_).1.nbufs = f.nbufs := by
  unfold xine_fbc_set
  split
  · split <;> exact ⟨rfl, rfl⟩
  · split <;> exact ⟨rfl, rfl⟩

/-- A put that links the element in leaves every weight as it is. -/
theorem put_weights {K : BufferH} {f f' : Fifo} {e : Int} {fuel : Nat}
    (hm : (if has_merge_flag K f e = true then put_merge_prev (clear_merge_flag K f e) e
      else none) = none)
    (h : fifo_buffer_put K fuel f e = .done f') (x : Int) :
    fifo_weight f' x = fifo_weight f x := by
  unfold fifo_buffer_put at h
  simp only at h
  rw [hm] at h
  simp only at h
  split at h
  · cases h
    rfl
  · split at h
    · cases h
      rw [fifo_count_add_weight, put_fence_weight]
      rfl
    · split at h
      · cases h
      · cases h
        rw [fifo_count_add_weight, put_link_weight]
        rfl

/-- The branch of `fifo_buffer_clear` that releases a chunk of adjacent pool elements, once
completed: what it leaves of the queue, and that it keeps the slab counts of the elements
that stay outstanding. -/
theorem clear_chunk_keep {K : BufferH} {f f3 : Fifo} {held kq rest0 : List Int} {start n : Int}
    {next : Option Int} {fuel0 : Nat}
    {rs : List (Int × Int)} (hP : PInv f rs (held ++ (kq ++ start :: rest0)))
    (hk : QSeg f.next f.first kq none) (hr : QSeg f.next (f.next start) rest0 none)
    (hown : f.pool_owned start = true)
    (hc : clear_chunk K f fuel0 start 0 = some (n, next))
    (hf : buffer_pool_free fuel0 (set_nbufs f start n) start = .done f3) :
    ∃ C rest' rs', rest0 = C ++ rest' ∧ (∀ c ∈ C, is_control K f c = false) ∧
      PInv f3 rs' (held ++ (kq ++ rest')) ∧ QSeg f3.next f3.first kq none ∧
      f3.last = f.last ∧ QSeg f3.next next rest' none ∧
      (∀ b ∈ held ++ (kq ++ rest'), f3.type b = f.type b ∧ f3.nbufs b = f.nbufs b) := by
  obtain ⟨C, rest', e1, e2, e3, e4, e5⟩ := clear_chunk_spec fuel0 start 0 rest0 n next hr hc
  subst e1
  have h1 : PInv f rs (C ++ start :: (held ++ (kq ++ rest'))) := hP.perm (perm_chunk start)
  have h2 : PInv (set_nbufs f start n) rs (start :: (held ++ (kq ++ rest'))) :=
    h1.merge_chain C f (set_nbufs f start n) (List.mem_cons_self _ _) e4 rfl rfl rfl rfl rfl rfl
      rfl (by rw [e3, zero_add]; rfl)
  obtain ⟨h3, h4, _, _⟩ := free_inv h2 (List.mem_cons_self _ _) hown hf
  rw [List.erase_cons_head] at h3 h4
  have hs : start ∉ held ++ (kq ++ rest') := (List.nodup_cons.1 h2.nodup).1
  refine ⟨C, rest', _, rfl, e5, h3, ?_, h4.last, ?_, ?_⟩
  · rw [h4.first]
    exact QSeg_congr
      (fun x hx => h4.next x (List.mem_append_right _ (List.mem_append_left _ hx))) hk
  · exact QSeg_congr
      (fun x hx => h4.next x (List.mem_append_right _ (List.mem_append_right _ hx))) e2
  · intro b hb
    refine ⟨h4.type b hb, ?_⟩
    rw [h4.nbufs b hb]
    exact upd_ne _ _ (fun hc' => hs (hc' ▸ hb))

/-- The loop of `fifo_buffer_clear`, once completed, has kept the slab counts of the elements
that stay outstanding. -/
theorem clear_loop_nbufs {K : BufferH} {fuel0 : Nat} {held : List Int} :
    ∀ (fuel : Nat) (f : Fifo) (start : Option Int) (kq rest : List Int) (rs : List (Int × Int))
      (f' : Fifo),
      PInv f rs (held ++ (kq ++ rest)) → QSeg f.next f.first kq none → f.last = kq.getLast? →
      QSeg f.next start rest none → clear_loop K fuel0 fuel f start = .done f' →
      ∀ b ∈ held ++ (kq ++ rest.filter (is_control K f)), f'.nbufs b = f.nbufs b := by
  intro fuel
  induction fuel with
  | zero =>
    intro f start kq rest rs f' hP hk hl hr h
    cases start with
    | some st => cases h
    | none =>
      rw [clear_loop_none] at h
      simp only [Outcome.done.injEq] at h
      subst h
      exact fun _ _ => rfl
  | succ fuel ih =>
    intro f start kq rest rs f' hP hk hl hr h
    cases start with
    | none =>
      rw [clear_loop_none] at h
      simp only [Outcome.done.injEq] at h
      subst h
      exact fun _ _ => rfl
    | some st =>
      obtain ⟨rest1, e, hr1⟩ := QSeg_cons_of_some hr
      subst e
      rw [clear_loop_succ] at h
      by_cases hctl : is_control K f st = true
      · obtain ⟨g1, g2, g3, g4, g5, g6⟩ := clear_keep_step hP hk hl hr1
        rw [if_pos hctl, if_neg g1, g2] at h
        have r := ih _ _ (kq ++ [st]) rest1 rs f' g3 g4 g5 g6 h
        have hfil : rest1.filter (is_control K (clear_keep f st)) = rest1.filter (is_control K f) :=
          rfl
        rw [hfil] at r
        intro b hb
        rw [List.filter_cons_of_pos hctl] at hb
        exact r b (by simpa using hb)
      · rw [if_neg hctl] at h
        by_cases hown : f.pool_owned st = true
        · rw [hown] at h
          simp only [Bool.not_true, Bool.false_eq_true, if_false] at h
          split at h
          · cases h
          · rename_i n next hc
            split at h
            · rename_i f3 hf
              obtain ⟨C, rest', rs3, e1, e2, e3, e4, e5, e6, e7⟩ :=
                clear_chunk_keep hP hk hr1 hown hc hf
              have r := ih f3 next kq rest' rs3 f' e3 e4 (e5.trans hl) e6 h
              have hfil : rest'.filter (is_control K f3) = rest'.filter (is_control K f) := by
                refine List.filter_congr ?_
                intro x hx
                unfold is_control
                rw [(e7 x (List.mem_append_right _ (List.mem_append_right _ hx))).1]
              have hfil2 : rest1.filter (is_control K f) = rest'.filter (is_control K f) := by
                rw [e1, List.filter_append]
                have : C.filter (is_control K f) = [] := by
                  rw [List.filter_eq_nil_iff]
                  intro c hc'
                  rw [e2 c hc']; simp
                rw [this]; rfl
              rw [hfil] at r
              intro b hb
              rw [List.filter_cons_of_neg hctl, hfil2] at hb
              have hb' : b ∈ held ++ (kq ++ rest') := by
                rcases List.mem_append.1 hb with h' | h'
                · exact List.mem_append_left _ h'
                · rcases List.mem_append.1 h' with h' | h'
                  · exact List.mem_append_right _ (List.mem_append_left _ h')
                  · exact List.mem_append_right _
                      (List.mem_append_right _ (List.mem_of_mem_filter h'))
              exact (r b hb).trans (e7 b hb').2
            all_goals cases h
        · have hown' : f.pool_owned st = false := by simpa using hown
          rw [hown'] at h
          simp only [Bool.not_false, if_true] at h
          obtain ⟨g1, g2, g3⟩ := clear_custom_step hP hk hr1 hown'
          have r := ih _ _ kq rest1 rs f' g1 g2 hl g3 h
          have hfil : rest1.filter (is_control K (clear_next f st)) = rest1.filter (is_control K f) :=
            rfl
          rw [hfil] at r
          intro b hb
          rw [List.filter_cons_of_neg hctl] at hb
          exact r b hb

/-- A completed `fifo_buffer_clear` has kept the slab counts of the elements that stay
outstanding. -/
theorem clear_nbufs {K : BufferH} {s : Sys} {rs : List (Int × Int)} {q : List Int}
    {fuel : Nat} {f' : Fifo}
    (hP : PInv s.f rs (s.held ++ q)) (hQ : QInv K s q)
    (h : fifo_buffer_clear K fuel s.f = .done f') :
    ∀ b ∈ s.held ++ q.filter (is_control K s.f), f'.nbufs b = s.f.nbufs b := by
  have hP0 : PInv (clear_take s.f) rs (s.held ++ ([] ++ q)) :=
    hP.congr rfl rfl rfl hP.res rfl rfl rfl (fun _ _ => rfl)
  unfold fifo_buffer_clear at h
  split at h
  · rename_i f1 h1
    simp only [Outcome.done.injEq] at h
    subst h
    have r := @clear_loop_nbufs K fuel s.held fuel (clear_take s.f) s.f.first [] q rs f1
      hP0 rfl rfl hQ.seg h1
    intro b hb
    exact r b (by simpa using hb)
  all_goals cases h

/-- Every operation keeps `fifo_size` equal to the sum of the weights of the queued elements,
except a `fifo_buffer_clear` that keeps a control element of more than one slab. -/
theorem step_size {K : BufferH} {s s' : Sys} (hs : Step K s s') (hinv : Inv K s)
    (hk : (∃ fuel, fifo_buffer_clear K fuel s.f = .done s'.f) → clear_keeps_single K s.f)
    (hd : ∀ q, Queue s.f q → s.f.fifo_size = wsum s.f q) :
    ∀ q', Queue s'.f q' → s'.f.fifo_size = wsum s'.f q' := by
  obtain ⟨rs, q, hP, hQ⟩ := hinv
  have D := hd q hQ.seg
  suffices hx : ∃ q1, Queue s'.f q1 ∧ s'.f.fifo_size = wsum s'.f q1 by
    intro q' hq'
    obtain ⟨q1, h1, h2⟩ := hx
    rw [Queue_unique hq' h1]
    exact h2
  have keep : ∀ (f' : Fifo), Frame s.f f' q → f'.fifo_size = s.f.fifo_size →
      (∀ x ∈ q, fifo_weight f' x = fifo_weight s.f x) →
      ∃ q1, Queue f' q1 ∧ f'.fifo_size = wsum f' q1 := by
    intro f' hfr h1 h2
    refine ⟨q, ?_, by rw [h1, wsum_congr h2]; exact D⟩
    unfold Queue
    rw [hfr.first]
    exact QSeg_congr hfr.next hQ.seg
  cases hs with
  | alloc f' b ha =>
    obtain ⟨_, _, _, h1, h2⟩ := alloc_done hP ha
    obtain ⟨c1, _⟩ := alloc_counts ha
    exact keep f' (h2.mono (fun x hx => List.mem_append_right _ hx)) c1
      (fun x hx => weight_same hP h1 h2.cap (h2.nbufs x (List.mem_append_right _ hx)))
  | size_alloc fuel n f' b ha =>
    obtain ⟨_, rs', _, h1, h2, _⟩ := size_alloc_done hP ha
    obtain ⟨c1, _⟩ := size_alloc_counts ha
    exact keep f' (h2.mono (fun x hx => List.mem_append_right _ hx)) c1
      (fun x hx => weight_same hP h1 h2.cap (h2.nbufs x (List.mem_append_right _ hx)))
  | try_alloc =>
    obtain ⟨c1, _⟩ := try_alloc_counts s.f
    rcases try_alloc_done hP with ⟨_, h1⟩ | ⟨r, rest, _, h1, h2, h3⟩
    · refine keep _ ?_ c1 (fun x _ => by rw [h1])
      rw [h1]
      exact Frame.refl _ _
    · exact keep _ (h3.mono (fun x hx => List.mem_append_right _ hx)) c1
        (fun x hx => weight_same hP h2 h3.cap (h3.nbufs x (List.mem_append_right _ hx)))
  | realloc fuel b new_size f' r hb ha =>
    obtain ⟨rs', h1, h2, _⟩ := realloc_done hP (List.mem_append_left _ hb) ha
    obtain ⟨c1, _⟩ := realloc_counts ha
    have hbq : b ∉ q := not_mem_queue_of_held hP.nodup hb
    have hin : ∀ x ∈ q, x ∈ (s.held ++ q).erase b := by
      intro x hx
      have hxb : x ≠ b := fun hc => hbq (by rw [← hc]; exact hx)
      exact (List.mem_erase_of_ne hxb).2 (List.mem_append_right _ hx)
    exact keep f' (h2.mono hin) c1
      (fun x hx => weight_same hP h1 h2.cap (h2.nbufs x (hin x hx)))
  | free fuel b f' hb hown hf =>
    obtain ⟨h1, h2, _⟩ := free_inv hP (List.mem_append_left _ hb) hown hf
    rw [erase_append_held hb] at h1 h2
    obtain ⟨c1, _⟩ := free_counts hf
    exact keep f' (h2.mono (fun x hx => List.mem_append_right _ hx)) c1
      (fun x hx => weight_same hP h1 h2.cap (h2.nbufs x (List.mem_append_right _ hx)))
  | free_custom b hb hown => exact ⟨q, hQ.seg, D⟩
  | custom b hout hb hq => exact ⟨q, hQ.seg, D⟩
  | fill b type pts size decoder_flags hb =>
    refine ⟨q, hQ.seg, ?_⟩
    show s.f.fifo_size = wsum (fill s.f b type pts size decoder_flags) q
    rw [@wsum_congr s.f (fill s.f b type pts size decoder_flags) q (fun x _ => rfl)]
    exact D
  | put fuel b f' hb hp =>
    have hnd : q.Nodup := (List.nodup_append.1 hP.nodup).2.1
    have hbq : b ∉ q := not_mem_queue_of_held hP.nodup hb
    rcases put_counts hp with ⟨prev, hflag, hm, hf⟩ | ⟨hm, _, c2, _⟩
    · obtain ⟨_, g2, g3, g4, _⟩ := put_merge_inv hP hQ hb hm
      have hbo := merge_pool_owned hP hQ hb hm
      have hpq : prev ∈ q := List.mem_of_getLast?_eq_some g3
      have hpo : s.f.pool_owned prev = true := by
        by_contra hc
        have hna : ¬ (0 ≤ prev ∧ prev < s.f.buffer_pool_capacity) :=
          fun ha => hc ((hP.owned prev).2 ha)
        have h0 := hP.foreign prev hna
        rw [h0] at g4
        exact hbq (by rw [← g4]; simpa using hpq)
      subst hf
      refine ⟨q, g2.seg, ?_⟩
      have hw : ∀ x ∈ q, x ≠ prev →
          fifo_weight (put_merge (clear_merge_flag K s.f b) prev b) x = fifo_weight s.f x := by
        intro x _ hx
        show (if s.f.pool_owned x then upd s.f.nbufs prev (s.f.nbufs prev + s.f.nbufs b) x
          else 1) = _
        rw [upd_ne _ _ hx]
        rfl
      have hwp : fifo_weight (put_merge (clear_merge_flag K s.f b) prev b) prev
          = fifo_weight s.f prev + s.f.nbufs b := by
        show (if s.f.pool_owned prev then upd s.f.nbufs prev (s.f.nbufs prev + s.f.nbufs b) prev
          else 1) = _
        unfold fifo_weight
        rw [upd_same, hpo]
        rfl
      show s.f.fifo_size + s.f.nbufs b = _
      rw [wsum_upd hnd hpq hw, hwp, D]
      omega
    · obtain ⟨A, B, e1, _, g2, _⟩ := put_node_inv hP hQ hb hm hp
      refine ⟨A ++ b :: B, g2.seg, ?_⟩
      show f'.fifo_size = wsum f' (A ++ b :: B)
      rw [c2, @wsum_congr s.f f' (A ++ b :: B) (fun x _ => put_weights hm hp x), D, e1,
        wsum_append, wsum_append, wsum_cons]
      omega
  | insert b hb =>
    obtain ⟨_, g2⟩ := insert_inv hP hQ hb
    obtain ⟨_, c2, _⟩ := insert_counts s.f b
    refine ⟨b :: q, g2.seg, ?_⟩
    show (fifo_buffer_insert s.f b).fifo_size = wsum (fifo_buffer_insert s.f b) (b :: q)
    rw [c2, @wsum_congr s.f (fifo_buffer_insert s.f b) (b :: q) (fun x _ => rfl), D, wsum_cons]
    omega
  | get f' b hg =>
    obtain ⟨q', e1, e2, _, g2⟩ := get_inv hP hQ hg
    obtain ⟨_, _, c2, _⟩ := get_counts hg
    refine ⟨q', g2.seg, ?_⟩
    show f'.fifo_size = wsum f' q'
    rw [c2, D, e1, wsum_cons]
    have hw : wsum f' q' = wsum s.f q' := by
      rw [e2]
      exact wsum_congr (fun x _ => rfl)
    rw [hw]
    omega
  | clear fuel f' hc =>
    have hsingle := hk ⟨fuel, hc⟩
    obtain ⟨rs', g1, g2⟩ := clear_inv hP hQ hc
    obtain ⟨_, _, c3, c4, _⟩ := clear_fields hP hQ hc
    have hn := clear_nbufs hP hQ hc
    refine ⟨_, g2.seg, ?_⟩
    show f'.fifo_size = wsum f' (q.filter (is_control K s.f))
    rw [c4]
    refine (wsum_ones ?_).symm
    intro x hx
    rw [weight_same hP g1 c3 (hn x (List.mem_append_right _ hx))]
    exact hsingle q hQ.seg x (List.mem_of_mem_filter hx) (List.of_mem_filter hx)
  | fbc_set on_ =>
    obtain ⟨c1, _⟩ := fbc_set_counts s.f on_
    refine keep _ (fbc_set_Frame s.f on_ q) c1 ?_
    intro x _
    obtain ⟨w1, w2⟩ := fbc_set_weight s.f on_
    unfold fifo_weight
    rw [w1, w2]

/-- The states of `SizeReachable` are reachable. -/
theorem size_reachable {K : BufferH} {s : Sys} (h : SizeReachable K s) : Reachable K s := by
  induction h with
  | init n b => exact Reachable.init n b
  | step s s' _ hs _ ih => exact Reachable.step s s' ih hs

/-- In every state of `SizeReachable`, `fifo_size` is the sum of the weights of the queued
elements. -/
theorem size_reachable_sum {K : BufferH} {s : Sys} (h : SizeReachable K s) :
    ∀ q, Queue s.f q → s.f.fifo_size = wsum s.f q := by
  induction h with
  | init n b =>
    intro q hq
    have e : q = [] := Queue_unique hq (show Queue (Sys.init n b).f [] from rfl)
    rw [e]
    rfl
  | step s s' hr hs hk ih => exact step_size hs (reachable_inv (size_reachable hr)) hk ih

/-- A queue read off the heap whose control elements each weigh 1. -/
theorem single_of_list (K : BufferH) (f : Fifo) (n : Nat) (q : List Int)
    (h : fifo_list_from f n f.first = q) (hn : q.length < n)
    (hw : ∀ b ∈ q, is_control K f b = true → fifo_weight f b = 1) :
    clear_keeps_single K f := by
  intro q' hq' b hb hc
  have e : q' = q := Queue_unique hq' (Queue_of_list f n q h hn)
  subst e
  exact hw b hb hc

theorem sreach_alloc {K : BufferH} {s : Sys} (h : SizeReachable K s)
    (hk : clear_keeps_single K s.f) : SizeReachable K (s.alloc K) := by
  unfold Sys.alloc
  split
  · rename_i f' b ha
    exact SizeReachable.step _ _ h (Step.alloc s f' b ha) (fun _ => hk)
  · exact h

theorem sreach_size_alloc {K : BufferH} {s : Sys} (h : SizeReachable K s)
    (hk : clear_keeps_single K s.f) (fuel : Nat) (n : Int) :
    SizeReachable K (s.size_alloc K fuel n) := by
  unfold Sys.size_alloc
  split
  · rename_i f' b ha
    exact SizeReachable.step _ _ h (Step.size_alloc s fuel n f' b ha) (fun _ => hk)
  · exact h

theorem sreach_clear {K : BufferH} {s : Sys} (h : SizeReachable K s)
    (hk : clear_keeps_single K s.f) (fuel : Nat) : SizeReachable K (s.clear K fuel) := by
  unfold Sys.clear
  split
  · rename_i f' hc
    exact SizeReachable.step _ _ h (Step.clear s fuel f' hc) (fun _ => hk)
  · exact h

theorem sreach_put {K : BufferH} {s : Sys} (h : SizeReachable K s) (fuel : Nat) (b : Int)
    (type : Nat) (pts : Int) (flags : Nat) (hk : clear_keeps_single K s.f)
    (hk2 : clear_keeps_single K (fill s.f b type pts 0 flags)) :
    SizeReachable K (s.put K fuel b type pts flags) := by
  unfold Sys.put
  split
  · rename_i hb
    have h1 : SizeReachable K { s with f := fill s.f b type pts 0 flags } :=
      SizeReachable.step _ _ h (Step.fill s b type pts 0 flags hb) (fun _ => hk)
    split
    · rename_i f' hf
      exact SizeReachable.step _ _ h1 (Step.put _ fuel b f' hb hf) (fun _ => hk2)
    · exact h1
  · exact h

/-- C23, amended: the counter behind size() counts slabs, not elements.  After any sequence
of completed calls (the allocator calls, put with and without merge, insert, get, clear)
in which clear is called only while every queued control element spans one slab or is a
custom element, size() is the sum of the weights of the queued elements, the weight of an
element being its slab count for an element of the pool and 1 for a custom element: a queued
pool element that spans n slabs counts n.  Every queued element weighs at least 1, so that
size() is at least the number of queued elements, and larger when an element of more than one
slab is queued. -/
theorem C23_size_counts_slabs (K : BufferH) (s : Sys) (h : SizeReachable K s) :
    ∃ q, Queue s.f q ∧ fifo_buffer_size s.f = wsum s.f q ∧
      (∀ b ∈ q, fifo_weight s.f b = (if s.f.pool_owned b then s.f.nbufs b else 1) ∧
        1 ≤ fifo_weight s.f b) ∧
      (q.length : Int) ≤ fifo_buffer_size s.f ∧
      ((∃ b ∈ q, 1 < fifo_weight s.f b) → (q.length : Int) < fifo_buffer_size s.f) := by
  obtain ⟨rs, q, hP, hQ⟩ := reachable_inv (size_reachable h)
  have hs : fifo_buffer_size s.f = wsum s.f q := size_reachable_sum h q hQ.seg
  have hw : ∀ b ∈ q, 1 ≤ fifo_weight s.f b :=
    fun b hb => weight_pos hP (List.mem_append_right _ hb)
  refine ⟨q, hQ.seg, hs, fun b hb => ⟨rfl, hw b hb⟩, ?_, ?_⟩
  · rw [hs]; exact wsum_ge hw
  · intro hx
    rw [hs]; exact wsum_gt hw hx

/-- C23, amended, at the 10-slab pool in which the control element 0 and the video element 1
were put, the fifo was cleared and an element of 2 slabs was put: the queue holds the
elements 0 and 3, and size() is 3. -/
theorem C23_size_counts_slabs_witness :
    fifo_list_from cleared2.f 10 cleared2.f.first = [0, 3] ∧
    fifo_buffer_size cleared2.f = 3 ∧ fifo_weight cleared2.f 0 = 1 ∧
    fifo_weight cleared2.f 3 = 2 ∧
    ∃ q, Queue cleared2.f q ∧ fifo_buffer_size cleared2.f = wsum cleared2.f q ∧
      (∀ b ∈ q, fifo_weight cleared2.f b
          = (if cleared2.f.pool_owned b then cleared2.f.nbufs b else 1) ∧
        1 ≤ fifo_weight cleared2.f b) ∧
      (q.length : Int) ≤ fifo_buffer_size cleared2.f ∧
      ((∃ b ∈ q, 1 < fifo_weight cleared2.f b) →
        (q.length : Int) < fifo_buffer_size cleared2.f) :=
  ⟨by decide, by decide, by decide, by decide,
    C23_size_counts_slabs xineH cleared2
      (sreach_put
        (sreach_size_alloc
          (sreach_clear
            (sreach_put
              (sreach_put
                (sreach_alloc
                  (sreach_alloc
                    (sreach_alloc (SizeReachable.init 10 1024)
                      (single_of_list xineH _ 10 [] (by decide) (by decide) (by decide)))
                    (single_of_list xineH _ 10 [] (by decide) (by decide) (by decide)))
                  (single_of_list xineH _ 10 [] (by decide) (by decide) (by decide)))
                10 0 0x01000000 0 0
                (single_of_list xineH _ 10 [] (by decide) (by decide) (by decide))
                (single_of_list xineH _ 10 [] (by decide) (by decide) (by decide)))
              10 1 0x02000000 0 0
              (single_of_list xineH _ 10 [0] (by decide) (by decide) (by decide))
              (single_of_list xineH _ 10 [0] (by decide) (by decide) (by decide)))
            (single_of_list xineH _ 10 [0, 1] (by decide) (by decide) (by decide)) 10)
          (single_of_list xineH _ 10 [0] (by decide) (by decide) (by decide)) 10 2)
        10 3 0x02000000 0 0
        (single_of_list xineH _ 10 [0] (by decide) (by decide) (by decide))
        (single_of_list xineH _ 10 [0] (by decide) (by decide) (by decide)))⟩

/-- C23 as stated fails: an element of 2 slabs is taken from a fresh 10-slab pool and put;
the queue holds this one element, and size() returns 2. -/
theorem C23_size_counts_slabs_counterexample :
    scenario_size = .done ([0], 2, 2) := by
  decide

/-- C24: in every reachable state, that is after any sequence of completed calls, among them
put with and without merge, insert, get and clear, byte_size() is the sum of the sizes of the
queued elements modulo 2^32, and it is 0 when the queue is empty. -/
theorem C24_data_size_sum (K : BufferH) (s : Sys) (h : Reachable K s) :
    ∃ q, Queue s.f q ∧ fifo_buffer_data_size s.f = dsum s.f q % 4294967296 ∧
      (q = [] → fifo_buffer_data_size s.f = 0) := by
  obtain ⟨rs, q, hP, hQ⟩ := reachable_inv h
  have hd := reachable_data h q hQ.seg
  refine ⟨q, hQ.seg, hd, ?_⟩
  intro hq
  subst hq
  show s.f.fifo_data_size = 0
  rw [hd]
  rfl

/-- C24 at the 10-slab pool with the video elements 0 (100 bytes) and 1 (250 bytes) queued:
byte_size() is 350. -/
theorem C24_data_size_sum_witness :
    fifo_buffer_data_size sized2.f = 350 ∧
    ∃ q, Queue sized2.f q ∧ fifo_buffer_data_size sized2.f = dsum sized2.f q % 4294967296 ∧
      (q = [] → fifo_buffer_data_size sized2.f = 0) :=
  ⟨by decide,
    C24_data_size_sum xineH sized2
      (reach_put_sized (reach_put_sized reach_pool3 10 0 0x02000000 0 100 0)
        10 1 0x02000000 0 250 0)⟩

/-- The initial reservation of soft-start in terms of the floor division. -/
theorem fbc_initial_eq (f : Fifo) :
    fbc_initial f = (if f.buffer_pool_capacity * 3 / 4 < 75 then 0
      else f.buffer_pool_capacity * 3 / 4) := by
  unfold fbc_initial
  simp only
  rw [shr2_eq_div]

/-- C25: enabling soft-start on a fifo without alloc callbacks returns 1, installs the
soft-start callback and sets the reservation to floor(3 * capacity / 4) when that is at least
75 and to 0 otherwise; the availability that admits allocations is then the free count minus
that reservation; on a fresh pool of 100 slabs it is 100 - 75 = 25. -/
theorem C25_soft_start_enable (f : Fifo) (h : f.alloc_cb 0 = none) :
    (xine_fbc_set f true).2 = 1 ∧
    (xine_fbc_set f true).1.alloc_cb 0 = some fbc_dummy ∧
    (xine_fbc_set f true).1.alloc_cb_data 0
      = (if f.buffer_pool_capacity * 3 / 4 < 75 then 0 else f.buffer_pool_capacity * 3 / 4) ∧
    _fbc_avail (xine_fbc_set f true).1
      = f.buffer_pool_num_free
        - (if f.buffer_pool_capacity * 3 / 4 < 75 then 0 else f.buffer_pool_capacity * 3 / 4) ∧
    (_x_fifo_buffer_new 100 1024).buffer_pool_num_free = 100 ∧
    _fbc_avail (xine_fbc_set (_x_fifo_buffer_new 100 1024) true).1 = 25 := by
  have e : xine_fbc_set f true
      = ({ f with alloc_cb := fun i => if i = 0 then some fbc_dummy else f.alloc_cb i,
                  alloc_cb_data := fun i => if i = 0 then fbc_initial f else f.alloc_cb_data i },
          1) := by
    unfold xine_fbc_set
    rw [if_pos rfl, h]
  rw [e]
  refine ⟨rfl, rfl, ?_, ?_, by decide, by decide⟩
  · show fbc_initial f = _
    exact fbc_initial_eq f
  · unfold _fbc_avail
    simp only [if_true, ne_eq, not_true_eq_false, if_false]
    rw [fbc_initial_eq]

/-- C25 at a fresh pool of 100 slabs: the reservation is 75 and the availability 25. -/
theorem C25_soft_start_enable_witness :
    (_x_fifo_buffer_new 100 1024).alloc_cb 0 = none ∧
    (xine_fbc_set (_x_fifo_buffer_new 100 1024) true).2 = 1 ∧
    (xine_fbc_set (_x_fifo_buffer_new 100 1024) true).1.alloc_cb 0 = some fbc_dummy ∧
    (xine_fbc_set (_x_fifo_buffer_new 100 1024) true).1.alloc_cb_data 0
      = (if (_x_fifo_buffer_new 100 1024).buffer_pool_capacity * 3 / 4 < 75 then 0
          else (_x_fifo_buffer_new 100 1024).buffer_pool_capacity * 3 / 4) ∧
    _fbc_avail (xine_fbc_set (_x_fifo_buffer_new 100 1024) true).1
      = (_x_fifo_buffer_new 100 1024).buffer_pool_num_free
        - (if (_x_fifo_buffer_new 100 1024).buffer_pool_capacity * 3 / 4 < 75 then 0
            else (_x_fifo_buffer_new 100 1024).buffer_pool_capacity * 3 / 4) ∧
    (_x_fifo_buffer_new 100 1024).buffer_pool_num_free = 100 ∧
    _fbc_avail (xine_fbc_set (_x_fifo_buffer_new 100 1024) true).1 = 25 :=
  ⟨rfl, C25_soft_start_enable (_x_fifo_buffer_new 100 1024) rfl⟩

/-- C26, amended: with soft-start active the reservation is lowered by the releases, not by
the allocations.  A completed allocate or allocate_contiguous runs the alloc callbacks, which
are recorded, and leaves the reservation as it is, because the soft-start callback does
nothing; a completed release lowers the reservation by the slab count of the released
element, not below zero. -/
theorem C26_reservation_decay (K : BufferH) (f : Fifo) (hon : f.alloc_cb 0 = some fbc_dummy) :
    (∀ f' b, buffer_pool_alloc K f = .done (f', b) →
      f'.alloc_cb 0 = some fbc_dummy ∧ f'.alloc_cb_data 0 = f.alloc_cb_data 0 ∧
      f'.log = f.log ++ alloc_hook_calls f K.BUF_MAX_CALLBACKS 0) ∧
    (∀ fuel n f' b, _buffer_pool_size_alloc K fuel f n = .done (f', b) →
      f'.alloc_cb 0 = some fbc_dummy ∧ f'.alloc_cb_data 0 = f.alloc_cb_data 0 ∧
      f'.log = f.log ++ alloc_hook_calls f K.BUF_MAX_CALLBACKS 0) ∧
    (∀ fuel b f', buffer_pool_free fuel f b = .done f' →
      f'.alloc_cb 0 = some fbc_dummy ∧
      f'.alloc_cb_data 0
        = (if f.alloc_cb_data 0 - f.nbufs b < 0 then 0
            else f.alloc_cb_data 0 - f.nbufs b)) := by
  refine ⟨?_, ?_, ?_⟩
  · intro f' b ha
    obtain ⟨_, _, _, c4, c5, c6⟩ := alloc_counts ha
    exact ⟨by rw [c4]; exact hon, by rw [c5], c6⟩
  · intro fuel n f' b ha
    obtain ⟨c4, c5⟩ := size_alloc_cb ha
    obtain ⟨_, _, _, c6⟩ := size_alloc_counts ha
    exact ⟨by rw [c4]; exact hon, by rw [c5], c6⟩
  · intro fuel b f' hf
    exact free_reservation hon hf

/-- C26, amended, at a fresh pool of 100 slabs with soft-start enabled. -/
theorem C26_reservation_decay_witness :
    (xine_fbc_set (_x_fifo_buffer_new 100 1024) true).1.alloc_cb 0 = some fbc_dummy ∧
    ((∀ f' b, buffer_pool_alloc xineH (xine_fbc_set (_x_fifo_buffer_new 100 1024) true).1
        = .done (f', b) →
      f'.alloc_cb 0 = some fbc_dummy ∧
      f'.alloc_cb_data 0 = (xine_fbc_set (_x_fifo_buffer_new 100 1024) true).1.alloc_cb_data 0 ∧
      f'.log = (xine_fbc_set (_x_fifo_buffer_new 100 1024) true).1.log
        ++ alloc_hook_calls (xine_fbc_set (_x_fifo_buffer_new 100 1024) true).1
            xineH.BUF_MAX_CALLBACKS 0) ∧
    (∀ fuel n f' b,
      _buffer_pool_size_alloc xineH fuel (xine_fbc_set (_x_fifo_buffer_new 100 1024) true).1 n
        = .done (f', b) →
      f'.alloc_cb 0 = some fbc_dummy ∧
      f'.alloc_cb_data 0 = (xine_fbc_set (_x_fifo_buffer_new 100 1024) true).1.alloc_cb_data 0 ∧
      f'.log = (xine_fbc_set (_x_fifo_buffer_new 100 1024) true).1.log
        ++ alloc_hook_calls (xine_fbc_set (_x_fifo_buffer_new 100 1024) true).1
            xineH.BUF_MAX_CALLBACKS 0) ∧
    (∀ fuel b f',
      buffer_pool_free fuel (xine_fbc_set (_x_fifo_buffer_new 100 1024) true).1 b = .done f' →
      f'.alloc_cb 0 = some fbc_dummy ∧
      f'.alloc_cb_data 0
        = (if (xine_fbc_set (_x_fifo_buffer_new 100 1024) true).1.alloc_cb_data 0
              - (xine_fbc_set (_x_fifo_buffer_new 100 1024) true).1.nbufs b < 0 then 0
            else (xine_fbc_set (_x_fifo_buffer_new 100 1024) true).1.alloc_cb_data 0
              - (xine_fbc_set (_x_fifo_buffer_new 100 1024) true).1.nbufs b))) :=
  ⟨rfl, C26_reservation_decay xineH (xine_fbc_set (_x_fifo_buffer_new 100 1024) true).1 rfl⟩

/-- C26 as stated fails: soft-start is enabled on a fresh pool of 100 slabs, which sets the
reservation to 75 and the availability to 25; after the allocation of one element the
reservation is still 75 (and the availability 24); only the release of the element lowers it
to 74. -/
theorem C26_reservation_decay_counterexample :
    scenario_D = .done [(75, 25), (75, 24), (74, 26)] := by
  decide

/-- C27: in a reachable state with soft-start active, clear completes when given enough fuel
for the queue and the pool, and after every completed clear soft-start is still active and the
reservation is floor(3 * capacity / 4), or 0 if that is below 75, whatever it was before and
whatever the releases made by clear subtracted from it. -/
theorem C27_clear_resets_reservation (K : BufferH) (s : Sys) (h : Reachable K s)
    (hon : s.f.alloc_cb 0 = some fbc_dummy) :
    ∃ q, Queue s.f q ∧
      (∀ fuel, q.length < fuel → s.f.buffer_pool_capacity ≤ fuel →
        ∃ f', fifo_buffer_clear K fuel s.f = .done f') ∧
      (∀ fuel f', fifo_buffer_clear K fuel s.f = .done f' →
        f'.alloc_cb 0 = some fbc_dummy ∧
        f'.alloc_cb_data 0
          = (if s.f.buffer_pool_capacity * 3 / 4 < 75 then 0
              else s.f.buffer_pool_capacity * 3 / 4)) := by
  obtain ⟨rs, q, hP, hQ⟩ := reachable_inv h
  refine ⟨q, hQ.seg, ?_, ?_⟩
  · intro fuel h1 h2
    obtain ⟨f', _, e, _⟩ := clear_run hP hQ h1 h2
    exact ⟨f', e⟩
  · intro fuel f' hc
    obtain ⟨_, c2, _, _, _, c6⟩ := clear_fields hP hQ hc
    refine ⟨by rw [c2]; exact hon, ?_⟩
    rw [c6 hon, fbc_initial_eq]

/-- C27 at a pool of 100 slabs with soft-start active whose reservation has decayed to 74
and whose queue holds the video element 0 and the control element 1. -/
theorem C27_clear_resets_reservation_witness :
    soft_queue.f.alloc_cb 0 = some fbc_dummy ∧ soft_queue.f.alloc_cb_data 0 = 74 ∧
    ∃ q, Queue soft_queue.f q ∧
      (∀ fuel, q.length < fuel → soft_queue.f.buffer_pool_capacity ≤ fuel →
        ∃ f', fifo_buffer_clear xineH fuel soft_queue.f = .done f') ∧
      (∀ fuel f', fifo_buffer_clear xineH fuel soft_queue.f = .done f' →
        f'.alloc_cb 0 = some fbc_dummy ∧
        f'.alloc_cb_data 0
          = (if soft_queue.f.buffer_pool_capacity * 3 / 4 < 75 then 0
              else soft_queue.f.buffer_pool_capacity * 3 / 4)) :=
  ⟨by decide, by decide,
    C27_clear_resets_reservation xineH soft_queue
      (reach_put (reach_put (reach_free (reach_alloc (reach_alloc (reach_alloc
        (reach_fbc_set (Reachable.init 100 1024) true)))) 100 2) 100 0 0x02000000 0 0)
        100 1 0x01000000 0 0)
      (by decide)⟩

/-- C28: for every fifo state and for both arguments, a second call of xine_fbc_set with the
same argument yields the state and the return value of the first call. -/
theorem C28_fbc_set_idempotent (f : Fifo) ( on_ : Bool) :
    xine_fbc_set (xine_fbc_set f on_).1 on_ = xine_fbc_set f on_ := by
  cases on_ with
  | true =>
    unfold xine_fbc_set
    simp only [if_true]
    cases hc : f.alloc_cb 0 with
    | none => simp [fbc_dummy]
    | some cb => simp [hc]
  | false =>
    unfold xine_fbc_set
    simp only [Bool.false_eq_true, if_false]
    by_cases hc : f.alloc_cb 0 = some fbc_dummy
    · simp [hc]
    · simp [hc]

/-- The callbacks of an array whose first entry is null. -/
theorem hook_list_none (cb : Nat → Option Nat) (data : Nat → Int) (fuel i : Nat)
    (h : cb i = none) : hook_list cb data fuel i = [] := by
  cases fuel with
  | zero => rfl
  | succ n => unfold hook_list; rw [h]

/-- What `fifo_register_put_cb` does to the put callbacks. -/
theorem register_put_spec (K : BufferH) (f : Fifo) (c : Nat) (d : Int)
    (hwf : (put_hooks K f).length < K.BUF_MAX_CALLBACKS) :
    ((put_hooks K f).length + 1 < K.BUF_MAX_CALLBACKS →
      ∃ f', fifo_register_put_cb K f c d = .done f' ∧
        put_hooks K f' = put_hooks K f ++ [(c, d)]) ∧
    ((put_hooks K f).length + 1 = K.BUF_MAX_CALLBACKS →
      fifo_register_put_cb K f c d = .done f) := by
  obtain ⟨a, b⟩ := hook_add_spec K f.put_cb f.put_cb_data c d false hwf
  constructor
  · intro hlt
    obtain ⟨r, e1, e2⟩ := a hlt
    unfold fifo_register_put_cb
    rw [e1]
    exact ⟨_, rfl, e2⟩
  · intro heq
    unfold fifo_register_put_cb
    rw [b heq]

/-- What `fifo_register_get_cb` does to the get callbacks. -/
theorem register_get_spec (K : BufferH) (f : Fifo) (c : Nat) (d : Int)
    (hwf : (get_hooks K f).length < K.BUF_MAX_CALLBACKS) :
    ((get_hooks K f).length + 1 < K.BUF_MAX_CALLBACKS →
      ∃ f', fifo_register_get_cb K f c d = .done f' ∧
        get_hooks K f' = get_hooks K f ++ [(c, d)]) ∧
    ((get_hooks K f).length + 1 = K.BUF_MAX_CALLBACKS →
      fifo_register_get_cb K f c d = .done f) := by
  obtain ⟨a, b⟩ := hook_add_spec K f.get_cb f.get_cb_data c d false hwf
  constructor
  · intro hlt
    obtain ⟨r, e1, e2⟩ := a hlt
    unfold fifo_register_get_cb
    rw [e1]
    exact ⟨_, rfl, e2⟩
  · intro heq
    unfold fifo_register_get_cb
    rw [b heq]

/-- What `fifo_register_alloc_cb` does to the alloc callbacks when soft-start is off. -/
theorem register_alloc_spec (K : BufferH) (f : Fifo) (c : Nat) (d : Int)
    (hoff : f.alloc_cb 0 ≠ some fbc_dummy)
    (hwf : (alloc_hooks K f).length < K.BUF_MAX_CALLBACKS) :
    ((alloc_hooks K f).length + 1 < K.BUF_MAX_CALLBACKS →
      ∃ f', fifo_register_alloc_cb K f c d = .done f' ∧
        alloc_hooks K f' = alloc_hooks K f ++ [(c, d)]) ∧
    ((alloc_hooks K f).length + 1 = K.BUF_MAX_CALLBACKS →
      fifo_register_alloc_cb K f c d = .done f) := by
  have hdrop : drop_fbc_dummy f = f := by
    unfold drop_fbc_dummy
    rw [if_neg hoff]
  obtain ⟨a, b⟩ := hook_add_spec K f.alloc_cb f.alloc_cb_data c d true hwf
  constructor
  · intro hlt
    obtain ⟨r, e1, e2⟩ := a hlt
    unfold fifo_register_alloc_cb
    simp only
    rw [hdrop, e1]
    exact ⟨_, rfl, e2⟩
  · intro heq
    unfold fifo_register_alloc_cb
    simp only
    rw [hdrop, b heq]

/-- With soft-start on, `fifo_register_alloc_cb` removes the soft-start callback: the new
callback is the only one afterwards. -/
theorem register_alloc_soft (K : BufferH) (f : Fifo) (c : Nat) (d : Int)
    (hon : f.alloc_cb 0 = some fbc_dummy) (hK : 2 ≤ K.BUF_MAX_CALLBACKS) :
    (alloc_hooks K f).head? = some (fbc_dummy, f.alloc_cb_data 0) ∧
    ∃ f', fifo_register_alloc_cb K f c d = .done f' ∧ alloc_hooks K f' = [(c, d)] := by
  constructor
  · unfold alloc_hooks
    obtain ⟨m, hm⟩ : ∃ m, K.BUF_MAX_CALLBACKS = m + 1 := ⟨K.BUF_MAX_CALLBACKS - 1, by omega⟩
    rw [hm]
    unfold hook_list
    rw [hon]
    rfl
  · have h0 : (drop_fbc_dummy f).alloc_cb 0 = none := by
      unfold drop_fbc_dummy
      rw [if_pos hon]
      rfl
    have hl : hook_list (drop_fbc_dummy f).alloc_cb (drop_fbc_dummy f).alloc_cb_data
        K.BUF_MAX_CALLBACKS 0 = [] := hook_list_none _ _ _ _ h0
    obtain ⟨a, _⟩ := hook_add_spec K (drop_fbc_dummy f).alloc_cb (drop_fbc_dummy f).alloc_cb_data
      c d true (by rw [hl]; simp; omega)
    obtain ⟨r, e1, e2⟩ := a (by rw [hl]; simp; omega)
    unfold fifo_register_alloc_cb
    simp only
    rw [e1]
    refine ⟨_, rfl, ?_⟩
    rw [hl] at e2
    exact e2

/-- The record of callback calls after `dummy_fifo_buffer_put`. -/
theorem dummy_put_log {K : BufferH} {f f' : Fifo} {e : Int} {fuel : Nat}
    (h : dummy_fifo_buffer_put K fuel f e = .done f') :
    f'.log = f.log ++ put_hook_calls f e K.BUF_MAX_CALLBACKS 0 := by
  unfold dummy_fifo_buffer_put at h
  simp only at h
  split at h
  · obtain ⟨_, _, _, c4, _⟩ := free_counts h
    rw [c4]
    rfl
  · simp only [Outcome.done.injEq] at h
    subst h
    rfl

/-- C29, amended: put hooks do not see every put.  A completed put that folds the element
into the tail of the queue calls no put hook; a completed put that links the element in, and
every completed put of the discard variant, calls each registered put hook exactly once with
the element, in the order of the callback array, which is the registration order. -/
theorem C29_put_hooks_called (K : BufferH) (f : Fifo) (e : Int) (fuel : Nat) :
    (∀ f', fifo_buffer_put K fuel f e = .done f' →
      ((∃ prev, has_merge_flag K f e = true ∧
          put_merge_prev (clear_merge_flag K f e) e = some prev) → f'.log = f.log) ∧
      ((if has_merge_flag K f e = true then put_merge_prev (clear_merge_flag K f e) e
          else none) = none →
        f'.log = f.log ++ (put_hooks K f).map (fun h => HookCall.put h.1 e h.2))) ∧
    (∀ f', dummy_fifo_buffer_put K fuel f e = .done f' →
      f'.log = f.log ++ (put_hooks K f).map (fun h => HookCall.put h.1 e h.2)) := by
  constructor
  · intro f' hput
    rcases put_counts hput with ⟨prev, hflag, hm, hf⟩ | ⟨hm, _, _, _, hlog⟩
    · constructor
      · intro _
        rw [hf]
        rfl
      · intro hn
        rw [if_pos hflag, hm] at hn
        cases hn
    · constructor
      · rintro ⟨prev, hflag, hp⟩
        rw [if_pos hflag, hp] at hm
        cases hm
      · intro _
        rw [hlog, put_hook_calls_list]
        rfl
  · intro f' hd
    rw [dummy_put_log hd, put_hook_calls_list]
    rfl

/-- C29, amended, at a fresh fifo of 16 slabs with the put callback 7 registered with data
5: the discard variant of put, for the custom element 100, calls it once with the element. -/
theorem C29_put_hooks_called_witness :
    put_hooks xineH hooked16 = [(7, 5)] ∧
    dummy_fifo_buffer_put xineH 16 hooked16 100 = .done (run_put_cb xineH hooked16 100) ∧
    (run_put_cb xineH hooked16 100).log
      = hooked16.log ++ (put_hooks xineH hooked16).map (fun h => HookCall.put h.1 100 h.2) :=
  ⟨by decide, rfl, (C29_put_hooks_called xineH hooked16 100 16).2 _ rfl⟩

/-- C29 as stated fails: with the put callback 7 registered, the control element 0 is put
and then the control element 1 that carries the merge flag; element 1 is folded into element
0, and the callback has been called for element 0 only. -/
theorem C29_put_hooks_called_counterexample :
    scenario_merge_hooks = .done ([0], [HookCall.put 7 0 5]) := by
  decide

/-- C30, amended: registration appends and is capped, but registering an alloc hook while
soft-start is on removes the soft-start hook.  For a callback array with a null entry:
registering a put or get hook with fewer than BUF_MAX_CALLBACKS - 1 hooks present appends
the pair behind the existing ones, which are unchanged; with BUF_MAX_CALLBACKS - 1 present
it changes nothing; so any sequence of registrations leaves the first BUF_MAX_CALLBACKS - 1
of the existing and the new pairs, in order.  The same holds for an alloc hook when
soft-start is off; when it is on, the soft-start hook heads the alloc hooks before the
registration, and afterwards the new pair is the only alloc hook. -/
theorem C30_register_appends (K : BufferH) (f : Fifo) (c : Nat) (d : Int) :
    ((put_hooks K f).length < K.BUF_MAX_CALLBACKS →
      ((put_hooks K f).length + 1 < K.BUF_MAX_CALLBACKS →
        ∃ f', fifo_register_put_cb K f c d = .done f' ∧
          put_hooks K f' = put_hooks K f ++ [(c, d)]) ∧
      ((put_hooks K f).length + 1 = K.BUF_MAX_CALLBACKS →
        fifo_register_put_cb K f c d = .done f) ∧
      (∀ R, ∃ f', register_many (fifo_register_put_cb K) R f = .done f' ∧
        put_hooks K f' = (put_hooks K f ++ R).take (K.BUF_MAX_CALLBACKS - 1))) ∧
    ((get_hooks K f).length < K.BUF_MAX_CALLBACKS →
      ((get_hooks K f).length + 1 < K.BUF_MAX_CALLBACKS →
        ∃ f', fifo_register_get_cb K f c d = .done f' ∧
          get_hooks K f' = get_hooks K f ++ [(c, d)]) ∧
      ((get_hooks K f).length + 1 = K.BUF_MAX_CALLBACKS →
        fifo_register_get_cb K f c d = .done f) ∧
      (∀ R, ∃ f', register_many (fifo_register_get_cb K) R f = .done f' ∧
        get_hooks K f' = (get_hooks K f ++ R).take (K.BUF_MAX_CALLBACKS - 1))) ∧
    (f.alloc_cb 0 ≠ some fbc_dummy → (alloc_hooks K f).length < K.BUF_MAX_CALLBACKS →
      ((alloc_hooks K f).length + 1 < K.BUF_MAX_CALLBACKS →
        ∃ f', fifo_register_alloc_cb K f c d = .done f' ∧
          alloc_hooks K f' = alloc_hooks K f ++ [(c, d)]) ∧
      ((alloc_hooks K f).length + 1 = K.BUF_MAX_CALLBACKS →
        fifo_register_alloc_cb K f c d = .done f)) ∧
    (f.alloc_cb 0 = some fbc_dummy → 2 ≤ K.BUF_MAX_CALLBACKS →
      (alloc_hooks K f).head? = some (fbc_dummy, f.alloc_cb_data 0) ∧
      ∃ f', fifo_register_alloc_cb K f c d = .done f' ∧ alloc_hooks K f' = [(c, d)]) := by
  refine ⟨?_, ?_, ?_, ?_⟩
  · intro hwf
    obtain ⟨a, b⟩ := register_put_spec K f c d hwf
    exact ⟨a, b, fun R => register_many_take K.BUF_MAX_CALLBACKS (fifo_register_put_cb K)
      (put_hooks K) (fun g x y hg => register_put_spec K g x y hg) R f hwf⟩
  · intro hwf
    obtain ⟨a, b⟩ := register_get_spec K f c d hwf
    exact ⟨a, b, fun R => register_many_take K.BUF_MAX_CALLBACKS (fifo_register_get_cb K)
      (get_hooks K) (fun g x y hg => register_get_spec K g x y hg) R f hwf⟩
  · intro hoff hwf
    exact register_alloc_spec K f c d hoff hwf
  · intro hon hK
    exact register_alloc_soft K f c d hon hK

/-- C30, amended, at a fresh fifo of 16 slabs with the put callback 7 registered: a second
put callback is appended behind it, and of six more registrations the first three are
kept, which fills the array of BUF_MAX_CALLBACKS - 1 = 4 hooks. -/
theorem C30_register_appends_witness :
    (put_hooks xineH hooked16).length < xineH.BUF_MAX_CALLBACKS ∧
    (put_hooks xineH hooked16).length + 1 < xineH.BUF_MAX_CALLBACKS ∧
    (∃ f', fifo_register_put_cb xineH hooked16 8 9 = .done f' ∧
      put_hooks xineH f' = put_hooks xineH hooked16 ++ [(8, 9)]) ∧
    (∃ f', register_many (fifo_register_put_cb xineH)
        [(1, 10), (2, 20), (3, 30), (4, 40), (5, 50), (6, 60)] hooked16 = .done f' ∧
      put_hooks xineH f'
        = (put_hooks xineH hooked16 ++ [(1, 10), (2, 20), (3, 30), (4, 40), (5, 50), (6, 60)]).take
            (xineH.BUF_MAX_CALLBACKS - 1)) :=
  ⟨by decide, by decide,
    ((C30_register_appends xineH hooked16 8 9).1 (by decide)).1 (by decide),
    ((C30_register_appends xineH hooked16 8 9).1 (by decide)).2.2 _⟩

/-- C30 as stated fails: soft-start is enabled on a fresh pool of 100 slabs, so that the
alloc hooks are the soft-start hook with its reservation 75; after the alloc callback 7 is
registered with data 5, it is the only alloc hook: the existing hook was not kept. -/
theorem C30_register_appends_counterexample :
    scenario_register_alloc = .done ([(0, 75)], [(7, 5)]) := by
  decide

theorem Inv.log {K : BufferH} {s : Sys} (h : Inv K s) (e : Int) :
    Inv K { s with f := run_put_cb K s.f e } := by
  obtain ⟨rs, q, hP, hQ⟩ := h
  refine ⟨rs, q, hP.congr rfl rfl rfl hP.res rfl rfl rfl (fun _ _ => rfl), ?_⟩
  refine hQ.frame ?_ rfl rfl
  exact
    { first := rfl, last := rfl, la0 := rfl, la1 := rfl, cap := rfl
      next := fun _ _ => rfl
      type := fun _ _ => rfl
      nbufs := fun _ _ => rfl }

/-- Every call on a discard-variant fifo keeps the invariant and leaves the fifo empty. -/
theorem dstep_inv {K : BufferH} {s s' : Sys} (hs : DStep K s s')
    (h : Inv K s ∧ s.f.first = none ∧ s.f.fifo_size = 0 ∧ s.f.fifo_data_size = 0) :
    Inv K s' ∧ s'.f.first = none ∧ s'.f.fifo_size = 0 ∧ s'.f.fifo_data_size = 0 := by
  obtain ⟨hI, h1, h2, h3⟩ := h
  obtain ⟨rs, q, hP, hQ⟩ := hI
  have hI : Inv K s := ⟨rs, q, hP, hQ⟩
  cases hs with
  | alloc f' b ha =>
    obtain ⟨_, _, _, _, fr⟩ := alloc_done hP ha
    obtain ⟨c1, c2, _⟩ := alloc_counts ha
    exact ⟨step_inv (Step.alloc s f' b ha) hI, fr.first.trans h1, c1.trans h2, c2.trans h3⟩
  | size_alloc fuel n f' b ha =>
    obtain ⟨_, rs', _, _, fr, _⟩ := size_alloc_done hP ha
    obtain ⟨c1, c2, _⟩ := size_alloc_counts ha
    exact ⟨step_inv (Step.size_alloc s fuel n f' b ha) hI, fr.first.trans h1, c1.trans h2,
      c2.trans h3⟩
  | try_alloc =>
    obtain ⟨c1, c2, _⟩ := try_alloc_counts s.f
    refine ⟨step_inv (Step.try_alloc s) hI, ?_, c1.trans h2, c2.trans h3⟩
    rcases try_alloc_done hP with ⟨_, e1⟩ | ⟨r, rest, _, _, _, fr⟩
    · show (buffer_pool_try_alloc s.f).1.first = none
      rw [e1]; exact h1
    · exact fr.first.trans h1
  | realloc fuel b new_size f' r hb ha =>
    obtain ⟨rs', _, fr, _⟩ := realloc_done hP (List.mem_append_left _ hb) ha
    obtain ⟨c1, c2, _⟩ := realloc_counts ha
    exact ⟨step_inv (Step.realloc s fuel b new_size f' r hb ha) hI, fr.first.trans h1,
      c1.trans h2, c2.trans h3⟩
  | free fuel b f' hb hown hf =>
    obtain ⟨_, fr, _⟩ := free_inv hP (List.mem_append_left _ hb) hown hf
    obtain ⟨c1, c2, _⟩ := free_counts hf
    exact ⟨step_inv (Step.free s fuel b f' hb hown hf) hI, fr.first.trans h1, c1.trans h2,
      c2.trans h3⟩
  | free_custom b hb hown =>
    exact ⟨step_inv (Step.free_custom s b hb hown) hI, h1, h2, h3⟩
  | custom b hout hb hq =>
    exact ⟨step_inv (Step.custom s b hout hb hq) hI, h1, h2, h3⟩
  | fill b type pts size decoder_flags hb =>
    exact ⟨step_inv (Step.fill s b type pts size decoder_flags hb) hI, h1, h2, h3⟩
  | put fuel b f' hb hp =>
    have hI1 : Inv K { s with f := run_put_cb K s.f b } := hI.log b
    unfold dummy_fifo_buffer_put at hp
    simp only at hp
    split at hp
    · rename_i hown
      obtain ⟨rs1, q1, hP1, hQ1⟩ := hI1
      obtain ⟨_, fr, _⟩ := free_inv hP1 (List.mem_append_left _ hb) hown hp
      obtain ⟨c1, c2, _⟩ := free_counts hp
      exact ⟨step_inv (Step.free { s with f := run_put_cb K s.f b } fuel b f' hb hown hp)
        ⟨rs1, q1, hP1, hQ1⟩, fr.first.trans h1, c1.trans h2, c2.trans h3⟩
    · rename_i hown
      simp only [Outcome.done.injEq] at hp
      subst hp
      exact ⟨step_inv (Step.free_custom { s with f := run_put_cb K s.f b } b hb
        (by simpa using hown)) hI1, h1, h2, h3⟩
  | insert fuel b f' hb hp =>
    unfold dummy_fifo_buffer_insert at hp
    split at hp
    · rename_i hown
      obtain ⟨_, fr, _⟩ := free_inv hP (List.mem_append_left _ hb) hown hp
      obtain ⟨c1, c2, _⟩ := free_counts hp
      exact ⟨step_inv (Step.free s fuel b f' hb hown hp) hI, fr.first.trans h1, c1.trans h2,
        c2.trans h3⟩
    · rename_i hown
      simp only [Outcome.done.injEq] at hp
      subst hp
      exact ⟨step_inv (Step.free_custom s b hb (by simpa using hown)) hI, h1, h2, h3⟩
  | get f' b hg =>
    unfold fifo_buffer_get at hg
    rw [h1] at hg
    cases hg
  | clear fuel f' hc =>
    obtain ⟨rs0, hP0, hQ0⟩ := hI.empty h1
    have hP0' : PInv s.f rs0 (s.held ++ []) := by rw [List.append_nil]; exact hP0
    obtain ⟨rs', _, hQ'⟩ := clear_inv hP0' hQ0 hc
    obtain ⟨_, _, _, c4, c5, _⟩ := clear_fields hP0' hQ0 hc
    refine ⟨step_inv (Step.clear s fuel f' hc) hI, ?_, ?_, ?_⟩
    · have := hQ'.seg.head
      simpa using this
    · simpa using c4
    · simpa using c5
  | fbc_set on_ =>
    obtain ⟨c1, c2, _⟩ := fbc_set_counts s.f on_
    exact ⟨step_inv (Step.fbc_set s on_) hI, (fbc_set_Frame s.f on_ q).first.trans h1,
      c1.trans h2, c2.trans h3⟩

/-- In every state of a discard-variant fifo the invariant holds and the fifo is empty. -/
theorem dreachable_inv {K : BufferH} {s : Sys} (h : DReachable K s) :
    Inv K s ∧ s.f.first = none ∧ s.f.fifo_size = 0 ∧ s.f.fifo_data_size = 0 := by
  induction h with
  | init n b => exact ⟨init_inv K n b, rfl, rfl, rfl⟩
  | step s s' _ hs ih => exact dstep_inv hs ih

theorem dreach_alloc {K : BufferH} {s : Sys} (h : DReachable K s) :
    DReachable K (s.alloc K) := by
  unfold Sys.alloc
  split
  · rename_i f' b ha
    exact DReachable.step _ _ h (DStep.alloc s f' b ha)
  · exact h

/-- What the release of a held pool element does, when the fifo is empty. -/
theorem free_empty {s : Sys} {rs : List (Int × Int)} {e : Int} {fuel : Nat}
    (g : Fifo) (hP : PInv g rs s.held) (he : e ∈ s.held) (hown : g.pool_owned e = true)
    (hfuel : rs.length ≤ fuel) (h1 : g.first = none) (h2 : g.last = none)
    (h3 : g.fifo_size = 0) (h4 : g.fifo_data_size = 0) :
    ∃ f', buffer_pool_free fuel g e = .done f' ∧
      f'.first = none ∧ f'.last = none ∧ fifo_buffer_size f' = 0 ∧
      fifo_buffer_data_size f' = 0 ∧
      free_runs f' = free_spec e (g.nbufs e) (free_runs g) ∧
      (∀ j, cnt (free_runs f') j = ind e (g.nbufs e) j + cnt (free_runs g) j) ∧
      f'.buffer_pool_num_free = g.buffer_pool_num_free + g.nbufs e := by
  obtain ⟨f', hf, hP', fr, _⟩ := free_done hP he hown hfuel
  obtain ⟨c1, c2, _⟩ := free_counts hf
  have hpos : 0 < g.nbufs e := by
    have ha := (hP.owned e).1 hown
    have := hP.pos e he ha.1 ha.2
    omega
  refine ⟨f', hf, fr.first.trans h1, fr.last.trans h2, c1.trans h3, c2.trans h4, ?_, ?_, ?_⟩
  · rw [hP'.free_runs_eq, hP.free_runs_eq]
  · intro j
    rw [hP'.free_runs_eq, hP.free_runs_eq]
    exact cnt_free_spec e (g.nbufs e) hpos rs (FreeSeg_pos hP.seg) j
  · rw [hP'.nfree, hP.nfree, lsum_free_spec]
    omega

/-- C31: in every state of a discard-variant fifo the queue is empty (head and tail null,
size() = 0, byte_size() = 0).  For an element the client holds, put and insert of the discard
variant release it at once: a custom element is handed to its own release function, put
having called the put hooks; for a pool element, given fuel for the free-run list, both calls
complete, the queue is still empty afterwards, the free-run list is the one release makes,
which covers the slabs of the element in addition, and free_count has grown by the slab
count of the element. -/
theorem C31_discard_releases (K : BufferH) (s : Sys) (h : DReachable K s) (e : Int)
    (he : e ∈ s.held) :
    (s.f.first = none ∧ s.f.last = none ∧ fifo_buffer_size s.f = 0 ∧
      fifo_buffer_data_size s.f = 0) ∧
    (s.f.pool_owned e = false → ∀ fuel,
      dummy_fifo_buffer_put K fuel s.f e = .done (run_put_cb K s.f e) ∧
      dummy_fifo_buffer_insert fuel s.f e = .done s.f) ∧
    (s.f.pool_owned e = true → ∀ fuel, (free_runs s.f).length ≤ fuel →
      ∃ f1 f2, dummy_fifo_buffer_put K fuel s.f e = .done f1 ∧
        dummy_fifo_buffer_insert fuel s.f e = .done f2 ∧
        ∀ g, (g = f1 ∨ g = f2) →
          g.first = none ∧ g.last = none ∧ fifo_buffer_size g = 0 ∧
          fifo_buffer_data_size g = 0 ∧
          free_runs g = free_spec e (s.f.nbufs e) (free_runs s.f) ∧
          (∀ j, cnt (free_runs g) j = ind e (s.f.nbufs e) j + cnt (free_runs s.f) j) ∧
          g.buffer_pool_num_free = s.f.buffer_pool_num_free + s.f.nbufs e) := by
  obtain ⟨hI, h1, h2, h3⟩ := dreachable_inv h
  obtain ⟨rs, hP, hQ⟩ := hI.empty h1
  have hlast : s.f.last = none := hQ.last
  refine ⟨⟨h1, hlast, h2, h3⟩, ?_, ?_⟩
  · intro hown fuel
    constructor
    · unfold dummy_fifo_buffer_put
      simp only
      rw [if_neg]
      show ¬ (s.f.pool_owned e = true)
      rw [hown]; simp
    · unfold dummy_fifo_buffer_insert
      rw [if_neg]
      rw [hown]; simp
  · intro hown fuel hfuel
    rw [hP.free_runs_eq] at hfuel
    have hP1 : PInv (run_put_cb K s.f e) rs s.held :=
      hP.congr rfl rfl rfl hP.res rfl rfl rfl (fun _ _ => rfl)
    obtain ⟨f1, e1, a1, a2, a3, a4, a5, a6, a7⟩ :=
      @free_empty s rs e fuel (run_put_cb K s.f e) hP1 he hown hfuel h1 hlast h2 h3
    obtain ⟨f2, e2, b1, b2, b3, b4, b5, b6, b7⟩ :=
      @free_empty s rs e fuel s.f hP he hown hfuel h1 hlast h2 h3
    have hr : free_runs (run_put_cb K s.f e) = free_runs s.f := by
      rw [hP1.free_runs_eq, hP.free_runs_eq]
    refine ⟨f1, f2, ?_, ?_, ?_⟩
    · unfold dummy_fifo_buffer_put
      simp only
      rw [if_pos (show (run_put_cb K s.f e).pool_owned e = true from hown)]
      exact e1
    · unfold dummy_fifo_buffer_insert
      rw [if_pos hown]
      exact e2
    · intro g hg
      rcases hg with rfl | rfl
      · refine ⟨a1, a2, a3, a4, ?_, ?_, a7⟩
        · rw [a5, hr]; rfl
        · intro j; rw [a6 j, hr]; rfl
      · exact ⟨b1, b2, b3, b4, b5, b6, b7⟩

/-- C31 at the discard-variant fifo of a 10-slab pool with slabs 0, 1 and 2 handed out, for
the pool element 1. -/
theorem C31_discard_releases_witness :
    (1 : Int) ∈ pool3.held ∧ pool3.f.pool_owned 1 = true ∧
    ((pool3.f.first = none ∧ pool3.f.last = none ∧ fifo_buffer_size pool3.f = 0 ∧
      fifo_buffer_data_size pool3.f = 0) ∧
    (pool3.f.pool_owned 1 = false → ∀ fuel,
      dummy_fifo_buffer_put xineH fuel pool3.f 1 = .done (run_put_cb xineH pool3.f 1) ∧
      dummy_fifo_buffer_insert fuel pool3.f 1 = .done pool3.f) ∧
    (pool3.f.pool_owned 1 = true → ∀ fuel, (free_runs pool3.f).length ≤ fuel →
      ∃ f1 f2, dummy_fifo_buffer_put xineH fuel pool3.f 1 = .done f1 ∧
        dummy_fifo_buffer_insert fuel pool3.f 1 = .done f2 ∧
        ∀ g, (g = f1 ∨ g = f2) →
          g.first = none ∧ g.last = none ∧ fifo_buffer_size g = 0 ∧
          fifo_buffer_data_size g = 0 ∧
          free_runs g = free_spec 1 (pool3.f.nbufs 1) (free_runs pool3.f) ∧
          (∀ j, cnt (free_runs g) j = ind 1 (pool3.f.nbufs 1) j + cnt (free_runs pool3.f) j) ∧
          g.buffer_pool_num_free = pool3.f.buffer_pool_num_free + pool3.f.nbufs 1)) :=
  ⟨by decide, by decide,
    C31_discard_releases xineH pool3
      (dreach_alloc (dreach_alloc (dreach_alloc (DReachable.init 10 1024)))) 1 (by decide)⟩

/-- The state and the element that `fifo_buffer_tget` returns are those of `fifo_buffer_get`
on the state found when the wait ends, and its ticket calls are either none or one release
followed by one acquire. -/
theorem tget_spec (K : BufferH) (f wake : Fifo) (ticket busy revoked : Bool) :
    (∀ f' b calls, fifo_buffer_tget K f wake ticket busy revoked = .done (f', b, calls) →
      fifo_buffer_get K (if f.first = none then wake else f) = .done (f', b) ∧
      calls = (if ticket = true ∧ (busy = true ∨ f.first = none ∨ revoked = true) then
          [TicketCall.release, TicketCall.acquire] else [])) ∧
    ((if f.first = none then wake else f).first ≠ none →
      ∃ r, fifo_buffer_tget K f wake ticket busy revoked = .done r) := by
  unfold fifo_buffer_tget fifo_buffer_get
  simp only
  generalize (if f.first = none then wake else f) = g
  cases hg : g.first with
  | none =>
    simp
  | some buf =>
    simp only [ne_eq, not_false_eq_true, exists_prop, true_implies, reduceCtorEq]
    refine ⟨?_, ⟨_, rfl⟩⟩
    intro f' b calls h
    simp only [Outcome.done.injEq, Prod.mk.injEq] at h
    obtain ⟨e1, e2, e3⟩ := h
    refine ⟨by rw [← e1, ← e2], ?_⟩
    rw [← e3]
    cases ticket <;> cases busy <;> cases revoked <;> by_cases hf : f.first = none <;>
      simp [hf]

/-- C32, amended: get_with_ticket never returns with the ticket released.  Its ticket calls
are either none, or one release followed by one acquire: it releases the ticket it was given
when the queue lock is contended, when it has to wait on an empty queue, or when it finds the
ticket revoked after it took the element, and whenever it released it acquires again before
it returns.  The call returns once the queue is not empty, with the state and the element
that get returns on the state found at wake-up. -/
theorem C32_tget_ticket_calls (K : BufferH) (f wake : Fifo) (ticket busy revoked : Bool) :
    (∀ f' b calls, fifo_buffer_tget K f wake ticket busy revoked = .done (f', b, calls) →
      fifo_buffer_get K (if f.first = none then wake else f) = .done (f', b) ∧
      calls = (if ticket = true ∧ (busy = true ∨ f.first = none ∨ revoked = true) then
          [TicketCall.release, TicketCall.acquire] else []) ∧
      calls.getLast? ≠ some TicketCall.release) ∧
    ((if f.first = none then wake else f).first ≠ none →
      ∃ r, fifo_buffer_tget K f wake ticket busy revoked = .done r) := by
  obtain ⟨a, b⟩ := tget_spec K f wake ticket busy revoked
  refine ⟨?_, b⟩
  intro f' x calls h
  obtain ⟨c1, c2⟩ := a f' x calls h
  refine ⟨c1, c2, ?_⟩
  rw [c2]
  split <;> simp

/-- C32, amended, for a consumer that holds the ticket and calls get_with_ticket on the
empty fifo of a 10-slab pool, wakes up with the video elements 0 and 1 queued and finds the
ticket revoked. -/
theorem C32_tget_ticket_calls_witness :
    fifo_buffer_tget xineH pool3.f sized2.f true false true
      = .done (run_get_cb xineH (get_unlink sized2.f 0) 0, 0,
          [TicketCall.release, TicketCall.acquire]) ∧
    fifo_buffer_get xineH (if pool3.f.first = none then sized2.f else pool3.f)
      = .done (run_get_cb xineH (get_unlink sized2.f 0) 0, 0) ∧
    [TicketCall.release, TicketCall.acquire]
      = (if true = true ∧ (false = true ∨ pool3.f.first = none ∨ true = true) then
          [TicketCall.release, TicketCall.acquire] else []) ∧
    [TicketCall.release, TicketCall.acquire].getLast? ≠ some TicketCall.release :=
  ⟨rfl, (C32_tget_ticket_calls xineH pool3.f sized2.f true false true).1 _ _ _ rfl⟩

/-- C32 as stated fails: a consumer that holds the ticket calls get_with_ticket on an empty
fifo, so that it releases the ticket in order to wait, and finds the ticket revoked when it
wakes up; its ticket calls are release and then acquire. -/
theorem C32_tget_ticket_calls_counterexample :
    scenario_tget_revoked = .done (0, [TicketCall.release, TicketCall.acquire]) := by
  decide

/-- A cursor behind a prefix is the head link or the link behind an element of the prefix. -/
theorem qlink_cases (q : List Int) :
    qlink q = Link.first ∨ ∃ a ∈ q, qlink q = Link.next a := by
  unfold qlink
  cases hl : q.getLast? with
  | none => left; rfl
  | some a => right; exact ⟨a, List.mem_of_mem_getLast? (Option.mem_def.2 hl), rfl⟩

/-- C35: in every reachable state of a native fifo, that is after any sequence of completed
calls, among them put, insert, get and clear, the head is null exactly when the tail is
null, the tail is the last element reached from the head, and each of the two insertion
cursors is the head link or the next-link of an element that is in the queue.  A completed
get_with_ticket changes the state as get does on the state found at wake-up, so that it is
covered as a get. -/
theorem C35_queue_well_formed (K : BufferH) (s : Sys) (h : Reachable K s) :
    ∃ q, Queue s.f q ∧ s.f.native = true ∧
      (s.f.first = none ↔ s.f.last = none) ∧ s.f.first = q.head? ∧ s.f.last = q.getLast? ∧
      (s.f.last_add0 = Link.first ∨ ∃ a ∈ q, s.f.last_add0 = Link.next a) ∧
      (s.f.last_add1 = Link.first ∨ ∃ a ∈ q, s.f.last_add1 = Link.next a) ∧
      (∀ wake ticket busy revoked f' b calls,
        fifo_buffer_tget K s.f wake ticket busy revoked = .done (f', b, calls) →
        fifo_buffer_get K (if s.f.first = none then wake else s.f) = .done (f', b)) := by
  obtain ⟨rs, q, hP, hQ⟩ := reachable_inv h
  have hcur : ∀ link g, Cur K s.f q link g →
      (link = Link.first ∨ ∃ a ∈ q, link = Link.next a) := by
    rintro link g ⟨q1, q2, e1, e2, _⟩
    rcases qlink_cases q1 with h1 | ⟨a, ha, h1⟩
    · left; rw [e2]; exact h1
    · right
      exact ⟨a, by rw [e1]; exact List.mem_append_left _ ha, by rw [e2]; exact h1⟩
  refine ⟨q, hQ.seg, hP.native, ?_, hQ.seg.head, hQ.last, hcur _ _ hQ.cur0, hcur _ _ hQ.cur1, ?_⟩
  · rw [hQ.seg.head, hQ.last]
    cases q with
    | nil => simp
    | cons x t => simp [List.getLast?_cons_cons, List.getLast?_eq_getLast]
  · intro wake ticket busy revoked f' b calls ht
    exact ((tget_spec K s.f wake ticket busy revoked).1 f' b calls ht).1

/-- C35 at the 10-slab pool whose queue holds the elements 0, 1, 2 and 3. -/
theorem C35_queue_well_formed_witness :
    fifo_list_from queued4.f 10 queued4.f.first = [0, 1, 2, 3] ∧
    ∃ q, Queue queued4.f q ∧ queued4.f.native = true ∧
      (queued4.f.first = none ↔ queued4.f.last = none) ∧ queued4.f.first = q.head? ∧
      queued4.f.last = q.getLast? ∧
      (queued4.f.last_add0 = Link.first ∨ ∃ a ∈ q, queued4.f.last_add0 = Link.next a) ∧
      (queued4.f.last_add1 = Link.first ∨ ∃ a ∈ q, queued4.f.last_add1 = Link.next a) ∧
      (∀ wake ticket busy revoked f' b calls,
        fifo_buffer_tget xineH queued4.f wake ticket busy revoked = .done (f', b, calls) →
        fifo_buffer_get xineH (if queued4.f.first = none then wake else queued4.f)
          = .done (f', b)) :=
  ⟨by decide,
    C35_queue_well_formed xineH queued4
      (reach_put (reach_put (reach_put (reach_put (reach_alloc (reach_alloc reach_pool3))
        10 0 0x02000000 0 0) 10 1 0x02000000 0 0) 10 2 0x01000000 0 0) 10 3 0x02000000 0 0)⟩

/-- The insertion rule of `fifo_buffer_put` for an element of an audio/video or subtitle
group that is not folded into the tail: where the scan starts, where the element is linked
in, and the cursors afterwards. -/
theorem put_group_rule {K : BufferH} {s : Sys} {e : Int} {rs : List (Int × Int)} {q : List Int}
    {fuel : Nat} {f' : Fifo}
    (hP : PInv s.f rs (s.held ++ q)) (hQ : QInv K s q) (he : e ∈ s.held)
    (hm : (if has_merge_flag K s.f e = true then put_merge_prev (clear_merge_flag K s.f e) e
      else none) = none)
    (ht : tix K s.f e ≠ 0)
    (h : fifo_buffer_put K fuel s.f e = .done f') :
    ∃ A B1 B2, q = A ++ (B1 ++ B2) ∧
      (if tix K s.f e = 1 then s.f.last_add0 else s.f.last_add1) = qlink A ∧
      Queue f' (A ++ B1 ++ e :: B2) ∧
      (s.f.pts e = 0 → B1 = []) ∧
      (s.f.pts e ≠ 0 →
        (∀ x ∈ B1,
          s.f.pts x ≤ int64_wrap (s.f.pts e + (if tix K s.f e = 1 then 90000 else -90000))) ∧
        (∀ x ∈ B2.head?,
          s.f.pts x > int64_wrap (s.f.pts e + (if tix K s.f e = 1 then 90000 else -90000)))) ∧
      f'.last_add0 = (if tix K s.f e = 1 then Link.next e else s.f.last_add0) ∧
      f'.last_add1 = (if tix K s.f e = 1 then s.f.last_add1 else Link.next e) := by
  have h2 := tix_le_two K s.f e
  have hov : overlap (tix K s.f e - 1) = (if tix K s.f e = 1 then 90000 else -90000) := by
    unfold overlap
    by_cases h1 : tix K s.f e = 1
    · rw [h1]; rfl
    · rw [if_neg (by omega), if_neg h1]
  unfold fifo_buffer_put at h
  simp only at h
  rw [hm] at h
  simp only at h
  have hnat : (!_fifo_is_native (run_put_cb K (clear_merge_flag K s.f e) e)) = false := by
    show (!s.f.native) = false
    rw [hP.native]; rfl
  rw [hnat] at h
  simp only [Bool.false_eq_true, if_false] at h
  change (if tix K s.f e = 0 then _ else _) = _ at h
  rw [if_neg ht] at h
  split at h
  · cases h
  · rename_i link hfound
    simp only [Outcome.done.injEq] at h
    subst h
    change (if s.f.pts e ≠ 0 then
        put_scan (run_put_cb K (clear_merge_flag K s.f e) e)
          (int64_wrap (s.f.pts e + overlap (tix K s.f e - 1))) fuel
          ((run_put_cb K (clear_merge_flag K s.f e) e).last_add (tix K s.f e - 1))
      else some ((run_put_cb K (clear_merge_flag K s.f e) e).last_add (tix K s.f e - 1)))
        = some link at hfound
    have hcur : ∃ A0 B0, q = A0 ++ B0 ∧
        (run_put_cb K (clear_merge_flag K s.f e) e).last_add (tix K s.f e - 1) = qlink A0 ∧
        (if tix K s.f e = 1 then s.f.last_add0 else s.f.last_add1) = qlink A0 ∧
        ∀ x ∈ B0, tix K s.f x = 2 - (tix K s.f e - 1) := by
      by_cases h1 : tix K s.f e = 1
      · obtain ⟨A0, B0, e1, e2, e3⟩ := hQ.cur0
        refine ⟨A0, B0, e1, ?_, ?_, ?_⟩
        · rw [h1]; exact e2
        · rw [if_pos h1]; exact e2
        · rw [h1]; exact e3
      · have h1' : tix K s.f e = 2 := by omega
        obtain ⟨A0, B0, e1, e2, e3⟩ := hQ.cur1
        refine ⟨A0, B0, e1, ?_, ?_, ?_⟩
        · rw [h1']; exact e2
        · rw [if_neg h1]; exact e2
        · rw [h1']; exact e3
    obtain ⟨A0, B0, e1, e2, e2', e3⟩ := hcur
    rw [e2] at hfound
    subst e1
    have hplace : ∃ B1 B2, B0 = B1 ++ B2 ∧ link = qlink (A0 ++ B1) ∧
        (s.f.pts e ≠ 0 →
          (∀ x ∈ B1, s.f.pts x ≤ int64_wrap (s.f.pts e + overlap (tix K s.f e - 1))) ∧
          (∀ x ∈ B2.head?, s.f.pts x > int64_wrap (s.f.pts e + overlap (tix K s.f e - 1)))) ∧
        (s.f.pts e = 0 → B1 = []) := by
      by_cases hp : s.f.pts e ≠ 0
      · rw [if_pos hp] at hfound
        obtain ⟨B1, B2, c1, c2, c3, c4⟩ :=
          @put_scan_spec (run_put_cb K (clear_merge_flag K s.f e) e) _ fuel A0 B0 link
            hQ.seg hfound
        exact ⟨B1, B2, c1, c2, fun _ => ⟨c3, c4⟩, fun h0 => absurd h0 hp⟩
      · rw [if_neg hp] at hfound
        simp only [Option.some.injEq] at hfound
        exact ⟨[], B0, rfl, by rw [← hfound]; simp, fun h0 => absurd h0 hp, fun _ => rfl⟩
    obtain ⟨B1, B2, e4, e5, e6, e7⟩ := hplace
    subst e4 e5
    have hP' : PInv s.f rs (s.held ++ ((A0 ++ B1) ++ B2)) := by
      rw [List.append_assoc]; exact hP
    have hQ' : QInv K s ((A0 ++ B1) ++ B2) := by
      rw [List.append_assoc]; exact hQ
    obtain ⟨g1, g2⟩ := put_group_inv (tix K s.f e - 1) hP' hQ' he (by omega)
      (fun x hx => e3 x (List.mem_append_right _ hx))
    rw [hov] at e6
    refine ⟨A0, B1, B2, rfl, e2', g2.seg, e7, e6, ?_, ?_⟩
    · show (put_link (run_put_cb K (clear_merge_flag K s.f e) e) e (tix K s.f e - 1)
        (qlink (A0 ++ B1))).last_add0 = _
      rw [put_link_la0]
      by_cases h1 : tix K s.f e = 1
      · rw [if_pos h1, if_pos (by omega)]
      · rw [if_neg h1, if_neg (by omega)]
        rfl
    · show (put_link (run_put_cb K (clear_merge_flag K s.f e) e) e (tix K s.f e - 1)
        (qlink (A0 ++ B1))).last_add1 = _
      rw [put_link_la1]
      by_cases h1 : tix K s.f e = 1
      · rw [if_pos h1, if_pos (by omega)]
        rfl
      · rw [if_neg h1, if_neg (by omega)]

/-- C34, amended: the insertion rule holds for a put that links the element in; a non-fence
element that carries the merge flag and is folded into the tail is not linked in, and both
cursors stay as they are.  In a reachable state with queue q, put of a handed-out element of
an audio/video (group index 1) or subtitle (group index 2) group returns (given fuel above
the length of q); when the element is not folded, the queue is A ++ B1 ++ B2 where the cursor
of the group is the link behind A, the element is linked in behind B1, B1 is empty when its
time stamp is 0, and otherwise the time stamps in B1 are at most epts and the first element of
B2, if there is one, has a greater one, epts being the 64-bit sum of its own time stamp and
90000 (audio/video) or -90000 (subtitle), which is the exact sum when that fits 64 bits;
afterwards the cursor of the group is the link behind the element and the other cursor is
unchanged. -/
theorem C34_put_insertion_rule (K : BufferH) (s : Sys) (h : Reachable K s) (e : Int)
    (he : e ∈ s.held) (hg : tix K s.f e ≠ 0) (q : List Int) (hq : Queue s.f q) (fuel : Nat)
    (hfuel : q.length < fuel) :
    ∃ f', fifo_buffer_put K fuel s.f e = .done f' ∧
      ((has_merge_flag K s.f e = true ∧ Queue f' q ∧
          f'.last_add0 = s.f.last_add0 ∧ f'.last_add1 = s.f.last_add1) ∨
       (∃ A B1 B2, q = A ++ (B1 ++ B2) ∧
          (if tix K s.f e = 1 then s.f.last_add0 else s.f.last_add1) = qlink A ∧
          Queue f' (A ++ B1 ++ e :: B2) ∧
          (s.f.pts e = 0 → B1 = []) ∧
          (s.f.pts e ≠ 0 →
            (∀ x ∈ B1, s.f.pts x
              ≤ int64_wrap (s.f.pts e + (if tix K s.f e = 1 then 90000 else -90000))) ∧
            (∀ x ∈ B2.head?, s.f.pts x
              > int64_wrap (s.f.pts e + (if tix K s.f e = 1 then 90000 else -90000)))) ∧
          f'.last_add0 = (if tix K s.f e = 1 then Link.next e else s.f.last_add0) ∧
          f'.last_add1 = (if tix K s.f e = 1 then s.f.last_add1 else Link.next e))) ∧
      (-9223372036854775808 ≤ s.f.pts e + (if tix K s.f e = 1 then 90000 else -90000) →
        s.f.pts e + (if tix K s.f e = 1 then 90000 else -90000) ≤ 9223372036854775807 →
        int64_wrap (s.f.pts e + (if tix K s.f e = 1 then 90000 else -90000))
          = s.f.pts e + (if tix K s.f e = 1 then 90000 else -90000)) := by
  obtain ⟨rs, q', hP, hQ⟩ := reachable_inv h
  have hqq : q = q' := Queue_unique hq hQ.seg
  subst hqq
  obtain ⟨f', hput⟩ := put_total hP hQ e hfuel
  refine ⟨f', hput, ?_, ?_⟩
  · cases hm : (if has_merge_flag K s.f e = true then
        put_merge_prev (clear_merge_flag K s.f e) e else none) with
    | some prev =>
      left
      by_cases hflag : has_merge_flag K s.f e = true
      · rw [if_pos hflag] at hm
        obtain ⟨_, h2, _⟩ := put_merge_inv hP hQ he hm
        have hf : f' = put_merge (clear_merge_flag K s.f e) prev e := by
          unfold fifo_buffer_put at hput
          simp only at hput
          rw [if_pos hflag, hm] at hput
          simp only [Outcome.done.injEq] at hput
          exact hput.symm
        subst hf
        exact ⟨hflag, h2.seg, rfl, rfl⟩
      · rw [if_neg hflag] at hm
        cases hm
    | none =>
      right
      exact put_group_rule hP hQ he hm hg hput
  · intro h0 h1
    unfold int64_wrap
    simp only
    split <;> omega

/-- C34, amended, at the 10-slab pool whose queue holds the video element 0 (time stamp
100) and the subtitle elements 1 (time stamp 200000) and 2 (time stamp 300000), for the put
of element 3 as an audio element with time stamp 150000: the cursor of the audio/video group
is the link behind element 0, the scan passes element 1 and stops in front of element 2, and
afterwards the queue is 0, 1, 3, 2, the cursor of the group is the link behind element 3 and
the cursor of the subtitle group is still the link behind element 2. -/
theorem C34_put_insertion_rule_witness :
    (3 : Int) ∈ mux3a.held ∧ tix xineH mux3a.f 3 ≠ 0 ∧ Queue mux3a.f [0, 1, 2] ∧
    mux3a.f.last_add0 = Link.next 0 ∧ mux3a.f.last_add1 = Link.next 2 ∧
    (fifo_buffer_put xineH 10 mux3a.f 3).map
        (fun f => (fifo_list_from f 10 f.first, f.last_add0, f.last_add1))
      = .done ([0, 1, 3, 2], Link.next 3, Link.next 2) ∧
    ∃ f', fifo_buffer_put xineH 10 mux3a.f 3 = .done f' ∧
      ((has_merge_flag xineH mux3a.f 3 = true ∧ Queue f' [0, 1, 2] ∧
          f'.last_add0 = mux3a.f.last_add0 ∧ f'.last_add1 = mux3a.f.last_add1) ∨
       (∃ A B1 B2, [0, 1, 2] = A ++ (B1 ++ B2) ∧
          (if tix xineH mux3a.f 3 = 1 then mux3a.f.last_add0 else mux3a.f.last_add1) = qlink A ∧
          Queue f' (A ++ B1 ++ 3 :: B2) ∧
          (mux3a.f.pts 3 = 0 → B1 = []) ∧
          (mux3a.f.pts 3 ≠ 0 →
            (∀ x ∈ B1, mux3a.f.pts x
              ≤ int64_wrap (mux3a.f.pts 3
                + (if tix xineH mux3a.f 3 = 1 then 90000 else -90000))) ∧
            (∀ x ∈ B2.head?, mux3a.f.pts x
              > int64_wrap (mux3a.f.pts 3
                + (if tix xineH mux3a.f 3 = 1 then 90000 else -90000)))) ∧
          f'.last_add0 = (if tix xineH mux3a.f 3 = 1 then Link.next 3 else mux3a.f.last_add0) ∧
          f'.last_add1
            = (if tix xineH mux3a.f 3 = 1 then mux3a.f.last_add1 else Link.next 3))) ∧
      (-9223372036854775808
          ≤ mux3a.f.pts 3 + (if tix xineH mux3a.f 3 = 1 then 90000 else -90000) →
        mux3a.f.pts 3 + (if tix xineH mux3a.f 3 = 1 then 90000 else -90000)
          ≤ 9223372036854775807 →
        int64_wrap (mux3a.f.pts 3 + (if tix xineH mux3a.f 3 = 1 then 90000 else -90000))
          = mux3a.f.pts 3 + (if tix xineH mux3a.f 3 = 1 then 90000 else -90000)) :=
  ⟨by decide, by decide, Queue_of_list mux3a.f 10 [0, 1, 2] (by decide) (by decide),
    by decide, by decide, by decide,
    C34_put_insertion_rule xineH mux3a
      (reach_fill (reach_put (reach_put (reach_put (reach_alloc reach_pool3)
        10 0 0x02000000 100 0) 10 1 0x04000000 200000 0) 10 2 0x04000000 300000 0)
        3 0x03000000 150000 0)
      3 (by decide) (by decide) [0, 1, 2]
      (Queue_of_list mux3a.f 10 [0, 1, 2] (by decide) (by decide)) 10 (by decide)⟩

/-- C34 as stated fails, in two ways.  Two audio elements of a 16-slab pool are put, the
second carrying the merge flag; the second is folded into the first, so that the queue holds
element 0 only, now of 2 slabs, and the cursor of the group is the link behind element 0, not
a link behind the element that was put.  And a subtitle element with time stamp 5 and then an
audio element with the largest 64-bit time stamp are put into an empty fifo: no queued time
stamp is greater than that time stamp plus 90000, yet the audio element is linked in ahead of
the subtitle element and not at the tail, because the 64-bit sum is negative. -/
theorem C34_put_insertion_rule_counterexample :
    scenario_merge_cursor = .done ([0], 2, Link.next 0) ∧
    scenario_pts_wrap = .done ([1, 0], -9223372036854685809) := by
  decide

/-! ## Mutex calls -/

theorem seq_tr_done {α β : Type} (t : List LockEv) (a : α)
    (g : α → List LockEv × Outcome β) :
    seq_tr (t, Outcome.done a) g = (t ++ (g a).1, (g a).2) := rfl

theorem seq_tr_snd {α β : Type} (r : List LockEv × Outcome α)
    (g : α → List LockEv × Outcome β) :
    (seq_tr r g).2 = r.2.bind (fun a => (g a).2) := by
  obtain ⟨t, o⟩ := r
  cases o <;> rfl

theorem seq_tr_fst {α β : Type} (r : List LockEv × Outcome α)
    (g : α → List LockEv × Outcome β) :
    (seq_tr r g).1 = r.1 ++ (match r.2 with
      | .done a => (g a).1
      | _ => []) := by
  obtain ⟨t, o⟩ := r
  cases o <;> simp [seq_tr]

theorem takes_append (m : Mutex) (a b : List LockEv) :
    takes m (a ++ b) = (takes m a || takes m b) := by
  unfold takes
  simp [List.mem_append, Bool.decide_or]

theorem takes_nil (m : Mutex) : takes m [] = false := rfl

/-- Calls that never take the mutex `m` do not take it while another mutex is held. -/
theorem locks_inside_of_not_takes (o m : Mutex) :
    ∀ (t : List LockEv) (held : Bool), takes m t = false → locks_inside o m held t = false := by
  intro t
  induction t with
  | nil => intro _ _; rfl
  | cons ev t ih =>
    intro held h
    have ht : takes m t = false := by
      unfold takes at h ⊢
      simp only [List.mem_cons, decide_eq_false_iff_not, not_or] at h ⊢
      exact h.2
    cases ev with
    | lock x =>
      have hx : decide (x = m) = false := by
        unfold takes at h
        simp only [List.mem_cons, decide_eq_false_iff_not, not_or] at h
        rw [decide_eq_false_iff_not]
        intro hc
        exact h.1 (by rw [hc])
      show ((held && decide (x = m)) || locks_inside o m (held || decide (x = o)) t) = false
      rw [hx, ih _ ht]
      simp
    | unlock x => exact ih _ ht
    | wait x => exact ih _ ht

/-- The outcome of `buffer_pool_free_tr` is that of `buffer_pool_free`. -/
theorem free_tr_snd (fuel : Nat) (f : Fifo) (e : Int) :
    (buffer_pool_free_tr fuel f e).2 = buffer_pool_free fuel f e := by
  unfold buffer_pool_free_tr buffer_pool_free
  simp only
  split
  · rfl
  · split
    · rfl
    · split
      · rfl
      · split <;> rfl

/-- The mutex calls of `buffer_pool_free`: the pool mutex is taken, and given back when the
call returns. -/
theorem free_tr_fst (fuel : Nat) (f : Fifo) (e : Int) :
    (buffer_pool_free_tr fuel f e).1
      = match buffer_pool_free fuel f e with
        | .done _ => free_calls
        | _ => [LockEv.lock Mutex.pool] := by
  unfold buffer_pool_free_tr buffer_pool_free
  simp only
  split
  · rfl
  · split
    · rfl
    · split
      · rfl
      · split <;> rfl

/-- The outcome of `_buffer_pool_size_alloc_tr` is that of `_buffer_pool_size_alloc`. -/
theorem size_alloc_tr_snd (K : BufferH) (fuel : Nat) (f : Fifo) (n : Int) :
    (_buffer_pool_size_alloc_tr K fuel f n).2 = _buffer_pool_size_alloc K fuel f n := by
  unfold _buffer_pool_size_alloc_tr _buffer_pool_size_alloc
  simp only
  generalize (if n < 1 then 1 else n) = n'
  split
  · rfl
  · split
    · rfl
    · split
      · rfl
      · split <;> rfl

/-- The mutex calls of `_buffer_pool_size_alloc`: it waits on the pool mutex, or gives it
back, or does not return. -/
theorem size_alloc_tr_fst (K : BufferH) (fuel : Nat) (f : Fifo) (n : Int) :
    (_buffer_pool_size_alloc_tr K fuel f n).1 = [LockEv.unlock Mutex.pool] ∨
    (_buffer_pool_size_alloc_tr K fuel f n).1 = [LockEv.wait Mutex.pool] ∨
    (_buffer_pool_size_alloc_tr K fuel f n).1 = [] := by
  unfold _buffer_pool_size_alloc_tr
  simp only
  generalize (if n < 1 then 1 else n) = n'
  split
  · exact Or.inr (Or.inl rfl)
  · split
    · exact Or.inr (Or.inr rfl)
    · split
      · exact Or.inl rfl
      · split
        · exact Or.inl rfl
        all_goals exact Or.inr (Or.inr rfl)

/-- When `_buffer_pool_size_alloc` returns it has given the pool mutex back. -/
theorem size_alloc_tr_done {K : BufferH} {fuel : Nat} {f : Fifo} {n : Int} {r : Fifo × Int}
    (h : _buffer_pool_size_alloc K fuel f n = .done r) :
    (_buffer_pool_size_alloc_tr K fuel f n).1 = [LockEv.unlock Mutex.pool] := by
  unfold _buffer_pool_size_alloc at h
  unfold _buffer_pool_size_alloc_tr
  simp only at h ⊢
  generalize (if n < 1 then 1 else n) = n' at h ⊢
  split
  · rename_i hc
    rw [if_pos hc] at h
    cases h
  · rename_i hc
    rw [if_neg hc] at h
    split
    · rename_i ht
      rw [ht] at h
      cases h
    · rename_i buf ht
      rw [ht] at h
      simp only at h
      split
      · rfl
      · rename_i hn
        rw [if_neg hn] at h
        split
        · rfl
        all_goals (rename_i hs; rw [hs] at h; cases h)

/-- The outcome of `buffer_pool_alloc_tr` is that of `buffer_pool_alloc`. -/
theorem alloc_tr_snd (K : BufferH) (f : Fifo) :
    (buffer_pool_alloc_tr K f).2 = buffer_pool_alloc K f := by
  unfold buffer_pool_alloc_tr buffer_pool_alloc
  simp only
  split
  · rfl
  · split <;> rfl

/-- The mutex calls of `buffer_pool_alloc`. -/
theorem alloc_tr_fst (K : BufferH) (f : Fifo) :
    (buffer_pool_alloc_tr K f).1
      = match buffer_pool_alloc K f with
        | .done _ => [LockEv.lock Mutex.pool, LockEv.unlock Mutex.pool]
        | .wait => [LockEv.lock Mutex.pool, LockEv.wait Mutex.pool]
        | _ => [LockEv.lock Mutex.pool] := by
  unfold buffer_pool_alloc_tr buffer_pool_alloc
  simp only
  split
  · rfl
  · split <;> rfl

/-- The outcome of `buffer_pool_size_alloc_tr` is that of `buffer_pool_size_alloc`. -/
theorem size_alloc_bytes_tr_snd (K : BufferH) (fuel : Nat) (f : Fifo) (size : Nat) :
    (buffer_pool_size_alloc_tr K fuel f size).2 = buffer_pool_size_alloc K fuel f size := by
  unfold buffer_pool_size_alloc_tr buffer_pool_size_alloc
  split
  · exact alloc_tr_snd K f
  · split
    · rfl
    · simp only [seq_tr_done]
      exact size_alloc_tr_snd K fuel f _

/-- The outcome of `buffer_pool_try_alloc_tr` is that of `buffer_pool_try_alloc`. -/
theorem try_alloc_tr_snd (f : Fifo) :
    (buffer_pool_try_alloc_tr f).2 = buffer_pool_try_alloc f := by
  unfold buffer_pool_try_alloc_tr buffer_pool_try_alloc
  simp only
  split <;> rfl

/-- The mutex calls of `buffer_pool_try_alloc`. -/
theorem try_alloc_tr_fst (f : Fifo) :
    (buffer_pool_try_alloc_tr f).1 = [LockEv.lock Mutex.pool, LockEv.unlock Mutex.pool] := by
  unfold buffer_pool_try_alloc_tr
  simp only
  split <;> rfl

/-- The outcome of a traced allocation made with the pool mutex taken before. -/
theorem some_elem_tr_snd (t : List LockEv) (r : List LockEv × Outcome (Fifo × Int)) :
    (seq_tr (t, Outcome.done ()) fun _ => some_elem_tr r).2 = r.2.some_elem := rfl

/-- The outcome of `buffer_pool_realloc_tr` is that of `buffer_pool_realloc`. -/
theorem realloc_tr_snd (K : BufferH) (fuel : Nat) (f : Fifo) (b : Int) (new_size : Nat) :
    (buffer_pool_realloc_tr K fuel f b new_size).2 = buffer_pool_realloc K fuel f b new_size := by
  unfold buffer_pool_realloc_tr buffer_pool_realloc
  by_cases h1 : int_of_size_t new_size ≤ f.max_size b
  · simp only [if_pos h1]
  simp only [if_neg h1]
  by_cases h2 : (!f.pool_owned b) = true
  · simp only [if_pos h2]
  simp only [if_neg h2]
  by_cases h3 : (!_fifo_is_native f) = true
  · simp only [if_pos h3]
    show (buffer_pool_alloc_tr K f).2.some_elem = _
    rw [alloc_tr_snd]
  simp only [if_neg h3]
  by_cases h4 : int_div_traps (size_dividend f new_size) f.buffer_pool_buf_size = true
  · simp only [if_pos h4]
  simp only [if_neg h4]
  cases hfind : realloc_find f (b + f.nbufs b) fuel Link.pool_top with
  | none => rfl
  | some r =>
    obtain ⟨last_buf, nb⟩ := r
    cases nb with
    | none =>
      simp only
      rw [some_elem_tr_snd, size_alloc_tr_snd]
    | some new_buf =>
      simp only
      by_cases h5 : realloc_limit f (realloc_need f b new_size) < 1
      · simp only [if_pos h5]
        rw [some_elem_tr_snd, size_alloc_tr_snd]
      · simp only [if_neg h5]

/-- The outcome of `fifo_buffer_put_tr` is that of `fifo_buffer_put`. -/
theorem put_tr_snd (K : BufferH) (fuel : Nat) (f : Fifo) (e : Int) :
    (fifo_buffer_put_tr K fuel f e).2 = fifo_buffer_put K fuel f e := by
  unfold fifo_buffer_put_tr fifo_buffer_put
  simp only
  split
  · rfl
  · split
    · rfl
    · split
      · rfl
      · split <;> rfl

/-- The mutex calls of `fifo_buffer_put`: the fifo mutex is taken, and given back when the
call returns. -/
theorem put_tr_fst (K : BufferH) (fuel : Nat) (f : Fifo) (e : Int) :
    (fifo_buffer_put_tr K fuel f e).1
      = match fifo_buffer_put K fuel f e with
        | .done _ => [LockEv.lock Mutex.queue, LockEv.unlock Mutex.queue]
        | _ => [LockEv.lock Mutex.queue] := by
  unfold fifo_buffer_put_tr fifo_buffer_put
  simp only
  split
  · rfl
  · split
    · rfl
    · split
      · rfl
      · split <;> rfl

/-- The outcome of `fifo_buffer_get_tr` is that of `fifo_buffer_get`. -/
theorem get_tr_snd (K : BufferH) (f : Fifo) :
    (fifo_buffer_get_tr K f).2 = fifo_buffer_get K f := by
  unfold fifo_buffer_get_tr fifo_buffer_get
  simp only
  split <;> rfl

/-- The mutex calls of `fifo_buffer_get`. -/
theorem get_tr_fst (K : BufferH) (f : Fifo) :
    (fifo_buffer_get_tr K f).1
      = match fifo_buffer_get K f with
        | .done _ => [LockEv.lock Mutex.queue, LockEv.unlock Mutex.queue]
        | _ => [LockEv.lock Mutex.queue, LockEv.wait Mutex.queue] := by
  unfold fifo_buffer_get_tr fifo_buffer_get
  simp only
  split <;> rfl

/-- The outcome of `fifo_buffer_tget_tr` is that of `fifo_buffer_tget`. -/
theorem tget_tr_snd (K : BufferH) (f wake : Fifo) (ticket busy revoked : Bool) :
    (fifo_buffer_tget_tr K f wake ticket busy revoked).2
      = fifo_buffer_tget K f wake ticket busy revoked := by
  unfold fifo_buffer_tget_tr fifo_buffer_tget
  simp only
  split <;> rfl

/-- The mutex calls of `fifo_buffer_tget` are calls on the fifo mutex. -/
theorem tget_tr_fst (K : BufferH) (f wake : Fifo) (ticket busy revoked : Bool) :
    takes Mutex.pool (fifo_buffer_tget_tr K f wake ticket busy revoked).1 = false := by
  unfold fifo_buffer_tget_tr
  simp only
  split
  · show takes Mutex.pool (if f.first = none then _ else _) = false
    split <;> rfl
  · show takes Mutex.pool ((if f.first = none then _ else _) ++ [LockEv.unlock Mutex.queue])
      = false
    rw [takes_append]
    split <;> rfl

/-- The outcome of `xine_fbc_set_tr` is that of `xine_fbc_set`, and its mutex calls are the
fifo mutex taken and given back. -/
theorem fbc_set_tr_eq (f : Fifo) ( on_ : Bool) :
    (xine_fbc_set_tr f on_).2 = xine_fbc_set f on_ ∧
    (xine_fbc_set_tr f on_).1 = [LockEv.lock Mutex.queue, LockEv.unlock Mutex.queue] := by
  unfold xine_fbc_set_tr xine_fbc_set
  simp only
  split
  · split <;> exact ⟨rfl, rfl⟩
  · split <;> exact ⟨rfl, rfl⟩

/-- The outcome of `dummy_fifo_buffer_put_tr` is that of `dummy_fifo_buffer_put`. -/
theorem dummy_put_tr_snd (K : BufferH) (fuel : Nat) (f : Fifo) (e : Int) :
    (dummy_fifo_buffer_put_tr K fuel f e).2 = dummy_fifo_buffer_put K fuel f e := by
  unfold dummy_fifo_buffer_put_tr dummy_fifo_buffer_put
  simp only [seq_tr_done]
  split
  · exact free_tr_snd _ _ _
  · rfl

/-- The outcome of `clear_loop_tr` is that of `clear_loop`. -/
theorem clear_loop_tr_snd (K : BufferH) (fuel0 : Nat) :
    ∀ (fuel : Nat) (f : Fifo) (start : Option Int),
      (clear_loop_tr K fuel0 fuel f start).2 = clear_loop K fuel0 fuel f start := by
  intro fuel
  induction fuel with
  | zero =>
    intro f start
    cases start <;> rfl
  | succ fuel ih =>
    intro f start
    cases start with
    | none => rfl
    | some st =>
      unfold clear_loop_tr clear_loop
      split
      · split
        · rfl
        · exact ih _ _
      · split
        · exact ih _ _
        · split
          · rfl
          · rw [seq_tr_snd, free_tr_snd]
            generalize buffer_pool_free fuel0 (set_nbufs f st _) st = o
            cases o with
            | done g => exact ih _ _
            | wait => rfl
            | abort => rfl
            | fault => rfl
            | timeout => rfl

/-- The outcome of `fifo_buffer_clear_tr` is that of `fifo_buffer_clear`. -/
theorem clear_tr_snd (K : BufferH) (fuel : Nat) (f : Fifo) :
    (fifo_buffer_clear_tr K fuel f).2 = fifo_buffer_clear K fuel f := by
  unfold fifo_buffer_clear_tr fifo_buffer_clear
  rw [seq_tr_done]
  simp only
  rw [seq_tr_snd, clear_loop_tr_snd]
  generalize clear_loop K fuel fuel (clear_take f) f.first = o
  cases o <;> rfl

/-! ## Which mutex each function takes -/

theorem free_tr_takes (fuel : Nat) (f : Fifo) (e : Int) :
    takes Mutex.queue (buffer_pool_free_tr fuel f e).1 = false := by
  rw [free_tr_fst]
  split <;> rfl

theorem alloc_tr_takes (K : BufferH) (f : Fifo) :
    takes Mutex.queue (buffer_pool_alloc_tr K f).1 = false := by
  rw [alloc_tr_fst]
  split <;> rfl

theorem size_alloc_tr_takes (K : BufferH) (fuel : Nat) (f : Fifo) (n : Int) :
    takes Mutex.queue (_buffer_pool_size_alloc_tr K fuel f n).1 = false := by
  rcases size_alloc_tr_fst K fuel f n with h | h | h <;> rw [h] <;> rfl

theorem size_alloc_bytes_tr_takes (K : BufferH) (fuel : Nat) (f : Fifo) (size : Nat) :
    takes Mutex.queue (buffer_pool_size_alloc_tr K fuel f size).1 = false := by
  unfold buffer_pool_size_alloc_tr
  split
  · exact alloc_tr_takes K f
  · split
    · rfl
    · rw [seq_tr_done]
      show takes Mutex.queue ([LockEv.lock Mutex.pool] ++ _) = false
      rw [takes_append, size_alloc_tr_takes]
      rfl

theorem realloc_tr_takes (K : BufferH) (fuel : Nat) (f : Fifo) (b : Int) (new_size : Nat) :
    takes Mutex.queue (buffer_pool_realloc_tr K fuel f b new_size).1 = false := by
  have key : ∀ n, takes Mutex.queue
      (seq_tr ([LockEv.lock Mutex.pool], Outcome.done ()) fun _ =>
        some_elem_tr (_buffer_pool_size_alloc_tr K fuel f n)).1 = false := by
    intro n
    rw [seq_tr_done]
    show takes Mutex.queue ([LockEv.lock Mutex.pool] ++ (_buffer_pool_size_alloc_tr K fuel f n).1)
      = false
    rw [takes_append, size_alloc_tr_takes]
    rfl
  unfold buffer_pool_realloc_tr
  simp only
  split
  · rfl
  · split
    · rfl
    · split
      · exact alloc_tr_takes K f
      · split
        · rfl
        · split
          · rfl
          · exact key _
          · split
            · exact key _
            · rfl

theorem put_tr_takes (K : BufferH) (fuel : Nat) (f : Fifo) (e : Int) :
    takes Mutex.pool (fifo_buffer_put_tr K fuel f e).1 = false := by
  rw [put_tr_fst]
  split <;> rfl

theorem get_tr_takes (K : BufferH) (f : Fifo) :
    takes Mutex.pool (fifo_buffer_get_tr K f).1 = false := by
  rw [get_tr_fst]
  split <;> rfl

/-- The discard variant of put gives the fifo mutex back before it takes the pool mutex. -/
theorem dummy_put_tr_nest (K : BufferH) (fuel : Nat) (f : Fifo) (e : Int) :
    locks_inside Mutex.queue Mutex.pool false (dummy_fifo_buffer_put_tr K fuel f e).1 = false ∧
    locks_inside Mutex.pool Mutex.queue false (dummy_fifo_buffer_put_tr K fuel f e).1 = false := by
  unfold dummy_fifo_buffer_put_tr
  simp only [seq_tr_done]
  split
  · rw [free_tr_fst]
    split <;> exact ⟨rfl, rfl⟩
  · exact ⟨rfl, rfl⟩

theorem clear_loop_tr_succ (K : BufferH) (fuel0 fuel : Nat) (f : Fifo) (start : Int) :
    clear_loop_tr K fuel0 (fuel + 1) f (some start) =
      if is_control K f start then
        if f.first ≠ none ∧ f.last = none then ([], .fault)
        else clear_loop_tr K fuel0 fuel (clear_keep f start) (clear_keep_link f start start)
      else if !f.pool_owned start then
        clear_loop_tr K fuel0 fuel (clear_next f start) (f.next start)
      else
        match clear_chunk K f fuel0 start 0 with
        | none => ([], .timeout)
        | some (n, next) =>
          seq_tr (buffer_pool_free_tr fuel0 (set_nbufs f start n) start) fun f =>
            clear_loop_tr K fuel0 fuel f next := rfl

/-- The mutex calls made inside the loop of a completed `fifo_buffer_clear` are those of a
number of completed calls of `buffer_pool_free`. -/
theorem clear_loop_tr_shape (K : BufferH) (fuel0 : Nat) :
    ∀ (fuel : Nat) (f : Fifo) (start : Option Int) (f' : Fifo),
      clear_loop K fuel0 fuel f start = .done f' →
      ∃ k, (clear_loop_tr K fuel0 fuel f start).1 = (List.replicate k free_calls).flatten := by
  intro fuel
  induction fuel with
  | zero =>
    intro f start f' h
    cases start with
    | none => exact ⟨0, rfl⟩
    | some st => cases h
  | succ fuel ih =>
    intro f start f' h
    cases start with
    | none => exact ⟨0, rfl⟩
    | some st =>
      rw [clear_loop_succ] at h
      rw [clear_loop_tr_succ]
      by_cases hctl : is_control K f st = true
      · rw [if_pos hctl] at h ⊢
        by_cases hf : f.first ≠ none ∧ f.last = none
        · rw [if_pos hf] at h; cases h
        · rw [if_neg hf] at h ⊢
          exact ih _ _ _ h
      · rw [if_neg hctl] at h ⊢
        by_cases hown : (!f.pool_owned st) = true
        · rw [if_pos hown] at h ⊢
          exact ih _ _ _ h
        · rw [if_neg hown] at h ⊢
          cases hc : clear_chunk K f fuel0 st 0 with
          | none => rw [hc] at h; cases h
          | some r =>
            obtain ⟨n, next⟩ := r
            rw [hc] at h
            simp only at h ⊢
            rw [seq_tr_fst, free_tr_snd, free_tr_fst]
            cases hfree : buffer_pool_free fuel0 (set_nbufs f st n) st with
            | done g =>
              rw [hfree] at h
              simp only at h ⊢
              obtain ⟨k, hk⟩ := ih g next f' h
              exact ⟨k + 1, by rw [hk, List.replicate_succ, List.flatten_cons]⟩
            | wait => rw [hfree] at h; cases h
            | abort => rw [hfree] at h; cases h
            | fault => rw [hfree] at h; cases h
            | timeout => rw [hfree] at h; cases h

/-- The loop of `fifo_buffer_clear` takes the pool mutex when an element still to visit is a
pool element that is not a control element. -/
theorem clear_loop_tr_takes {K : BufferH} {fuel0 : Nat} {held : List Int} :
    ∀ (fuel : Nat) (f : Fifo) (start : Option Int) (kq rest : List Int) (rs : List (Int × Int))
      (f' : Fifo),
      PInv f rs (held ++ (kq ++ rest)) → QSeg f.next f.first kq none → f.last = kq.getLast? →
      QSeg f.next start rest none → clear_loop K fuel0 fuel f start = .done f' →
      (∃ x ∈ rest, is_control K f x = false ∧ f.pool_owned x = true) →
      takes Mutex.pool (clear_loop_tr K fuel0 fuel f start).1 = true := by
  intro fuel
  induction fuel with
  | zero =>
    intro f start kq rest rs f' hP hk hl hr h hx
    cases start with
    | some st => cases h
    | none =>
      obtain ⟨x, hxr, _⟩ := hx
      cases rest with
      | cons y _ => cases hr.1
      | nil => cases hxr
  | succ fuel ih =>
    intro f start kq rest rs f' hP hk hl hr h hx
    cases start with
    | none =>
      obtain ⟨x, hxr, _⟩ := hx
      cases rest with
      | cons y _ => cases hr.1
      | nil => cases hxr
    | some st =>
      obtain ⟨rest1, e, hr1⟩ := QSeg_cons_of_some hr
      subst e
      obtain ⟨x, hxr, hxc, hxo⟩ := hx
      rw [clear_loop_succ] at h
      rw [clear_loop_tr_succ]
      by_cases hctl : is_control K f st = true
      · obtain ⟨g1, g2, g3, g4, g5, g6⟩ := clear_keep_step hP hk hl hr1
        rw [if_pos hctl, if_neg g1, g2] at h
        rw [if_pos hctl, if_neg g1, g2]
        have hx1 : x ∈ rest1 := by
          rcases List.mem_cons.1 hxr with e | e
          · rw [e, hctl] at hxc; cases hxc
          · exact e
        exact ih _ _ (kq ++ [st]) rest1 rs f' g3 g4 g5 g6 h ⟨x, hx1, hxc, hxo⟩
      · rw [if_neg hctl] at h ⊢
        by_cases hown : f.pool_owned st = true
        · rw [hown] at h ⊢
          simp only [Bool.not_true, Bool.false_eq_true, if_false] at h ⊢
          cases hc : clear_chunk K f fuel0 st 0 with
          | none => rw [hc] at h; cases h
          | some r =>
            obtain ⟨n, next⟩ := r
            simp only
            rw [seq_tr_fst, takes_append, free_tr_fst]
            cases hfree : buffer_pool_free fuel0 (set_nbufs f st n) st <;> rfl
        · have hown' : f.pool_owned st = false := by simpa using hown
          rw [hown'] at h ⊢
          simp only [Bool.not_false, if_true] at h ⊢
          obtain ⟨g1, g2, g3⟩ := clear_custom_step hP hk hr1 hown'
          have hx1 : x ∈ rest1 := by
            rcases List.mem_cons.1 hxr with e | e
            · rw [e, hown'] at hxo; cases hxo
            · exact e
          exact ih _ _ kq rest1 rs f' g1 g2 hl g3 h ⟨x, hx1, hxc, hxo⟩

/-- A run of completed calls of `buffer_pool_free` never takes the fifo mutex. -/
theorem free_calls_no_queue (k : Nat) (t : List LockEv) :
    locks_inside Mutex.pool Mutex.queue false ((List.replicate k free_calls).flatten ++ t)
      = locks_inside Mutex.pool Mutex.queue false t := by
  induction k with
  | zero => simp
  | succ k ih =>
    rw [List.replicate_succ, List.flatten_cons, List.append_assoc]
    simp only [free_calls, List.cons_append, List.nil_append, locks_inside]
    simpa using ih

/-- A run of completed calls of `buffer_pool_free` that is not empty takes the pool mutex,
and it does so with the fifo mutex held when that is held at the start. -/
theorem free_calls_inside (k : Nat) (t : List LockEv)
    (h : takes Mutex.pool ((List.replicate k free_calls).flatten) = true) :
    locks_inside Mutex.queue Mutex.pool true ((List.replicate k free_calls).flatten ++ t)
      = true := by
  cases k with
  | zero => cases h
  | succ k => simp [List.replicate_succ, free_calls, locks_inside]

/-! ## What the pool operations leave of the fifo -/

theorem store_hooks (f : Fifo) (l : Link) (v : Option Int) :
    HooksSame f (f.store l v) ∧ (f.store l v).alloc_cb_data = f.alloc_cb_data := by
  cases l <;> exact ⟨⟨rfl, rfl, rfl, rfl, rfl, fun _ _ => rfl⟩, rfl⟩

theorem HooksSame.trans {f g h : Fifo} (a : HooksSame f g) (b : HooksSame g h) :
    HooksSame f h :=
  ⟨b.1.trans a.1, b.2.1.trans a.2.1, b.2.2.1.trans a.2.2.1, b.2.2.2.1.trans a.2.2.2.1,
    b.2.2.2.2.1.trans a.2.2.2.2.1, fun i hi => (b.2.2.2.2.2 i hi).trans (a.2.2.2.2.2 i hi)⟩

theorem hooks_same_rfl (f : Fifo) : HooksSame f f := ⟨rfl, rfl, rfl, rfl, rfl, fun _ _ => rfl⟩

theorem alloc_keeps_hooks {K : BufferH} {f f' : Fifo} {b : Int}
    (ha : buffer_pool_alloc K f = .done (f', b)) :
    HooksSame f f' ∧ f'.alloc_cb_data = f.alloc_cb_data := by
  unfold buffer_pool_alloc at ha
  simp only at ha
  split at ha
  · cases ha
  · split at ha
    · cases ha
    · cases ha
      exact ⟨⟨rfl, rfl, rfl, rfl, rfl, fun _ _ => rfl⟩, rfl⟩

theorem try_alloc_keeps_hooks (f : Fifo) :
    HooksSame f (buffer_pool_try_alloc f).1 ∧
    (buffer_pool_try_alloc f).1.alloc_cb_data = f.alloc_cb_data := by
  unfold buffer_pool_try_alloc
  split <;> exact ⟨⟨rfl, rfl, rfl, rfl, rfl, fun _ _ => rfl⟩, rfl⟩

theorem size_alloc_search_hooks {f : Fifo} {n : Int} :
    ∀ (fuel : Nat) (buf : Int) (link bestlink : Link) (bestsize : Int) (f1 : Fifo) (b m : Int),
      size_alloc_search f n fuel buf link bestlink bestsize = .done (f1, b, m) →
      HooksSame f f1 ∧ f1.alloc_cb_data = f.alloc_cb_data := by
  intro fuel
  induction fuel with
  | zero => intro buf link bl bs f1 b m h; cases h
  | succ k ih =>
    intro buf link bl bs f1 b m h
    rw [size_alloc_search_succ] at h
    split at h
    · cases h
      exact store_hooks (set_nbufs f _ _) _ _
    · split at h
      · cases h
        exact store_hooks _ _ _
      · split at h
        · exact ih _ _ _ _ _ _ _ h
        · split at h
          · cases h
          · cases h
            exact store_hooks _ _ _

theorem size_alloc_keeps_hooks {K : BufferH} {f f' : Fifo} {b n : Int} {fuel : Nat}
    (ha : _buffer_pool_size_alloc K fuel f n = .done (f', b)) :
    HooksSame f f' ∧ f'.alloc_cb_data = f.alloc_cb_data := by
  unfold _buffer_pool_size_alloc at ha
  simp only [fbc_avail_run_alloc_cb] at ha
  generalize (if n < 1 then 1 else n) = n' at ha
  split at ha
  · cases ha
  · split at ha
    · cases ha
    · split at ha
      · cases ha
        exact ⟨⟨rfl, rfl, rfl, rfl, rfl, fun _ _ => rfl⟩, rfl⟩
      · split at ha
        · rename_i f1 b1 m1 hs
          cases ha
          obtain ⟨c1, c2⟩ :=
            size_alloc_search_hooks (f := run_alloc_cb K f) _ _ _ _ _ _ _ _ hs
          exact ⟨c1, c2⟩
        all_goals cases ha

theorem realloc_grow_hooks (f : Fifo) (old : Int) (l : Link) (nb n : Int) :
    HooksSame f (realloc_grow f old l nb n) ∧
    (realloc_grow f old l nb n).alloc_cb_data = f.alloc_cb_data := by
  cases l <;> exact ⟨⟨rfl, rfl, rfl, rfl, rfl, fun _ _ => rfl⟩, rfl⟩

theorem realloc_keeps_hooks {K : BufferH} {f f' : Fifo} {b : Int} {fuel : Nat} {new_size : Nat}
    {res : Option Int} (ha : buffer_pool_realloc K fuel f b new_size = .done (f', res)) :
    HooksSame f f' ∧ f'.alloc_cb_data = f.alloc_cb_data := by
  have fallback : ∀ n, (_buffer_pool_size_alloc K fuel f n).some_elem = .done (f', res) →
      HooksSame f f' ∧ f'.alloc_cb_data = f.alloc_cb_data := by
    intro n hn
    obtain ⟨e, _, hd⟩ := some_elem_done hn
    exact size_alloc_keeps_hooks hd
  unfold buffer_pool_realloc at ha
  simp only at ha
  split at ha
  · cases ha
    exact ⟨hooks_same_rfl _, rfl⟩
  · split at ha
    · cases ha
      exact ⟨hooks_same_rfl _, rfl⟩
    · split at ha
      · obtain ⟨e, _, hd⟩ := some_elem_done ha
        exact alloc_keeps_hooks hd
      · split at ha
        · cases ha
        split at ha
        · cases ha
        · exact fallback _ ha
        · split at ha
          · exact fallback _ ha
          · cases ha
            exact realloc_grow_hooks f b _ _ _

theorem free_keeps_hooks {f f' : Fifo} {b : Int} {fuel : Nat}
    (hf : buffer_pool_free fuel f b = .done f') : HooksSame f f' := by
  unfold buffer_pool_free at hf
  simp only at hf
  have hsub : ∀ i, i ≠ 0 → (free_count f (f.nbufs b)).alloc_cb_data i = f.alloc_cb_data i := by
    intro i hi
    show (if f.alloc_cb 0 = some fbc_dummy ∧ i = 0 then _ else f.alloc_cb_data i) = _
    rw [if_neg (fun hc => hi hc.2)]
  split at hf
  · cases hf
  · split at hf
    · cases hf
      exact ⟨rfl, rfl, rfl, rfl, rfl, hsub⟩
    · split at hf
      · cases hf
        exact ⟨rfl, rfl, rfl, rfl, rfl, hsub⟩
      · split at hf
        · cases hf
        · cases hf
          exact ⟨rfl, rfl, rfl, rfl, rfl, hsub⟩

/-- A heap that keeps the frame of the outstanding elements, the counters and the callback
tables keeps what the fifo mutex is held for. -/
theorem queue_same_of {f f' : Fifo} {out q : List Int} (hfr : Frame f f' out)
    (hq : ∀ b ∈ q, b ∈ out) (h1 : f'.fifo_size = f.fifo_size)
    (h2 : f'.fifo_data_size = f.fifo_data_size) (hh : HooksSame f f') : QueueSame f f' q :=
  { first := hfr.first, last := hfr.last, size := h1, data := h2, la0 := hfr.la0,
    la1 := hfr.la1, next := fun b hb => hfr.next b (hq b hb), hooks := hh }

theorem try_alloc_res (f : Fifo) :
    (buffer_pool_try_alloc f).1.alloc_cb_data = f.alloc_cb_data := by
  unfold buffer_pool_try_alloc
  split <;> rfl

theorem realloc_res {K : BufferH} {f f' : Fifo} {b : Int} {fuel : Nat} {new_size : Nat}
    {res : Option Int} (ha : buffer_pool_realloc K fuel f b new_size = .done (f', res)) :
    f'.alloc_cb_data = f.alloc_cb_data := by
  have fallback : ∀ n, (_buffer_pool_size_alloc K fuel f n).some_elem = .done (f', res) →
      f'.alloc_cb_data = f.alloc_cb_data := by
    intro n hn
    obtain ⟨e, _, hd⟩ := some_elem_done hn
    exact (size_alloc_cb hd).2
  unfold buffer_pool_realloc at ha
  simp only at ha
  split at ha
  · cases ha; rfl
  · split at ha
    · cases ha; rfl
    · split at ha
      · obtain ⟨e, _, hd⟩ := some_elem_done ha
        exact (alloc_counts hd).2.2.2.2.1
      · split at ha
        · cases ha
        split at ha
        · cases ha
        · exact fallback _ ha
        · split at ha
          · exact fallback _ ha
          · cases ha
            exact realloc_grow_res _ _ _ _ _

theorem put_res {K : BufferH} {f f' : Fifo} {e : Int} {fuel : Nat}
    (h : fifo_buffer_put K fuel f e = .done f') : f'.alloc_cb_data = f.alloc_cb_data := by
  unfold fifo_buffer_put at h
  simp only at h
  split at h
  · cases h; rfl
  · split at h
    · cases h; rfl
    · split at h
      · cases h
        exact put_fence_res (run_put_cb K (clear_merge_flag K f e) e) e
      · split at h
        · cases h
        · cases h
          rename_i link _
          exact put_link_res (run_put_cb K (clear_merge_flag K f e) e) e
            (_fifo_buf_type_index K
              (((run_put_cb K (clear_merge_flag K f e) e).type e % 4294967296) >>> 24) - 1) link

theorem get_res {K : BufferH} {f f' : Fifo} {b : Int}
    (h : fifo_buffer_get K f = .done (f', b)) : f'.alloc_cb_data = f.alloc_cb_data := by
  unfold fifo_buffer_get at h
  split at h
  · cases h
  · cases h; rfl

/-- The callbacks and their data after `buffer_pool_free`: only `_fbc_sub` touches them. -/
theorem free_fbc_sub {f f' : Fifo} {b : Int} {fuel : Nat}
    (hf : buffer_pool_free fuel f b = .done f') :
    f'.alloc_cb = f.alloc_cb ∧ f'.alloc_cb_data = (_fbc_sub f (f.nbufs b)).alloc_cb_data := by
  unfold buffer_pool_free at hf
  simp only at hf
  split at hf
  · cases hf
  · split at hf
    · cases hf
      exact ⟨rfl, rfl⟩
    · split at hf
      · cases hf
        exact ⟨rfl, rfl⟩
      · split at hf
        · cases hf
        · cases hf
          exact ⟨rfl, rfl⟩

/-- With soft-start on, a call either does not raise the reservation or sets it to its
initial value. -/
theorem step_reservation {K : BufferH} {s s' : Sys} (hs : Step K s s') (hinv : Inv K s)
    (hon : s.f.alloc_cb 0 = some fbc_dummy) :
    s'.f.alloc_cb_data 0 ≤ s.f.alloc_cb_data 0 ∨ s'.f.alloc_cb_data 0 = fbc_initial s.f := by
  obtain ⟨rs, q, hP, hQ⟩ := hinv
  cases hs with
  | alloc f' b ha =>
    left
    show f'.alloc_cb_data 0 ≤ _
    rw [(alloc_counts ha).2.2.2.2.1]
  | size_alloc fuel n f' b ha =>
    left
    show f'.alloc_cb_data 0 ≤ _
    rw [(size_alloc_cb ha).2]
  | try_alloc =>
    left
    show (buffer_pool_try_alloc s.f).1.alloc_cb_data 0 ≤ _
    rw [try_alloc_res]
  | realloc fuel b new_size f' r hb ha =>
    left
    show f'.alloc_cb_data 0 ≤ _
    rw [realloc_res ha]
  | free fuel b f' hb hown hf =>
    left
    show f'.alloc_cb_data 0 ≤ _
    rw [(free_reservation hon hf).2]
    have h0 := hP.res
    have h1 := hP.nbufs_nonneg (List.mem_append_left q hb)
    split <;> omega
  | free_custom b hb hown => left; exact le_refl _
  | custom b hout hb hq => left; exact le_refl _
  | fill b type pts size decoder_flags hb => left; exact le_refl _
  | put fuel b f' hb hp =>
    left
    show f'.alloc_cb_data 0 ≤ _
    rw [put_res hp]
  | insert b hb => left; exact le_refl _
  | get f' b hg =>
    left
    show f'.alloc_cb_data 0 ≤ _
    rw [get_res hg]
  | clear fuel f' hc =>
    right
    exact (clear_fields hP hQ hc).2.2.2.2.2 hon
  | fbc_set on_ =>
    left
    show (xine_fbc_set s.f on_).1.alloc_cb_data 0 ≤ _
    unfold xine_fbc_set
    cases on_ with
    | true =>
      simp only [if_true]
      rw [hon]
    | false =>
      simp only [Bool.false_eq_true, if_false]
      rw [if_pos hon]
      exact hP.res

/-- C38: in a reachable state the first alloc hook datum, which is the reservation when
soft-start is active, is not negative.  A completed release of an element of n slabs with
soft-start active and reservation r keeps soft-start active and sets the reservation to
max(0, r - n); without soft-start it leaves the alloc hooks and their data as they are.
With soft-start active, no completed call raises the reservation, except that clear sets it
to its initial value. -/
theorem C38_release_reservation (K : BufferH) (s : Sys) (h : Reachable K s) :
    0 ≤ s.f.alloc_cb_data 0 ∧
    (∀ fuel b f', buffer_pool_free fuel s.f b = .done f' →
      (s.f.alloc_cb 0 = some fbc_dummy →
        f'.alloc_cb 0 = some fbc_dummy ∧
        f'.alloc_cb_data 0 = max 0 (s.f.alloc_cb_data 0 - s.f.nbufs b)) ∧
      (s.f.alloc_cb 0 ≠ some fbc_dummy →
        f'.alloc_cb = s.f.alloc_cb ∧ f'.alloc_cb_data = s.f.alloc_cb_data)) ∧
    (∀ s', Step K s s' → s.f.alloc_cb 0 = some fbc_dummy →
      s'.f.alloc_cb_data 0 ≤ s.f.alloc_cb_data 0 ∨
      s'.f.alloc_cb_data 0
        = (if s.f.buffer_pool_capacity * 3 / 4 < 75 then 0
            else s.f.buffer_pool_capacity * 3 / 4)) := by
  have hinv := reachable_inv h
  obtain ⟨rs, q, hP, hQ⟩ := hinv
  refine ⟨hP.res, ?_, ?_⟩
  · intro fuel b f' hf
    constructor
    · intro hon
      obtain ⟨a1, a2⟩ := free_reservation hon hf
      refine ⟨a1, ?_⟩
      rw [a2]
      split
      · rw [max_eq_left (by omega)]
      · rw [max_eq_right (by omega)]
    · intro hoff
      obtain ⟨a1, a2⟩ := free_fbc_sub hf
      refine ⟨a1, ?_⟩
      rw [a2]
      funext i
      show (if s.f.alloc_cb 0 = some fbc_dummy ∧ i = 0 then _ else s.f.alloc_cb_data i) = _
      rw [if_neg (fun hc => hoff hc.1)]
  · intro s' hs hon
    rw [← fbc_initial_eq]
    exact step_reservation hs ⟨rs, q, hP, hQ⟩ hon

/-- C38 at a pool of 100 slabs with soft-start active and reservation 74. -/
theorem C38_release_reservation_witness :
    soft_queue.f.alloc_cb 0 = some fbc_dummy ∧ soft_queue.f.alloc_cb_data 0 = 74 ∧
    (0 ≤ soft_queue.f.alloc_cb_data 0 ∧
    (∀ fuel b f', buffer_pool_free fuel soft_queue.f b = .done f' →
      (soft_queue.f.alloc_cb 0 = some fbc_dummy →
        f'.alloc_cb 0 = some fbc_dummy ∧
        f'.alloc_cb_data 0 = max 0 (soft_queue.f.alloc_cb_data 0 - soft_queue.f.nbufs b)) ∧
      (soft_queue.f.alloc_cb 0 ≠ some fbc_dummy →
        f'.alloc_cb = soft_queue.f.alloc_cb ∧ f'.alloc_cb_data = soft_queue.f.alloc_cb_data)) ∧
    (∀ s', Step xineH soft_queue s' → soft_queue.f.alloc_cb 0 = some fbc_dummy →
      s'.f.alloc_cb_data 0 ≤ soft_queue.f.alloc_cb_data 0 ∨
      s'.f.alloc_cb_data 0
        = (if soft_queue.f.buffer_pool_capacity * 3 / 4 < 75 then 0
            else soft_queue.f.buffer_pool_capacity * 3 / 4))) :=
  ⟨by decide, by decide,
    C38_release_reservation xineH soft_queue
      (reach_put (reach_put (reach_free (reach_alloc (reach_alloc (reach_alloc
        (reach_fbc_set (Reachable.init 100 1024) true)))) 100 2) 100 0 0x02000000 0 0)
        100 1 0x01000000 0 0)⟩

/-- C39: registering an alloc hook other than the soft-start hook on a fifo whose soft-start
is active (the callback array has at least 2 entries) completes and switches soft-start off:
afterwards the new hook with its context is in the first alloc slot and is the only alloc
hook, the availability that admits allocations is free_count, which the call does not
change, and a following xine_fbc_set(on) returns 0 and changes nothing. -/
theorem C39_register_alloc_soft_off (K : BufferH) (f : Fifo) (c : Nat) (d : Int)
    (hon : f.alloc_cb 0 = some fbc_dummy) (hK : 2 ≤ K.BUF_MAX_CALLBACKS)
    (hc : c ≠ fbc_dummy) :
    ∃ f', fifo_register_alloc_cb K f c d = .done f' ∧
      f'.alloc_cb 0 = some c ∧ f'.alloc_cb_data 0 = d ∧ alloc_hooks K f' = [(c, d)] ∧
      f'.buffer_pool_num_free = f.buffer_pool_num_free ∧
      _fbc_avail f' = f.buffer_pool_num_free ∧
      xine_fbc_set f' true = (f', 0) := by
  obtain ⟨_, f', e1, e2⟩ := register_alloc_soft K f c d hon hK
  have hcap : ∃ m, K.BUF_MAX_CALLBACKS = m + 2 := ⟨K.BUF_MAX_CALLBACKS - 2, by omega⟩
  obtain ⟨m, hm⟩ := hcap
  have h0 : f'.alloc_cb 0 = some c ∧ f'.alloc_cb_data 0 = d := by
    unfold alloc_hooks at e2
    rw [hm] at e2
    unfold hook_list at e2
    cases hx : f'.alloc_cb 0 with
    | none => rw [hx] at e2; cases e2
    | some x =>
      rw [hx] at e2
      simp only [List.cons.injEq, Prod.mk.injEq] at e2
      exact ⟨by rw [e2.1.1], e2.1.2⟩
  have hfree : f'.buffer_pool_num_free = f.buffer_pool_num_free := by
    unfold fifo_register_alloc_cb at e1
    simp only at e1
    split at e1
    · cases e1
    · simp only [Outcome.done.injEq] at e1
      rw [← e1]
      show (drop_fbc_dummy f).buffer_pool_num_free = _
      unfold drop_fbc_dummy
      rw [if_pos hon]
  have hne : f'.alloc_cb 0 ≠ some fbc_dummy := by
    rw [h0.1]
    intro hx
    exact hc (Option.some.inj hx)
  refine ⟨f', e1, h0.1, h0.2, e2, hfree, ?_, ?_⟩
  · unfold _fbc_avail
    rw [if_pos hne, hfree]
  · unfold xine_fbc_set
    rw [if_pos rfl, h0.1]
    simp only
    rw [if_neg hc]

/-- C39 at a fresh pool of 100 slabs with soft-start enabled, for the alloc hook 7 with
context 5. -/
theorem C39_register_alloc_soft_off_witness :
    (xine_fbc_set (_x_fifo_buffer_new 100 1024) true).1.alloc_cb 0 = some fbc_dummy ∧
    2 ≤ xineH.BUF_MAX_CALLBACKS ∧ 7 ≠ fbc_dummy ∧
    _fbc_avail (xine_fbc_set (_x_fifo_buffer_new 100 1024) true).1 = 25 ∧
    ∃ f', fifo_register_alloc_cb xineH (xine_fbc_set (_x_fifo_buffer_new 100 1024) true).1 7 5
        = .done f' ∧
      f'.alloc_cb 0 = some 7 ∧ f'.alloc_cb_data 0 = 5 ∧ alloc_hooks xineH f' = [(7, 5)] ∧
      f'.buffer_pool_num_free
        = (xine_fbc_set (_x_fifo_buffer_new 100 1024) true).1.buffer_pool_num_free ∧
      _fbc_avail f'
        = (xine_fbc_set (_x_fifo_buffer_new 100 1024) true).1.buffer_pool_num_free ∧
      xine_fbc_set f' true = (f', 0) :=
  ⟨rfl, by decide, by decide, by decide,
    C39_register_alloc_soft_off xineH (xine_fbc_set (_x_fifo_buffer_new 100 1024) true).1 7 5
      rfl (by decide) (by decide)⟩

/-- C37: what clear does to the size counter.  In a reachable state with queue q every
queued element weighs at least 1 (a pool element its slab count, a custom element 1).
Clear, given fuel above the queue length and at least the capacity, completes and keeps the
control elements of q with their weights, but sets the size counter to their number, not to
the sum of their weights: when a kept element spans more than one slab, size() is less than
the sum of the weights of the queued elements. -/
theorem C37_clear_counts_kept (K : BufferH) (s : Sys) (h : Reachable K s) :
    ∃ q, Queue s.f q ∧ (∀ b ∈ q, 1 ≤ fifo_weight s.f b) ∧
      ∀ fuel, q.length < fuel → s.f.buffer_pool_capacity ≤ fuel →
        ∃ f', fifo_buffer_clear K fuel s.f = .done f' ∧
          Queue f' (q.filter (is_control K s.f)) ∧
          fifo_buffer_size f' = ((q.filter (is_control K s.f)).length : Int) ∧
          wsum f' (q.filter (is_control K s.f)) = wsum s.f (q.filter (is_control K s.f)) ∧
          ((∃ b ∈ q.filter (is_control K s.f), 1 < fifo_weight s.f b) →
            fifo_buffer_size f' < wsum f' (q.filter (is_control K s.f))) := by
  obtain ⟨rs, q, hP, hQ⟩ := reachable_inv h
  have hw : ∀ b ∈ q, 1 ≤ fifo_weight s.f b :=
    fun b hb => weight_pos hP (List.mem_append_right _ hb)
  refine ⟨q, hQ.seg, hw, ?_⟩
  intro fuel h1 h2
  obtain ⟨f', rs', hd, hP', hQ', hcap, hkeep⟩ := clear_run hP hQ h1 h2
  obtain ⟨_, _, _, c4, _⟩ := clear_fields hP hQ hd
  have hwe : ∀ b ∈ q.filter (is_control K s.f), fifo_weight f' b = fifo_weight s.f b := by
    intro b hb
    have hn := (hkeep b (List.mem_append_right _ hb)).1
    have ho : f'.pool_owned b = s.f.pool_owned b := by
      have a := hP'.owned b
      have c := hP.owned b
      rw [hcap] at a
      exact Bool.eq_iff_iff.2 (a.trans c.symm)
    unfold fifo_weight
    rw [ho, hn]
  have hws := wsum_congr hwe
  refine ⟨f', hd, hQ'.seg, c4, hws, ?_⟩
  intro hx
  show f'.fifo_size < _
  rw [c4, hws]
  exact wsum_gt (fun b hb => hw b (List.mem_of_mem_filter hb)) hx

/-- C37 at the 10-slab pool whose queue holds the video elements 0 and 1, the control
element 2 and the video element 3. -/
theorem C37_clear_counts_kept_witness :
    fifo_buffer_size queued4.f = 4 ∧
    ∃ q, Queue queued4.f q ∧ (∀ b ∈ q, 1 ≤ fifo_weight queued4.f b) ∧
      ∀ fuel, q.length < fuel → queued4.f.buffer_pool_capacity ≤ fuel →
        ∃ f', fifo_buffer_clear xineH fuel queued4.f = .done f' ∧
          Queue f' (q.filter (is_control xineH queued4.f)) ∧
          fifo_buffer_size f' = ((q.filter (is_control xineH queued4.f)).length : Int) ∧
          wsum f' (q.filter (is_control xineH queued4.f))
            = wsum queued4.f (q.filter (is_control xineH queued4.f)) ∧
          ((∃ b ∈ q.filter (is_control xineH queued4.f), 1 < fifo_weight queued4.f b) →
            fifo_buffer_size f' < wsum f' (q.filter (is_control xineH queued4.f))) :=
  ⟨by decide,
    C37_clear_counts_kept xineH queued4
      (reach_put (reach_put (reach_put (reach_put (reach_alloc (reach_alloc reach_pool3))
        10 0 0x02000000 0 0) 10 1 0x02000000 0 0) 10 2 0x01000000 0 0) 10 3 0x02000000 0 0)⟩

/-- C37 as stated fails: an element of 2 slabs is taken from a fresh 16-slab pool and put as
a control element, which makes size() 2; clear keeps the element and sets size() to 1, while
the element still weighs 2; the get that follows empties the queue and leaves size() at
-1. -/
theorem C37_clear_counts_kept_counterexample :
    scenario_clear_size = .done [([0], 2), ([0], 1), ([], -1)] := by
  decide

/-- The callbacks listed from a callback array that holds exactly `L`. -/
theorem hook_table_list {cb : Nat → Option Nat} {data : Nat → Int} {L : List (Nat × Int)}
    (h : HookTable cb data L) :
    ∀ (fuel i : Nat), L.length ≤ i + fuel → hook_list cb data fuel i = L.drop i := by
  intro fuel
  induction fuel with
  | zero =>
    intro i hl
    rw [List.drop_eq_nil_of_le (by omega)]
    rfl
  | succ n ih =>
    intro i hl
    unfold hook_list
    by_cases hi : i < L.length
    · have e : L[i]? = some L[i] := List.getElem?_eq_getElem hi
      have c1 := h.1 i
      rw [e] at c1
      simp only [Option.map_some'] at c1
      rw [c1]
      simp only
      rw [h.2 i _ e, ih (i + 1) (by omega), List.drop_eq_getElem_cons hi]
    · have e : L[i]? = none := List.getElem?_eq_none (by omega)
      have c1 := h.1 i
      rw [e] at c1
      simp only [Option.map_none'] at c1
      rw [c1, List.drop_eq_nil_of_le (by omega)]

/-- The inner loop of the unregister functions moves every entry from `j + 1` up to the
first null entry `n` one place down. -/
theorem hook_shift_eq (n : Nat) :
    ∀ (fuel j : Nat) (cb : Nat → Option Nat) (data : Nat → Int),
      j ≤ n → cb n = none → (∀ k, j ≤ k → k < n → cb k ≠ none) → n - j < fuel →
      hook_shift fuel j cb data
        = some (fun k => if j ≤ k ∧ k < n then cb (k + 1) else cb k,
                fun k => if j ≤ k ∧ k < n then data (k + 1) else data k) := by
  intro fuel
  induction fuel with
  | zero => intro j cb data _ _ _ hf; omega
  | succ fuel ih =>
    intro j cb data hj hn hk hf
    unfold hook_shift
    cases hc : cb j with
    | none =>
      have hjn : j = n := by
        by_contra hne
        exact hk j (le_refl _) (by omega) hc
      subst hjn
      simp only
      congr 1
      refine Prod.ext (funext fun k => ?_) (funext fun k => ?_)
      · show cb k = if j ≤ k ∧ k < j then cb (k + 1) else cb k
        rw [if_neg (by omega)]
      · show data k = if j ≤ k ∧ k < j then data (k + 1) else data k
        rw [if_neg (by omega)]
    | some x =>
      have hjn : j < n := by
        by_contra hne
        have : j = n := by omega
        rw [this, hn] at hc
        cases hc
      simp only
      rw [ih (j + 1) _ _ (by omega) (by rw [if_neg (by omega)]; exact hn)
        (fun k h1 h2 => by rw [if_neg (by omega)]; exact hk k (by omega) h2) (by omega)]
      congr 1
      refine Prod.ext (funext fun k => ?_) (funext fun k => ?_)
      · show (if j + 1 ≤ k ∧ k < n then (if k + 1 = j then cb (j + 1) else cb (k + 1))
            else (if k = j then cb (j + 1) else cb k))
          = if j ≤ k ∧ k < n then cb (k + 1) else cb k
        by_cases h1 : j + 1 ≤ k ∧ k < n
        · rw [if_pos h1, if_neg (by omega), if_pos (by omega)]
        · rw [if_neg h1]
          by_cases h2 : k = j
          · rw [if_pos h2, if_pos (by omega), h2]
          · rw [if_neg h2, if_neg (by omega)]
      · show (if j + 1 ≤ k ∧ k < n then (if k + 1 = j then data (j + 1) else data (k + 1))
            else (if k = j then data (j + 1) else data k))
          = if j ≤ k ∧ k < n then data (k + 1) else data k
        by_cases h1 : j + 1 ≤ k ∧ k < n
        · rw [if_pos h1, if_neg (by omega), if_pos (by omega)]
        · rw [if_neg h1]
          by_cases h2 : k = j
          · rw [if_pos h2, if_pos (by omega), h2]
          · rw [if_neg h2, if_neg (by omega)]

/-- The inner loop of the unregister functions, on a callback array that holds `L`, removes
the entry at index `i`. -/
theorem hook_shift_table {cb : Nat → Option Nat} {data : Nat → Int} {L : List (Nat × Int)}
    (h : HookTable cb data L) (fuel i : Nat) (hi : i < L.length) (hf : L.length - i < fuel) :
    ∃ r, hook_shift fuel i cb data = some r ∧ HookTable r.1 r.2 (L.eraseIdx i) := by
  have hn : cb L.length = none := by
    rw [h.1, List.getElem?_eq_none (le_refl _)]
    rfl
  have hk : ∀ k, i ≤ k → k < L.length → cb k ≠ none := by
    intro k _ h2
    rw [h.1, List.getElem?_eq_getElem h2]
    simp
  refine ⟨_, hook_shift_eq L.length fuel i cb data (by omega) hn hk hf, ?_, ?_⟩
  · intro k
    show (if i ≤ k ∧ k < L.length then cb (k + 1) else cb k) = _
    rw [List.getElem?_eraseIdx]
    by_cases h1 : k < i
    · rw [if_neg (by omega), if_pos h1]
      exact h.1 k
    · rw [if_neg h1]
      by_cases h2 : k < L.length
      · rw [if_pos ⟨by omega, h2⟩]
        exact h.1 (k + 1)
      · rw [if_neg (by omega), h.1 k, List.getElem?_eq_none (by omega),
          List.getElem?_eq_none (by omega)]
  · intro k x hx
    show (if i ≤ k ∧ k < L.length then data (k + 1) else data k) = _
    rw [List.getElem?_eraseIdx] at hx
    by_cases h1 : k < i
    · rw [if_pos h1] at hx
      rw [if_neg (by omega)]
      exact h.2 k x hx
    · rw [if_neg h1] at hx
      have h2 : k + 1 < L.length := by
        by_contra hc
        rw [List.getElem?_eq_none (by omega)] at hx
        cases hx
      rw [if_pos ⟨by omega, by omega⟩]
      exact h.2 (k + 1) x hx

theorem unregister_list_ne {c : Nat} {x : Nat × Int} (hx : x.1 ≠ c) (t : List (Nat × Int)) :
    unregister_list c (x :: t) = x :: unregister_list c t := by
  cases t with
  | nil =>
    show (if x.1 = c then [] else [x]) = _
    rw [if_neg hx]
    rfl
  | cons y t =>
    show (if x.1 = c then y :: unregister_list c t else x :: unregister_list c (y :: t)) = _
    rw [if_neg hx]

theorem unregister_list_eq {c : Nat} {x : Nat × Int} (hx : x.1 = c) (y : Nat × Int)
    (t : List (Nat × Int)) :
    unregister_list c (x :: y :: t) = y :: unregister_list c t := by
  show (if x.1 = c then y :: unregister_list c t else x :: unregister_list c (y :: t)) = _
  rw [if_pos hx]

theorem unregister_list_last {c : Nat} {x : Nat × Int} (hx : x.1 = c) :
    unregister_list c [x] = [] := by
  show (if x.1 = c then [] else [x]) = _
  rw [if_pos hx]

/-- The loop of the unregister functions, on a callback array that holds `A ++ B` with at
most `BUF_MAX_CALLBACKS - 1` entries, from the index behind `A`. -/
theorem hook_remove_table (K : BufferH) (c : Nat) :
    ∀ (fuel : Nat) (cb : Nat → Option Nat) (data : Nat → Int) (A B : List (Nat × Int)),
      HookTable cb data (A ++ B) → (A ++ B).length < K.BUF_MAX_CALLBACKS → B.length < fuel →
      ∃ r, hook_remove K c fuel A.length cb data = some r ∧
        HookTable r.1 r.2 (A ++ unregister_list c B) := by
  intro fuel
  induction fuel with
  | zero => intro cb data A B _ _ hf; omega
  | succ fuel ih =>
    intro cb data A B h hmax hf
    unfold hook_remove
    cases B with
    | nil =>
      have hc : cb A.length = none := by
        rw [h.1, List.getElem?_eq_none (by simp)]
        rfl
      rw [hc]
      exact ⟨_, rfl, h⟩
    | cons x t =>
      have hx : (A ++ x :: t)[A.length]? = some x := by
        rw [List.getElem?_append_right (le_refl _)]
        simp
      have hc : cb A.length = some x.1 := by
        rw [h.1, hx]
        rfl
      rw [hc]
      simp only
      by_cases hxc : x.1 = c
      · rw [if_pos hxc]
        obtain ⟨r, e1, e2⟩ := hook_shift_table h K.BUF_MAX_CALLBACKS A.length
          (by simp) (by omega)
        rw [e1]
        simp only
        have he : (A ++ x :: t).eraseIdx A.length = A ++ t := by
          rw [List.eraseIdx_append_of_length_le (le_refl _)]
          simp
        rw [he] at e2
        cases t with
        | nil =>
          rw [unregister_list_last hxc]
          rw [List.append_nil] at e2 ⊢
          have hfuel : ∃ m, fuel = m + 1 := ⟨fuel - 1, by simp at hf; omega⟩
          obtain ⟨m, rfl⟩ := hfuel
          unfold hook_remove
          have hc2 : r.1 (A.length + 1) = none := by
            rw [e2.1, List.getElem?_eq_none (by omega)]
            rfl
          rw [hc2]
          exact ⟨_, rfl, e2⟩
        | cons y t2 =>
          rw [unregister_list_eq hxc]
          have e3 : HookTable r.1 r.2 ((A ++ [y]) ++ t2) := by
            rw [List.append_assoc]
            exact e2
          obtain ⟨r2, f1, f2⟩ := ih r.1 r.2 (A ++ [y]) t2 e3
            (by simp at hmax ⊢; omega) (by simp at hf; omega)
          refine ⟨r2, ?_, ?_⟩
          · rw [← f1]
            simp
          · rw [List.append_assoc] at f2
            exact f2
      · rw [if_neg hxc, unregister_list_ne hxc]
        have e3 : HookTable cb data ((A ++ [x]) ++ t) := by
          rw [List.append_assoc]
          exact h
        obtain ⟨r2, f1, f2⟩ := ih cb data (A ++ [x]) t e3
          (by simp at hmax ⊢; omega) (by simp at hf; omega)
        refine ⟨r2, ?_, ?_⟩
        · rw [← f1]
          simp
        · rw [List.append_assoc] at f2
          exact f2

theorem unregister_list_length (c : Nat) :
    ∀ (n : Nat) (L : List (Nat × Int)), L.length ≤ n →
      (unregister_list c L).length ≤ L.length := by
  intro n
  induction n with
  | zero =>
    intro L hl
    have : L = [] := List.length_eq_zero.1 (by omega)
    subst this
    exact le_refl _
  | succ n ih =>
    intro L hl
    cases L with
    | nil => exact le_refl _
    | cons x t =>
      by_cases hx : x.1 = c
      · cases t with
        | nil => rw [unregister_list_last hx]; simp
        | cons y t2 =>
          rw [unregister_list_eq hx]
          have := ih t2 (by simp at hl; omega)
          simp
          omega
      · rw [unregister_list_ne hx]
        have := ih t (by simp at hl; omega)
        simp
        omega

/-- When no two neighbours of the list both equal `c`, the unregister loop leaves exactly
the entries other than `c`. -/
theorem unregister_list_filter (c : Nat) :
    ∀ (n : Nat) (L : List (Nat × Int)), L.length ≤ n →
      List.Chain' (fun a b : Nat × Int => ¬ (a.1 = c ∧ b.1 = c)) L →
      unregister_list c L = L.filter (fun h => decide (h.1 ≠ c)) := by
  intro n
  induction n with
  | zero =>
    intro L hl _
    have : L = [] := List.length_eq_zero.1 (by omega)
    subst this
    rfl
  | succ n ih =>
    intro L hl hch
    cases L with
    | nil => rfl
    | cons x t =>
      by_cases hx : x.1 = c
      · cases t with
        | nil =>
          rw [unregister_list_last hx]
          simp [hx]
        | cons y t2 =>
          rw [unregister_list_eq hx]
          have hy : y.1 ≠ c := fun hy => (List.chain'_cons.1 hch).1 ⟨hx, hy⟩
          have h2 : List.Chain' (fun a b : Nat × Int => ¬ (a.1 = c ∧ b.1 = c)) t2 :=
            (List.chain'_cons.1 hch).2.tail
          rw [ih t2 (by simp at hl; omega) h2]
          simp [hx, hy]
      · rw [unregister_list_ne hx]
        have h2 : List.Chain' (fun a b : Nat × Int => ¬ (a.1 = c ∧ b.1 = c)) t := hch.tail
        rw [ih t (by simp at hl; omega) h2]
        simp [hx]

/-- The callback arrays of a fresh fifo hold no callbacks. -/
theorem new_hook_table (n : Int) (b : Nat) :
    HookTable (_x_fifo_buffer_new n b).put_cb (_x_fifo_buffer_new n b).put_cb_data [] ∧
    HookTable (_x_fifo_buffer_new n b).get_cb (_x_fifo_buffer_new n b).get_cb_data [] ∧
    HookTable (_x_fifo_buffer_new n b).alloc_cb (_x_fifo_buffer_new n b).alloc_cb_data [] := by
  refine ⟨⟨fun k => ?_, fun k h hk => ?_⟩, ⟨fun k => ?_, fun k h hk => ?_⟩,
    ⟨fun k => ?_, fun k h hk => ?_⟩⟩
  all_goals first
    | (simp at hk)
    | (simp; rfl)

/-- The shared body of the register functions keeps a callback array in the form of
`HookTable` and appends the new callback when there is room. -/
theorem hook_add_table (K : BufferH) {cb : Nat → Option Nat} {data : Nat → Int}
    {L : List (Nat × Int)} (c : Nat) (d : Int) (z : Bool) (h : HookTable cb data L)
    (hl : L.length + 1 < K.BUF_MAX_CALLBACKS) :
    ∃ r, hook_add K cb data c d z = some r ∧ HookTable r.1 r.2 (L ++ [(c, d)]) := by
  have hlist : hook_list cb data K.BUF_MAX_CALLBACKS 0 = L := by
    rw [hook_table_list h K.BUF_MAX_CALLBACKS 0 (by omega)]
    rfl
  have he := hook_end_eq cb data K.BUF_MAX_CALLBACKS 0 (by rw [hlist]; omega)
  rw [hlist] at he
  simp only [Nat.zero_add] at he
  unfold hook_add
  rw [he]
  simp only
  rw [if_pos (by omega)]
  refine ⟨_, rfl, ?_, ?_⟩
  · intro k
    show (if k = L.length then some c else if k = L.length + 1 then none else cb k) = _
    by_cases h1 : k = L.length
    · rw [if_pos h1, h1, List.getElem?_append_right (le_refl _)]
      simp
    · rw [if_neg h1]
      by_cases h2 : k < L.length
      · rw [if_neg (by omega), List.getElem?_append_left h2]
        exact h.1 k
      · rw [List.getElem?_eq_none (by simp; omega)]
        by_cases h3 : k = L.length + 1
        · rw [if_pos h3]; rfl
        · rw [if_neg h3, h.1 k, List.getElem?_eq_none (by omega)]
  · intro k x hx
    show (if k = L.length then d else if k = L.length + 1 ∧ z = true then 0 else data k) = _
    by_cases h1 : k = L.length
    · rw [h1, List.getElem?_append_right (le_refl _)] at hx
      simp at hx
      rw [if_pos h1, ← hx]
    · have h2 : k < L.length := by
        by_contra hc
        rw [List.getElem?_eq_none (by simp; omega)] at hx
        cases hx
      rw [List.getElem?_append_left h2] at hx
      rw [if_neg h1, if_neg (by omega)]
      exact h.2 k x hx

/-- What the loop of the unregister functions does to a callback array that holds `L`. -/
theorem unregister_spec (K : BufferH) (c : Nat) {cb : Nat → Option Nat} {data : Nat → Int}
    {L : List (Nat × Int)} (h : HookTable cb data L) (hL : L.length < K.BUF_MAX_CALLBACKS) :
    hook_list cb data K.BUF_MAX_CALLBACKS 0 = L ∧
    ∃ r, hook_remove K c K.BUF_MAX_CALLBACKS 0 cb data = some r ∧
      hook_list r.1 r.2 K.BUF_MAX_CALLBACKS 0 = unregister_list c L ∧
      HookTable r.1 r.2 (unregister_list c L) := by
  constructor
  · rw [hook_table_list h K.BUF_MAX_CALLBACKS 0 (by omega)]
    rfl
  · obtain ⟨r, e1, e2⟩ := hook_remove_table K c K.BUF_MAX_CALLBACKS cb data [] L
      (by simpa using h) (by simpa using hL) hL
    rw [List.nil_append] at e2
    refine ⟨r, e1, ?_, e2⟩
    have hle := unregister_list_length c L.length L (le_refl _)
    rw [hook_table_list e2 K.BUF_MAX_CALLBACKS 0 (by omega)]
    rfl

/-- C36: what unregistering does.  For a callback array with fewer than BUF_MAX_CALLBACKS
hooks L that is null behind them (as the arrays of a fresh fifo are, and as registering keeps
them), unregister_put_cb, unregister_get_cb and unregister_alloc_cb complete and leave the
hooks unregister_list c L, in which every entry that equals cb is dropped, except that the
entry behind a dropped one is kept without being compared; the hooks that remain keep their
order and contexts.  When cb is not registered in two neighbouring slots this is the list L
without the entries that equal cb. -/
theorem C36_unregister_skips (K : BufferH) (f : Fifo) (c : Nat) (L : List (Nat × Int))
    (hL : L.length < K.BUF_MAX_CALLBACKS) :
    (HookTable f.put_cb f.put_cb_data L →
      put_hooks K f = L ∧
      ∃ f', fifo_unregister_put_cb K f c = .done f' ∧
        put_hooks K f' = unregister_list c L ∧
        HookTable f'.put_cb f'.put_cb_data (unregister_list c L)) ∧
    (HookTable f.get_cb f.get_cb_data L →
      get_hooks K f = L ∧
      ∃ f', fifo_unregister_get_cb K f c = .done f' ∧
        get_hooks K f' = unregister_list c L ∧
        HookTable f'.get_cb f'.get_cb_data (unregister_list c L)) ∧
    (HookTable f.alloc_cb f.alloc_cb_data L →
      alloc_hooks K f = L ∧
      ∃ f', fifo_unregister_alloc_cb K f c = .done f' ∧
        alloc_hooks K f' = unregister_list c L ∧
        HookTable f'.alloc_cb f'.alloc_cb_data (unregister_list c L)) ∧
    (List.Chain' (fun a b : Nat × Int => ¬ (a.1 = c ∧ b.1 = c)) L →
      unregister_list c L = L.filter (fun h => decide (h.1 ≠ c))) ∧
    (∀ d, L.length + 1 < K.BUF_MAX_CALLBACKS → HookTable f.put_cb f.put_cb_data L →
      ∃ f', fifo_register_put_cb K f c d = .done f' ∧
        HookTable f'.put_cb f'.put_cb_data (L ++ [(c, d)])) := by
  refine ⟨?_, ?_, ?_, unregister_list_filter c L.length L (le_refl _), ?_⟩
  · intro h
    obtain ⟨a, r, e1, e2, e3⟩ := unregister_spec K c h hL
    refine ⟨a, ?_⟩
    unfold fifo_unregister_put_cb
    rw [e1]
    exact ⟨_, rfl, e2, e3⟩
  · intro h
    obtain ⟨a, r, e1, e2, e3⟩ := unregister_spec K c h hL
    refine ⟨a, ?_⟩
    unfold fifo_unregister_get_cb
    rw [e1]
    exact ⟨_, rfl, e2, e3⟩
  · intro h
    obtain ⟨a, r, e1, e2, e3⟩ := unregister_spec K c h hL
    refine ⟨a, ?_⟩
    unfold fifo_unregister_alloc_cb
    rw [e1]
    exact ⟨_, rfl, e2, e3⟩
  · intro d hl h
    obtain ⟨r, e1, e2⟩ := hook_add_table K c d false h hl
    unfold fifo_register_put_cb
    rw [e1]
    exact ⟨_, rfl, e2⟩

/-- C36 at a fresh fifo of 16 slabs: the put hooks 7 (context 1), 7 (context 2) and 8
(context 3) are registered, which keeps the callback array in the form the theorem asks
for, and hook 7 is unregistered; the hooks left are 7 (context 2) and 8 (context 3). -/
theorem C36_unregister_skips_witness :
    ∃ f, register_many (fifo_register_put_cb xineH) [(7, 1), (7, 2), (8, 3)]
        (_x_fifo_buffer_new 16 1024) = .done f ∧
      HookTable f.put_cb f.put_cb_data [(7, 1), (7, 2), (8, 3)] ∧
      put_hooks xineH f = [(7, 1), (7, 2), (8, 3)] ∧
      ∃ f', fifo_unregister_put_cb xineH f 7 = .done f' ∧
        put_hooks xineH f' = [(7, 2), (8, 3)] := by
  obtain ⟨f1, e1, h1⟩ := (C36_unregister_skips xineH (_x_fifo_buffer_new 16 1024) 7 []
    (by decide)).2.2.2.2 1 (by decide) (new_hook_table 16 1024).1
  obtain ⟨f2, e2, h2⟩ := (C36_unregister_skips xineH f1 7 [(7, 1)]
    (by decide)).2.2.2.2 2 (by decide) h1
  obtain ⟨f3, e3, h3⟩ := (C36_unregister_skips xineH f2 8 [(7, 1), (7, 2)]
    (by decide)).2.2.2.2 3 (by decide) h2
  obtain ⟨hp, f4, e4, h4, _⟩ := (C36_unregister_skips xineH f3 7 [(7, 1), (7, 2), (8, 3)]
    (by decide)).1 h3
  refine ⟨f3, ?_, h3, hp, f4, e4, ?_⟩
  · show (fifo_register_put_cb xineH (_x_fifo_buffer_new 16 1024) 7 1).bind _ = _
    rw [e1]
    show (fifo_register_put_cb xineH f1 7 2).bind _ = _
    rw [e2]
    show (fifo_register_put_cb xineH f2 8 3).bind _ = _
    rw [e3]
    rfl
  · rw [h4]
    decide

/-- C36 as stated fails: the put hooks 7 (context 1), 7 (context 2) and 8 (context 3) are
registered in this order and hook 7 is unregistered; the hooks left are 7 (context 2) and 8:
hook 7 is still registered. -/
theorem C36_unregister_skips_counterexample :
    scenario_unregister = .done ([(7, 1), (7, 2), (8, 3)], [(7, 2), (8, 3)]) := by
  decide

/-- A byte-size allocation that returns on a native fifo is a completed
`_buffer_pool_size_alloc`. -/
theorem size_alloc_bytes_inner {K : BufferH} {fuel : Nat} {f : Fifo} {size : Nat}
    {r : Fifo × Int} (hn : f.native = true)
    (h : buffer_pool_size_alloc K fuel f size = .done r) :
    ∃ n, _buffer_pool_size_alloc K fuel f n = .done r := by
  unfold buffer_pool_size_alloc at h
  have h1 : (!_fifo_is_native f) = false := by
    show (!f.native) = false
    rw [hn]; rfl
  rw [h1] at h
  simp only [Bool.false_eq_true, if_false] at h
  split at h
  · cases h
  · exact ⟨_, h⟩

/-- The queued elements are among the outstanding ones that are left when a held element is
taken out. -/
theorem queue_in_erase {held q : List Int} {b : Int} (hnd : (held ++ q).Nodup) (hb : b ∈ held) :
    ∀ x ∈ q, x ∈ (held ++ q).erase b := by
  intro x hx
  have hne : x ≠ b := by
    intro e
    subst e
    exact (List.disjoint_of_nodup_append hnd) hb hx
  exact (List.mem_erase_of_ne hne).2 (List.mem_append_right _ hx)

/-- The mutex calls of a completed `fifo_buffer_clear`. -/
theorem clear_tr_calls {K : BufferH} {fuel : Nat} {f f1 : Fifo}
    (hloop : clear_loop K fuel fuel (clear_take f) f.first = .done f1) :
    (fifo_buffer_clear_tr K fuel f).1
      = LockEv.lock Mutex.queue
        :: ((clear_loop_tr K fuel fuel (clear_take f) f.first).1
          ++ [LockEv.unlock Mutex.queue]) := by
  have h2 : (clear_loop_tr K fuel fuel (clear_take f) f.first).2 = .done f1 := by
    rw [clear_loop_tr_snd]; exact hloop
  unfold fifo_buffer_clear_tr
  rw [seq_tr_done, seq_tr_fst, h2]
  rfl

/-- The function `fifo_buffer_insert` never takes the pool mutex. -/
theorem insert_tr_takes (f : Fifo) (e : Int) :
    takes Mutex.pool (fifo_buffer_insert_tr f e).1 = false := by
  show takes Mutex.pool [LockEv.lock Mutex.queue, LockEv.unlock Mutex.queue] = false
  decide

/-- C33, amended: the two locks are nested in one direction.  With every function carrying
the list of its mutex calls (the outcome being that of the function itself): put, insert,
get and get_with_ticket never take the pool lock, and the discard put takes it only after it
gave the fifo lock back; allocate, allocate_contiguous, try_allocate, grow_in_place and
release never take the fifo lock; `xine_fbc_set` takes the fifo lock alone and, when it
switches soft-start on, writes the reservation `alloc_cb_data[0]`.  In every reachable
state: a pool operation that returns leaves the list pointers, the two counters, the
insertion cursors, the next fields of the queued elements and the callback tables as they
were, except that release lowers the reservation of an active soft-start by the slabs
released, not below 0; and clear, given fuel, returns, its mutex calls are the fifo lock,
the calls of a number of completed releases and the fifo unlock, so that it takes the pool
lock while it holds the fifo lock whenever a pool element that is not a control element is
queued, never the fifo lock while the pool lock is held, and it sets the reservation of an
active soft-start to its initial value. -/
theorem C33_lock_nesting (K : BufferH) (s : Sys) (h : Reachable K s) :
    (∀ (f : Fifo) (fuel : Nat) (e : Int),
      (fifo_buffer_put_tr K fuel f e).2 = fifo_buffer_put K fuel f e ∧
      takes Mutex.pool (fifo_buffer_put_tr K fuel f e).1 = false ∧
      (fifo_buffer_insert_tr f e).2 = fifo_buffer_insert f e ∧
      takes Mutex.pool (fifo_buffer_insert_tr f e).1 = false ∧
      (fifo_buffer_get_tr K f).2 = fifo_buffer_get K f ∧
      takes Mutex.pool (fifo_buffer_get_tr K f).1 = false ∧
      (dummy_fifo_buffer_put_tr K fuel f e).2 = dummy_fifo_buffer_put K fuel f e ∧
      locks_inside Mutex.queue Mutex.pool false (dummy_fifo_buffer_put_tr K fuel f e).1
        = false ∧
      locks_inside Mutex.pool Mutex.queue false (dummy_fifo_buffer_put_tr K fuel f e).1
        = false) ∧
    (∀ (f wake : Fifo) (ticket busy revoked : Bool),
      (fifo_buffer_tget_tr K f wake ticket busy revoked).2
        = fifo_buffer_tget K f wake ticket busy revoked ∧
      takes Mutex.pool (fifo_buffer_tget_tr K f wake ticket busy revoked).1 = false) ∧
    (∀ (f : Fifo) (fuel : Nat) (b : Int) (size : Nat),
      (buffer_pool_alloc_tr K f).2 = buffer_pool_alloc K f ∧
      takes Mutex.queue (buffer_pool_alloc_tr K f).1 = false ∧
      (buffer_pool_size_alloc_tr K fuel f size).2 = buffer_pool_size_alloc K fuel f size ∧
      takes Mutex.queue (buffer_pool_size_alloc_tr K fuel f size).1 = false ∧
      (buffer_pool_try_alloc_tr f).2 = buffer_pool_try_alloc f ∧
      takes Mutex.queue (buffer_pool_try_alloc_tr f).1 = false ∧
      (buffer_pool_realloc_tr K fuel f b size).2 = buffer_pool_realloc K fuel f b size ∧
      takes Mutex.queue (buffer_pool_realloc_tr K fuel f b size).1 = false ∧
      (buffer_pool_free_tr fuel f b).2 = buffer_pool_free fuel f b ∧
      takes Mutex.queue (buffer_pool_free_tr fuel f b).1 = false) ∧
    (∀ (f : Fifo) ( on_ : Bool),
      (xine_fbc_set_tr f on_).2 = xine_fbc_set f on_ ∧
      (xine_fbc_set_tr f on_).1 = [LockEv.lock Mutex.queue, LockEv.unlock Mutex.queue]) ∧
    (∀ f : Fifo, f.alloc_cb 0 = none →
      (xine_fbc_set f true).1.alloc_cb_data 0 = fbc_initial f) ∧
    ∃ q, Queue s.f q ∧
      (∀ f' b, buffer_pool_alloc K s.f = .done (f', b) →
        QueueSame s.f f' q ∧ f'.alloc_cb_data = s.f.alloc_cb_data) ∧
      (∀ fuel size f' b, buffer_pool_size_alloc K fuel s.f size = .done (f', b) →
        QueueSame s.f f' q ∧ f'.alloc_cb_data = s.f.alloc_cb_data) ∧
      (QueueSame s.f (buffer_pool_try_alloc s.f).1 q ∧
        (buffer_pool_try_alloc s.f).1.alloc_cb_data = s.f.alloc_cb_data) ∧
      (∀ fuel b new_size f' res, b ∈ s.held →
        buffer_pool_realloc K fuel s.f b new_size = .done (f', res) →
        QueueSame s.f f' q ∧ f'.alloc_cb_data = s.f.alloc_cb_data) ∧
      (∀ fuel b f', b ∈ s.held → s.f.pool_owned b = true →
        buffer_pool_free fuel s.f b = .done f' →
        QueueSame s.f f' q ∧
        f'.alloc_cb_data 0
          = (if s.f.alloc_cb 0 = some fbc_dummy then
              (if s.f.alloc_cb_data 0 - s.f.nbufs b < 0 then 0
                else s.f.alloc_cb_data 0 - s.f.nbufs b)
            else s.f.alloc_cb_data 0)) ∧
      (∀ fuel, q.length < fuel → s.f.buffer_pool_capacity ≤ fuel →
        ∃ f' k, fifo_buffer_clear K fuel s.f = .done f' ∧
          (fifo_buffer_clear_tr K fuel s.f).2 = .done f' ∧
          (fifo_buffer_clear_tr K fuel s.f).1
            = LockEv.lock Mutex.queue
              :: ((List.replicate k free_calls).flatten ++ [LockEv.unlock Mutex.queue]) ∧
          locks_inside Mutex.pool Mutex.queue false (fifo_buffer_clear_tr K fuel s.f).1
            = false ∧
          ((∃ x ∈ q, is_control K s.f x = false ∧ s.f.pool_owned x = true) →
            locks_inside Mutex.queue Mutex.pool false (fifo_buffer_clear_tr K fuel s.f).1
              = true) ∧
          (s.f.alloc_cb 0 = some fbc_dummy → f'.alloc_cb_data 0 = fbc_initial s.f)) := by
  obtain ⟨rs, q, hP, hQ⟩ := reachable_inv h
  refine ⟨?_, ?_, ?_, ?_, ?_, q, hQ.seg, ?_, ?_, ?_, ?_, ?_, ?_⟩
  · intro f fuel e
    exact ⟨put_tr_snd K fuel f e, put_tr_takes K fuel f e, rfl, insert_tr_takes f e,
      get_tr_snd K f,
      get_tr_takes K f, dummy_put_tr_snd K fuel f e, (dummy_put_tr_nest K fuel f e).1,
      (dummy_put_tr_nest K fuel f e).2⟩
  · intro f wake ticket busy revoked
    exact ⟨tget_tr_snd K f wake ticket busy revoked, tget_tr_fst K f wake ticket busy revoked⟩
  · intro f fuel b size
    refine ⟨alloc_tr_snd K f, alloc_tr_takes K f, size_alloc_bytes_tr_snd K fuel f size,
      size_alloc_bytes_tr_takes K fuel f size, try_alloc_tr_snd f, ?_,
      realloc_tr_snd K fuel f b size, realloc_tr_takes K fuel f b size, free_tr_snd fuel f b,
      free_tr_takes fuel f b⟩
    rw [try_alloc_tr_fst]
    decide
  · intro f on_
    exact fbc_set_tr_eq f on_
  · intro f hf
    unfold xine_fbc_set
    rw [if_pos rfl]
    split
    · rename_i cb hcb
      rw [hf] at hcb
      cases hcb
    · rfl
  · intro f' b ha
    obtain ⟨_, _, _, _, hfr⟩ := alloc_done hP ha
    obtain ⟨c1, c2, _⟩ := alloc_counts ha
    obtain ⟨hh, hd⟩ := alloc_keeps_hooks ha
    exact ⟨queue_same_of hfr (fun x hx => List.mem_append_right _ hx) c1 c2 hh, hd⟩
  · intro fuel size f' b ha
    obtain ⟨n, hin⟩ := size_alloc_bytes_inner hP.native ha
    obtain ⟨_, _, _, _, hfr, _⟩ := size_alloc_done hP hin
    obtain ⟨c1, c2, _⟩ := size_alloc_counts hin
    obtain ⟨hh, hd⟩ := size_alloc_keeps_hooks hin
    exact ⟨queue_same_of hfr (fun x hx => List.mem_append_right _ hx) c1 c2 hh, hd⟩
  · obtain ⟨c1, c2, _⟩ := try_alloc_counts s.f
    obtain ⟨hh, hd⟩ := try_alloc_keeps_hooks s.f
    refine ⟨?_, hd⟩
    rcases try_alloc_done hP with ⟨_, he⟩ | ⟨_, _, _, _, _, hfr⟩
    · rw [he]
      exact queue_same_of ⟨rfl, rfl, rfl, rfl, rfl, fun _ _ => rfl, fun _ _ => rfl,
        fun _ _ => rfl⟩ (fun x hx => hx) rfl rfl (hooks_same_rfl s.f)
    · exact queue_same_of hfr (fun x hx => List.mem_append_right _ hx) c1 c2 hh
  · intro fuel b new_size f' res hb ha
    obtain ⟨_, _, hfr, _⟩ := realloc_done hP (List.mem_append_left _ hb) ha
    obtain ⟨c1, c2, _⟩ := realloc_counts ha
    obtain ⟨hh, hd⟩ := realloc_keeps_hooks ha
    exact ⟨queue_same_of hfr (queue_in_erase hP.nodup hb) c1 c2 hh, hd⟩
  · intro fuel b f' hb hown hf
    obtain ⟨_, hfr, hdata, _⟩ := free_inv hP (List.mem_append_left _ hb) hown hf
    obtain ⟨c1, c2, _⟩ := free_counts hf
    refine ⟨queue_same_of hfr (queue_in_erase hP.nodup hb) c1 c2 (free_keeps_hooks hf), ?_⟩
    rw [hdata]
    show (if s.f.alloc_cb 0 = some fbc_dummy ∧ (0 : Nat) = 0 then
        (if s.f.alloc_cb_data 0 - s.f.nbufs b < 0 then 0
          else s.f.alloc_cb_data 0 - s.f.nbufs b)
      else s.f.alloc_cb_data 0) = _
    by_cases hon : s.f.alloc_cb 0 = some fbc_dummy
    · rw [if_pos ⟨hon, rfl⟩, if_pos hon]
    · rw [if_neg (fun c => hon c.1), if_neg hon]
  · intro fuel hfuel hcap
    obtain ⟨f', _, hclear, _⟩ := clear_run hP hQ hfuel hcap
    have hres := (clear_fields hP hQ hclear).2.2.2.2.2
    have hclear0 := hclear
    unfold fifo_buffer_clear at hclear
    split at hclear
    · rename_i f1 hloop
      have hP0 : PInv (clear_take s.f) rs (s.held ++ ([] ++ q)) :=
        hP.congr rfl rfl rfl hP.res rfl rfl rfl (fun _ _ => rfl)
      obtain ⟨k, hk⟩ := clear_loop_tr_shape K fuel fuel (clear_take s.f) s.f.first f1 hloop
      have hcalls := clear_tr_calls hloop
      rw [hk] at hcalls
      refine ⟨f', k, hclear0, ?_, hcalls, ?_, ?_, hres⟩
      · rw [clear_tr_snd]; exact hclear0
      · rw [hcalls]
        show locks_inside Mutex.pool Mutex.queue false
          ((List.replicate k free_calls).flatten ++ [LockEv.unlock Mutex.queue]) = false
        rw [free_calls_no_queue]
        rfl
      · intro hx
        have ht : takes Mutex.pool (clear_loop_tr K fuel fuel (clear_take s.f) s.f.first).1
            = true :=
          clear_loop_tr_takes fuel (clear_take s.f) s.f.first [] q rs f1 hP0 rfl rfl hQ.seg
            hloop hx
        rw [hk] at ht
        rw [hcalls]
        show locks_inside Mutex.queue Mutex.pool true
          ((List.replicate k free_calls).flatten ++ [LockEv.unlock Mutex.queue]) = true
        exact free_calls_inside k _ ht
    all_goals cases hclear

/-- C33, amended, at the 10-slab pool whose queue holds the video elements 0 and 1, the
control element 2 and the video element 3, while a client holds element 4. -/
theorem C33_lock_nesting_witness :
    Reachable xineH queued4 ∧
    fifo_list_from queued4.f 10 queued4.f.first = [0, 1, 2, 3] ∧ queued4.held = [4] ∧
    is_control xineH queued4.f 0 = false ∧ queued4.f.pool_owned 0 = true ∧
    ((∀ (f : Fifo) (fuel : Nat) (e : Int),
        (fifo_buffer_put_tr xineH fuel f e).2 = fifo_buffer_put xineH fuel f e ∧
        takes Mutex.pool (fifo_buffer_put_tr xineH fuel f e).1 = false ∧
        (fifo_buffer_insert_tr f e).2 = fifo_buffer_insert f e ∧
        takes Mutex.pool (fifo_buffer_insert_tr f e).1 = false ∧
        (fifo_buffer_get_tr xineH f).2 = fifo_buffer_get xineH f ∧
        takes Mutex.pool (fifo_buffer_get_tr xineH f).1 = false ∧
        (dummy_fifo_buffer_put_tr xineH fuel f e).2 = dummy_fifo_buffer_put xineH fuel f e ∧
        locks_inside Mutex.queue Mutex.pool false (dummy_fifo_buffer_put_tr xineH fuel f e).1
          = false ∧
        locks_inside Mutex.pool Mutex.queue false (dummy_fifo_buffer_put_tr xineH fuel f e).1
          = false) ∧
      (∀ (f wake : Fifo) (ticket busy revoked : Bool),
        (fifo_buffer_tget_tr xineH f wake ticket busy revoked).2
          = fifo_buffer_tget xineH f wake ticket busy revoked ∧
        takes Mutex.pool (fifo_buffer_tget_tr xineH f wake ticket busy revoked).1 = false) ∧
      (∀ (f : Fifo) (fuel : Nat) (b : Int) (size : Nat),
        (buffer_pool_alloc_tr xineH f).2 = buffer_pool_alloc xineH f ∧
        takes Mutex.queue (buffer_pool_alloc_tr xineH f).1 = false ∧
        (buffer_pool_size_alloc_tr xineH fuel f size).2 = buffer_pool_size_alloc xineH fuel f size ∧
        takes Mutex.queue (buffer_pool_size_alloc_tr xineH fuel f size).1 = false ∧
        (buffer_pool_try_alloc_tr f).2 = buffer_pool_try_alloc f ∧
        takes Mutex.queue (buffer_pool_try_alloc_tr f).1 = false ∧
        (buffer_pool_realloc_tr xineH fuel f b size).2 = buffer_pool_realloc xineH fuel f b size ∧
        takes Mutex.queue (buffer_pool_realloc_tr xineH fuel f b size).1 = false ∧
        (buffer_pool_free_tr fuel f b).2 = buffer_pool_free fuel f b ∧
        takes Mutex.queue (buffer_pool_free_tr fuel f b).1 = false) ∧
      (∀ (f : Fifo) ( on_ : Bool),
        (xine_fbc_set_tr f on_).2 = xine_fbc_set f on_ ∧
        (xine_fbc_set_tr f on_).1 = [LockEv.lock Mutex.queue, LockEv.unlock Mutex.queue]) ∧
      (∀ f : Fifo, f.alloc_cb 0 = none →
        (xine_fbc_set f true).1.alloc_cb_data 0 = fbc_initial f) ∧
      ∃ q, Queue queued4.f q ∧
        (∀ f' b, buffer_pool_alloc xineH queued4.f = .done (f', b) →
          QueueSame queued4.f f' q ∧ f'.alloc_cb_data = queued4.f.alloc_cb_data) ∧
        (∀ fuel size f' b, buffer_pool_size_alloc xineH fuel queued4.f size = .done (f', b) →
          QueueSame queued4.f f' q ∧ f'.alloc_cb_data = queued4.f.alloc_cb_data) ∧
        (QueueSame queued4.f (buffer_pool_try_alloc queued4.f).1 q ∧
          (buffer_pool_try_alloc queued4.f).1.alloc_cb_data = queued4.f.alloc_cb_data) ∧
        (∀ fuel b new_size f' res, b ∈ queued4.held →
          buffer_pool_realloc xineH fuel queued4.f b new_size = .done (f', res) →
          QueueSame queued4.f f' q ∧ f'.alloc_cb_data = queued4.f.alloc_cb_data) ∧
        (∀ fuel b f', b ∈ queued4.held → queued4.f.pool_owned b = true →
          buffer_pool_free fuel queued4.f b = .done f' →
          QueueSame queued4.f f' q ∧
          f'.alloc_cb_data 0
            = (if queued4.f.alloc_cb 0 = some fbc_dummy then
                (if queued4.f.alloc_cb_data 0 - queued4.f.nbufs b < 0 then 0
                  else queued4.f.alloc_cb_data 0 - queued4.f.nbufs b)
              else queued4.f.alloc_cb_data 0)) ∧
        (∀ fuel, q.length < fuel → queued4.f.buffer_pool_capacity ≤ fuel →
          ∃ f' k, fifo_buffer_clear xineH fuel queued4.f = .done f' ∧
            (fifo_buffer_clear_tr xineH fuel queued4.f).2 = .done f' ∧
            (fifo_buffer_clear_tr xineH fuel queued4.f).1
              = LockEv.lock Mutex.queue
                :: ((List.replicate k free_calls).flatten ++ [LockEv.unlock Mutex.queue]) ∧
            locks_inside Mutex.pool Mutex.queue false (fifo_buffer_clear_tr xineH fuel queued4.f).1
              = false ∧
            ((∃ x ∈ q, is_control xineH queued4.f x = false ∧ queued4.f.pool_owned x = true) →
              locks_inside Mutex.queue Mutex.pool false (fifo_buffer_clear_tr xineH fuel queued4.f).1
                = true) ∧
            (queued4.f.alloc_cb 0 = some fbc_dummy → f'.alloc_cb_data 0 = fbc_initial queued4.f))) :=
  ⟨reach_put (reach_put (reach_put (reach_put (reach_alloc (reach_alloc reach_pool3))
      10 0 0x02000000 0 0) 10 1 0x02000000 0 0) 10 2 0x01000000 0 0) 10 3 0x02000000 0 0,
    by decide, by decide, by decide, by decide,
    C33_lock_nesting xineH queued4
      (reach_put (reach_put (reach_put (reach_put (reach_alloc (reach_alloc reach_pool3))
        10 0 0x02000000 0 0) 10 1 0x02000000 0 0) 10 2 0x01000000 0 0) 10 3 0x02000000 0 0)⟩

/-- C33 as stated fails.  Clear of the queue that holds the video elements 0 and 1, the
control element 2 and the video element 3 returns and takes the pool lock twice between
taking the fifo lock and giving it back.  With soft-start enabled on a pool of 100 slabs,
`xine_fbc_set` writes the reservation between taking and giving back the fifo lock, and a
release, whose only mutex is the pool lock, lowers it from 75 to 74.  And after 24
allocations in that pool allocate does not return, while it returns once `xine_fbc_set` has
switched soft-start off: allocate reads the alloc callback table. -/
theorem C33_lock_nesting_counterexample :
    scenario_clear_locks
      = ([LockEv.lock Mutex.queue, LockEv.lock Mutex.pool, LockEv.unlock Mutex.pool,
          LockEv.lock Mutex.pool, LockEv.unlock Mutex.pool, LockEv.unlock Mutex.queue],
         .done ()) ∧
    locks_inside Mutex.queue Mutex.pool false scenario_clear_locks.1 = true ∧
    scenario_release_res
      = .done ([LockEv.lock Mutex.queue, LockEv.unlock Mutex.queue],
          [LockEv.lock Mutex.pool, LockEv.unlock Mutex.pool], 75, 74) ∧
    scenario_alloc_reads = .done (.wait, .done ()) := by
  refine ⟨by decide, by decide, by decide, by decide⟩

end Xine
